import Mathlib

/-! # The vvp assembler (`vvp/compile.cc`)

A shallow embedding of the assembler back end of the vvp simulator: the opcode
table and its binary search, the three symbol tables, the functor pool with
its fan-out chains, the code space, the two deferred-fixup lists and every
`compile_*` entry point, followed by theorems about them. The definitions end
with the links and the signals of the netlist (`netlist.h`).

Conventions of the embedding.

* The global variables of `compile.cc` (together with the functor pool and the
  code space they drive) are the fields of one record, `vvp_state`; every entry
  point is a function on that record.
* A failed `assert` (and a read through a null pointer) is the result `none`.
* `free` is not modelled.
* C strings are `String`; a pointer that may be null is an `Option`.
* Handles (`vpiHandle`) and symbol values are natural numbers, `0` being the
  null handle and the value returned by a lookup that misses.
-/

namespace Vvp

/-! ## C library -/

/-- Character-wise comparison behind `strcmp`, on the characters that precede the
terminating NUL: zero when both strings end together, negative when the first string
ends first or has the smaller character at the first difference, positive otherwise.
The C standard fixes only the sign of the result. -/
def strcmp_chars : List Char → List Char → Int
  | [], [] => 0
  | [], _ :: _ => -1
  | _ :: _, [] => 1
  | a :: as, b :: bs =>
    if a = b then strcmp_chars as bs else if a.toNat < b.toNat then -1 else 1

/-- The C library `strcmp`. -/
def strcmp (a b : String) : Int := strcmp_chars a.toList b.toList

/-- The loop of the C library `bsearch` over `base[l..u)`; `compar` already holds the
key. The first argument bounds the number of iterations; a comparison that cannot
be made (element outside the array, null mnemonic) is the fault `none`. -/
def bsearch_loop {α : Type} (compar : α → Option Int) (base : List α) :
    Nat → Nat → Nat → Option (Option α)
  | 0, _, _ => none
  | fuel + 1, l, u =>
    if l < u then
      let idx := (l + u) / 2
      match base[idx]? with
      | none => none
      | some p =>
        match compar p with
        | none => none
        | some c =>
          if c < 0 then bsearch_loop compar base fuel l idx
          else if c > 0 then bsearch_loop compar base fuel (idx + 1) u
          else some (some p)
    else some none

/-- The C library `bsearch(key, base, nmemb, size, compar)`: `some (some p)` is a
pointer to the element found, `some none` the null pointer. -/
def bsearch {κ α : Type} (key : κ) (base : List α) (nmemb : Nat)
    (compar : κ → α → Option Int) : Option (Option α) :=
  bsearch_loop (compar key) base (nmemb + 1) 0 nmemb

/-! ## The opcode table -/

/-- The operand kinds an opcode can declare for a slot. -/
inductive operand_e
  | OA_NONE
  | OA_NUMBER
  | OA_BIT1
  | OA_BIT2
  | OA_CODE_PTR
  | OA_FUNC_PTR
  deriving DecidableEq, Repr

/-- The instruction handlers named in `compile.cc` (values of `vvp_code_fun`). -/
inductive vvp_code_fun
  | of_ADD | of_AND | of_ASSIGN | of_CMPS | of_CMPU | of_CMPX | of_CMPZ
  | of_DELAY | of_END | of_INV | of_JMP | of_JMP0 | of_JMP0XZ | of_JMP1
  | of_JOIN | of_LOAD | of_MOV | of_NOOP | of_NORR | of_OR | of_SET
  | of_WAIT | of_XNOR | of_XOR | of_DISABLE | of_FORK | of_VPI_CALL
  deriving DecidableEq, Repr

open operand_e vvp_code_fun

/-- One row of the opcode table; `mnemonic` is null in the sentinel row. -/
structure opcode_table_s where
  mnemonic : Option String
  opcode : vvp_code_fun
  argc : Nat
  argt : List operand_e
  deriving DecidableEq, Repr

/-- The table of `compile.cc`, sentinel row included. -/
def opcode_table : List opcode_table_s :=
  [ ⟨some "%add",     of_ADD,    3, [OA_BIT1,     OA_BIT2,     OA_NUMBER]⟩,
    ⟨some "%and",     of_AND,    3, [OA_BIT1,     OA_BIT2,     OA_NUMBER]⟩,
    ⟨some "%assign",  of_ASSIGN, 3, [OA_FUNC_PTR, OA_BIT1,     OA_BIT2]⟩,
    ⟨some "%cmp/s",   of_CMPS,   3, [OA_BIT1,     OA_BIT2,     OA_NUMBER]⟩,
    ⟨some "%cmp/u",   of_CMPU,   3, [OA_BIT1,     OA_BIT2,     OA_NUMBER]⟩,
    ⟨some "%cmp/x",   of_CMPX,   3, [OA_BIT1,     OA_BIT2,     OA_NUMBER]⟩,
    ⟨some "%cmp/z",   of_CMPZ,   3, [OA_BIT1,     OA_BIT2,     OA_NUMBER]⟩,
    ⟨some "%delay",   of_DELAY,  1, [OA_NUMBER,   OA_NONE,     OA_NONE]⟩,
    ⟨some "%end",     of_END,    0, [OA_NONE,     OA_NONE,     OA_NONE]⟩,
    ⟨some "%inv",     of_INV,    2, [OA_BIT1,     OA_BIT2,     OA_NONE]⟩,
    ⟨some "%jmp",     of_JMP,    1, [OA_CODE_PTR, OA_NONE,     OA_NONE]⟩,
    ⟨some "%jmp/0",   of_JMP0,   2, [OA_CODE_PTR, OA_BIT1,     OA_NONE]⟩,
    ⟨some "%jmp/0xz", of_JMP0XZ, 2, [OA_CODE_PTR, OA_BIT1,     OA_NONE]⟩,
    ⟨some "%jmp/1",   of_JMP1,   2, [OA_CODE_PTR, OA_BIT1,     OA_NONE]⟩,
    ⟨some "%join",    of_JOIN,   0, [OA_NONE,     OA_NONE,     OA_NONE]⟩,
    ⟨some "%load",    of_LOAD,   2, [OA_BIT1,     OA_FUNC_PTR, OA_NONE]⟩,
    ⟨some "%mov",     of_MOV,    3, [OA_BIT1,     OA_BIT2,     OA_NUMBER]⟩,
    ⟨some "%noop",    of_NOOP,   0, [OA_NONE,     OA_NONE,     OA_NONE]⟩,
    ⟨some "%nor/r",   of_NORR,   3, [OA_BIT1,     OA_BIT2,     OA_NUMBER]⟩,
    ⟨some "%or",      of_OR,     3, [OA_BIT1,     OA_BIT2,     OA_NUMBER]⟩,
    ⟨some "%set",     of_SET,    2, [OA_FUNC_PTR, OA_BIT1,     OA_NONE]⟩,
    ⟨some "%wait",    of_WAIT,   1, [OA_FUNC_PTR, OA_NONE,     OA_NONE]⟩,
    ⟨some "%xnor",    of_XNOR,   3, [OA_BIT1,     OA_BIT2,     OA_NUMBER]⟩,
    ⟨some "%xor",     of_XOR,    3, [OA_BIT1,     OA_BIT2,     OA_NUMBER]⟩,
    ⟨none,            of_NOOP,   0, [OA_NONE,     OA_NONE,     OA_NONE]⟩ ]

/-- The comparison handed to `bsearch`: `strcmp(key, row->mnemonic)`; comparing
against a null mnemonic is a fault. -/
def opcode_compare (k : String) (r : opcode_table_s) : Option Int :=
  match r.mnemonic with
  | some m => some (strcmp k m)
  | none => none

/-- The counting loop of `compile_init`: advance from `n` while the row has a mnemonic. -/
def count_opcodes : List opcode_table_s → Nat → Nat
  | [], n => n
  | r :: rest, n => if r.mnemonic.isSome then count_opcodes rest (n + 1) else n

/-- Two rows carry mnemonics in strictly increasing `strcmp` order. -/
def mnemonic_lt (a b : opcode_table_s) : Prop :=
  match a.mnemonic, b.mnemonic with
  | some x, some y => strcmp x y < 0
  | _, _ => False

instance (a b : opcode_table_s) : Decidable (mnemonic_lt a b) := by
  unfold mnemonic_lt
  cases a.mnemonic <;> cases b.mnemonic <;> infer_instance

/-! ## Data of the assembler -/

/-- A symbol reference `text[idx]` as the parser hands it over. -/
structure symb_s where
  text : String
  idx : Nat
  deriving DecidableEq, Repr

/-- One operand of an instruction: the tag `ltype` (`L_NUMB`, `L_SYMB`) with the
member of the union it selects. -/
inductive comp_operand
  | numb (n : Nat)
  | symb (s : symb_s)
  deriving DecidableEq, Repr

/-- The operand list of an instruction: a count and the slots `argv[]`. -/
structure comp_operands_s where
  argc : Nat
  argv : Nat → comp_operand

/-- The truth tables `compile.cc` refers to. -/
inductive vvp_truth_t
  | ft_OR | ft_AND | ft_BUF | ft_NOR | ft_NOT | ft_XOR | ft_var
  deriving DecidableEq, Repr

/-- The edge tables `compile.cc` refers to. -/
inductive vvp_edge_t
  | vvp_edge_posedge | vvp_edge_negedge | vvp_edge_anyedge
  deriving DecidableEq, Repr

open vvp_truth_t vvp_edge_t

/-- The event record hung on an event functor. -/
structure vvp_event_s where
  threads : List Nat
  ival : Nat
  vvp_edge_tab : Option vvp_edge_t
  deriving DecidableEq, Repr

/-- Modelled from the spec: the functor record, declared in `functor.h`. It carries the
packed 8-bit input vector `ival`, the output `oval`, the mode, a truth-table reference,
an event record, the four chain links `port[0..3]` (only indices below 4 are ever used)
and the out-chain head `out`. -/
structure functor_s where
  ival : Nat
  oval : Nat
  mode : Nat
  table : Option vvp_truth_t
  event : Option vvp_event_s
  port : Nat → Nat
  out : Nat

/-- The extension record of a `%fork` instruction. -/
structure fork_extend where
  cptr : Nat
  scope : Nat
  deriving DecidableEq, Repr

/-- Modelled from the spec: the instruction record, declared in `codes.h`: an opcode
handler and the operand fields `compile.cc` writes. The fields are kept apart and
unbounded; their widths and any sharing of storage are a matter of `codes.h`. -/
structure vvp_code_s where
  opcode : Option vvp_code_fun
  bit_idx1 : Nat
  bit_idx2 : Nat
  number : Nat
  cptr : Nat
  iptr : Nat
  handle : Nat
  fork : Option fork_extend
  deriving DecidableEq, Repr

/-- An unresolved functor input: the destination ipoint, the source label and the
bit index into the source. -/
structure resolv_list_s where
  port : Nat
  source : String
  idx : Nat
  deriving DecidableEq, Repr

/-- An unresolved code pointer: the instruction (by its code pointer) and the label. -/
structure cresolv_list_s where
  cp : Nat
  lab : String
  deriving DecidableEq, Repr

/-- Modelled from the spec: a symbol table, declared in `symbols.h`: a finite map from
labels to values, most recent binding first. -/
abbrev symbol_table_t := List (String × Nat)

/-- A thread handed to the scheduler: its start address, its scope and its delay. -/
structure scheduled_s where
  pc : Nat
  scope : Nat
  delay : Nat
  deriving DecidableEq, Repr

/-- The global state of the assembler. `errout` is the text written to the error
stream, one entry per message. -/
structure vvp_state where
  compile_errors : Nat
  errout : List String
  opcode_count : Nat
  sym_codespace : symbol_table_t
  sym_functors : symbol_table_t
  sym_vpi : symbol_table_t
  resolv_list : List resolv_list_s
  cresolv_list : List cresolv_list_s
  functor_count : Nat
  functors : Nat → functor_s
  code_count : Nat
  codes : Nat → vvp_code_s
  scheduled : List scheduled_s
  modules : List String

/-- The services of the VPI layer and of the scheduler that `compile.cc` calls and
that live outside it; each returns a handle. -/
structure vpi_host where
  vpip_sim_time : Nat
  vpip_peek_current_scope : Nat
  vpip_make_reg : String → Int → Int → Bool → Nat → Nat
  vpip_make_net : String → Int → Int → Bool → Nat → Nat
  vpip_build_vpi_call : String → List Nat → Nat

/-! ## Collaborators outside `compile.cc` -/

/-- Modelled from the spec: `new_symbol_table` of `symbols.h`: the empty table. -/
def new_symbol_table : symbol_table_t := []

/-- Modelled from the spec: `sym_set_value` of `symbols.h`: the new binding wins. -/
def sym_set_value (t : symbol_table_t) (key : String) (val : Nat) : symbol_table_t :=
  (key, val) :: t

/-- Modelled from the spec: `sym_get_value` of `symbols.h`: the most recent binding of
the key, or the zero sentinel on a miss. -/
def sym_get_value : symbol_table_t → String → Nat
  | [], _ => 0
  | (k, v) :: t, key => if key = k then v else sym_get_value t key

/-- Modelled from the spec: `ipoint_make` of `functor.h`: the ipoint with the functor
of `func` in the high bits and `port` in the low two bits. Ipoints are unbounded here:
the width of `vvp_ipoint_t` is a matter of `functor.h`. -/
def ipoint_make (func port : Nat) : Nat := func / 4 * 4 + port % 4

/-- Modelled from the spec: `ipoint_index` of `functor.h`: the base ipoint moved on by
`idx` functors. -/
def ipoint_index (base idx : Nat) : Nat := base + idx * 4

/-- Modelled from the spec: `ipoint_port` of `functor.h`: the low two bits. -/
def ipoint_port (p : Nat) : Nat := p % 4

/-- The all-zero functor record of freshly allocated storage. -/
def functor_zero : functor_s := ⟨0, 0, 0, none, none, fun _ => 0, 0⟩

/-- The all-zero instruction record of freshly allocated storage. -/
def code_zero : vvp_code_s := ⟨none, 0, 0, 0, 0, 0, 0, none⟩

/-- Modelled from the spec: `functor_index` of `functor.h`: the functor an ipoint
addresses (its high bits), in a pool that is one zero-initialised address space. -/
def functor_index (s : vvp_state) (p : Nat) : functor_s := s.functors (p / 4)

/-- A write through the pointer `functor_index(p)`. -/
def functor_update (s : vvp_state) (p : Nat) (f : functor_s → functor_s) : vvp_state :=
  { s with functors := fun n => if n = p / 4 then f (s.functors n) else s.functors n }

/-- Modelled from the spec: `functor_init` of `functor.h`: a zeroed pool in which
functor 0 is reserved, so that no functor has the null ipoint. -/
def functor_init (s : vvp_state) : vvp_state :=
  { s with functor_count := 1, functors := fun _ => functor_zero }

/-- Modelled from the spec: `functor_allocate` of `functor.h`: reserves `wid` contiguous
functors and returns the ipoint of the first. -/
def functor_allocate (wid : Nat) (s : vvp_state) : Nat × vvp_state :=
  (4 * s.functor_count, { s with functor_count := s.functor_count + wid })

/-- Modelled from the spec: `codespace_index` of `codes.h`: the record a code pointer
addresses. -/
def codespace_index (s : vvp_state) (ptr : Nat) : vvp_code_s := s.codes ptr

/-- A write through the pointer `codespace_index(ptr)`. -/
def code_update (s : vvp_state) (ptr : Nat) (f : vvp_code_s → vvp_code_s) : vvp_state :=
  { s with codes := fun n => if n = ptr then f (s.codes n) else s.codes n }

/-- Modelled from the spec: `codespace_init` of `codes.h`: a zeroed code space in which
address 0 is reserved, so that no instruction has the null code pointer. -/
def codespace_init (s : vvp_state) : vvp_state :=
  { s with code_count := 1, codes := fun _ => code_zero }

/-- Modelled from the spec: `codespace_allocate` of `codes.h`: takes the next record
of the flat code space and returns its index. -/
def codespace_allocate (s : vvp_state) : Nat × vvp_state :=
  (s.code_count, { s with code_count := s.code_count + 1 })

/-- Modelled from the spec: `codespace_next` of `codes.h`: the index the next
allocation will return. -/
def codespace_next (s : vvp_state) : Nat := s.code_count

/-- Modelled from the spec: `yyerror` of `parse_misc.h`: the message is reported and
counted as a compile error. -/
def yyerror (msg : String) (s : vvp_state) : vvp_state :=
  { s with errout := s.errout ++ [msg], compile_errors := s.compile_errors + 1 }

/-! ## `compile.cc` -/

/-- The values of the static variables before `compile_init` runs. -/
def static_state : vvp_state :=
  { compile_errors := 0, errout := [], opcode_count := 0,
    sym_codespace := [], sym_functors := [], sym_vpi := [],
    resolv_list := [], cresolv_list := [],
    functor_count := 0, functors := fun _ => functor_zero,
    code_count := 0, codes := fun _ => code_zero,
    scheduled := [], modules := [] }

/-- Pushes an unresolved functor input on the front of `resolv_list`. -/
def postpone_functor_input (ptr : Nat) (lab : String) (idx : Nat) (s : vvp_state) :
    vvp_state :=
  { s with resolv_list := ⟨ptr, lab, idx⟩ :: s.resolv_list }

/-- Binds a label to a VPI handle. -/
def compile_vpi_symbol (label : String) (obj : Nat) (s : vvp_state) : vvp_state :=
  { s with sym_vpi := sym_set_value s.sym_vpi label obj }

/-- Looks a label up in the VPI table. -/
def compile_vpi_lookup (s : vvp_state) (label : String) : Nat :=
  sym_get_value s.sym_vpi label

/-- Creates the three symbol tables and the two address spaces and counts the
opcode table. -/
def compile_init (h : vpi_host) (s : vvp_state) : vvp_state :=
  let s := { s with sym_vpi := new_symbol_table }
  let s := compile_vpi_symbol "$time" h.vpip_sim_time s
  let s := { s with sym_functors := new_symbol_table }
  let s := functor_init s
  let s := { s with sym_codespace := new_symbol_table }
  let s := codespace_init s
  { s with opcode_count := count_opcodes opcode_table 0 }

/-- Loads a VPI module (the loading itself is the VPI layer's). -/
def compile_load_vpi_module (name : String) (s : vvp_state) : vvp_state :=
  { s with modules := s.modules ++ [name] }

/-- The body of the argument loop of `compile_functor` and `compile_event`: input
`idx` of the new functor `fdx` is spliced on the front of the source's out chain when
the source label is defined, and postponed otherwise. -/
def functor_input (fdx idx : Nat) (a : symb_s) (s : vvp_state) : vvp_state :=
  let tmp := sym_get_value s.sym_functors a.text
  if tmp ≠ 0 then
    let tmp := ipoint_index tmp a.idx
    let fport_out := (functor_index s tmp).out
    let s := functor_update s fdx fun obj =>
      { obj with port := fun k => if k = idx then fport_out else obj.port k }
    functor_update s tmp fun fport => { fport with out := ipoint_make fdx idx }
  else
    postpone_functor_input (ipoint_make fdx idx) a.text a.idx s

/-- The argument loop of `compile_functor` and `compile_event`, from index `idx` on. -/
def functor_inputs (fdx : Nat) : Nat → List symb_s → vvp_state → vvp_state
  | _, [], s => s
  | idx, a :: rest, s => functor_inputs fdx (idx + 1) rest (functor_input fdx idx a s)

/-- The `.functor` statement. The store into `ival`, the packed 8-bit input vector of
the spec, keeps the low 8 bits of `init`. -/
def compile_functor (label type : String) (init : Nat) (argv : List symb_s)
    (s : vvp_state) : Option vvp_state :=
  let (fdx, s) := functor_allocate 1 s
  let s := { s with sym_functors := sym_set_value s.sym_functors label fdx }
  if argv.length ≤ 4 then
    let s := functor_inputs fdx 0 argv s
    let s := functor_update s fdx fun obj =>
      { obj with ival := init % 256, oval := 2, mode := 0 }
    if type = "OR" then
      some (functor_update s fdx fun obj => { obj with table := some ft_OR })
    else if type = "AND" then
      some (functor_update s fdx fun obj => { obj with table := some ft_AND })
    else if type = "BUF" then
      some (functor_update s fdx fun obj => { obj with table := some ft_BUF })
    else if type = "NOR" then
      some (functor_update s fdx fun obj => { obj with table := some ft_NOR })
    else if type = "NOT" then
      some (functor_update s fdx fun obj => { obj with table := some ft_NOT })
    else if type = "XOR" then
      some (functor_update s fdx fun obj => { obj with table := some ft_XOR })
    else
      some (yyerror "invalid functor type." s)
  else none

/-- The `.event` statement with an edge type. -/
def compile_event (label type : String) (argv : List symb_s) (s : vvp_state) :
    Option vvp_state :=
  let (fdx, s) := functor_allocate 1 s
  let s := { s with sym_functors := sym_set_value s.sym_functors label fdx }
  if argv.length ≤ 4 then
    let s := functor_inputs fdx 0 argv s
    let tab :=
      if type = "posedge" then some vvp_edge_posedge
      else if type = "negedge" then some vvp_edge_negedge
      else if type = "edge" then some vvp_edge_anyedge
      else none
    some (functor_update s fdx fun obj =>
      { obj with ival := 0xaa, oval := 2, mode := 1, out := 0,
                 event := some ⟨[], 0xaa, tab⟩ })
  else none

/-- The `.event` statement of a named event. -/
def compile_named_event (label _name : String) (s : vvp_state) : vvp_state :=
  let (fdx, s) := functor_allocate 1 s
  let s := { s with sym_functors := sym_set_value s.sym_functors label fdx }
  functor_update s fdx fun obj =>
    { obj with ival := 0xaa, oval := 2, mode := 2, out := 0,
               event := some ⟨[], 0xaa, none⟩ }

/-- The argument loop of `compile_event_or`: every source must be defined and must
drive nothing yet; its output is pointed at the new functor. -/
def event_or_inputs (fdx : Nat) : List symb_s → vvp_state → Option vvp_state
  | [], s => some s
  | a :: rest, s =>
    let tmp := sym_get_value s.sym_functors a.text
    if tmp ≠ 0 then
      let tmp := ipoint_index tmp a.idx
      if (functor_index s tmp).out = 0 then
        event_or_inputs fdx rest
          (functor_update s tmp fun fport => { fport with out := fdx })
      else none
    else none

/-- The `.event/or` statement. -/
def compile_event_or (label : String) (argv : List symb_s) (s : vvp_state) :
    Option vvp_state :=
  let (fdx, s) := functor_allocate 1 s
  let s := { s with sym_functors := sym_set_value s.sym_functors label fdx }
  let s := functor_update s fdx fun obj =>
    { obj with ival := 0xaa, oval := 2, mode := 2, out := 0,
               event := some ⟨[], 0xaa, none⟩ }
  event_or_inputs fdx argv s

/-- The slot type `op->argt[idx]`. -/
def argt_at (op : opcode_table_s) (idx : Nat) : operand_e := op.argt.getD idx OA_NONE

/-- The block `if (label) { val.num = ptr; sym_set_value(sym_codespace, label, val); }`
that opens `compile_code`, `compile_disable`, `compile_fork` and `compile_vpi_call`. -/
def bind_code_label (label : Option String) (ptr : Nat) (s : vvp_state) : vvp_state :=
  match label with
  | some l => { s with sym_codespace := sym_set_value s.sym_codespace l ptr }
  | none => s

/-- The body of the operand loop of `compile_code` for slot `idx` of the instruction
at `ptr`. -/
def compile_code_operand (op : opcode_table_s) (opa : Option comp_operands_s)
    (ptr idx : Nat) (s : vvp_state) : Option vvp_state :=
  match argt_at op idx with
  | OA_NONE => some s
  | OA_BIT1 =>
    match opa with
    | none => none
    | some o =>
      match o.argv idx with
      | .numb n => some (code_update s ptr fun code => { code with bit_idx1 := n })
      | .symb _ => some (yyerror "operand format" s)
  | OA_BIT2 =>
    match opa with
    | none => none
    | some o =>
      match o.argv idx with
      | .numb n => some (code_update s ptr fun code => { code with bit_idx2 := n })
      | .symb _ => some (yyerror "operand format" s)
  | OA_CODE_PTR =>
    match opa with
    | none => none
    | some o =>
      match o.argv idx with
      | .numb _ => some (yyerror "operand format" s)
      | .symb sy =>
        if sy.idx = 0 then
          let tmp := sym_get_value s.sym_codespace sy.text
          let s := code_update s ptr fun code => { code with cptr := tmp }
          if tmp = 0 then
            some { s with cresolv_list := ⟨ptr, sy.text⟩ :: s.cresolv_list }
          else some s
        else none
  | OA_FUNC_PTR =>
    match opa with
    | none => none
    | some o =>
      match o.argv idx with
      | .numb _ => some (yyerror "operand format" s)
      | .symb sy =>
        let tmp := sym_get_value s.sym_functors sy.text
        if tmp = 0 then some (yyerror "functor undefined" s)
        else some (code_update s ptr fun code =>
          { code with iptr := ipoint_index tmp sy.idx })
  | OA_NUMBER =>
    match opa with
    | none => none
    | some o =>
      match o.argv idx with
      | .numb n => some (code_update s ptr fun code => { code with number := n })
      | .symb _ => some (yyerror "operand format" s)

/-- The operand loop of `compile_code` over the listed slot indices. -/
def compile_code_operands (op : opcode_table_s) (opa : Option comp_operands_s)
    (ptr : Nat) : List Nat → vvp_state → Option vvp_state
  | [], s => some s
  | idx :: rest, s =>
    match compile_code_operand op opa ptr idx s with
    | none => none
    | some s1 => compile_code_operands op opa ptr rest s1

/-- The operand count the parser supplied: `opa ? opa->argc : 0`. -/
def supplied_argc (opa : Option comp_operands_s) : Nat :=
  match opa with
  | some o => o.argc
  | none => 0

/-- An instruction statement `label: mnem operands`. -/
def compile_code (label : Option String) (mnem : String)
    (opa : Option comp_operands_s) (s : vvp_state) : Option vvp_state :=
  let (ptr, s) := codespace_allocate s
  let s := bind_code_label label ptr s
  match bsearch mnem opcode_table s.opcode_count opcode_compare with
  | none => none
  | some none => some (yyerror "Invalid opcode" s)
  | some (some op) =>
    let s := code_update s ptr fun code => { code with opcode := some op.opcode }
    if op.argc ≠ supplied_argc opa then some (yyerror "operand count" s)
    else compile_code_operands op opa ptr (List.range op.argc) s

/-- A label on its own: it names the next instruction. -/
def compile_codelabel (label : String) (s : vvp_state) : vvp_state :=
  { s with sym_codespace := sym_set_value s.sym_codespace label (codespace_next s) }

/-- The `%disable` instruction. -/
def compile_disable (label : Option String) (symb : symb_s) (s : vvp_state) :
    Option vvp_state :=
  let (ptr, s) := codespace_allocate s
  let s := bind_code_label label ptr s
  let hnd := compile_vpi_lookup s symb.text
  let s := code_update s ptr fun code =>
    { code with opcode := some of_DISABLE, handle := hnd }
  if hnd ≠ 0 then some s else none

/-- The `%fork` instruction. -/
def compile_fork (label : Option String) (dest scope : symb_s) (s : vvp_state) :
    Option vvp_state :=
  let (ptr, s) := codespace_allocate s
  let s := bind_code_label label ptr s
  let tmp := sym_get_value s.sym_codespace dest.text
  if tmp ≠ 0 then
    let sh := compile_vpi_lookup s scope.text
    if sh ≠ 0 then
      some (code_update s ptr fun code =>
        { code with opcode := some of_FORK, fork := some ⟨tmp, sh⟩ })
    else none
  else none

/-- The `%vpi_call` instruction. -/
def compile_vpi_call (h : vpi_host) (label : Option String) (name : String)
    (argv : List Nat) (s : vvp_state) : vvp_state :=
  let (ptr, s) := codespace_allocate s
  let s := bind_code_label label ptr s
  let hnd := h.vpip_build_vpi_call name argv
  let s := code_update s ptr fun code =>
    { code with opcode := some of_VPI_CALL, handle := hnd }
  if hnd = 0 then { s with compile_errors := s.compile_errors + 1 } else s

/-- The `.thread` statement. -/
def compile_thread (h : vpi_host) (start_sym : String) (s : vvp_state) : vvp_state :=
  let pc := sym_get_value s.sym_codespace start_sym
  if pc = 0 then yyerror "unresolved address" s
  else { s with scheduled := s.scheduled ++ [⟨pc, h.vpip_peek_current_scope, 0⟩] }

/-- The width expression `((msb > lsb)? msb-lsb : lsb-msb) + 1` as C evaluates it, in
`int`: the difference and the increment are signed operations, and where the result of
one of them is not representable in a 32-bit `int` the arithmetic overflows and the
behaviour is undefined (`none`). -/
def wid_in_int (msb lsb : Int) : Option Int :=
  let d := if msb > lsb then msb - lsb else lsb - msb
  if -(2 : Int) ^ 31 ≤ d ∧ d < 2 ^ 31 then
    if d + 1 < 2 ^ 31 then some (d + 1) else none
  else none

/-- The width `((msb > lsb)? msb-lsb : lsb-msb) + 1` stored in an `unsigned`, the
arithmetic taken modulo `2^32`. C evaluates the expression in `int` (`wid_in_int`):
wherever that evaluation is defined this is its value; where the `int` arithmetic
overflows, C leaves the behaviour undefined and this is the value that wrapping
arithmetic gives. -/
def vector_wid (msb lsb : Int) : Nat :=
  (((if msb > lsb then msb - lsb else lsb - msb) + 1) % 2 ^ 32).toNat

/-- The initialising loop of `compile_variable` and `compile_net` over the first `n`
functors of the vector at `fdx`. -/
def var_functors (fdx : Nat) : Nat → vvp_state → vvp_state
  | 0, s => s
  | n + 1, s =>
    functor_update (var_functors fdx n s) (ipoint_index fdx n) fun obj =>
      { obj with table := some ft_var, ival := 0x22, oval := 0x02, mode := 0 }

/-- The `.var` statement. -/
def compile_variable (h : vpi_host) (label name : String) (msb lsb : Int)
    (signed_flag : Bool) (s : vvp_state) : vvp_state :=
  let wid := vector_wid msb lsb
  let (fdx, s) := functor_allocate wid s
  let s := { s with sym_functors := sym_set_value s.sym_functors label fdx }
  let s := var_functors fdx wid s
  let obj := h.vpip_make_reg name msb lsb signed_flag fdx
  compile_vpi_symbol label obj s

/-- The `.var` statement with the undefined behaviour of its width arithmetic made
explicit: `none` where the `int` arithmetic of the width overflows, and the result of
`compile_variable` wherever the width is defined. -/
def compile_variable_defined (h : vpi_host) (label name : String) (msb lsb : Int)
    (signed_flag : Bool) (s : vvp_state) : Option vvp_state :=
  match wid_in_int msb lsb with
  | none => none
  | some _ => some (compile_variable h label name msb lsb signed_flag s)

/-- The body of the connecting loop of `compile_net` for bit `idx`. -/
def net_input (fdx idx : Nat) (a : symb_s) (s : vvp_state) : vvp_state :=
  let ptr := ipoint_index fdx idx
  let val := sym_get_value s.sym_functors a.text
  if val ≠ 0 then
    let src := ipoint_index val a.idx
    let src_out := (functor_index s src).out
    let s := functor_update s ptr fun obj =>
      { obj with port := fun k => if k = 0 then src_out else obj.port k }
    functor_update s src fun f => { f with out := ptr }
  else
    postpone_functor_input (ipoint_make ptr 0) a.text a.idx s

/-- The connecting loop of `compile_net`, from bit `idx` on. -/
def net_inputs (fdx : Nat) : Nat → List symb_s → vvp_state → vvp_state
  | _, [], s => s
  | idx, a :: rest, s => net_inputs fdx (idx + 1) rest (net_input fdx idx a s)

/-- The `.net` statement. -/
def compile_net (h : vpi_host) (label name : String) (msb lsb : Int)
    (signed_flag : Bool) (argv : List symb_s) (s : vvp_state) : Option vvp_state :=
  let wid := vector_wid msb lsb
  let (fdx, s) := functor_allocate wid s
  let s := { s with sym_functors := sym_set_value s.sym_functors label fdx }
  let s := var_functors fdx wid s
  if argv.length = wid then
    let s := net_inputs fdx 0 argv s
    let obj := h.vpip_make_net name msb lsb signed_flag fdx
    some (compile_vpi_symbol label obj s)
  else none

/-- The first loop of `compile_cleanup` over the detached list `tmp_list`. -/
def cleanup_ports : List resolv_list_s → vvp_state → vvp_state
  | [], s => s
  | res :: tmp_list, s =>
    let idx := ipoint_port res.port
    let tmp := sym_get_value s.sym_functors res.source
    if tmp ≠ 0 then
      let tmp := ipoint_index tmp res.idx
      let fport_out := (functor_index s tmp).out
      let s := functor_update s res.port fun obj =>
        { obj with port := fun k => if k = idx then fport_out else obj.port k }
      cleanup_ports tmp_list
        (functor_update s tmp fun fport => { fport with out := res.port })
    else
      cleanup_ports tmp_list { s with resolv_list := res :: s.resolv_list }

/-- The second loop of `compile_cleanup` over the detached list `tmp_clist`. -/
def cleanup_codes : List cresolv_list_s → vvp_state → vvp_state
  | [], s => s
  | res :: tmp_clist, s =>
    let tmp := sym_get_value s.sym_codespace res.lab
    if tmp ≠ 0 then
      cleanup_codes tmp_clist (code_update s res.cp fun code => { code with cptr := tmp })
    else
      cleanup_codes tmp_clist
        { s with errout := s.errout ++ ["unresolved code label: " ++ res.lab],
                 cresolv_list := res :: s.cresolv_list }

/-- The deferred linking done when parsing is complete. -/
def compile_cleanup (s : vvp_state) : vvp_state :=
  let s := cleanup_ports s.resolv_list { s with resolv_list := [] }
  cleanup_codes s.cresolv_list { s with cresolv_list := [] }

/-! ## The assembly text -/

/-- A statement of the assembly text: the parser calls one entry point of
`compile.cc` per statement, with these arguments. -/
inductive stmt
  | load_vpi_module (name : String)
  | functor (label type : String) (init : Nat) (argv : List symb_s)
  | event (label type : String) (argv : List symb_s)
  | named_event (label name : String)
  | event_or (label : String) (argv : List symb_s)
  | code (label : Option String) (mnem : String) (opa : Option comp_operands_s)
  | codelabel (label : String)
  | disable (label : Option String) (symb : symb_s)
  | fork (label : Option String) (dest scope : symb_s)
  | vpi_call (label : Option String) (name : String) (argv : List Nat)
  | thread (start_sym : String)
  | var (label name : String) (msb lsb : Int) (signed_flag : Bool)
  | net (label name : String) (msb lsb : Int) (signed_flag : Bool) (argv : List symb_s)

/-- The entry point a statement calls. -/
def compile_stmt (h : vpi_host) : stmt → vvp_state → Option vvp_state
  | .load_vpi_module name, s => some (compile_load_vpi_module name s)
  | .functor label type init argv, s => compile_functor label type init argv s
  | .event label type argv, s => compile_event label type argv s
  | .named_event label name, s => some (compile_named_event label name s)
  | .event_or label argv, s => compile_event_or label argv s
  | .code label mnem opa, s => compile_code label mnem opa s
  | .codelabel label, s => some (compile_codelabel label s)
  | .disable label symb, s => compile_disable label symb s
  | .fork label dest scope, s => compile_fork label dest scope s
  | .vpi_call label name argv, s => some (compile_vpi_call h label name argv s)
  | .thread start_sym, s => some (compile_thread h start_sym s)
  | .var label name msb lsb sg, s => some (compile_variable h label name msb lsb sg s)
  | .net label name msb lsb sg argv, s => compile_net h label name msb lsb sg argv s

/-- The statements of a text compiled in order; `none` as soon as one aborts. -/
def compile_text (h : vpi_host) : List stmt → vvp_state → Option vvp_state
  | [], s => some s
  | st :: rest, s =>
    match compile_stmt h st s with
    | none => none
    | some s1 => compile_text h rest s1

/-- A whole run of the assembler: `compile_init`, the statements of the text, then
`compile_cleanup`. -/
def assemble (h : vpi_host) (text : List stmt) : Option vvp_state :=
  match compile_text h text (compile_init h static_state) with
  | none => none
  | some s => some (compile_cleanup s)

/-! ## Fan-out chains -/

/-- The link stored for an ipoint: `port[ipoint_port(p)]` of the functor it addresses. -/
def chain_link (s : vvp_state) (p : Nat) : Nat :=
  (functor_index s p).port (ipoint_port p)

/-- The list `l` is the chain that starts at ipoint `p` and follows the links until
the null ipoint. -/
def chain_from (s : vvp_state) : Nat → List Nat → Prop
  | p, [] => p = 0
  | p, q :: l => p ≠ 0 ∧ q = p ∧ chain_from s (chain_link s p) l

/-- The chain walk, at most `fuel` links long. -/
def out_chain (s : vvp_state) : Nat → Nat → List Nat
  | 0, _ => []
  | fuel + 1, p => if p = 0 then [] else p :: out_chain s fuel (chain_link s p)

/-- The two writes shared by the three linking sites of `compile.cc`
(`obj->port[idx] = fport->out; fport->out = q`): ipoint `q` goes on the front of the
out chain of the functor that `tmp` addresses. -/
def splice (q tmp : Nat) (s : vvp_state) : vvp_state :=
  let fport_out := (functor_index s tmp).out
  let s := functor_update s q fun obj =>
    { obj with port := fun k => if k = ipoint_port q then fport_out else obj.port k }
  functor_update s tmp fun fport => { fport with out := q }

/-- Ipoint `q` occurs exactly once on the out chain of functor number `n`. -/
def on_chain_once (s : vvp_state) (n q : Nat) : Prop :=
  ∃ l, chain_from s (s.functors n).out l ∧ l.count q = 1

/-- Well-formed fan-out chains below the ipoint bound `B`, with the ipoints `pending`
still waiting for their source: every out chain ends, runs through ipoints below `B`
and avoids the pending ones; links at and above `B` are still null; the pending ipoints
are distinct, non-null and below `B`, and their own links are still null. -/
structure chains_ok (s : vvp_state) (B : Nat) (pending : List Nat) : Prop where
  chains : ∀ n, ∃ l, chain_from s (s.functors n).out l ∧ (∀ p ∈ l, p < B) ∧
    ∀ q ∈ pending, q ∉ l
  fresh : ∀ p, B ≤ p → chain_link s p = 0
  pending_lt : ∀ q ∈ pending, q < B ∧ q ≠ 0
  pending_nodup : pending.Nodup
  pending_null : ∀ q ∈ pending, chain_link s q = 0

/-- The invariant of the functor side of the assembler state. -/
def chains_inv (s : vvp_state) : Prop :=
  1 ≤ s.functor_count ∧
    chains_ok s (4 * s.functor_count) (s.resolv_list.map fun e => e.port)

/-- The state of the chains inside the loop of `compile_event_or` for the new functor
`fdx`: as `chains_ok` below `fdx`, except that chains may already end in `fdx`. -/
structure event_or_ok (s : vvp_state) (fdx : Nat) (pending : List Nat) : Prop where
  chains : ∀ n, ∃ l, chain_from s (s.functors n).out l ∧ (∀ p ∈ l, p < fdx + 1) ∧
    ∀ q ∈ pending, q ∉ l
  fresh : ∀ p, fdx ≤ p → chain_link s p = 0
  pending_lt : ∀ q ∈ pending, q < fdx ∧ q ≠ 0
  pending_nodup : pending.Nodup
  pending_null : ∀ q ∈ pending, chain_link s q = 0

/-- The number of code-pointer slots of a row among the listed slot indices. -/
def code_ptr_slots (op : opcode_table_s) (idxs : List Nat) : Nat :=
  (idxs.filter fun i => argt_at op i = OA_CODE_PTR).length

/-- The functor side of the state is the same in two states. -/
def same_functor_side (s r : vvp_state) : Prop :=
  r.functors = s.functors ∧ r.functor_count = s.functor_count ∧
    r.resolv_list = s.resolv_list ∧ r.sym_functors = s.sym_functors

/-- The code side of the state is the same in two states. -/
def same_code_side (s r : vvp_state) : Prop :=
  r.codes = s.codes ∧ r.code_count = s.code_count ∧
    r.cresolv_list = s.cresolv_list ∧ r.sym_codespace = s.sym_codespace ∧
    r.opcode_count = s.opcode_count

/-- A call made on the assembler once `compile_init` has run: the entry point of a
statement of the text, or `compile_cleanup`. -/
inductive assembler_call
  | statement (st : stmt)
  | cleanup

/-- A sequence of calls made in order; `none` as soon as one aborts. -/
def assembler_calls (h : vpi_host) : List assembler_call → vvp_state → Option vvp_state
  | [], s => some s
  | .statement st :: rest, s =>
    match compile_stmt h st s with
    | none => none
    | some s1 => assembler_calls h rest s1
  | .cleanup :: rest, s => assembler_calls h rest (compile_cleanup s)

/-- A host whose services all answer with handle 1. -/
def sample_host : vpi_host :=
  { vpip_sim_time := 1, vpip_peek_current_scope := 1,
    vpip_make_reg := fun _ _ _ _ _ => 1, vpip_make_net := fun _ _ _ _ _ => 1,
    vpip_build_vpi_call := fun _ _ => 1 }

/-- Scenario S4: `f1 .functor AND, 0, f2[0], f2[0];` then `f2 .functor OR, 0;`. -/
def S4_text : List stmt :=
  [ .functor "f1" "AND" 0 [⟨"f2", 0⟩, ⟨"f2", 0⟩],
    .functor "f2" "OR" 0 [] ]

instance chain_from_decidable (s : vvp_state) :
    (p : Nat) → (l : List Nat) → Decidable (chain_from s p l)
  | p, [] => inferInstanceAs (Decidable (p = 0))
  | p, q :: l =>
    have := chain_from_decidable s (chain_link s p) l
    inferInstanceAs (Decidable (p ≠ 0 ∧ q = p ∧ chain_from s (chain_link s p) l))

/-- The code label a statement binds, if any. -/
def stmt_label : stmt → Option String
  | .code label _ _ => label
  | .codelabel label => some label
  | .disable label _ => label
  | .fork label _ _ => label
  | .vpi_call label _ _ => label
  | _ => none

/-- The invariant of the code side of the assembler state: the opcode table has been
counted, and the unresolved code pointers name distinct, allocated instructions. -/
def code_inv (s : vvp_state) : Prop :=
  s.opcode_count = 24 ∧ (∀ e ∈ s.cresolv_list, e.cp < s.code_count) ∧
    (s.cresolv_list.map fun e => e.cp).Nodup

/-- What a statement may do to the code side: allocate upwards, leave the records
already allocated alone, and push unresolved entries for its own records only. -/
def code_grows (s r : vvp_state) : Prop :=
  s.code_count ≤ r.code_count ∧ (∀ n, n < s.code_count → r.codes n = s.codes n) ∧
    ∃ new, r.cresolv_list = new ++ s.cresolv_list ∧ ∀ e ∈ new, s.code_count ≤ e.cp

/-- A forward jump: `start: %jmp later` followed by `later: %end`. -/
def forward_jump_text : List stmt :=
  [ .code (some "start") "%jmp" (some ⟨1, fun _ => .symb ⟨"later", 0⟩⟩),
    .code (some "later") "%end" none ]

/-- The state of `compile_code` once the record is allocated, the label bound and the
opcode of the row found stored. -/
def code_opened (label : Option String) (op : opcode_table_s) (s : vvp_state) : vvp_state :=
  code_update (bind_code_label label s.code_count { s with code_count := s.code_count + 1 })
    s.code_count fun code => { code with opcode := some op.opcode }

/-- Scenario S5: `start: %jmp later` followed by `%end`, with no `later:` label. -/
def S5_text : List stmt :=
  [ .code (some "start") "%jmp" (some ⟨1, fun _ => .symb ⟨"later", 0⟩⟩),
    .code none "%end" none ]

/-- A functor with one source that is declared later and one that never is:
`f1 .functor AND, 0, f2[0], f3[0];` then `f2 .functor OR, 0;`. -/
def half_resolved_text : List stmt :=
  [ .functor "f1" "AND" 0 [⟨"f2", 0⟩, ⟨"f3", 0⟩],
    .functor "f2" "OR" 0 [] ]

/-- The instruction field that a slot type stands for: `OA_BIT1` is `bit_idx1`,
`OA_BIT2` is `bit_idx2`, `OA_NUMBER` is `number`, `OA_CODE_PTR` is `cptr` and
`OA_FUNC_PTR` is `iptr`. -/
def slot_field (t : operand_e) (c : vvp_code_s) : Nat :=
  match t with
  | OA_NONE => 0
  | OA_NUMBER => c.number
  | OA_BIT1 => c.bit_idx1
  | OA_BIT2 => c.bit_idx2
  | OA_CODE_PTR => c.cptr
  | OA_FUNC_PTR => c.iptr

/-- The value an operand stands for in its slot, given the code-label table `sc` and the
functor table `sf`: a number stands for itself, a code label for the address bound to it
(0 when it is unbound), a functor reference `label[idx]` for the functor base bound to
the label moved on by `idx`. -/
def operand_value (sc sf : symbol_table_t) (t : operand_e) (a : comp_operand) : Nat :=
  match t, a with
  | OA_NUMBER, .numb n => n
  | OA_BIT1, .numb n => n
  | OA_BIT2, .numb n => n
  | OA_CODE_PTR, .symb sy => sym_get_value sc sy.text
  | OA_FUNC_PTR, .symb sy => ipoint_index (sym_get_value sf sy.text) sy.idx
  | _, _ => 0

/-- An operand that its slot accepts: a number in a bit or number slot, a symbol with bit
index 0 in a code-pointer slot, a symbol naming a defined functor in a functor slot. -/
def operand_fits (sf : symbol_table_t) (t : operand_e) (a : comp_operand) : Prop :=
  match t, a with
  | OA_NONE, _ => True
  | OA_NUMBER, .numb _ => True
  | OA_BIT1, .numb _ => True
  | OA_BIT2, .numb _ => True
  | OA_CODE_PTR, .symb sy => sy.idx = 0
  | OA_FUNC_PTR, .symb sy => sym_get_value sf sy.text ≠ 0
  | _, _ => False

instance operand_fits_decidable (sf : symbol_table_t) (t : operand_e) (a : comp_operand) :
    Decidable (operand_fits sf t a) := by
  unfold operand_fits
  split <;> infer_instance

/-- The state after `compile_init` and `v .var "v", 3, 0;`. -/
def var_v_state : vvp_state :=
  compile_variable sample_host "v" "v" 3 0 false (compile_init sample_host static_state)

/-- The state of `compile_functor` when its input loop is done and `ival`, `oval` and
`mode` are stored: only the choice of the table is left. -/
def functor_built (label : String) (init : Nat) (argv : List symb_s) (s : vvp_state) :
    vvp_state :=
  let (fdx, s) := functor_allocate 1 s
  let s := { s with sym_functors := sym_set_value s.sym_functors label fdx }
  let s := functor_inputs fdx 0 argv s
  functor_update s fdx fun obj => { obj with ival := init % 256, oval := 2, mode := 0 }

/-- The state after `compile_init` and the named event `e1 .event "e1";`. -/
def named_e1_state : vvp_state :=
  compile_named_event "e1" "e1" (compile_init sample_host static_state)

/-- The statement is a `.thread` statement. -/
def stmt_is_thread : stmt → Bool
  | .thread _ => true
  | _ => false

/-- The call is the entry point of a `.thread` statement. -/
def call_is_thread : assembler_call → Bool
  | .statement st => stmt_is_thread st
  | .cleanup => false

/-- A thread statement for a label that is bound only afterwards: `.thread main;`
followed by `main: %end`. -/
def late_thread_text : List stmt :=
  [ .thread "main", .code (some "main") "%end" none ]

/-- The state after `compile_init` with the scope `scopeA` registered under handle 1. -/
def S6_state : vvp_state :=
  compile_vpi_symbol "scopeA" 1 (compile_init sample_host static_state)

/-- Scenario S6, in text order: `start: %fork child, scopeA`, `%fork child, scopeA`,
`%join`, `%end`, `child: %delay 5`, `%end`. -/
def S6_text : List stmt :=
  [ .fork (some "start") ⟨"child", 0⟩ ⟨"scopeA", 0⟩,
    .fork none ⟨"child", 0⟩ ⟨"scopeA", 0⟩,
    .code none "%join" none,
    .code none "%end" none,
    .code (some "child") "%delay" (some ⟨1, fun _ => .numb 5⟩),
    .code none "%end" none ]

/-- Scenario S6 with the child thread moved in front of the forks: `child: %delay 5`,
`%end`, `start: %fork child, scopeA`, `%fork child, scopeA`, `%join`, `%end`. -/
def S6_child_first_text : List stmt :=
  [ .code (some "child") "%delay" (some ⟨1, fun _ => .numb 5⟩),
    .code none "%end" none,
    .fork (some "start") ⟨"child", 0⟩ ⟨"scopeA", 0⟩,
    .fork none ⟨"child", 0⟩ ⟨"scopeA", 0⟩,
    .code none "%join" none,
    .code none "%end" none ]

/-- The statement emits an instruction: an opcode statement, `%disable`, `%fork` or
`%vpi_call`. -/
def stmt_is_instruction : stmt → Bool
  | .code _ _ _ => true
  | .disable _ _ => true
  | .fork _ _ _ => true
  | .vpi_call _ _ _ => true
  | _ => false

/-- The state of `compile_functor` and of `compile_event` (their loops are the same)
when the first `k` sources have been through the input loop: the functor is allocated,
the label bound, and the sources `argv[0..k-1]` linked or postponed. -/
def functor_wired (label : String) (argv : List symb_s) (s : vvp_state) (k : Nat) :
    vvp_state :=
  let (fdx, s) := functor_allocate 1 s
  let s := { s with sym_functors := sym_set_value s.sym_functors label fdx }
  functor_inputs fdx 0 (argv.take k) s

/-- The role of an operand in the instruction table of the specification: a bit slot
(`dst`, `src`, `a`, `b`, `bit`), a count or a number of ticks (`n`, `ticks`), a code
label (`code`, `dest`), a functor (`fnc`), or a scope or call handle. -/
inductive operand_role
  | bit | count | code | fnc | handle
  deriving DecidableEq, Repr

/-- The instruction table of the specification, one row per mnemonic with the roles of
the operands it shows: `%mov dst, src, n`, `%set fnc, bit`, `%load dst, fnc`, the
bitwise operations and `%add` as `dst, src, n`, `%inv dst, n`, the compares as `a, b, n`,
`%jmp code`, the conditional jumps as `code, bit`, `%delay ticks`, `%wait fnc`,
`%assign fnc, dst, src`, `%fork dest, scope`, `%vpi_call handle`, `%disable handle`, and
`%noop`, `%join`, `%end` without operands. -/
def spec_instructions : List (String × List operand_role) :=
  [ ("%noop", []),
    ("%mov", [.bit, .bit, .count]),
    ("%set", [.fnc, .bit]),
    ("%load", [.bit, .fnc]),
    ("%and", [.bit, .bit, .count]),
    ("%or", [.bit, .bit, .count]),
    ("%xor", [.bit, .bit, .count]),
    ("%xnor", [.bit, .bit, .count]),
    ("%nor/r", [.bit, .bit, .count]),
    ("%add", [.bit, .bit, .count]),
    ("%inv", [.bit, .count]),
    ("%cmp/u", [.bit, .bit, .count]),
    ("%cmp/s", [.bit, .bit, .count]),
    ("%cmp/x", [.bit, .bit, .count]),
    ("%cmp/z", [.bit, .bit, .count]),
    ("%jmp", [.code]),
    ("%jmp/0", [.code, .bit]),
    ("%jmp/1", [.code, .bit]),
    ("%jmp/0xz", [.code, .bit]),
    ("%delay", [.count]),
    ("%wait", [.fnc]),
    ("%assign", [.fnc, .bit, .bit]),
    ("%fork", [.code, .handle]),
    ("%join", []),
    ("%end", []),
    ("%vpi_call", [.handle]),
    ("%disable", [.handle]) ]

/-- A declared slot type matches a role: a bit slot is `OA_BIT1` or `OA_BIT2`, a count
is `OA_NUMBER`, a code label is `OA_CODE_PTR`, a functor is `OA_FUNC_PTR`. -/
def role_matches : operand_role → operand_e → Bool
  | .bit, OA_BIT1 => true
  | .bit, OA_BIT2 => true
  | .count, OA_NUMBER => true
  | .code, OA_CODE_PTR => true
  | .fnc, OA_FUNC_PTR => true
  | _, _ => false

/-- The slots of a table row match the roles listed, slot by slot, and the slots after
the last role are `OA_NONE`. -/
def slots_match : List operand_role → List operand_e → Bool
  | [], ts => ts.all fun t => t = OA_NONE
  | _ :: _, [] => false
  | r :: rs, t :: ts => role_matches r t && slots_match rs ts

/-! ## The netlist (`netlist.h`) -/

/-- The direction of a link: `enum DIR { PASSIVE, INPUT, OUTPUT }` of `NetObj::Link`. -/
inductive DIR
  | PASSIVE | INPUT | OUTPUT
  deriving DecidableEq, Repr

/-- The members of `NetObj::Link`. Pointers are numbers, 0 the null pointer: `node_` is
the owning object, `next_` and `prev_` are the neighbours in the ring of links. -/
structure Link where
  node_ : Nat
  pin_ : Nat
  dir_ : DIR
  name_ : String
  inst_ : Nat
  next_ : Nat
  prev_ : Nat
  deriving DecidableEq, Repr

/-- The member `Link::set_dir`. -/
def Link.set_dir (l : Link) (d : DIR) : Link := { l with dir_ := d }

/-- The member `Link::get_dir`. -/
def Link.get_dir (l : Link) : DIR := l.dir_

/-- The member `Link::is_equal`:
`return (node_ == that.node_) && (pin_ == that.pin_);`. -/
def Link.is_equal (l that : Link) : Bool :=
  (l.node_ == that.node_) && (l.pin_ == that.pin_)

/-- The inline `operator ==` on links: `return l.is_equal(r);`. -/
def link_operator_eq (l r : Link) : Bool := l.is_equal r

/-- The inline `operator !=` on links: `return ! l.is_equal(r);`. -/
def link_operator_ne (l r : Link) : Bool := ! l.is_equal r

/-- Modelled from the spec: the rings of links, which `netlist.h` declares through
`next_` and `prev_` and whose operations are defined outside `netlist.h`. Links are
handles into one pool; `ring p` lists the links of the ring that `p` belongs to, in ring
order, and `dir p` is the direction of link `p`. -/
structure link_pool where
  ring : Nat → List Nat
  dir : Nat → DIR

/-- Modelled from the spec: the pool in which every link is a ring of its own, the
state in which the constructor `Link()` leaves a link; every link is `PASSIVE`, as the
pins of wires are. -/
def link_pool_init : link_pool := ⟨fun p => [p], fun _ => .PASSIVE⟩

/-- Modelled from the spec: `Link::is_linked(that)`: the walk over the other links of
the ring of `a` meets `b`. -/
def is_linked (st : link_pool) (a b : Nat) : Bool :=
  decide (b ∈ (st.ring a).erase a)

/-- Modelled from the spec: `connect(a, b)`: the rings of `a` and `b` are spliced into
one ring; nothing happens if they are one ring already. -/
def connect (a b : Nat) (st : link_pool) : link_pool :=
  if b ∈ st.ring a then st
  else
    { st with ring := fun x =>
        if x ∈ st.ring a ∨ x ∈ st.ring b then st.ring a ++ st.ring b else st.ring x }

/-- Modelled from the spec: `Link::unlink`: the link leaves its ring and is a ring of
its own again; the rest of the ring stays as it is. -/
def unlink (p : Nat) (st : link_pool) : link_pool :=
  { st with ring := fun x => if x = p then [p] else (st.ring x).erase p }

/-- Modelled from the spec: `count_signals(pin)`: one walk round the ring of the pin,
counting the pins of signals, which are the `PASSIVE` ones. -/
def count_signals (st : link_pool) (p : Nat) : Nat :=
  ((st.ring p).filter fun x => decide (st.dir x = .PASSIVE)).length

/-- Every link belongs to exactly one ring: a ring lists no link twice, holds the link
it is the ring of, and is the ring of each of its links. -/
def link_pool_ok (st : link_pool) : Prop :=
  ∀ p, p ∈ st.ring p ∧ (st.ring p).Nodup ∧ ∀ q ∈ st.ring p, st.ring q = st.ring p

/-- The members of a `NetNet` that the index arithmetic uses: the pin count `npins_`
of the `NetObj` and the index pair `msb_`, `lsb_`. -/
structure NetNet where
  npins_ : Nat
  msb_ : Int
  lsb_ : Int
  deriving DecidableEq, Repr

/-- The member `NetNet::msb`. -/
def NetNet.msb (S : NetNet) : Int := S.msb_

/-- The member `NetNet::lsb`. -/
def NetNet.lsb (S : NetNet) : Int := S.lsb_

/-- An edge event whose source is the event itself: `e .event posedge, e[0];`. -/
def self_event_text : List stmt :=
  [ .event "e" "posedge" [⟨"e", 0⟩] ]

/-- A functor whose source is the functor itself: `g .functor BUF, 0, g[0];`. -/
def self_functor_text : List stmt :=
  [ .functor "g" "BUF" 0 [⟨"g", 0⟩] ]

/-- The state of `compile_event_or` when its loop starts: the functor is allocated, the
label bound, and the fields of the new functor are stored. -/
def event_or_opened (label : String) (s : vvp_state) : vvp_state :=
  let (fdx, s) := functor_allocate 1 s
  let s := { s with sym_functors := sym_set_value s.sym_functors label fdx }
  functor_update s fdx fun obj =>
    { obj with ival := 0xaa, oval := 2, mode := 2, out := 0,
               event := some ⟨[], 0xaa, none⟩ }

/-- The ipoint that a source `label[idx]` addresses in state `t`:
`ipoint_index(val.num, argv[idx].idx)`. -/
def source_ipoint (t : vvp_state) (a : symb_s) : Nat :=
  ipoint_index (sym_get_value t.sym_functors a.text) a.idx

/-- The state after `compile_init` and two named events, `e1 .event "e1";` and
`e2 .event "e2";`. -/
def named_e2_state : vvp_state :=
  compile_named_event "e2" "e2" named_e1_state

/-- A state in which the label `z` is bound to the code address 0 and to the functor
base 0: the state after `compile_init`, with the two bindings made. -/
def zero_bound_state : vvp_state :=
  { compile_init sample_host static_state with
    sym_codespace :=
      sym_set_value (compile_init sample_host static_state).sym_codespace "z" 0,
    sym_functors :=
      sym_set_value (compile_init sample_host static_state).sym_functors "z" 0 }

/-- The state `zero_bound_state` after `g .functor OR, 0, z[0];`. -/
def zero_bound_wired : vvp_state :=
  (compile_functor "g" "OR" 0 [⟨"z", 0⟩] zero_bound_state).getD zero_bound_state

/-- The links an input loop makes, in the order it makes them: for every input from
index `idx` on whose source label is defined in the functor table `t`, the destination
ipoint `dst idx` paired with the source ipoint. -/
def input_links (t : symbol_table_t) (dst : Nat → Nat) : Nat → List symb_s → List (Nat × Nat)
  | _, [] => []
  | idx, a :: rest =>
    if sym_get_value t a.text ≠ 0 then
      (dst idx, ipoint_index (sym_get_value t a.text) a.idx) ::
        input_links t dst (idx + 1) rest
    else input_links t dst (idx + 1) rest

/-- The links the first loop of `compile_cleanup` makes over a list of deferred
entries, in the order it makes them: for every entry whose source label is defined in
the functor table `t`, the ipoint of the entry paired with the source ipoint. -/
def deferred_links (t : symbol_table_t) : List resolv_list_s → List (Nat × Nat)
  | [] => []
  | e :: rest =>
    if sym_get_value t e.source ≠ 0 then
      (e.port, ipoint_index (sym_get_value t e.source) e.idx) :: deferred_links t rest
    else deferred_links t rest

/-- The destinations of the links of `L` whose source addresses functor number `n`. -/
def linked_to (L : List (Nat × Nat)) (n : Nat) : List Nat :=
  (L.filter fun e => e.2 / 4 = n).map Prod.fst

/-- The indices, counted from `k`, of the inputs in the list that name bit `i` of their
source. -/
def inputs_on (i : Nat) : Nat → List symb_s → List Nat
  | _, [] => []
  | k, a :: rest =>
    if a.idx = i then k :: inputs_on i (k + 1) rest else inputs_on i (k + 1) rest

/-- Modelled from the spec: the storage of an instruction record that a slot type is
written to. `OA_BIT1` has `bit_idx1` (1) and `OA_BIT2` has `bit_idx2` (2) to itself;
`OA_NUMBER`, `OA_CODE_PTR` and `OA_FUNC_PTR` count as one storage (3), whatever `codes.h`
makes of `number`, `cptr` and `iptr`; `OA_NONE` writes nothing (0). -/
def slot_storage (t : operand_e) : Nat :=
  match t with
  | OA_NONE => 0
  | OA_BIT1 => 1
  | OA_BIT2 => 2
  | OA_NUMBER => 3
  | OA_CODE_PTR => 3
  | OA_FUNC_PTR => 3

/-- Modelled from the spec: the pins of the objects of a netlist. `pins a b` is the
link that object `a` holds for its pin `b`. The members `node_` and `pin_` are private
to `Link`, the owner is the one that sets them (`they point back to the NetNode`), and a
link cannot be copied or assigned: every link points back to its owner and carries its
own pin index. -/
def pins_of_nodes (pins : Nat → Nat → Link) : Prop :=
  ∀ a b, (pins a b).node_ = a ∧ (pins a b).pin_ = b

/-- Pins named as the bits of a vector `w`: pin `b` of every object has the
vector-instance index `b`. -/
def vector_pins (a b : Nat) : Link := ⟨a, b, .PASSIVE, "w", b, 0, 0⟩

/-- The entries an input loop defers, in input order: for every input from index `idx`
on whose source label is not defined in the functor table `t`, the entry with the
destination ipoint `dst idx`, the source label and the bit index. -/
def input_deferred (t : symbol_table_t) (dst : Nat → Nat) :
    Nat → List symb_s → List resolv_list_s
  | _, [] => []
  | idx, a :: rest =>
    if sym_get_value t a.text ≠ 0 then input_deferred t dst (idx + 1) rest
    else ⟨dst idx, a.text, a.idx⟩ :: input_deferred t dst (idx + 1) rest

/-! ## The opcode table is sorted and `bsearch` finds exactly its mnemonics -/

theorem strcmp_chars_eq_zero : ∀ a b : List Char, strcmp_chars a b = 0 ↔ a = b
  | [], [] => by simp [strcmp_chars]
  | [], _ :: _ => by simp [strcmp_chars]
  | _ :: _, [] => by simp [strcmp_chars]
  | a :: as, b :: bs => by
    by_cases hab : a = b
    · subst hab
      simp [strcmp_chars, strcmp_chars_eq_zero as bs]
    · by_cases hlt : a.toNat < b.toNat <;> simp [strcmp_chars, hab, hlt]

theorem strcmp_chars_trans : ∀ a b c : List Char,
    strcmp_chars a b < 0 → strcmp_chars b c < 0 → strcmp_chars a c < 0
  | [], [], [] => by intro h1 _; simp [strcmp_chars] at h1
  | [], _ :: _, [] => by intro _ h2; simp [strcmp_chars] at h2
  | [], _, _ :: _ => by intro _ _; simp [strcmp_chars]
  | _ :: _, [], _ => by intro h1 _; simp [strcmp_chars] at h1
  | _ :: _, _ :: _, [] => by intro _ h2; simp [strcmp_chars] at h2
  | a :: as, b :: bs, c :: cs => by
    intro h1 h2
    by_cases hab : a = b
    · subst hab
      by_cases hac : a = c
      · subst hac
        simp only [strcmp_chars, if_true] at h1 h2 ⊢
        exact strcmp_chars_trans as bs cs h1 h2
      · simp only [strcmp_chars, hac, if_false] at h2 ⊢
        exact h2
    · by_cases hbc : b = c
      · subst hbc
        simp only [strcmp_chars, hab, if_false] at h1 ⊢
        exact h1
      · have hl1 : a.toNat < b.toNat := by
          by_contra hn
          simp [strcmp_chars, hab, hn] at h1
        have hl2 : b.toNat < c.toNat := by
          by_contra hn
          simp [strcmp_chars, hbc, hn] at h2
        have hl3 : a.toNat < c.toNat := Nat.lt_trans hl1 hl2
        have hac : a ≠ c := by
          intro h
          subst h
          exact Nat.lt_irrefl _ hl3
        simp [strcmp_chars, hac, hl3]

theorem strcmp_eq_zero (a b : String) : strcmp a b = 0 ↔ a = b := by
  unfold strcmp
  rw [strcmp_chars_eq_zero]
  constructor
  · intro h
    exact String.ext h
  · intro h
    rw [h]

theorem strcmp_trans (a b c : String) (h1 : strcmp a b < 0) (h2 : strcmp b c < 0) :
    strcmp a c < 0 :=
  strcmp_chars_trans _ _ _ h1 h2

/-- The binary search over a range in which the comparison results are monotone:
it ends, and it finds an element comparing equal exactly when there is one. -/
theorem bsearch_loop_spec {α : Type} (compar : α → Option Int) (base : List α) (n : Nat)
    (cmp : Nat → Int)
    (hdef : ∀ i, i < n → ∃ p, base[i]? = some p ∧ compar p = some (cmp i))
    (hmono : ∀ i j, i < j → j < n → cmp i ≤ 0 → cmp j < 0) :
    ∀ fuel l u, u ≤ n → u - l < fuel →
      (∀ i, i < n → cmp i = 0 → l ≤ i ∧ i < u) →
      (∃ i p, i < n ∧ cmp i = 0 ∧ base[i]? = some p ∧
          bsearch_loop compar base fuel l u = some (some p)) ∨
        ((∀ i, i < n → cmp i ≠ 0) ∧ bsearch_loop compar base fuel l u = some none) := by
  intro fuel
  induction fuel with
  | zero => intro l u _ h; omega
  | succ fuel ih =>
    intro l u hu hfuel hinv
    unfold bsearch_loop
    by_cases hlu : l < u
    · simp only [hlu, if_true]
      have hidx : (l + u) / 2 < n := by omega
      obtain ⟨p, hp, hc⟩ := hdef _ hidx
      simp only [hp, hc]
      by_cases hneg : cmp ((l + u) / 2) < 0
      · simp only [hneg, if_true]
        apply ih l ((l + u) / 2) (by omega) (by omega)
        intro i hi hz
        obtain ⟨h1, h2⟩ := hinv i hi hz
        refine ⟨h1, ?_⟩
        by_contra hge
        have hle : (l + u) / 2 ≤ i := by omega
        rcases Nat.eq_or_lt_of_le hle with heq | hlt
        · rw [← heq] at hz; omega
        · have := hmono _ _ hlt hi (by omega)
          omega
      · simp only [hneg, if_false]
        by_cases hpos : cmp ((l + u) / 2) > 0
        · simp only [hpos, if_true]
          apply ih ((l + u) / 2 + 1) u hu (by omega)
          intro i hi hz
          obtain ⟨h1, h2⟩ := hinv i hi hz
          refine ⟨?_, h2⟩
          by_contra hge
          have hle : i ≤ (l + u) / 2 := by omega
          rcases Nat.eq_or_lt_of_le hle with heq | hlt
          · rw [heq] at hz; omega
          · have := hmono _ _ hlt hidx (by omega)
            omega
        · simp only [hpos, if_false]
          left
          exact ⟨_, p, hidx, by omega, hp, rfl⟩
    · simp only [hlu, if_false]
      right
      refine ⟨?_, by simp⟩
      intro i hi hz
      have := hinv i hi hz
      omega

set_option maxRecDepth 100000 in
theorem opcode_table_sorted : (opcode_table.take 24).Pairwise mnemonic_lt := by decide

theorem count_opcodes_table : count_opcodes opcode_table 0 = 24 := by decide

/-- The search of a table whose first `n` rows carry mnemonics in strictly increasing
order: it faults on no key, and it returns a row exactly when that row is one of the
first `n` and carries the key. -/
theorem bsearch_sorted_table (tbl : List opcode_table_s) (n : Nat) (hn : n ≤ tbl.length)
    (hsome : ∀ r ∈ tbl.take n, r.mnemonic.isSome = true)
    (hsorted : (tbl.take n).Pairwise mnemonic_lt) (mnem : String) :
    bsearch mnem tbl n opcode_compare ≠ none ∧
    ∀ op, bsearch mnem tbl n opcode_compare = some (some op) ↔
      (op ∈ tbl.take n ∧ op.mnemonic = some mnem) := by
  have hlen : (tbl.take n).length = n := by simp [hn]
  -- the row at an index below `n`
  have hrow : ∀ i, i < n → ∃ r m, tbl[i]? = some r ∧ r ∈ tbl.take n ∧ r.mnemonic = some m := by
    intro i hi
    have hi2 : i < tbl.length := by omega
    have hmem : tbl[i] ∈ tbl.take n := by
      rw [List.mem_iff_getElem]
      exact ⟨i, by omega, by simp [List.getElem_take]⟩
    have h1 := hsome _ hmem
    obtain ⟨m, hm⟩ := Option.isSome_iff_exists.mp h1
    exact ⟨tbl[i], m, by simp [hi2], hmem, hm⟩
  have hlt : ∀ i j, i < j → j < n → ∀ r r2, tbl[i]? = some r → tbl[j]? = some r2 →
      mnemonic_lt r r2 := by
    intro i j hij hj r r2 hr hr2
    have h := List.pairwise_iff_getElem.mp hsorted i j (by omega) (by omega) hij
    have e1 : (tbl.take n)[i]? = some r := by
      rw [List.getElem?_take]; simp [show i < n by omega, hr]
    have e2 : (tbl.take n)[j]? = some r2 := by
      rw [List.getElem?_take]; simp [hj, hr2]
    have e1b := List.getElem?_eq_getElem (show i < (tbl.take n).length by omega)
    have e2b := List.getElem?_eq_getElem (show j < (tbl.take n).length by omega)
    rw [e1] at e1b; rw [e2] at e2b
    cases e1b; cases e2b
    exact h
  let cmp : Nat → Int := fun i =>
    match tbl[i]? with
    | some r => (match r.mnemonic with | some m => strcmp mnem m | none => 0)
    | none => 0
  have hcmp : ∀ i r m, tbl[i]? = some r → r.mnemonic = some m → cmp i = strcmp mnem m := by
    intro i r m hr hm
    simp only [cmp, hr, hm]
  have hdef : ∀ i, i < n → ∃ p, tbl[i]? = some p ∧ opcode_compare mnem p = some (cmp i) := by
    intro i hi
    obtain ⟨r, m, hr, _, hm⟩ := hrow i hi
    refine ⟨r, hr, ?_⟩
    rw [hcmp i r m hr hm]
    simp [opcode_compare, hm]
  have hmono : ∀ i j, i < j → j < n → cmp i ≤ 0 → cmp j < 0 := by
    intro i j hij hj hle
    obtain ⟨r, m, hr, _, hm⟩ := hrow i (by omega)
    obtain ⟨r2, m2, hr2, _, hm2⟩ := hrow j hj
    have h := hlt i j hij hj r r2 hr hr2
    simp only [mnemonic_lt, hm, hm2] at h
    rw [hcmp i r m hr hm] at hle
    rw [hcmp j r2 m2 hr2 hm2]
    rcases lt_or_eq_of_le hle with h1 | h1
    · exact strcmp_trans _ _ _ h1 h
    · rw [(strcmp_eq_zero _ _).mp h1]; exact h
  have hspec := bsearch_loop_spec (opcode_compare mnem) tbl n cmp hdef hmono (n + 1) 0 n
    (Nat.le_refl _) (by omega) (fun i hi _ => ⟨Nat.zero_le _, hi⟩)
  have hfind : ∀ i r, i < n → tbl[i]? = some r → cmp i = 0 → r.mnemonic = some mnem := by
    intro i r hi hr hz
    obtain ⟨r2, m, hr2, _, hm⟩ := hrow i hi
    rw [hr] at hr2; cases hr2
    rw [hcmp i r m hr hm] at hz
    rw [hm, (strcmp_eq_zero _ _).mp hz]
  unfold bsearch
  rcases hspec with ⟨i, p, hi, hz, hp, hres⟩ | ⟨hnone, hres⟩
  · rw [hres]
    refine ⟨by simp, ?_⟩
    intro op
    have hpm := hfind i p hi hp hz
    have hpmem : p ∈ tbl.take n := by
      obtain ⟨r2, m, hr2, hmem, _⟩ := hrow i hi
      rw [hp] at hr2; cases hr2; exact hmem
    constructor
    · intro h
      cases h
      exact ⟨hpmem, hpm⟩
    · rintro ⟨hmem, hm⟩
      obtain ⟨j, hj, hjop⟩ := List.mem_iff_getElem.mp hmem
      rw [hlen] at hj
      have hjop2 : tbl[j]? = some op := by
        have : (tbl.take n)[j]? = some op := by
          rw [List.getElem?_eq_getElem (by omega), hjop]
        rw [List.getElem?_take] at this
        simpa [hj] using this
      have hij : i = j := by
        rcases Nat.lt_trichotomy i j with h | h | h
        · have := hlt i j h hj p op hp hjop2
          simp only [mnemonic_lt, hpm, hm] at this
          have h0 := (strcmp_eq_zero mnem mnem).mpr rfl
          omega
        · exact h
        · have := hlt j i h hi op p hjop2 hp
          simp only [mnemonic_lt, hpm, hm] at this
          have h0 := (strcmp_eq_zero mnem mnem).mpr rfl
          omega
      subst hij
      rw [hp] at hjop2
      cases hjop2
      rfl
  · rw [hres]
    refine ⟨by simp, ?_⟩
    intro op
    constructor
    · intro h; cases h
    · rintro ⟨hmem, hm⟩
      exfalso
      obtain ⟨j, hj, hjop⟩ := List.mem_iff_getElem.mp hmem
      rw [hlen] at hj
      have hjop2 : tbl[j]? = some op := by
        have : (tbl.take n)[j]? = some op := by
          rw [List.getElem?_eq_getElem (by omega), hjop]
        rw [List.getElem?_take] at this
        simpa [hj] using this
      apply hnone j hj
      rw [hcmp j op mnem hjop2 hm]
      exact (strcmp_eq_zero _ _).mpr rfl

theorem opcode_table_split :
    opcode_table = opcode_table.take 24 ++ [⟨none, of_NOOP, 0, [OA_NONE, OA_NONE, OA_NONE]⟩] := by
  decide

/-- With the table counted, the search returns a row exactly when the row is a row of
the table carrying the key. -/
theorem bsearch_opcode_iff (mnem : String) (op : opcode_table_s) :
    bsearch mnem opcode_table 24 opcode_compare = some (some op) ↔
      (op ∈ opcode_table ∧ op.mnemonic = some mnem) := by
  have hs := bsearch_sorted_table opcode_table 24 (by decide) (by decide)
    opcode_table_sorted mnem
  rw [hs.2 op]
  constructor
  · rintro ⟨hmem, hm⟩
    exact ⟨List.mem_of_mem_take hmem, hm⟩
  · rintro ⟨hmem, hm⟩
    refine ⟨?_, hm⟩
    rw [opcode_table_split, List.mem_append] at hmem
    rcases hmem with h | h
    · exact h
    · simp only [List.mem_singleton] at h
      rw [h] at hm
      cases hm

/-- C1: the 24 mnemonics that precede the null sentinel of `opcode_table` are in strictly
increasing `strcmp` order, `compile_init` sets `opcode_count` to 24, and with that count the
binary search of `compile_code` faults on no key and returns a row for a mnemonic string if
and only if that row is a row of the table carrying exactly this mnemonic. -/
theorem opcode_table_search_exact :
    (opcode_table.take 24).Pairwise mnemonic_lt ∧
    (opcode_table.drop 24).map (fun r => r.mnemonic) = [none] ∧
    (∀ (h : vpi_host) (s : vvp_state), (compile_init h s).opcode_count = 24) ∧
    ∀ mnem : String,
      bsearch mnem opcode_table 24 opcode_compare ≠ none ∧
      ∀ op : opcode_table_s,
        bsearch mnem opcode_table 24 opcode_compare = some (some op) ↔
          (op ∈ opcode_table ∧ op.mnemonic = some mnem) :=
  ⟨opcode_table_sorted, by decide, fun _ _ => count_opcodes_table, fun mnem =>
    ⟨(bsearch_sorted_table opcode_table 24 (by decide) (by decide)
        opcode_table_sorted mnem).1,
      bsearch_opcode_iff mnem⟩⟩

/-! ## Fan-out chains: basic facts -/

theorem ipoint_eq_iff (p q : Nat) : (p / 4 = q / 4 ∧ p % 4 = q % 4) ↔ p = q := by
  constructor
  · rintro ⟨h1, h2⟩; omega
  · intro h; subst h; exact ⟨rfl, rfl⟩

theorem chain_link_splice (q t : Nat) (s : vvp_state) (p : Nat) :
    chain_link (splice q t s) p = if p = q then (s.functors (t / 4)).out else chain_link s p := by
  unfold chain_link splice functor_index functor_update ipoint_port
  by_cases hpq : p = q
  · subst hpq
    by_cases h1 : p / 4 = t / 4 <;> simp [h1]
  · have hne : ¬ (p / 4 = q / 4 ∧ p % 4 = q % 4) := fun h => hpq ((ipoint_eq_iff p q).mp h)
    by_cases h1 : p / 4 = t / 4 <;> by_cases h2 : p / 4 = q / 4 <;>
      by_cases h3 : p % 4 = q % 4 <;> simp_all

theorem out_splice (q t : Nat) (s : vvp_state) (n : Nat) :
    ((splice q t s).functors n).out = if n = t / 4 then q else (s.functors n).out := by
  unfold splice functor_index functor_update
  by_cases h1 : n = t / 4 <;> by_cases h2 : n = q / 4 <;> simp_all

theorem chain_from_congr (s s2 : vvp_state) : ∀ (l : List Nat) (p : Nat),
    (∀ x ∈ l, chain_link s2 x = chain_link s x) → chain_from s p l → chain_from s2 p l
  | [], _, _, h => h
  | q :: l, p, hl, h => by
    obtain ⟨h1, h2, h3⟩ := h
    subst h2
    refine ⟨h1, rfl, ?_⟩
    rw [hl q (List.mem_cons_self _ _)]
    exact chain_from_congr s s2 l _ (fun x hx => hl x (List.mem_cons_of_mem _ hx)) h3

theorem chain_from_unique (s : vvp_state) : ∀ (l l2 : List Nat) (p : Nat),
    chain_from s p l → chain_from s p l2 → l = l2
  | [], [], _, _, _ => rfl
  | [], _ :: _, _, h1, h2 => absurd h1 h2.1
  | _ :: _, [], _, h1, h2 => absurd h2 h1.1
  | a :: l, b :: l2, p, h1, h2 => by
    obtain ⟨_, ha, h1⟩ := h1
    obtain ⟨_, hb, h2⟩ := h2
    subst ha; subst hb
    rw [chain_from_unique s l l2 _ h1 h2]

theorem chain_from_not_zero (s : vvp_state) : ∀ (l : List Nat) (p : Nat),
    chain_from s p l → (0 : Nat) ∉ l
  | [], _, _ => by simp
  | q :: l, p, h => by
    obtain ⟨h1, h2, h3⟩ := h
    subst h2
    have := chain_from_not_zero s l _ h3
    simp only [List.mem_cons, not_or]
    exact ⟨fun h => h1 h.symm, this⟩

theorem chain_from_out_chain (s : vvp_state) : ∀ (l : List Nat) (p : Nat),
    chain_from s p l → ∀ fuel, l.length < fuel → out_chain s fuel p = l
  | [], p, h, fuel, hf => by
    cases fuel with
    | zero => rfl
    | succ n => simp only [chain_from] at h; simp [out_chain, h]
  | q :: l, p, h, fuel, hf => by
    obtain ⟨h1, h2, h3⟩ := h
    subst h2
    cases fuel with
    | zero => simp at hf
    | succ n =>
      simp only [out_chain, h1, if_false]
      rw [chain_from_out_chain s l _ h3 n (by simpa using hf)]

theorem chain_from_same_links (s s2 : vvp_state)
    (hport : ∀ n, (s2.functors n).port = (s.functors n).port) (l : List Nat) (p : Nat)
    (h : chain_from s p l) : chain_from s2 p l := by
  apply chain_from_congr s s2 l p _ h
  intro x _
  simp only [chain_link, functor_index, hport]

theorem chains_ok_same_links {s s2 : vvp_state} {B : Nat} {pending : List Nat}
    (hok : chains_ok s B pending)
    (hport : ∀ n, (s2.functors n).port = (s.functors n).port)
    (hout : ∀ n, (s2.functors n).out = (s.functors n).out) : chains_ok s2 B pending := by
  refine ⟨?_, ?_, hok.pending_lt, hok.pending_nodup, ?_⟩
  · intro n
    obtain ⟨l, h1, h2, h3⟩ := hok.chains n
    refine ⟨l, ?_, h2, h3⟩
    rw [hout]
    exact chain_from_same_links s s2 hport l _ h1
  · intro p hp
    have := hok.fresh p hp
    simpa only [chain_link, functor_index, hport] using this
  · intro q hq
    have := hok.pending_null q hq
    simpa only [chain_link, functor_index, hport] using this

theorem chains_ok_mono {s : vvp_state} {B B2 : Nat} {pending : List Nat}
    (hok : chains_ok s B pending) (hB : B ≤ B2) : chains_ok s B2 pending := by
  refine ⟨?_, ?_, ?_, hok.pending_nodup, hok.pending_null⟩
  · intro n
    obtain ⟨l, h1, h2, h3⟩ := hok.chains n
    exact ⟨l, h1, fun p hp => Nat.lt_of_lt_of_le (h2 p hp) hB, h3⟩
  · intro p hp
    exact hok.fresh p (Nat.le_trans hB hp)
  · intro q hq
    exact ⟨Nat.lt_of_lt_of_le (hok.pending_lt q hq).1 hB, (hok.pending_lt q hq).2⟩

/-- Every pending ipoint, and every ipoint at or above the bound, is off every chain. -/
theorem chains_ok_off {s : vvp_state} {B : Nat} {pending : List Nat}
    (hok : chains_ok s B pending) (q : Nat) (hq : q ∈ pending ∨ B ≤ q) :
    ∀ n l, chain_from s (s.functors n).out l → q ∉ l := by
  intro n l hl
  obtain ⟨l2, h1, h2, h3⟩ := hok.chains n
  rw [chain_from_unique s l l2 _ hl h1]
  rcases hq with hq | hq
  · exact h3 q hq
  · intro hmem
    have := h2 q hmem
    omega

/-- The chain of every functor after a splice of a non-null ipoint that lay on no chain. -/
theorem chain_from_splice (q t : Nat) (s : vvp_state) (hq0 : q ≠ 0) (n : Nat) (l : List Nat)
    (h : chain_from s (s.functors n).out l) (hql : q ∉ l) :
    chain_from (splice q t s) ((splice q t s).functors n).out
      (if n = t / 4 then q :: l else l) := by
  have hcongr : ∀ (l2 : List Nat) (p : Nat), q ∉ l2 → chain_from s p l2 →
      chain_from (splice q t s) p l2 := by
    intro l2 p hq2 h2
    apply chain_from_congr s _ l2 p _ h2
    intro x hx
    rw [chain_link_splice]
    have : x ≠ q := fun e => hq2 (e ▸ hx)
    simp [this]
  rw [out_splice]
  by_cases hn : n = t / 4
  · simp only [hn, if_true]
    refine ⟨hq0, rfl, ?_⟩
    rw [chain_link_splice]
    simp only [if_true]
    subst hn
    exact hcongr l _ hql h
  · simp only [hn, if_false]
    exact hcongr l _ hql h

theorem chains_ok_splice {s : vvp_state} {B : Nat} {pending : List Nat} (q t B2 : Nat)
    (hok : chains_ok s B pending) (hq0 : q ≠ 0)
    (hq : ∀ n l, chain_from s (s.functors n).out l → q ∉ l) (hqp : q ∉ pending)
    (hB : B ≤ B2) (hqB : q < B2) : chains_ok (splice q t s) B2 pending := by
  refine ⟨?_, ?_, ?_, hok.pending_nodup, ?_⟩
  rotate_right
  · intro x hx
    rw [chain_link_splice]
    have : x ≠ q := fun e => hqp (e ▸ hx)
    simp only [this, if_false]
    exact hok.pending_null x hx
  · intro n
    obtain ⟨l, h1, h2, h3⟩ := hok.chains n
    refine ⟨_, chain_from_splice q t s hq0 n l h1 (hq n l h1), ?_, ?_⟩
    · intro p hp
      by_cases hn : n = t / 4
      · simp only [hn, if_true, List.mem_cons] at hp
        rcases hp with hp | hp
        · omega
        · exact Nat.lt_of_lt_of_le (h2 p hp) hB
      · simp only [hn, if_false] at hp
        exact Nat.lt_of_lt_of_le (h2 p hp) hB
    · intro x hx hmem
      by_cases hn : n = t / 4
      · simp only [hn, if_true, List.mem_cons] at hmem
        rcases hmem with hmem | hmem
        · exact hqp (hmem ▸ hx)
        · exact h3 x hx hmem
      · simp only [hn, if_false] at hmem
        exact h3 x hx hmem
  · intro p hp
    rw [chain_link_splice]
    have : p ≠ q := by omega
    simp only [this, if_false]
    exact hok.fresh p (Nat.le_trans hB hp)
  · intro x hx
    exact ⟨Nat.lt_of_lt_of_le (hok.pending_lt x hx).1 hB, (hok.pending_lt x hx).2⟩

theorem on_chain_once_splice_new (q t : Nat) (s : vvp_state) (hq0 : q ≠ 0)
    (hex : ∃ l, chain_from s (s.functors (t / 4)).out l)
    (hq : ∀ l, chain_from s (s.functors (t / 4)).out l → q ∉ l) :
    on_chain_once (splice q t s) (t / 4) q := by
  obtain ⟨l, hl⟩ := hex
  have h := chain_from_splice q t s hq0 (t / 4) l hl (hq l hl)
  simp only [if_true] at h
  refine ⟨_, h, ?_⟩
  rw [List.count_cons_self, List.count_eq_zero_of_not_mem (hq l hl)]

theorem on_chain_once_splice_old (q t : Nat) (s : vvp_state) (hq0 : q ≠ 0)
    (hq : ∀ n l, chain_from s (s.functors n).out l → q ∉ l) (n x : Nat)
    (h : on_chain_once s n x) : on_chain_once (splice q t s) n x := by
  obtain ⟨l, hl, hc⟩ := h
  refine ⟨_, chain_from_splice q t s hq0 n l hl (hq n l hl), ?_⟩
  have hxl : x ∈ l := by
    apply List.count_pos_iff.mp
    omega
  have hne : q ≠ x := fun e => hq n l hl (e ▸ hxl)
  by_cases hn : n = t / 4
  · simp only [hn, if_true]
    rw [List.count_cons_of_ne (Ne.symm hne)]
    exact hc
  · simp only [hn, if_false]
    exact hc

/-! ## The linking sites keep the chains well formed -/

theorem chains_ok_cons {s : vvp_state} {B : Nat} {pending : List Nat} (q B2 : Nat)
    (hok : chains_ok s B pending) (hq0 : q ≠ 0) (hqB : B ≤ q) (hB2 : q < B2) :
    chains_ok s B2 (q :: pending) := by
  have hB : B ≤ B2 := by omega
  refine ⟨?_, ?_, ?_, ?_, ?_⟩
  · intro n
    obtain ⟨l, h1, h2, h3⟩ := hok.chains n
    refine ⟨l, h1, fun p hp => Nat.lt_of_lt_of_le (h2 p hp) hB, ?_⟩
    intro x hx hmem
    rcases List.mem_cons.mp hx with hx | hx
    · subst hx
      have := h2 x hmem
      omega
    · exact h3 x hx hmem
  · intro p hp
    exact hok.fresh p (Nat.le_trans hB hp)
  · intro x hx
    rcases List.mem_cons.mp hx with hx | hx
    · subst hx; exact ⟨hB2, hq0⟩
    · exact ⟨Nat.lt_of_lt_of_le (hok.pending_lt x hx).1 hB, (hok.pending_lt x hx).2⟩
  · rw [List.nodup_cons]
    refine ⟨?_, hok.pending_nodup⟩
    intro hmem
    have := (hok.pending_lt q hmem).1
    omega
  · intro x hx
    rcases List.mem_cons.mp hx with hx | hx
    · subst hx; exact hok.fresh x hqB
    · exact hok.pending_null x hx

theorem functor_input_eq_splice (fdx idx : Nat) (a : symb_s) (s : vvp_state)
    (hf4 : fdx % 4 = 0) (hidx : idx < 4) (hdef : sym_get_value s.sym_functors a.text ≠ 0) :
    functor_input fdx idx a s =
      splice (fdx + idx) (ipoint_index (sym_get_value s.sym_functors a.text) a.idx) s := by
  have h1 : (fdx + idx) / 4 = fdx / 4 := by omega
  have h2 : (fdx + idx) % 4 = idx := by omega
  have h3 : ipoint_make fdx idx = fdx + idx := by unfold ipoint_make; omega
  unfold functor_input splice functor_update ipoint_port
  simp only [hdef, ne_eq, not_false_eq_true, if_true, h1, h2, h3]

theorem functor_input_eq_postpone (fdx idx : Nat) (a : symb_s) (s : vvp_state)
    (hf4 : fdx % 4 = 0) (hidx : idx < 4) (hdef : sym_get_value s.sym_functors a.text = 0) :
    functor_input fdx idx a s = postpone_functor_input (fdx + idx) a.text a.idx s := by
  have h3 : ipoint_make fdx idx = fdx + idx := by unfold ipoint_make; omega
  unfold functor_input
  simp [hdef, h3]

theorem functor_input_ok (fdx idx : Nat) (a : symb_s) (s : vvp_state)
    (hf4 : fdx % 4 = 0) (hf0 : fdx ≠ 0) (hidx : idx < 4)
    (hok : chains_ok s (fdx + idx) (s.resolv_list.map fun e => e.port)) :
    chains_ok (functor_input fdx idx a s) (fdx + idx + 1)
      ((functor_input fdx idx a s).resolv_list.map fun e => e.port) := by
  by_cases hdef : sym_get_value s.sym_functors a.text = 0
  · rw [functor_input_eq_postpone fdx idx a s hf4 hidx hdef]
    have h := chains_ok_cons (fdx + idx) (fdx + idx + 1) hok (by omega) (Nat.le_refl _)
      (Nat.lt_succ_self _)
    exact chains_ok_same_links h (fun _ => rfl) (fun _ => rfl)
  · rw [functor_input_eq_splice fdx idx a s hf4 hidx hdef]
    apply chains_ok_splice (fdx + idx) _ (fdx + idx + 1) hok (by omega)
      (chains_ok_off hok _ (Or.inr (Nat.le_refl _))) _ (Nat.le_succ _) (Nat.lt_succ_self _)
    intro hmem
    have := (hok.pending_lt _ hmem).1
    omega

theorem functor_inputs_ok (fdx : Nat) (hf4 : fdx % 4 = 0) (hf0 : fdx ≠ 0) :
    ∀ (argv : List symb_s) (idx : Nat) (s : vvp_state), idx + argv.length ≤ 4 →
      chains_ok s (fdx + idx) (s.resolv_list.map fun e => e.port) →
      chains_ok (functor_inputs fdx idx argv s) (fdx + 4)
        ((functor_inputs fdx idx argv s).resolv_list.map fun e => e.port)
  | [], idx, s, hlen, hok => by
    simp only [functor_inputs]
    exact chains_ok_mono hok (by simp at hlen; omega)
  | a :: rest, idx, s, hlen, hok => by
    simp only [functor_inputs]
    simp only [List.length_cons] at hlen
    apply functor_inputs_ok fdx hf4 hf0 rest (idx + 1) _ (by omega)
    exact functor_input_ok fdx idx a s hf4 hf0 (by omega) hok

/-- The fields of the state that the functor statements leave alone. -/
theorem functor_input_frame (fdx idx : Nat) (a : symb_s) (s : vvp_state) :
    (functor_input fdx idx a s).functor_count = s.functor_count ∧
    (functor_input fdx idx a s).sym_functors = s.sym_functors ∧
    (functor_input fdx idx a s).codes = s.codes ∧
    (functor_input fdx idx a s).code_count = s.code_count ∧
    (functor_input fdx idx a s).cresolv_list = s.cresolv_list ∧
    (functor_input fdx idx a s).sym_codespace = s.sym_codespace ∧
    (functor_input fdx idx a s).opcode_count = s.opcode_count ∧
    (functor_input fdx idx a s).compile_errors = s.compile_errors ∧
    (functor_input fdx idx a s).errout = s.errout := by
  unfold functor_input
  by_cases hdef : sym_get_value s.sym_functors a.text = 0 <;>
    simp [hdef, functor_update, postpone_functor_input]

theorem functor_inputs_frame (fdx : Nat) : ∀ (argv : List symb_s) (idx : Nat) (s : vvp_state),
    (functor_inputs fdx idx argv s).functor_count = s.functor_count ∧
    (functor_inputs fdx idx argv s).sym_functors = s.sym_functors ∧
    (functor_inputs fdx idx argv s).codes = s.codes ∧
    (functor_inputs fdx idx argv s).code_count = s.code_count ∧
    (functor_inputs fdx idx argv s).cresolv_list = s.cresolv_list ∧
    (functor_inputs fdx idx argv s).sym_codespace = s.sym_codespace ∧
    (functor_inputs fdx idx argv s).opcode_count = s.opcode_count ∧
    (functor_inputs fdx idx argv s).compile_errors = s.compile_errors ∧
    (functor_inputs fdx idx argv s).errout = s.errout
  | [], _, s => by simp [functor_inputs]
  | a :: rest, idx, s => by
    simp only [functor_inputs]
    have h1 := functor_inputs_frame fdx rest (idx + 1) (functor_input fdx idx a s)
    have h2 := functor_input_frame fdx idx a s
    obtain ⟨a1, a2, a3, a4, a5, a6, a7, a8, a9⟩ := h1
    obtain ⟨b1, b2, b3, b4, b5, b6, b7, b8, b9⟩ := h2
    exact ⟨a1.trans b1, a2.trans b2, a3.trans b3, a4.trans b4, a5.trans b5, a6.trans b6,
      a7.trans b7, a8.trans b8, a9.trans b9⟩

/-- What `compile_functor` leaves behind, relative to the state after its argument loop. -/
theorem compile_functor_links (label type : String) (init : Nat) (argv : List symb_s)
    (s r : vvp_state) (h : compile_functor label type init argv s = some r) :
    argv.length ≤ 4 ∧
    (∀ n, (r.functors n).port =
      ((functor_inputs (4 * s.functor_count) 0 argv
        { s with functor_count := s.functor_count + 1,
                 sym_functors := sym_set_value s.sym_functors label (4 * s.functor_count) }).functors n).port) ∧
    (∀ n, (r.functors n).out =
      ((functor_inputs (4 * s.functor_count) 0 argv
        { s with functor_count := s.functor_count + 1,
                 sym_functors := sym_set_value s.sym_functors label (4 * s.functor_count) }).functors n).out) ∧
    r.resolv_list = (functor_inputs (4 * s.functor_count) 0 argv
        { s with functor_count := s.functor_count + 1,
                 sym_functors := sym_set_value s.sym_functors label (4 * s.functor_count) }).resolv_list ∧
    r.functor_count = s.functor_count + 1 ∧
    r.sym_functors = sym_set_value s.sym_functors label (4 * s.functor_count) ∧
    r.codes = s.codes ∧ r.code_count = s.code_count ∧ r.cresolv_list = s.cresolv_list ∧
    r.sym_codespace = s.sym_codespace ∧ r.opcode_count = s.opcode_count := by
  unfold compile_functor functor_allocate at h
  simp only at h
  have hfr := functor_inputs_frame (4 * s.functor_count) argv 0
    { s with functor_count := s.functor_count + 1,
             sym_functors := sym_set_value s.sym_functors label (4 * s.functor_count) }
  obtain ⟨b1, b2, b3, b4, b5, b6, b7, _, _⟩ := hfr
  simp only at b1 b2 b3 b4 b5 b6 b7
  split_ifs at h with hl <;> cases h <;>
    refine ⟨hl, fun n => ?_, fun n => ?_, ?_, ?_, ?_, ?_, ?_, ?_, ?_, ?_⟩ <;>
    simp only [functor_update, yyerror, b1, b2, b3, b4, b5, b6, b7] <;>
    (try split) <;> rfl

theorem chains_ok_reset_out {s s2 : vvp_state} {B : Nat} {pending : List Nat} (m : Nat)
    (hok : chains_ok s B pending)
    (hport : ∀ n, (s2.functors n).port = (s.functors n).port)
    (hout : ∀ n, (s2.functors n).out = if n = m then 0 else (s.functors n).out) :
    chains_ok s2 B pending := by
  refine ⟨?_, ?_, hok.pending_lt, hok.pending_nodup, ?_⟩
  rotate_right
  · intro q hq
    have := hok.pending_null q hq
    simpa only [chain_link, functor_index, hport] using this
  · intro n
    rw [hout]
    by_cases hn : n = m
    · simp only [hn, if_true]
      exact ⟨[], rfl, by simp, by simp⟩
    · simp only [hn, if_false]
      obtain ⟨l, h1, h2, h3⟩ := hok.chains n
      exact ⟨l, chain_from_same_links s s2 hport l _ h1, h2, h3⟩
  · intro p hp
    have := hok.fresh p hp
    simpa only [chain_link, functor_index, hport] using this

theorem chains_inv_compile_functor (label type : String) (init : Nat) (argv : List symb_s)
    (s r : vvp_state) (h : compile_functor label type init argv s = some r)
    (hinv : chains_inv s) : chains_inv r := by
  obtain ⟨hl, hp, ho, hr, hc, _⟩ := compile_functor_links label type init argv s r h
  obtain ⟨hpos, hok⟩ := hinv
  refine ⟨by omega, ?_⟩
  rw [hc, hr]
  have h1 : chains_ok
      { s with functor_count := s.functor_count + 1,
               sym_functors := sym_set_value s.sym_functors label (4 * s.functor_count) }
      (4 * s.functor_count + 0) (s.resolv_list.map fun e => e.port) :=
    chains_ok_same_links hok (fun _ => rfl) (fun _ => rfl)
  have h2 := functor_inputs_ok (4 * s.functor_count) (by omega) (by omega) argv 0 _
    (by omega) h1
  have h3 := chains_ok_same_links h2 hp ho
  have e : 4 * (s.functor_count + 1) = 4 * s.functor_count + 4 := by omega
  rw [e]
  exact h3

theorem compile_event_links (label type : String) (argv : List symb_s)
    (s r : vvp_state) (h : compile_event label type argv s = some r) :
    argv.length ≤ 4 ∧
    (∀ n, (r.functors n).port =
      ((functor_inputs (4 * s.functor_count) 0 argv
        { s with functor_count := s.functor_count + 1,
                 sym_functors := sym_set_value s.sym_functors label (4 * s.functor_count) }).functors n).port) ∧
    (∀ n, (r.functors n).out = if n = s.functor_count then 0 else
      ((functor_inputs (4 * s.functor_count) 0 argv
        { s with functor_count := s.functor_count + 1,
                 sym_functors := sym_set_value s.sym_functors label (4 * s.functor_count) }).functors n).out) ∧
    r.resolv_list = (functor_inputs (4 * s.functor_count) 0 argv
        { s with functor_count := s.functor_count + 1,
                 sym_functors := sym_set_value s.sym_functors label (4 * s.functor_count) }).resolv_list ∧
    r.functor_count = s.functor_count + 1 ∧
    r.sym_functors = sym_set_value s.sym_functors label (4 * s.functor_count) ∧
    r.codes = s.codes ∧ r.code_count = s.code_count ∧ r.cresolv_list = s.cresolv_list ∧
    r.sym_codespace = s.sym_codespace ∧ r.opcode_count = s.opcode_count := by
  unfold compile_event functor_allocate at h
  simp only at h
  have hfr := functor_inputs_frame (4 * s.functor_count) argv 0
    { s with functor_count := s.functor_count + 1,
             sym_functors := sym_set_value s.sym_functors label (4 * s.functor_count) }
  obtain ⟨b1, b2, b3, b4, b5, b6, b7, _, _⟩ := hfr
  simp only at b1 b2 b3 b4 b5 b6 b7
  have e4 : 4 * s.functor_count / 4 = s.functor_count := by omega
  split_ifs at h with hl <;> cases h <;>
    refine ⟨hl, fun n => ?_, fun n => ?_, ?_, ?_, ?_, ?_, ?_, ?_, ?_, ?_⟩ <;>
    simp only [functor_update, b1, b2, b3, b4, b5, b6, b7, e4] <;>
    (try split) <;> rfl

theorem chains_inv_compile_event (label type : String) (argv : List symb_s)
    (s r : vvp_state) (h : compile_event label type argv s = some r)
    (hinv : chains_inv s) : chains_inv r := by
  obtain ⟨hl, hp, ho, hr, hc, _⟩ := compile_event_links label type argv s r h
  obtain ⟨hpos, hok⟩ := hinv
  refine ⟨by omega, ?_⟩
  rw [hc, hr]
  have h1 : chains_ok
      { s with functor_count := s.functor_count + 1,
               sym_functors := sym_set_value s.sym_functors label (4 * s.functor_count) }
      (4 * s.functor_count + 0) (s.resolv_list.map fun e => e.port) :=
    chains_ok_same_links hok (fun _ => rfl) (fun _ => rfl)
  have h2 := functor_inputs_ok (4 * s.functor_count) (by omega) (by omega) argv 0 _
    (by omega) h1
  have h3 := chains_ok_reset_out s.functor_count h2 hp ho
  have e : 4 * (s.functor_count + 1) = 4 * s.functor_count + 4 := by omega
  rw [e]
  exact h3

theorem chains_inv_compile_named_event (label name : String) (s : vvp_state)
    (hinv : chains_inv s) : chains_inv (compile_named_event label name s) := by
  obtain ⟨hpos, hok⟩ := hinv
  have e4 : 4 * s.functor_count / 4 = s.functor_count := by omega
  refine ⟨?_, ?_⟩
  · simp only [compile_named_event, functor_allocate, functor_update]; omega
  · have h3 : chains_ok (compile_named_event label name s) (4 * s.functor_count)
        (s.resolv_list.map fun e => e.port) := by
      apply chains_ok_reset_out s.functor_count hok
      · intro n
        simp only [compile_named_event, functor_allocate, functor_update, e4]
        split <;> rfl
      · intro n
        simp only [compile_named_event, functor_allocate, functor_update, e4]
        split <;> rfl
    exact chains_ok_mono h3 (by simp only [compile_named_event, functor_allocate, functor_update]; omega)

theorem event_or_inputs_ok (fdx : Nat) (hf0 : fdx ≠ 0) (pending : List Nat) :
    ∀ (argv : List symb_s) (s r : vvp_state), event_or_inputs fdx argv s = some r →
      event_or_ok s fdx pending →
      event_or_ok r fdx pending ∧ r.resolv_list = s.resolv_list ∧
      r.functor_count = s.functor_count ∧ r.sym_functors = s.sym_functors ∧
      r.codes = s.codes ∧ r.code_count = s.code_count ∧ r.cresolv_list = s.cresolv_list ∧
      r.sym_codespace = s.sym_codespace ∧ r.opcode_count = s.opcode_count
  | [], s, r, h, hok => by
    simp only [event_or_inputs] at h
    cases h
    exact ⟨hok, rfl, rfl, rfl, rfl, rfl, rfl, rfl, rfl⟩
  | a :: rest, s, r, h, hok => by
    simp only [event_or_inputs] at h
    split_ifs at h with h1 h2
    have hstep : event_or_ok
        (functor_update s (ipoint_index (sym_get_value s.sym_functors a.text) a.idx)
          fun fport => { fport with out := fdx }) fdx pending := by
      have hport : ∀ n, ((functor_update s
          (ipoint_index (sym_get_value s.sym_functors a.text) a.idx)
          fun fport => { fport with out := fdx }).functors n).port = (s.functors n).port := by
        intro n
        simp only [functor_update]
        split <;> rfl
      refine ⟨?_, ?_, hok.pending_lt, hok.pending_nodup, ?_⟩
      rotate_right
      · intro q hq
        have := hok.pending_null q hq
        simpa only [chain_link, functor_index, hport] using this
      · intro n
        by_cases hn : n = ipoint_index (sym_get_value s.sym_functors a.text) a.idx / 4
        · refine ⟨[fdx], ?_, ?_, ?_⟩
          · have hout : ((functor_update s
                (ipoint_index (sym_get_value s.sym_functors a.text) a.idx)
                fun fport => { fport with out := fdx }).functors n).out = fdx := by
              simp [functor_update, hn]
            rw [hout]
            refine ⟨hf0, rfl, ?_⟩
            have := hok.fresh fdx (Nat.le_refl _)
            simp only [chain_from]
            simpa only [chain_link, functor_index, hport] using this
          · intro p hp
            simp only [List.mem_singleton] at hp
            omega
          · intro q hq hmem
            simp only [List.mem_singleton] at hmem
            have := (hok.pending_lt q hq).1
            omega
        · obtain ⟨l, c1, c2, c3⟩ := hok.chains n
          refine ⟨l, ?_, c2, c3⟩
          have hout : ((functor_update s
              (ipoint_index (sym_get_value s.sym_functors a.text) a.idx)
              fun fport => { fport with out := fdx }).functors n).out = (s.functors n).out := by
            simp [functor_update, hn]
          rw [hout]
          exact chain_from_same_links s _ hport l _ c1
      · intro p hp
        have := hok.fresh p hp
        simpa only [chain_link, functor_index, hport] using this
    have ih := event_or_inputs_ok fdx hf0 pending rest _ r h hstep
    exact ih

theorem chains_inv_compile_event_or (label : String) (argv : List symb_s)
    (s r : vvp_state) (h : compile_event_or label argv s = some r)
    (hinv : chains_inv s) : chains_inv r := by
  obtain ⟨hpos, hok⟩ := hinv
  unfold compile_event_or functor_allocate at h
  simp only at h
  have e4 : 4 * s.functor_count / 4 = s.functor_count := by omega
  have h0 : chains_ok
      (functor_update
        { s with functor_count := s.functor_count + 1,
                 sym_functors := sym_set_value s.sym_functors label (4 * s.functor_count) }
        (4 * s.functor_count) fun obj =>
          { obj with ival := 0xaa, oval := 2, mode := 2, out := 0,
                     event := some ⟨[], 0xaa, none⟩ })
      (4 * s.functor_count) (s.resolv_list.map fun e => e.port) := by
    apply chains_ok_reset_out s.functor_count hok
    · intro n
      simp only [functor_update, e4]
      split <;> rfl
    · intro n
      simp only [functor_update, e4]
      split <;> rfl
  have h1 : event_or_ok _ (4 * s.functor_count) (s.resolv_list.map fun e => e.port) :=
    ⟨fun n => by
      obtain ⟨l, c1, c2, c3⟩ := h0.chains n
      exact ⟨l, c1, fun p hp => Nat.lt_succ_of_lt (c2 p hp), c3⟩,
     h0.fresh, h0.pending_lt, h0.pending_nodup, h0.pending_null⟩
  obtain ⟨k1, k2, k3, _⟩ := event_or_inputs_ok (4 * s.functor_count) (by omega) _ argv _ r h h1
  refine ⟨by rw [k3]; simp only [functor_update]; omega, ?_⟩
  rw [k2, k3]
  simp only [functor_update]
  refine ⟨?_, ?_, ?_, k1.pending_nodup, k1.pending_null⟩
  · intro n
    obtain ⟨l, c1, c2, c3⟩ := k1.chains n
    exact ⟨l, c1, fun p hp => by have := c2 p hp; omega, c3⟩
  · intro p hp
    exact k1.fresh p (by omega)
  · intro q hq
    have := k1.pending_lt q hq
    exact ⟨by omega, this.2⟩

theorem var_functors_frame (fdx : Nat) : ∀ (n : Nat) (s : vvp_state),
    (∀ m, ((var_functors fdx n s).functors m).port = (s.functors m).port) ∧
    (∀ m, ((var_functors fdx n s).functors m).out = (s.functors m).out) ∧
    (var_functors fdx n s).resolv_list = s.resolv_list ∧
    (var_functors fdx n s).functor_count = s.functor_count ∧
    (var_functors fdx n s).sym_functors = s.sym_functors ∧
    (var_functors fdx n s).codes = s.codes ∧
    (var_functors fdx n s).code_count = s.code_count ∧
    (var_functors fdx n s).cresolv_list = s.cresolv_list ∧
    (var_functors fdx n s).sym_codespace = s.sym_codespace ∧
    (var_functors fdx n s).opcode_count = s.opcode_count ∧
    (var_functors fdx n s).compile_errors = s.compile_errors ∧
    (var_functors fdx n s).errout = s.errout ∧
    (var_functors fdx n s).sym_vpi = s.sym_vpi
  | 0, s => by simp [var_functors]
  | n + 1, s => by
    obtain ⟨a1, a2, a3, a4, a5, a6, a7, a8, a9, a10, a11, a12, a13⟩ := var_functors_frame fdx n s
    simp only [var_functors, functor_update]
    refine ⟨fun m => ?_, fun m => ?_, a3, a4, a5, a6, a7, a8, a9, a10, a11, a12, a13⟩
    · rw [← a1 m]; split <;> rfl
    · rw [← a2 m]; split <;> rfl

theorem chains_inv_compile_variable (h : vpi_host) (label name : String) (msb lsb : Int)
    (sg : Bool) (s : vvp_state) (hinv : chains_inv s) :
    chains_inv (compile_variable h label name msb lsb sg s) := by
  obtain ⟨hpos, hok⟩ := hinv
  obtain ⟨a1, a2, a3, a4, _⟩ := var_functors_frame (4 * s.functor_count) (vector_wid msb lsb)
    { s with functor_count := s.functor_count + vector_wid msb lsb,
             sym_functors := sym_set_value s.sym_functors label (4 * s.functor_count) }
  simp only [compile_variable, functor_allocate, compile_vpi_symbol, chains_inv]
  rw [a3, a4]
  refine ⟨by simp only; omega, ?_⟩
  apply chains_ok_mono (B := 4 * s.functor_count) _ (by simp only; omega)
  exact chains_ok_same_links hok a1 a2

theorem net_input_ok (fdx idx : Nat) (a : symb_s) (s : vvp_state)
    (hf4 : fdx % 4 = 0) (hf0 : fdx ≠ 0)
    (hok : chains_ok s (fdx + 4 * idx) (s.resolv_list.map fun e => e.port)) :
    chains_ok (net_input fdx idx a s) (fdx + 4 * (idx + 1))
      ((net_input fdx idx a s).resolv_list.map fun e => e.port) := by
  have hq : ipoint_index fdx idx = fdx + 4 * idx := by unfold ipoint_index; omega
  have h3 : ipoint_make (fdx + 4 * idx) 0 = fdx + 4 * idx := by unfold ipoint_make; omega
  have h2 : (fdx + 4 * idx) % 4 = 0 := by omega
  by_cases hdef : sym_get_value s.sym_functors a.text = 0
  · have e : net_input fdx idx a s =
        postpone_functor_input (fdx + 4 * idx) a.text a.idx s := by
      unfold net_input
      simp [hdef, hq, h3]
    rw [e]
    have h := chains_ok_cons (fdx + 4 * idx) (fdx + 4 * (idx + 1)) hok (by omega)
      (Nat.le_refl _) (by omega)
    exact chains_ok_same_links h (fun _ => rfl) (fun _ => rfl)
  · have e : net_input fdx idx a s =
        splice (fdx + 4 * idx) (ipoint_index (sym_get_value s.sym_functors a.text) a.idx) s := by
      unfold net_input splice functor_update ipoint_port
      simp only [hdef, ne_eq, not_false_eq_true, if_true, hq, h2]
    rw [e]
    apply chains_ok_splice (fdx + 4 * idx) _ _ hok (by omega)
      (chains_ok_off hok _ (Or.inr (Nat.le_refl _))) _ (by omega) (by omega)
    intro hmem
    have := (hok.pending_lt _ hmem).1
    omega

theorem net_input_frame (fdx idx : Nat) (a : symb_s) (s : vvp_state) :
    (net_input fdx idx a s).functor_count = s.functor_count ∧
    (net_input fdx idx a s).sym_functors = s.sym_functors ∧
    (net_input fdx idx a s).codes = s.codes ∧
    (net_input fdx idx a s).code_count = s.code_count ∧
    (net_input fdx idx a s).cresolv_list = s.cresolv_list ∧
    (net_input fdx idx a s).sym_codespace = s.sym_codespace ∧
    (net_input fdx idx a s).opcode_count = s.opcode_count ∧
    (net_input fdx idx a s).compile_errors = s.compile_errors ∧
    (net_input fdx idx a s).errout = s.errout := by
  unfold net_input
  by_cases hdef : sym_get_value s.sym_functors a.text = 0 <;>
    simp [hdef, functor_update, postpone_functor_input]

theorem net_inputs_ok (fdx : Nat) (hf4 : fdx % 4 = 0) (hf0 : fdx ≠ 0) :
    ∀ (argv : List symb_s) (idx : Nat) (s : vvp_state),
      chains_ok s (fdx + 4 * idx) (s.resolv_list.map fun e => e.port) →
      chains_ok (net_inputs fdx idx argv s) (fdx + 4 * (idx + argv.length))
        ((net_inputs fdx idx argv s).resolv_list.map fun e => e.port)
  | [], idx, s, hok => by simpa [net_inputs] using hok
  | a :: rest, idx, s, hok => by
    simp only [net_inputs, List.length_cons]
    have h := net_inputs_ok fdx hf4 hf0 rest (idx + 1) _ (net_input_ok fdx idx a s hf4 hf0 hok)
    have e : idx + 1 + rest.length = idx + (rest.length + 1) := by omega
    rw [e] at h
    exact h

theorem net_inputs_frame (fdx : Nat) : ∀ (argv : List symb_s) (idx : Nat) (s : vvp_state),
    (net_inputs fdx idx argv s).functor_count = s.functor_count ∧
    (net_inputs fdx idx argv s).sym_functors = s.sym_functors ∧
    (net_inputs fdx idx argv s).codes = s.codes ∧
    (net_inputs fdx idx argv s).code_count = s.code_count ∧
    (net_inputs fdx idx argv s).cresolv_list = s.cresolv_list ∧
    (net_inputs fdx idx argv s).sym_codespace = s.sym_codespace ∧
    (net_inputs fdx idx argv s).opcode_count = s.opcode_count ∧
    (net_inputs fdx idx argv s).compile_errors = s.compile_errors ∧
    (net_inputs fdx idx argv s).errout = s.errout
  | [], _, s => by simp [net_inputs]
  | a :: rest, idx, s => by
    simp only [net_inputs]
    have h1 := net_inputs_frame fdx rest (idx + 1) (net_input fdx idx a s)
    have h2 := net_input_frame fdx idx a s
    obtain ⟨a1, a2, a3, a4, a5, a6, a7, a8, a9⟩ := h1
    obtain ⟨b1, b2, b3, b4, b5, b6, b7, b8, b9⟩ := h2
    exact ⟨a1.trans b1, a2.trans b2, a3.trans b3, a4.trans b4, a5.trans b5, a6.trans b6,
      a7.trans b7, a8.trans b8, a9.trans b9⟩

theorem chains_inv_compile_net (h : vpi_host) (label name : String) (msb lsb : Int)
    (sg : Bool) (argv : List symb_s) (s r : vvp_state)
    (hr : compile_net h label name msb lsb sg argv s = some r) (hinv : chains_inv s) :
    chains_inv r := by
  obtain ⟨hpos, hok⟩ := hinv
  obtain ⟨a1, a2, a3, a4, _⟩ := var_functors_frame (4 * s.functor_count) (vector_wid msb lsb)
    { s with functor_count := s.functor_count + vector_wid msb lsb,
             sym_functors := sym_set_value s.sym_functors label (4 * s.functor_count) }
  unfold compile_net functor_allocate at hr
  simp only at hr
  split_ifs at hr with hlen
  cases hr
  have h1 : chains_ok (var_functors (4 * s.functor_count) (vector_wid msb lsb)
      { s with functor_count := s.functor_count + vector_wid msb lsb,
               sym_functors := sym_set_value s.sym_functors label (4 * s.functor_count) })
      (4 * s.functor_count + 4 * 0)
      ((var_functors (4 * s.functor_count) (vector_wid msb lsb)
      { s with functor_count := s.functor_count + vector_wid msb lsb,
               sym_functors := sym_set_value s.sym_functors label (4 * s.functor_count) }).resolv_list.map
        fun e => e.port) := by
    rw [a3]
    exact chains_ok_same_links hok a1 a2
  have h2 := net_inputs_ok (4 * s.functor_count) (by omega) (by omega) argv 0 _ h1
  obtain ⟨b1, _⟩ := net_inputs_frame (4 * s.functor_count) argv 0
    (var_functors (4 * s.functor_count) (vector_wid msb lsb)
      { s with functor_count := s.functor_count + vector_wid msb lsb,
               sym_functors := sym_set_value s.sym_functors label (4 * s.functor_count) })
  have e : 4 * (s.functor_count + vector_wid msb lsb) =
      4 * s.functor_count + 4 * (0 + argv.length) := by rw [hlen]; omega
  rw [← e] at h2
  have b1b : (net_inputs (4 * s.functor_count) 0 argv
    (var_functors (4 * s.functor_count) (vector_wid msb lsb)
      { s with functor_count := s.functor_count + vector_wid msb lsb,
               sym_functors := sym_set_value s.sym_functors label (4 * s.functor_count) })).functor_count
      = s.functor_count + vector_wid msb lsb := by rw [b1, a4]
  refine ⟨?_, ?_⟩
  · show 1 ≤ (net_inputs _ _ _ _).functor_count
    rw [b1b]; omega
  · show chains_ok _ (4 * (net_inputs _ _ _ _).functor_count) _
    rw [b1b]
    exact chains_ok_same_links h2 (fun _ => rfl) (fun _ => rfl)

/-! ## The instruction statements leave the functor side alone -/

theorem same_functor_side_trans {s r t : vvp_state} (h1 : same_functor_side s r)
    (h2 : same_functor_side r t) : same_functor_side s t := by
  obtain ⟨a1, a2, a3, a4⟩ := h1
  obtain ⟨b1, b2, b3, b4⟩ := h2
  exact ⟨b1.trans a1, b2.trans a2, b3.trans a3, b4.trans a4⟩

theorem chains_inv_same {s r : vvp_state} (h : same_functor_side s r) (hinv : chains_inv s) :
    chains_inv r := by
  obtain ⟨a1, a2, a3, _⟩ := h
  obtain ⟨hpos, hok⟩ := hinv
  refine ⟨by omega, ?_⟩
  rw [a2, a3]
  exact chains_ok_same_links hok (fun n => by rw [a1]) (fun n => by rw [a1])

theorem compile_code_operand_functor_side (op : opcode_table_s) (opa : Option comp_operands_s)
    (ptr idx : Nat) (s r : vvp_state) (h : compile_code_operand op opa ptr idx s = some r) :
    same_functor_side s r := by
  unfold compile_code_operand at h
  repeat' split at h
  all_goals (try dsimp only at h)
  all_goals (try split at h)
  all_goals first
    | (simp only [Option.some.injEq] at h; subst h; exact ⟨rfl, rfl, rfl, rfl⟩)
    | cases h


theorem compile_code_operands_functor_side (op : opcode_table_s)
    (opa : Option comp_operands_s) (ptr : Nat) : ∀ (idxs : List Nat) (s r : vvp_state),
    compile_code_operands op opa ptr idxs s = some r → same_functor_side s r
  | [], s, r, h => by
    simp only [compile_code_operands, Option.some.injEq] at h
    subst h
    exact ⟨rfl, rfl, rfl, rfl⟩
  | idx :: rest, s, r, h => by
    simp only [compile_code_operands] at h
    split at h
    · cases h
    · rename_i s1 h1
      exact same_functor_side_trans (compile_code_operand_functor_side op opa ptr idx s s1 h1)
        (compile_code_operands_functor_side op opa ptr rest s1 r h)

theorem compile_code_functor_side (label : Option String) (mnem : String)
    (opa : Option comp_operands_s) (s r : vvp_state)
    (h : compile_code label mnem opa s = some r) : same_functor_side s r := by
  unfold compile_code codespace_allocate at h
  simp only at h
  split at h
  · cases h
  · simp only [Option.some.injEq] at h
    subst h
    cases label <;> exact ⟨rfl, rfl, rfl, rfl⟩
  · split at h
    · simp only [Option.some.injEq] at h
      subst h
      cases label <;> exact ⟨rfl, rfl, rfl, rfl⟩
    · have := compile_code_operands_functor_side _ _ _ _ _ _ h
      cases label <;> exact this

theorem compile_disable_functor_side (label : Option String) (symb : symb_s)
    (s r : vvp_state) (h : compile_disable label symb s = some r) : same_functor_side s r := by
  unfold compile_disable codespace_allocate at h
  simp only at h
  split at h
  · simp only [Option.some.injEq] at h
    subst h
    cases label <;> exact ⟨rfl, rfl, rfl, rfl⟩
  · cases h

theorem compile_fork_functor_side (label : Option String) (dest scope : symb_s)
    (s r : vvp_state) (h : compile_fork label dest scope s = some r) : same_functor_side s r := by
  unfold compile_fork codespace_allocate at h
  simp only at h
  split at h
  · split at h
    · simp only [Option.some.injEq] at h
      subst h
      cases label <;> exact ⟨rfl, rfl, rfl, rfl⟩
    · cases h
  · cases h

theorem compile_vpi_call_functor_side (h : vpi_host) (label : Option String) (name : String)
    (argv : List Nat) (s : vvp_state) :
    same_functor_side s (compile_vpi_call h label name argv s) := by
  unfold compile_vpi_call codespace_allocate
  simp only
  split <;> cases label <;> exact ⟨rfl, rfl, rfl, rfl⟩

theorem compile_thread_functor_side (h : vpi_host) (start_sym : String) (s : vvp_state) :
    same_functor_side s (compile_thread h start_sym s) := by
  unfold compile_thread
  simp only
  split <;> exact ⟨rfl, rfl, rfl, rfl⟩

/-- Every statement of the text keeps the chains well formed. -/
theorem chains_inv_compile_stmt (h : vpi_host) (st : stmt) (s r : vvp_state)
    (hr : compile_stmt h st s = some r) (hinv : chains_inv s) : chains_inv r := by
  cases st with
  | load_vpi_module name =>
    simp only [compile_stmt, Option.some.injEq] at hr
    subst hr
    exact @chains_inv_same s _ ⟨rfl, rfl, rfl, rfl⟩ hinv
  | functor label type init argv => exact chains_inv_compile_functor _ _ _ _ _ _ hr hinv
  | event label type argv => exact chains_inv_compile_event _ _ _ _ _ hr hinv
  | named_event label name =>
    simp only [compile_stmt, Option.some.injEq] at hr
    subst hr
    exact chains_inv_compile_named_event _ _ _ hinv
  | event_or label argv => exact chains_inv_compile_event_or _ _ _ _ hr hinv
  | code label mnem opa => exact chains_inv_same (compile_code_functor_side _ _ _ _ _ hr) hinv
  | codelabel label =>
    simp only [compile_stmt, Option.some.injEq] at hr
    subst hr
    exact @chains_inv_same s _ ⟨rfl, rfl, rfl, rfl⟩ hinv
  | disable label symb => exact chains_inv_same (compile_disable_functor_side _ _ _ _ hr) hinv
  | fork label dest scope => exact chains_inv_same (compile_fork_functor_side _ _ _ _ _ hr) hinv
  | vpi_call label name argv =>
    simp only [compile_stmt, Option.some.injEq] at hr
    subst hr
    exact chains_inv_same (compile_vpi_call_functor_side _ _ _ _ _) hinv
  | thread start_sym =>
    simp only [compile_stmt, Option.some.injEq] at hr
    subst hr
    exact chains_inv_same (compile_thread_functor_side _ _ _) hinv
  | var label name msb lsb sg =>
    simp only [compile_stmt, Option.some.injEq] at hr
    subst hr
    exact chains_inv_compile_variable _ _ _ _ _ _ _ hinv
  | net label name msb lsb sg argv => exact chains_inv_compile_net _ _ _ _ _ _ _ _ _ hr hinv

theorem chains_inv_compile_text (h : vpi_host) : ∀ (text : List stmt) (s r : vvp_state),
    compile_text h text s = some r → chains_inv s → chains_inv r
  | [], s, r, hr, hinv => by
    simp only [compile_text, Option.some.injEq] at hr
    subst hr
    exact hinv
  | st :: rest, s, r, hr, hinv => by
    simp only [compile_text] at hr
    split at hr
    · cases hr
    · rename_i s1 h1
      exact chains_inv_compile_text h rest s1 r hr (chains_inv_compile_stmt h st s s1 h1 hinv)

theorem chains_inv_compile_init (h : vpi_host) : chains_inv (compile_init h static_state) := by
  refine ⟨Nat.le_refl _, ?_, ?_, ?_, ?_, ?_⟩
  · intro n
    exact ⟨[], rfl, by simp, by simp⟩
  · intro p _
    rfl
  · intro q hq
    simp [compile_init, functor_init, codespace_init, compile_vpi_symbol, static_state] at hq
  · simp [compile_init, functor_init, codespace_init, compile_vpi_symbol, static_state]
  · intro q _
    rfl

/-! ## `compile_cleanup`: the port resolver -/

theorem chains_ok_perm {s : vvp_state} {B : Nat} {pending pending2 : List Nat}
    (hp : pending.Perm pending2) (hok : chains_ok s B pending) : chains_ok s B pending2 := by
  refine ⟨?_, hok.fresh, ?_, hp.nodup_iff.mp hok.pending_nodup,
    fun q hq => hok.pending_null q (hp.mem_iff.mpr hq)⟩
  · intro n
    obtain ⟨l, h1, h2, h3⟩ := hok.chains n
    exact ⟨l, h1, h2, fun q hq => h3 q (hp.mem_iff.mpr hq)⟩
  · intro q hq
    exact hok.pending_lt q (hp.mem_iff.mpr hq)

theorem chains_ok_tail {s : vvp_state} {B q : Nat} {pending : List Nat}
    (hok : chains_ok s B (q :: pending)) : chains_ok s B pending := by
  refine ⟨?_, hok.fresh, ?_, (List.nodup_cons.mp hok.pending_nodup).2,
    fun x hx => hok.pending_null x (List.mem_cons_of_mem _ hx)⟩
  · intro n
    obtain ⟨l, h1, h2, h3⟩ := hok.chains n
    exact ⟨l, h1, h2, fun x hx => h3 x (List.mem_cons_of_mem _ hx)⟩
  · intro x hx
    exact hok.pending_lt x (List.mem_cons_of_mem _ hx)

theorem on_chain_once_same_links {s s2 : vvp_state} {n x : Nat}
    (hport : ∀ n, (s2.functors n).port = (s.functors n).port)
    (hout : ∀ n, (s2.functors n).out = (s.functors n).out)
    (h : on_chain_once s n x) : on_chain_once s2 n x := by
  obtain ⟨l, h1, h2⟩ := h
  refine ⟨l, ?_, h2⟩
  rw [hout]
  exact chain_from_same_links s s2 hport l _ h1

/-- The first loop of `compile_cleanup`: the chains stay well formed, the entries whose
label is still undefined are kept (in reverse order, in front of what was already put
back), every other entry is on the chain of its source exactly once, no ipoint already
on a chain leaves it, and only the links of the resolved entries are written. -/
theorem cleanup_ports_spec (B : Nat) : ∀ (tmp_list : List resolv_list_s) (s : vvp_state),
    chains_ok s B (tmp_list.map (fun e => e.port) ++ s.resolv_list.map fun e => e.port) →
    chains_ok (cleanup_ports tmp_list s) B
      ((cleanup_ports tmp_list s).resolv_list.map fun e => e.port) ∧
    (cleanup_ports tmp_list s).resolv_list =
      (tmp_list.filter fun e => decide (sym_get_value s.sym_functors e.source = 0)).reverse ++
        s.resolv_list ∧
    (cleanup_ports tmp_list s).sym_functors = s.sym_functors ∧
    (cleanup_ports tmp_list s).functor_count = s.functor_count ∧
    same_code_side s (cleanup_ports tmp_list s) ∧
    (cleanup_ports tmp_list s).compile_errors = s.compile_errors ∧
    (cleanup_ports tmp_list s).errout = s.errout ∧
    (∀ e ∈ tmp_list, sym_get_value s.sym_functors e.source ≠ 0 →
      on_chain_once (cleanup_ports tmp_list s)
        (ipoint_index (sym_get_value s.sym_functors e.source) e.idx / 4) e.port) ∧
    (∀ n x, on_chain_once s n x → on_chain_once (cleanup_ports tmp_list s) n x) ∧
    (∀ p, (∀ e ∈ tmp_list, sym_get_value s.sym_functors e.source ≠ 0 → e.port ≠ p) →
      chain_link (cleanup_ports tmp_list s) p = chain_link s p)
  | [], s, hok => by
    have e0 : cleanup_ports [] s = s := rfl
    rw [e0]
    simp only [List.map_nil, List.nil_append] at hok
    refine ⟨hok, by simp, rfl, rfl, ⟨rfl, rfl, rfl, rfl, rfl⟩, rfl, rfl, ?_, fun _ _ h => h,
      fun _ _ => rfl⟩
    intro e he
    cases he
  | res :: tmp_list, s, hok => by
    by_cases hdef : sym_get_value s.sym_functors res.source = 0
    · -- still undefined: the entry goes back on the list
      have e1 : cleanup_ports (res :: tmp_list) s =
          cleanup_ports tmp_list { s with resolv_list := res :: s.resolv_list } := by
        simp [cleanup_ports, hdef]
      have hok1 : chains_ok { s with resolv_list := res :: s.resolv_list } B
          (tmp_list.map (fun e : resolv_list_s => e.port) ++
            (res :: s.resolv_list).map fun e => e.port) := by
        have hp : (List.map (fun e : resolv_list_s => e.port) (res :: tmp_list) ++
            s.resolv_list.map fun e => e.port).Perm
            (tmp_list.map (fun e : resolv_list_s => e.port) ++
              (res.port :: s.resolv_list.map fun e => e.port)) := by
          simp only [List.map_cons, List.cons_append]
          exact List.perm_middle.symm
        exact chains_ok_same_links (chains_ok_perm hp hok) (fun _ => rfl) (fun _ => rfl)
      obtain ⟨a1, a2, a3, a4, a5, a6, a7, a8, a9, a10⟩ := cleanup_ports_spec B tmp_list _ hok1
      rw [e1]
      refine ⟨a1, ?_, a3, a4, a5, a6, a7, ?_, ?_, ?_⟩
      · rw [a2]
        simp [hdef]
      · intro e he hne
        rcases List.mem_cons.mp he with he | he
        · subst he; exact absurd hdef hne
        · exact a8 e he hne
      · intro n x hx
        exact a9 n x (@on_chain_once_same_links s _ n x (fun _ => rfl) (fun _ => rfl) hx)
      · intro p hp
        exact a10 p (fun e he => hp e (List.mem_cons_of_mem _ he))
    · -- defined: the entry is spliced on the chain of its source
      have e1 : cleanup_ports (res :: tmp_list) s =
          cleanup_ports tmp_list
            (splice res.port (ipoint_index (sym_get_value s.sym_functors res.source) res.idx) s) := by
        simp only [cleanup_ports, hdef, ne_eq, not_false_eq_true, if_true]
        rfl
      have hmem : res.port ∈ List.map (fun e => e.port) (res :: tmp_list) ++
          s.resolv_list.map fun e => e.port := by simp
      have hq0 : res.port ≠ 0 := (hok.pending_lt _ hmem).2
      have hoff := chains_ok_off hok res.port (Or.inl hmem)
      have hnd := hok.pending_nodup
      simp only [List.map_cons, List.cons_append] at hok hnd
      have hok1 := chains_ok_splice res.port
        (ipoint_index (sym_get_value s.sym_functors res.source) res.idx) B
        (chains_ok_tail hok) hq0 hoff (List.nodup_cons.mp hnd).1 (Nat.le_refl _)
        (hok.pending_lt _ (List.mem_cons_self _ _)).1
      obtain ⟨a1, a2, a3, a4, a5, a6, a7, a8, a9, a10⟩ := cleanup_ports_spec B tmp_list _ hok1
      rw [e1]
      refine ⟨a1, ?_, a3, a4, a5, a6, a7, ?_, ?_, ?_⟩
      · rw [a2]
        simp [hdef]
        rfl
      · intro e he hne
        rcases List.mem_cons.mp he with he | he
        · subst he
          apply a9
          apply on_chain_once_splice_new _ _ _ hq0
          · obtain ⟨l, h1, _⟩ := hok.chains
              (ipoint_index (sym_get_value s.sym_functors e.source) e.idx / 4)
            exact ⟨l, h1⟩
          · exact fun l hl => hoff _ l hl
        · exact a8 e he hne
      · intro n x hx
        exact a9 n x (on_chain_once_splice_old _ _ _ hq0 hoff n x hx)
      · intro p hp
        rw [a10 p (fun e he => hp e (List.mem_cons_of_mem _ he)), chain_link_splice]
        have : p ≠ res.port := fun h => hp res (List.mem_cons_self _ _) hdef h.symm
        simp [this]

/-! ## `compile_cleanup`: the code-pointer resolver -/

/-- The second loop of `compile_cleanup`: nothing but `cptr` fields, the unresolved list
and the error stream are written; the entries whose label is still undefined are kept
(in reverse order) and reported one by one; the instruction of every other entry (the
entries naming distinct instructions) receives the address of its label. -/
theorem cleanup_codes_spec : ∀ (tmp_clist : List cresolv_list_s) (s : vvp_state),
    same_functor_side s (cleanup_codes tmp_clist s) ∧
    (cleanup_codes tmp_clist s).sym_codespace = s.sym_codespace ∧
    (cleanup_codes tmp_clist s).code_count = s.code_count ∧
    (cleanup_codes tmp_clist s).opcode_count = s.opcode_count ∧
    (cleanup_codes tmp_clist s).compile_errors = s.compile_errors ∧
    (cleanup_codes tmp_clist s).cresolv_list =
      (tmp_clist.filter fun e => decide (sym_get_value s.sym_codespace e.lab = 0)).reverse ++
        s.cresolv_list ∧
    (cleanup_codes tmp_clist s).errout = s.errout ++
      (tmp_clist.filter fun e => decide (sym_get_value s.sym_codespace e.lab = 0)).map
        (fun e => "unresolved code label: " ++ e.lab) ∧
    (∀ n, (∀ e ∈ tmp_clist, sym_get_value s.sym_codespace e.lab ≠ 0 → e.cp ≠ n) →
      (cleanup_codes tmp_clist s).codes n = s.codes n) ∧
    (∀ n, (cleanup_codes tmp_clist s).codes n =
      { s.codes n with cptr := ((cleanup_codes tmp_clist s).codes n).cptr }) ∧
    ((tmp_clist.map fun e => e.cp).Nodup →
      ∀ e ∈ tmp_clist, sym_get_value s.sym_codespace e.lab ≠ 0 →
        ((cleanup_codes tmp_clist s).codes e.cp).cptr = sym_get_value s.sym_codespace e.lab)
  | [], s => by
    have e0 : cleanup_codes [] s = s := rfl
    rw [e0]
    refine ⟨⟨rfl, rfl, rfl, rfl⟩, rfl, rfl, rfl, rfl, by simp, by simp, fun _ _ => rfl,
      fun _ => rfl, ?_⟩
    intro _ e he
    cases he
  | res :: tmp_clist, s => by
    by_cases hdef : sym_get_value s.sym_codespace res.lab = 0
    · have e1 : cleanup_codes (res :: tmp_clist) s =
          cleanup_codes tmp_clist
            { s with errout := s.errout ++ ["unresolved code label: " ++ res.lab],
                     cresolv_list := res :: s.cresolv_list } := by
        simp [cleanup_codes, hdef]
      obtain ⟨a1, a2, a3, a4, a5, a6, a7, a8, a9, a10⟩ := cleanup_codes_spec tmp_clist
        { s with errout := s.errout ++ ["unresolved code label: " ++ res.lab],
                 cresolv_list := res :: s.cresolv_list }
      rw [e1]
      refine ⟨a1, a2, a3, a4, a5, ?_, ?_, ?_, a9, ?_⟩
      · rw [a6]; simp [hdef]
      · rw [a7]; simp [hdef]
      · intro n hn
        exact a8 n (fun e he => hn e (List.mem_cons_of_mem _ he))
      · intro hnd e he hne
        rcases List.mem_cons.mp he with he | he
        · subst he; exact absurd hdef hne
        · exact a10 (List.nodup_cons.mp hnd).2 e he hne
    · have e1 : cleanup_codes (res :: tmp_clist) s =
          cleanup_codes tmp_clist (code_update s res.cp fun code =>
            { code with cptr := sym_get_value s.sym_codespace res.lab }) := by
        simp [cleanup_codes, hdef]
      obtain ⟨a1, a2, a3, a4, a5, a6, a7, a8, a9, a10⟩ := cleanup_codes_spec tmp_clist
        (code_update s res.cp fun code =>
            { code with cptr := sym_get_value s.sym_codespace res.lab })
      rw [e1]
      refine ⟨a1, a2, a3, a4, a5, ?_, ?_, ?_, ?_, ?_⟩
      · rw [a6]; simp [hdef]; rfl
      · rw [a7]; simp [hdef]; rfl
      · intro n hn
        rw [a8 n (fun e he => hn e (List.mem_cons_of_mem _ he))]
        have : n ≠ res.cp := fun h => hn res (List.mem_cons_self _ _) hdef h.symm
        simp [code_update, this]
      · intro n
        rw [a9 n]
        simp only [code_update]
        split <;> rfl
      · intro hnd e he hne
        rcases List.mem_cons.mp he with he | he
        · subst he
          have hnot : e.cp ∉ tmp_clist.map fun e => e.cp := (List.nodup_cons.mp hnd).1
          rw [a8 e.cp]
          · simp [code_update]
          · intro e2 he2 _ heq
            exact hnot (List.mem_map.mpr ⟨e2, he2, heq⟩)
        · exact a10 (List.nodup_cons.mp hnd).2 e he hne

/-! ## `compile_cleanup` on the functor side -/

theorem compile_cleanup_port_spec (s : vvp_state) (hinv : chains_inv s) :
    chains_inv (compile_cleanup s) ∧
    (compile_cleanup s).resolv_list =
      (s.resolv_list.filter fun e => decide (sym_get_value s.sym_functors e.source = 0)).reverse ∧
    (compile_cleanup s).sym_functors = s.sym_functors ∧
    (compile_cleanup s).functor_count = s.functor_count ∧
    (∀ e ∈ s.resolv_list, sym_get_value s.sym_functors e.source ≠ 0 →
      on_chain_once (compile_cleanup s)
        (ipoint_index (sym_get_value s.sym_functors e.source) e.idx / 4) e.port) ∧
    (∀ n x, on_chain_once s n x → on_chain_once (compile_cleanup s) n x) ∧
    (∀ p, (∀ e ∈ s.resolv_list, sym_get_value s.sym_functors e.source ≠ 0 → e.port ≠ p) →
      chain_link (compile_cleanup s) p = chain_link s p) := by
  obtain ⟨hpos, hok⟩ := hinv
  have hok0 : chains_ok { s with resolv_list := [] } (4 * s.functor_count)
      (s.resolv_list.map (fun e => e.port) ++
        ([] : List resolv_list_s).map fun e => e.port) := by
    simp only [List.map_nil, List.append_nil]
    exact chains_ok_same_links hok (fun _ => rfl) (fun _ => rfl)
  obtain ⟨a1, a2, a3, a4, _, _, _, a8, a9, a10⟩ :=
    cleanup_ports_spec (4 * s.functor_count) s.resolv_list { s with resolv_list := [] } hok0
  obtain ⟨⟨b1, b2, b3, b4⟩, _⟩ := cleanup_codes_spec
    (cleanup_ports s.resolv_list { s with resolv_list := [] }).cresolv_list
    { cleanup_ports s.resolv_list { s with resolv_list := [] } with cresolv_list := [] }
  have e : compile_cleanup s = cleanup_codes
    (cleanup_ports s.resolv_list { s with resolv_list := [] }).cresolv_list
    { cleanup_ports s.resolv_list { s with resolv_list := [] } with cresolv_list := [] } := rfl
  rw [e]
  have hport : ∀ n, ((cleanup_codes
      (cleanup_ports s.resolv_list { s with resolv_list := [] }).cresolv_list
      { cleanup_ports s.resolv_list { s with resolv_list := [] } with
        cresolv_list := [] }).functors n).port =
      ((cleanup_ports s.resolv_list { s with resolv_list := [] }).functors n).port := by
    intro n; rw [b1]
  have hout : ∀ n, ((cleanup_codes
      (cleanup_ports s.resolv_list { s with resolv_list := [] }).cresolv_list
      { cleanup_ports s.resolv_list { s with resolv_list := [] } with
        cresolv_list := [] }).functors n).out =
      ((cleanup_ports s.resolv_list { s with resolv_list := [] }).functors n).out := by
    intro n; rw [b1]
  refine ⟨⟨?_, ?_⟩, ?_, ?_, ?_, ?_, ?_, ?_⟩
  · rw [b2]; show 1 ≤ (cleanup_ports _ _).functor_count; rw [a4]; exact hpos
  · rw [b2, b3]
    show chains_ok _ (4 * (cleanup_ports _ _).functor_count)
      ((cleanup_ports _ _).resolv_list.map fun e => e.port)
    rw [a4]
    exact chains_ok_same_links a1 hport hout
  · rw [b3]
    show (cleanup_ports _ _).resolv_list = _
    rw [a2]
    simp
  · rw [b4]; exact a3
  · rw [b2]; exact a4
  · intro e he hne
    exact on_chain_once_same_links hport hout (a8 e he hne)
  · intro n x hx
    exact on_chain_once_same_links hport hout
      (a9 n x (@on_chain_once_same_links s _ n x (fun _ => rfl) (fun _ => rfl) hx))
  · intro p hp
    have := a10 p hp
    simp only [chain_link, functor_index] at this ⊢
    rw [b1]
    exact this

/-- Every sequence of calls keeps the chains well formed. -/
theorem chains_inv_assembler_calls (h : vpi_host) :
    ∀ (calls : List assembler_call) (s r : vvp_state),
    assembler_calls h calls s = some r → chains_inv s → chains_inv r
  | [], s, r, hr, hinv => by
    simp only [assembler_calls, Option.some.injEq] at hr
    subst hr
    exact hinv
  | .statement st :: rest, s, r, hr, hinv => by
    simp only [assembler_calls] at hr
    split at hr
    · cases hr
    · rename_i s1 h1
      exact chains_inv_assembler_calls h rest s1 r hr
        (chains_inv_compile_stmt h st s s1 h1 hinv)
  | .cleanup :: rest, s, r, hr, hinv => by
    simp only [assembler_calls] at hr
    exact chains_inv_assembler_calls h rest _ r hr (compile_cleanup_port_spec s hinv).1

/-- C2: in every state the assembler reaches from `compile_init` by statements of the text
(and earlier cleanups), a functor input `(F,k)` that was postponed (an entry of
`resolv_list`) and whose source label is defined when `compile_cleanup` runs is, after
`compile_cleanup`, exactly once on the out chain of the source functor it addresses (the
chain from `out` along the `port[]` links to the null ipoint), and neither the entry nor
any other entry for the same ipoint is left on the unresolved list. -/
theorem deferred_port_linked_by_cleanup (h : vpi_host) (calls : List assembler_call)
    (s : vvp_state)
    (hs : assembler_calls h calls (compile_init h static_state) = some s)
    (e : resolv_list_s) (he : e ∈ s.resolv_list)
    (hdef : sym_get_value s.sym_functors e.source ≠ 0) :
    (∃ l, chain_from (compile_cleanup s)
        (functor_index (compile_cleanup s)
          (ipoint_index (sym_get_value s.sym_functors e.source) e.idx)).out l ∧
      l.count e.port = 1) ∧
    e ∉ (compile_cleanup s).resolv_list ∧
    ∀ e2 ∈ (compile_cleanup s).resolv_list, e2.port ≠ e.port := by
  have hinv := chains_inv_assembler_calls h calls _ s hs (chains_inv_compile_init h)
  obtain ⟨_, a2, _, _, a5, _, _⟩ := compile_cleanup_port_spec s hinv
  refine ⟨a5 e he hdef, ?_, ?_⟩
  · rw [a2]
    intro hmem
    have := (List.mem_filter.mp (List.mem_reverse.mp hmem)).2
    simp only [decide_eq_true_eq] at this
    exact hdef this
  · intro e2 he2 heq
    rw [a2] at he2
    obtain ⟨hm2, hu2⟩ := List.mem_filter.mp (List.mem_reverse.mp he2)
    simp only [decide_eq_true_eq] at hu2
    have hnd := hinv.2.pending_nodup
    have : e2 = e := List.inj_on_of_nodup_map hnd hm2 he heq
    subst this
    exact hdef hu2

set_option maxRecDepth 100000 in
/-- Scenario S4 as an instance of C2: after `f1` (AND, inputs `f2[0]`, `f2[0]`) and then
`f2` (OR), both inputs of `f1` are pending on the defined label `f2`; after cleanup the
out chain of `f2` is exactly the ipoints `(f1,0)`, `(f1,1)` and nothing is left pending. -/
theorem deferred_port_linked_S4 :
    ∃ s, assembler_calls sample_host (S4_text.map .statement)
        (compile_init sample_host static_state) = some s ∧
      s.resolv_list = [⟨5, "f2", 0⟩, ⟨4, "f2", 0⟩] ∧
      sym_get_value s.sym_functors "f2" = 8 ∧
      chain_from (compile_cleanup s) ((compile_cleanup s).functors 2).out [4, 5] ∧
      (compile_cleanup s).resolv_list = [] ∧
      ((∃ l, chain_from (compile_cleanup s)
          (functor_index (compile_cleanup s)
            (ipoint_index (sym_get_value s.sym_functors "f2") 0)).out l ∧
        l.count 4 = 1) ∧
      (⟨4, "f2", 0⟩ : resolv_list_s) ∉ (compile_cleanup s).resolv_list ∧
      ∀ e2 ∈ (compile_cleanup s).resolv_list, e2.port ≠ 4) :=
  ⟨_, rfl, by decide, by decide, by decide, by decide,
    deferred_port_linked_by_cleanup sample_host (S4_text.map .statement) _ rfl ⟨4, "f2", 0⟩ (by decide)
      (by decide)⟩

/-! ## `compile_code`: the operand loop -/

/-- What one slot of the operand loop leaves alone. -/
theorem compile_code_operand_code_side (op : opcode_table_s) (opa : Option comp_operands_s)
    (ptr idx : Nat) (s r : vvp_state) (h : compile_code_operand op opa ptr idx s = some r) :
    r.sym_codespace = s.sym_codespace ∧ r.code_count = s.code_count ∧
    r.opcode_count = s.opcode_count ∧ r.sym_vpi = s.sym_vpi ∧ r.scheduled = s.scheduled ∧
    r.modules = s.modules ∧
    (∀ n, n ≠ ptr → r.codes n = s.codes n) ∧
    (r.codes ptr).opcode = (s.codes ptr).opcode ∧
    (r.codes ptr).handle = (s.codes ptr).handle ∧
    (r.codes ptr).fork = (s.codes ptr).fork := by
  unfold compile_code_operand at h
  cases ht2 : argt_at op idx <;> simp only [ht2] at h
  case OA_NONE =>
    simp only [Option.some.injEq] at h; subst h
    exact ⟨rfl, rfl, rfl, rfl, rfl, rfl, fun _ _ => rfl, rfl, rfl, rfl⟩
  all_goals
    cases opa with
    | none => simp only at h; cases h
    | some o =>
      simp only at h
      cases harg : o.argv idx <;> simp only [harg] at h
      all_goals (try split at h)
      all_goals (try split at h)
      all_goals first
        | (simp only [Option.some.injEq] at h; subst h
           refine ⟨rfl, rfl, rfl, rfl, rfl, rfl, fun n hn => ?_, ?_, ?_, ?_⟩ <;>
             simp [code_update, yyerror, *])
        | cases h

/-- A slot that is not a code pointer touches neither `cptr` nor the unresolved list. -/
theorem compile_code_operand_not_code_ptr (op : opcode_table_s)
    (opa : Option comp_operands_s) (ptr idx : Nat) (s r : vvp_state)
    (h : compile_code_operand op opa ptr idx s = some r)
    (ht : argt_at op idx ≠ OA_CODE_PTR) :
    r.cresolv_list = s.cresolv_list ∧ (r.codes ptr).cptr = (s.codes ptr).cptr := by
  unfold compile_code_operand at h
  cases ht2 : argt_at op idx <;> simp only [ht2] at h
  case OA_CODE_PTR => exact absurd ht2 ht
  case OA_NONE => simp only [Option.some.injEq] at h; subst h; exact ⟨rfl, rfl⟩
  all_goals
    cases opa with
    | none => simp only at h; cases h
    | some o =>
      simp only at h
      cases harg : o.argv idx <;> simp only [harg] at h
      all_goals (try split at h)
      all_goals
        simp only [Option.some.injEq] at h; subst h
        refine ⟨rfl, ?_⟩
        simp [code_update, yyerror]

/-- A code-pointer slot holding a symbol: the bit index must be 0, `cptr` receives the
lookup of the label, and the instruction is queued exactly when the lookup misses. -/
theorem compile_code_operand_code_ptr (op : opcode_table_s) (o : comp_operands_s)
    (ptr idx : Nat) (sy : symb_s) (s r : vvp_state)
    (h : compile_code_operand op (some o) ptr idx s = some r)
    (ht : argt_at op idx = OA_CODE_PTR) (harg : o.argv idx = .symb sy) :
    sy.idx = 0 ∧ (r.codes ptr).cptr = sym_get_value s.sym_codespace sy.text ∧
    (sym_get_value s.sym_codespace sy.text ≠ 0 → r.cresolv_list = s.cresolv_list) ∧
    (sym_get_value s.sym_codespace sy.text = 0 →
      r.cresolv_list = ⟨ptr, sy.text⟩ :: s.cresolv_list) := by
  unfold compile_code_operand at h
  simp only [ht, harg] at h
  split at h
  · rename_i hz
    split at h
    · rename_i hl
      simp only [Option.some.injEq] at h; subst h
      exact ⟨hz, by simp [code_update], fun hne => absurd hl hne, fun _ => rfl⟩
    · rename_i hl
      simp only [Option.some.injEq] at h; subst h
      exact ⟨hz, by simp [code_update], fun _ => rfl, fun he => absurd he hl⟩
  · cases h

/-- A whole run of the operand loop leaves the rest of the code side alone. -/
theorem compile_code_operands_code_side (op : opcode_table_s) (opa : Option comp_operands_s)
    (ptr : Nat) : ∀ (idxs : List Nat) (s r : vvp_state),
    compile_code_operands op opa ptr idxs s = some r →
    r.sym_codespace = s.sym_codespace ∧ r.code_count = s.code_count ∧
    r.opcode_count = s.opcode_count ∧ r.sym_vpi = s.sym_vpi ∧ r.scheduled = s.scheduled ∧
    r.modules = s.modules ∧
    (∀ n, n ≠ ptr → r.codes n = s.codes n) ∧
    (r.codes ptr).opcode = (s.codes ptr).opcode ∧
    (r.codes ptr).handle = (s.codes ptr).handle ∧
    (r.codes ptr).fork = (s.codes ptr).fork
  | [], s, r, h => by
    simp only [compile_code_operands, Option.some.injEq] at h
    subst h
    exact ⟨rfl, rfl, rfl, rfl, rfl, rfl, fun _ _ => rfl, rfl, rfl, rfl⟩
  | idx :: rest, s, r, h => by
    simp only [compile_code_operands] at h
    split at h
    · cases h
    · rename_i s1 h1
      obtain ⟨a1, a2, a3, a4, a5, a6, a7, a8, a9, a10⟩ :=
        compile_code_operand_code_side op opa ptr idx s s1 h1
      obtain ⟨b1, b2, b3, b4, b5, b6, b7, b8, b9, b10⟩ :=
        compile_code_operands_code_side op opa ptr rest s1 r h
      exact ⟨b1.trans a1, b2.trans a2, b3.trans a3, b4.trans a4, b5.trans a5, b6.trans a6,
        fun n hn => (b7 n hn).trans (a7 n hn), b8.trans a8, b9.trans a9, b10.trans a10⟩

/-- A run of the operand loop over slots none of which is a code pointer. -/
theorem compile_code_operands_no_code_ptr (op : opcode_table_s)
    (opa : Option comp_operands_s) (ptr : Nat) : ∀ (idxs : List Nat) (s r : vvp_state),
    compile_code_operands op opa ptr idxs s = some r →
    (∀ j ∈ idxs, argt_at op j ≠ OA_CODE_PTR) →
    r.cresolv_list = s.cresolv_list ∧ (r.codes ptr).cptr = (s.codes ptr).cptr
  | [], s, r, h, _ => by
    simp only [compile_code_operands, Option.some.injEq] at h
    subst h
    exact ⟨rfl, rfl⟩
  | idx :: rest, s, r, h, hno => by
    simp only [compile_code_operands] at h
    split at h
    · cases h
    · rename_i s1 h1
      obtain ⟨a1, a2⟩ := compile_code_operand_not_code_ptr op opa ptr idx s s1 h1
        (hno idx (List.mem_cons_self _ _))
      obtain ⟨b1, b2⟩ := compile_code_operands_no_code_ptr op opa ptr rest s1 r h
        (fun j hj => hno j (List.mem_cons_of_mem _ hj))
      exact ⟨b1.trans a1, b2.trans a2⟩

theorem code_ptr_slots_cons (op : opcode_table_s) (j : Nat) (idxs : List Nat) :
    code_ptr_slots op (j :: idxs) =
      (if argt_at op j = OA_CODE_PTR then 1 else 0) + code_ptr_slots op idxs := by
  unfold code_ptr_slots
  by_cases h : argt_at op j = OA_CODE_PTR
  · simp [List.filter_cons, h]; omega
  · simp [List.filter_cons, h]

theorem code_ptr_slots_zero (op : opcode_table_s) (idxs : List Nat)
    (h : code_ptr_slots op idxs = 0) : ∀ j ∈ idxs, argt_at op j ≠ OA_CODE_PTR := by
  intro j hj ht
  unfold code_ptr_slots at h
  have : j ∈ idxs.filter fun i => argt_at op i = OA_CODE_PTR := by
    simp [List.mem_filter, hj, ht]
  rw [List.length_eq_zero] at h
  rw [h] at this
  cases this

/-- The unresolved entries a run of the operand loop pushes: all for the instruction
at hand, at most one per code-pointer slot. -/
theorem compile_code_operands_cresolv (op : opcode_table_s) (opa : Option comp_operands_s)
    (ptr : Nat) : ∀ (idxs : List Nat) (s r : vvp_state),
    compile_code_operands op opa ptr idxs s = some r →
    ∃ new, r.cresolv_list = new ++ s.cresolv_list ∧ (∀ e ∈ new, e.cp = ptr) ∧
      new.length ≤ code_ptr_slots op idxs
  | [], s, r, h => by
    simp only [compile_code_operands, Option.some.injEq] at h
    subst h
    exact ⟨[], rfl, by simp, by simp⟩
  | idx :: rest, s, r, h => by
    simp only [compile_code_operands] at h
    split at h
    · cases h
    · rename_i s1 h1
      obtain ⟨new, b1, b2, b3⟩ := compile_code_operands_cresolv op opa ptr rest s1 r h
      rw [code_ptr_slots_cons]
      by_cases ht : argt_at op idx = OA_CODE_PTR
      · simp only [ht, if_true]
        cases opa with
        | none =>
          unfold compile_code_operand at h1
          simp [ht] at h1
        | some o =>
          cases harg : o.argv idx with
          | numb n =>
            unfold compile_code_operand at h1
            simp only [ht, harg, Option.some.injEq] at h1
            subst h1
            exact ⟨new, b1, b2, by omega⟩
          | symb sy =>
            obtain ⟨_, _, c1, c2⟩ := compile_code_operand_code_ptr op o ptr idx sy s s1 h1 ht harg
            by_cases hl : sym_get_value s.sym_codespace sy.text = 0
            · refine ⟨new ++ [⟨ptr, sy.text⟩], ?_, ?_, ?_⟩
              · rw [b1, c2 hl]; simp
              · intro e he
                rcases List.mem_append.mp he with he | he
                · exact b2 e he
                · simp only [List.mem_singleton] at he; subst he; rfl
              · simp; omega
            · exact ⟨new, by rw [b1, c1 hl], b2, by omega⟩
      · simp only [ht, if_false]
        obtain ⟨a1, _⟩ := compile_code_operand_not_code_ptr op opa ptr idx s s1 h1 ht
        exact ⟨new, by rw [b1, a1], b2, by omega⟩

/-- The code-pointer slot of a row with a single such slot, within a run of the operand
loop: `cptr` ends as the lookup of the label, and the instruction is queued exactly when
the lookup misses. -/
theorem compile_code_operands_target (op : opcode_table_s) (o : comp_operands_s)
    (ptr i : Nat) (sy : symb_s) (ht : argt_at op i = OA_CODE_PTR)
    (harg : o.argv i = .symb sy) : ∀ (idxs : List Nat) (s r : vvp_state),
    compile_code_operands op (some o) ptr idxs s = some r → i ∈ idxs →
    code_ptr_slots op idxs ≤ 1 →
    sy.idx = 0 ∧ (r.codes ptr).cptr = sym_get_value s.sym_codespace sy.text ∧
    (sym_get_value s.sym_codespace sy.text ≠ 0 → r.cresolv_list = s.cresolv_list) ∧
    (sym_get_value s.sym_codespace sy.text = 0 →
      r.cresolv_list = ⟨ptr, sy.text⟩ :: s.cresolv_list)
  | [], _, _, _, hi, _ => by cases hi
  | j :: rest, s, r, h, hi, hslots => by
    simp only [compile_code_operands] at h
    split at h
    · cases h
    · rename_i s1 h1
      rw [code_ptr_slots_cons] at hslots
      obtain ⟨e1, _⟩ := compile_code_operand_code_side op (some o) ptr j s s1 h1
      by_cases hj : argt_at op j = OA_CODE_PTR
      · simp only [hj, if_true] at hslots
        have hrest := code_ptr_slots_zero op rest (by omega)
        have hji : j = i := by
          rcases List.mem_cons.mp hi with hi | hi
          · exact hi.symm
          · exact absurd ht (hrest i hi)
        subst hji
        obtain ⟨c0, c1, c2, c3⟩ := compile_code_operand_code_ptr op o ptr j sy s s1 h1 ht harg
        obtain ⟨d1, d2⟩ := compile_code_operands_no_code_ptr op (some o) ptr rest s1 r h hrest
        exact ⟨c0, d2.trans c1, fun hne => d1.trans (c2 hne), fun he => d1.trans (c3 he)⟩
      · simp only [hj, if_false, Nat.zero_add] at hslots
        have hir : i ∈ rest := by
          rcases List.mem_cons.mp hi with hi | hi
          · subst hi; exact absurd ht hj
          · exact hi
        obtain ⟨a1, a2⟩ := compile_code_operand_not_code_ptr op (some o) ptr j s s1 h1 hj
        obtain ⟨c0, c1, c2, c3⟩ :=
          compile_code_operands_target op o ptr i sy ht harg rest s1 r h hir hslots
        rw [e1] at c1 c2 c3
        exact ⟨c0, c1, fun hne => (c2 hne).trans a1, fun he => (c3 he).trans (by rw [a1])⟩

/-! ## The code side of every statement -/

theorem opcode_table_one_code_ptr :
    ∀ op ∈ opcode_table, code_ptr_slots op (List.range op.argc) ≤ 1 := by decide

theorem code_grows_refl (s : vvp_state) : code_grows s s :=
  ⟨Nat.le_refl _, fun _ _ => rfl, [], rfl, by simp⟩

theorem code_grows_trans {s r t : vvp_state} (h1 : code_grows s r) (h2 : code_grows r t) :
    code_grows s t := by
  obtain ⟨a1, a2, new1, a3, a4⟩ := h1
  obtain ⟨b1, b2, new2, b3, b4⟩ := h2
  refine ⟨Nat.le_trans a1 b1, fun n hn => (b2 n (by omega)).trans (a2 n hn),
    new2 ++ new1, by rw [b3, a3, List.append_assoc], ?_⟩
  intro e he
  rcases List.mem_append.mp he with he | he
  · have := b4 e he; omega
  · exact a4 e he

theorem code_side_keeps {s r : vvp_state} (h : same_code_side s r) (hinv : code_inv s) :
    code_inv r ∧ code_grows s r := by
  obtain ⟨a1, a2, a3, _, a5⟩ := h
  obtain ⟨i1, i2, i3⟩ := hinv
  refine ⟨⟨a5.trans i1, ?_, ?_⟩, ?_⟩
  · rw [a3, a2]; exact i2
  · rw [a3]; exact i3
  · exact ⟨by rw [a2], fun n _ => by rw [a1], [], by rw [a3]; rfl, by simp⟩

/-- A statement that allocates one record, writes only that record and queues at most one
unresolved entry, for that record. -/
theorem code_inv_alloc {s r : vvp_state} (hinv : code_inv s)
    (hcount : r.code_count = s.code_count + 1) (hop : r.opcode_count = s.opcode_count)
    (hcodes : ∀ n, n ≠ s.code_count → r.codes n = s.codes n)
    (hnew : ∃ new, r.cresolv_list = new ++ s.cresolv_list ∧
      (∀ e ∈ new, e.cp = s.code_count) ∧ new.length ≤ 1) :
    code_inv r ∧ code_grows s r := by
  obtain ⟨i1, i2, i3⟩ := hinv
  obtain ⟨new, n1, n2, n3⟩ := hnew
  refine ⟨⟨hop.trans i1, ?_, ?_⟩, ?_⟩
  · intro e he
    rw [n1] at he
    rcases List.mem_append.mp he with he | he
    · rw [n2 e he, hcount]; omega
    · have := i2 e he; omega
  · rw [n1, List.map_append, List.nodup_append]
    refine ⟨?_, i3, ?_⟩
    · match new, n3 with
      | [], _ => simp
      | [_], _ => simp
    · intro x hx1 hx2
      obtain ⟨e1, he1, rfl⟩ := List.mem_map.mp hx1
      obtain ⟨e2, he2, heq⟩ := List.mem_map.mp hx2
      have := i2 e2 he2
      rw [n2 e1 he1] at heq
      omega
  · exact ⟨by omega, fun n hn => hcodes n (by omega), new, n1,
      fun e he => by rw [n2 e he]⟩

theorem compile_code_code_inv (label : Option String) (mnem : String)
    (opa : Option comp_operands_s) (s r : vvp_state)
    (h : compile_code label mnem opa s = some r) (hinv : code_inv s) :
    code_inv r ∧ code_grows s r := by
  unfold compile_code codespace_allocate at h
  simp only at h
  have hb : (bind_code_label label s.code_count
      { s with code_count := s.code_count + 1 }).opcode_count = 24 := by
    cases label <;> exact hinv.1
  rw [hb] at h
  split at h
  · cases h
  · simp only [Option.some.injEq] at h
    subst h
    apply code_inv_alloc hinv
    · cases label <;> rfl
    · cases label <;> rfl
    · intro n _; cases label <;> rfl
    · exact ⟨[], by cases label <;> rfl, by simp, by simp⟩
  · rename_i op hop
    have hmem := ((bsearch_opcode_iff mnem op).mp hop).1
    split at h
    · simp only [Option.some.injEq] at h
      subst h
      apply code_inv_alloc hinv
      · cases label <;> rfl
      · cases label <;> rfl
      · intro n hn; cases label <;> simp [yyerror, code_update, bind_code_label, hn]
      · exact ⟨[], by cases label <;> rfl, by simp, by simp⟩
    · obtain ⟨a1, a2, a3, _, _, _, a7, _⟩ := compile_code_operands_code_side _ _ _ _ _ _ h
      obtain ⟨new, b1, b2, b3⟩ := compile_code_operands_cresolv _ _ _ _ _ _ h
      apply code_inv_alloc hinv
      · rw [a2]; cases label <;> rfl
      · rw [a3]; cases label <;> rfl
      · intro n hn
        rw [a7 n hn]
        cases label <;> simp [code_update, bind_code_label, hn]
      · refine ⟨new, ?_, b2, Nat.le_trans b3 (opcode_table_one_code_ptr op hmem)⟩
        rw [b1]
        cases label <;> rfl

theorem event_or_inputs_code_side (fdx : Nat) : ∀ (argv : List symb_s) (s r : vvp_state),
    event_or_inputs fdx argv s = some r → same_code_side s r
  | [], s, r, h => by
    simp only [event_or_inputs, Option.some.injEq] at h
    subst h
    exact ⟨rfl, rfl, rfl, rfl, rfl⟩
  | a :: rest, s, r, h => by
    simp only [event_or_inputs] at h
    split_ifs at h
    obtain ⟨a1, a2, a3, a4, a5⟩ := event_or_inputs_code_side fdx rest _ r h
    exact ⟨a1, a2, a3, a4, a5⟩

theorem compile_stmt_code_side (h : vpi_host) (st : stmt) (s r : vvp_state)
    (hr : compile_stmt h st s = some r) (hl : stmt_label st = none)
    (hc : ∀ label mnem opa, st ≠ .code label mnem opa)
    (hd : ∀ label symb, st ≠ .disable label symb)
    (hf : ∀ label dest scope, st ≠ .fork label dest scope)
    (hv : ∀ label name argv, st ≠ .vpi_call label name argv) : same_code_side s r := by
  cases st with
  | load_vpi_module name =>
    simp only [compile_stmt, Option.some.injEq] at hr
    subst hr
    exact ⟨rfl, rfl, rfl, rfl, rfl⟩
  | functor label type init argv =>
    obtain ⟨_, _, _, _, _, _, a1, a2, a3, a4, a5⟩ := compile_functor_links _ _ _ _ _ _ hr
    exact ⟨a1, a2, a3, a4, a5⟩
  | event label type argv =>
    obtain ⟨_, _, _, _, _, _, a1, a2, a3, a4, a5⟩ := compile_event_links _ _ _ _ _ hr
    exact ⟨a1, a2, a3, a4, a5⟩
  | named_event label name =>
    simp only [compile_stmt, Option.some.injEq] at hr
    subst hr
    exact ⟨rfl, rfl, rfl, rfl, rfl⟩
  | event_or label argv =>
    simp only [compile_stmt, compile_event_or, functor_allocate] at hr
    obtain ⟨a1, a2, a3, a4, a5⟩ := event_or_inputs_code_side _ _ _ _ hr
    exact ⟨a1, a2, a3, a4, a5⟩
  | code label mnem opa => exact absurd rfl (hc label mnem opa)
  | codelabel label => simp [stmt_label] at hl
  | disable label symb => exact absurd rfl (hd label symb)
  | fork label dest scope => exact absurd rfl (hf label dest scope)
  | vpi_call label name argv => exact absurd rfl (hv label name argv)
  | thread start_sym =>
    simp only [compile_stmt, Option.some.injEq] at hr
    subst hr
    unfold compile_thread
    simp only
    split <;> exact ⟨rfl, rfl, rfl, rfl, rfl⟩
  | var label name msb lsb sg =>
    simp only [compile_stmt, Option.some.injEq] at hr
    subst hr
    obtain ⟨_, _, _, _, _, a6, a7, a8, a9, a10, _⟩ :=
      var_functors_frame (4 * s.functor_count) (vector_wid msb lsb)
        { s with functor_count := s.functor_count + vector_wid msb lsb,
                 sym_functors := sym_set_value s.sym_functors label (4 * s.functor_count) }
    exact ⟨a6, a7, a8, a9, a10⟩
  | net label name msb lsb sg argv =>
    simp only [compile_stmt, compile_net, functor_allocate] at hr
    split_ifs at hr
    simp only [Option.some.injEq] at hr
    subst hr
    obtain ⟨_, _, _, _, _, a6, a7, a8, a9, a10, _⟩ :=
      var_functors_frame (4 * s.functor_count) (vector_wid msb lsb)
        { s with functor_count := s.functor_count + vector_wid msb lsb,
                 sym_functors := sym_set_value s.sym_functors label (4 * s.functor_count) }
    obtain ⟨_, _, b3, b4, b5, b6, b7, _⟩ := net_inputs_frame (4 * s.functor_count) argv 0
      (var_functors (4 * s.functor_count) (vector_wid msb lsb)
        { s with functor_count := s.functor_count + vector_wid msb lsb,
                 sym_functors := sym_set_value s.sym_functors label (4 * s.functor_count) })
    exact ⟨b3.trans a6, b4.trans a7, b5.trans a8, b6.trans a9, b7.trans a10⟩

/-- The code-label table after a statement: the binding of the statement's own label, if
it has one, on top of the table before. -/
theorem compile_stmt_sym_codespace (h : vpi_host) (st : stmt) (s r : vvp_state)
    (hr : compile_stmt h st s = some r) :
    r.sym_codespace = (bind_code_label (stmt_label st) s.code_count s).sym_codespace := by
  cases st with
  | code label mnem opa =>
    simp only [compile_stmt, compile_code, codespace_allocate] at hr
    simp only [stmt_label]
    split at hr
    · cases hr
    · simp only [Option.some.injEq] at hr
      subst hr
      cases label <;> rfl
    · split at hr
      · simp only [Option.some.injEq] at hr
        subst hr
        cases label <;> rfl
      · obtain ⟨a1, _⟩ := compile_code_operands_code_side _ _ _ _ _ _ hr
        rw [a1]
        cases label <;> rfl
  | codelabel label =>
    simp only [compile_stmt, Option.some.injEq] at hr
    subst hr
    rfl
  | disable label symb =>
    simp only [compile_stmt, compile_disable, codespace_allocate] at hr
    split_ifs at hr
    simp only [Option.some.injEq] at hr
    subst hr
    cases label <;> rfl
  | fork label dest scope =>
    simp only [compile_stmt, compile_fork, codespace_allocate] at hr
    split_ifs at hr
    simp only [Option.some.injEq] at hr
    subst hr
    cases label <;> rfl
  | vpi_call label name argv =>
    simp only [compile_stmt, Option.some.injEq] at hr
    subst hr
    simp only [compile_vpi_call, codespace_allocate, stmt_label]
    split <;> cases label <;> rfl
  | load_vpi_module name =>
    exact (compile_stmt_code_side h _ s r hr rfl (by simp) (by simp) (by simp) (by simp)).2.2.2.1
  | functor label type init argv =>
    exact (compile_stmt_code_side h _ s r hr rfl (by simp) (by simp) (by simp) (by simp)).2.2.2.1
  | event label type argv =>
    exact (compile_stmt_code_side h _ s r hr rfl (by simp) (by simp) (by simp) (by simp)).2.2.2.1
  | named_event label name =>
    exact (compile_stmt_code_side h _ s r hr rfl (by simp) (by simp) (by simp) (by simp)).2.2.2.1
  | event_or label argv =>
    exact (compile_stmt_code_side h _ s r hr rfl (by simp) (by simp) (by simp) (by simp)).2.2.2.1
  | thread start_sym =>
    exact (compile_stmt_code_side h _ s r hr rfl (by simp) (by simp) (by simp) (by simp)).2.2.2.1
  | var label name msb lsb sg =>
    exact (compile_stmt_code_side h _ s r hr rfl (by simp) (by simp) (by simp) (by simp)).2.2.2.1
  | net label name msb lsb sg argv =>
    exact (compile_stmt_code_side h _ s r hr rfl (by simp) (by simp) (by simp) (by simp)).2.2.2.1

theorem compile_stmt_code_inv (h : vpi_host) (st : stmt) (s r : vvp_state)
    (hr : compile_stmt h st s = some r) (hinv : code_inv s) :
    code_inv r ∧ code_grows s r := by
  cases st with
  | code label mnem opa => exact compile_code_code_inv _ _ _ _ _ hr hinv
  | codelabel label =>
    simp only [compile_stmt, Option.some.injEq] at hr
    subst hr
    exact ⟨hinv, Nat.le_refl _, fun _ _ => rfl, [], rfl, by simp⟩
  | disable label symb =>
    simp only [compile_stmt, compile_disable, codespace_allocate] at hr
    split_ifs at hr
    simp only [Option.some.injEq] at hr
    subst hr
    apply code_inv_alloc hinv
    · cases label <;> rfl
    · cases label <;> rfl
    · intro n hn; cases label <;> simp [code_update, bind_code_label, hn]
    · exact ⟨[], by cases label <;> rfl, by simp, by simp⟩
  | fork label dest scope =>
    simp only [compile_stmt, compile_fork, codespace_allocate] at hr
    split_ifs at hr
    simp only [Option.some.injEq] at hr
    subst hr
    apply code_inv_alloc hinv
    · cases label <;> rfl
    · cases label <;> rfl
    · intro n hn; cases label <;> simp [code_update, bind_code_label, hn]
    · exact ⟨[], by cases label <;> rfl, by simp, by simp⟩
  | vpi_call label name argv =>
    simp only [compile_stmt, Option.some.injEq] at hr
    subst hr
    apply code_inv_alloc hinv
    · simp only [compile_vpi_call, codespace_allocate]; split <;> cases label <;> rfl
    · simp only [compile_vpi_call, codespace_allocate]; split <;> cases label <;> rfl
    · intro n hn
      simp only [compile_vpi_call, codespace_allocate]
      split <;> cases label <;> simp [code_update, bind_code_label, hn]
    · refine ⟨[], ?_, by simp, by simp⟩
      simp only [compile_vpi_call, codespace_allocate]
      split <;> cases label <;> rfl
  | load_vpi_module name =>
    exact code_side_keeps
      (compile_stmt_code_side h _ s r hr rfl (by simp) (by simp) (by simp) (by simp)) hinv
  | functor label type init argv =>
    exact code_side_keeps
      (compile_stmt_code_side h _ s r hr rfl (by simp) (by simp) (by simp) (by simp)) hinv
  | event label type argv =>
    exact code_side_keeps
      (compile_stmt_code_side h _ s r hr rfl (by simp) (by simp) (by simp) (by simp)) hinv
  | named_event label name =>
    exact code_side_keeps
      (compile_stmt_code_side h _ s r hr rfl (by simp) (by simp) (by simp) (by simp)) hinv
  | event_or label argv =>
    exact code_side_keeps
      (compile_stmt_code_side h _ s r hr rfl (by simp) (by simp) (by simp) (by simp)) hinv
  | thread start_sym =>
    exact code_side_keeps
      (compile_stmt_code_side h _ s r hr rfl (by simp) (by simp) (by simp) (by simp)) hinv
  | var label name msb lsb sg =>
    exact code_side_keeps
      (compile_stmt_code_side h _ s r hr rfl (by simp) (by simp) (by simp) (by simp)) hinv
  | net label name msb lsb sg argv =>
    exact code_side_keeps
      (compile_stmt_code_side h _ s r hr rfl (by simp) (by simp) (by simp) (by simp)) hinv

theorem compile_text_code_inv (h : vpi_host) : ∀ (text : List stmt) (s r : vvp_state),
    compile_text h text s = some r → code_inv s → code_inv r ∧ code_grows s r
  | [], s, r, hr, hinv => by
    simp only [compile_text, Option.some.injEq] at hr
    subst hr
    exact ⟨hinv, code_grows_refl _⟩
  | st :: rest, s, r, hr, hinv => by
    simp only [compile_text] at hr
    split at hr
    · cases hr
    · rename_i s1 h1
      obtain ⟨a1, a2⟩ := compile_stmt_code_inv h st s s1 h1 hinv
      obtain ⟨b1, b2⟩ := compile_text_code_inv h rest s1 r hr a1
      exact ⟨b1, code_grows_trans a2 b2⟩

theorem code_inv_compile_init (h : vpi_host) (s : vvp_state) (hs : s.cresolv_list = []) :
    code_inv (compile_init h s) := by
  refine ⟨count_opcodes_table, ?_, ?_⟩
  · intro e he
    simp [compile_init, functor_init, codespace_init, compile_vpi_symbol, hs] at he
  · simp [compile_init, functor_init, codespace_init, compile_vpi_symbol, hs]

theorem sym_get_value_bind (label : Option String) (ptr : Nat) (s : vvp_state) (L : String) :
    sym_get_value (bind_code_label label ptr s).sym_codespace L =
      if label = some L then ptr else sym_get_value s.sym_codespace L := by
  cases label with
  | none => simp [bind_code_label]
  | some l =>
    by_cases hl : L = l
    · subst hl; simp [bind_code_label, sym_set_value, sym_get_value]
    · have : ¬ l = L := fun e => hl e.symm
      simp [bind_code_label, sym_set_value, sym_get_value, hl, this]

/-- A text that never binds `L` leaves the lookup of `L` as it was. -/
theorem compile_text_lookup (h : vpi_host) (L : String) :
    ∀ (text : List stmt) (s r : vvp_state), compile_text h text s = some r →
    (∀ st ∈ text, stmt_label st ≠ some L) →
    sym_get_value r.sym_codespace L = sym_get_value s.sym_codespace L
  | [], s, r, hr, _ => by
    simp only [compile_text, Option.some.injEq] at hr
    subst hr
    rfl
  | st :: rest, s, r, hr, hno => by
    simp only [compile_text] at hr
    split at hr
    · cases hr
    · rename_i s1 h1
      rw [compile_text_lookup h L rest s1 r hr (fun st hst => hno st (List.mem_cons_of_mem _ hst)),
        compile_stmt_sym_codespace h st s s1 h1, sym_get_value_bind]
      simp [hno st (List.mem_cons_self _ _)]

/-! ## `compile_cleanup` on the code side -/

theorem cleanup_ports_code_side : ∀ (tmp_list : List resolv_list_s) (s : vvp_state),
    same_code_side s (cleanup_ports tmp_list s) ∧
    (cleanup_ports tmp_list s).compile_errors = s.compile_errors ∧
    (cleanup_ports tmp_list s).errout = s.errout
  | [], s => ⟨⟨rfl, rfl, rfl, rfl, rfl⟩, rfl, rfl⟩
  | res :: tmp_list, s => by
    simp only [cleanup_ports]
    split
    · obtain ⟨⟨a1, a2, a3, a4, a5⟩, a6, a7⟩ := cleanup_ports_code_side tmp_list
        (functor_update
          (functor_update s res.port fun obj =>
            { obj with port := fun k => if k = ipoint_port res.port then
                (functor_index s (ipoint_index (sym_get_value s.sym_functors res.source)
                  res.idx)).out else obj.port k })
          (ipoint_index (sym_get_value s.sym_functors res.source) res.idx)
          fun fport => { fport with out := res.port })
      exact ⟨⟨a1, a2, a3, a4, a5⟩, a6, a7⟩
    · obtain ⟨⟨a1, a2, a3, a4, a5⟩, a6, a7⟩ := cleanup_ports_code_side tmp_list
        { s with resolv_list := res :: s.resolv_list }
      exact ⟨⟨a1, a2, a3, a4, a5⟩, a6, a7⟩

/-- What `compile_cleanup` does to the code side: nothing but `cptr` fields, the
unresolved list and the error stream change; the entries whose label is still undefined
stay (in reverse order) and are reported one by one; no error is counted; the
instruction of every other entry (the entries naming distinct instructions) receives
the address of its label. -/
theorem compile_cleanup_code_spec (s : vvp_state) :
    (compile_cleanup s).sym_codespace = s.sym_codespace ∧
    (compile_cleanup s).code_count = s.code_count ∧
    (compile_cleanup s).opcode_count = s.opcode_count ∧
    (compile_cleanup s).compile_errors = s.compile_errors ∧
    (compile_cleanup s).cresolv_list =
      (s.cresolv_list.filter fun e => decide (sym_get_value s.sym_codespace e.lab = 0)).reverse ∧
    (compile_cleanup s).errout = s.errout ++
      (s.cresolv_list.filter fun e => decide (sym_get_value s.sym_codespace e.lab = 0)).map
        (fun e => "unresolved code label: " ++ e.lab) ∧
    (∀ n, (∀ e ∈ s.cresolv_list, sym_get_value s.sym_codespace e.lab ≠ 0 → e.cp ≠ n) →
      (compile_cleanup s).codes n = s.codes n) ∧
    (∀ n, (compile_cleanup s).codes n =
      { s.codes n with cptr := ((compile_cleanup s).codes n).cptr }) ∧
    ((s.cresolv_list.map fun e => e.cp).Nodup →
      ∀ e ∈ s.cresolv_list, sym_get_value s.sym_codespace e.lab ≠ 0 →
        ((compile_cleanup s).codes e.cp).cptr = sym_get_value s.sym_codespace e.lab) := by
  obtain ⟨⟨a1, a2, a3, a4, a5⟩, a6, a7⟩ :=
    cleanup_ports_code_side s.resolv_list { s with resolv_list := [] }
  obtain ⟨_, b2, b3, b4, b5, b6, b7, b8, b9, b10⟩ := cleanup_codes_spec
    (cleanup_ports s.resolv_list { s with resolv_list := [] }).cresolv_list
    { cleanup_ports s.resolv_list { s with resolv_list := [] } with cresolv_list := [] }
  have e : compile_cleanup s = cleanup_codes
    (cleanup_ports s.resolv_list { s with resolv_list := [] }).cresolv_list
    { cleanup_ports s.resolv_list { s with resolv_list := [] } with cresolv_list := [] } := rfl
  rw [e]
  simp only at a1 a2 a3 a4 a5 a6 a7
  simp only [a1, a3, a4] at b2 b3 b4 b5 b6 b7 b8 b9 b10 ⊢
  refine ⟨b2, b3.trans a2, b4.trans a5, b5.trans a6, ?_, ?_, b8, b9, b10⟩
  · rw [b6]; simp
  · rw [b7, a7]

/-- `compile_code` once the search has found a row. -/
theorem compile_code_found (label : Option String) (mnem : String)
    (opa : Option comp_operands_s) (s : vvp_state) (op : opcode_table_s)
    (hb : bsearch mnem opcode_table s.opcode_count opcode_compare = some (some op)) :
    compile_code label mnem opa s =
      if op.argc ≠ supplied_argc opa then some (yyerror "operand count" (code_opened label op s))
      else compile_code_operands op opa s.code_count (List.range op.argc)
        (code_opened label op s) := by
  have hb0 : (bind_code_label label s.code_count
      { s with code_count := s.code_count + 1 }).opcode_count = s.opcode_count := by
    cases label <;> rfl
  unfold compile_code codespace_allocate
  simp only [hb0, hb]
  rfl

theorem filter_label_none (L : String) (text : List stmt)
    (h : (text.filter fun st => decide (stmt_label st = some L)).length = 0) :
    ∀ st ∈ text, stmt_label st ≠ some L := by
  intro st hst hl
  have : st ∈ text.filter fun st => decide (stmt_label st = some L) :=
    List.mem_filter.mpr ⟨hst, by simp [hl]⟩
  rw [List.length_eq_zero] at h
  rw [h] at this
  cases this

/-- C3: let an instruction compiled by `compile_code` in the course of a text have a
code-pointer slot whose operand names the label `L`, and let `L` be bound exactly once in
the whole text, to a non-zero address (before the instruction, by the instruction itself,
or after it). Then after `compile_cleanup` the `cptr` of the instruction is the address
bound to `L`, and the instruction is not on the unresolved code-label list. -/
theorem code_pointer_resolved (h : vpi_host) (pre post : List stmt) (label : Option String)
    (mnem : String) (o : comp_operands_s) (op : opcode_table_s) (i : Nat) (L : String)
    (k : Nat) (s s1 s2 : vvp_state)
    (hpre : compile_text h pre (compile_init h static_state) = some s)
    (hinstr : compile_code label mnem (some o) s = some s1)
    (hpost : compile_text h post s1 = some s2)
    (hop : op ∈ opcode_table) (hmn : op.mnemonic = some mnem) (hargc : o.argc = op.argc)
    (hi : i < op.argc) (ht : argt_at op i = OA_CODE_PTR) (harg : o.argv i = .symb ⟨L, k⟩)
    (honce : ((pre ++ stmt.code label mnem (some o) :: post).filter
      fun st => decide (stmt_label st = some L)).length = 1)
    (ha : sym_get_value s2.sym_codespace L ≠ 0) :
    ((compile_cleanup s2).codes s.code_count).cptr = sym_get_value s2.sym_codespace L ∧
    ∀ e ∈ (compile_cleanup s2).cresolv_list, e.cp ≠ s.code_count := by
  have hinit := code_inv_compile_init h static_state rfl
  obtain ⟨hsinv, _⟩ := compile_text_code_inv h pre _ s hpre hinit
  have hb : bsearch mnem opcode_table s.opcode_count opcode_compare = some (some op) := by
    rw [hsinv.1]; exact (bsearch_opcode_iff mnem op).mpr ⟨hop, hmn⟩
  have hrun := hinstr
  rw [compile_code_found label mnem (some o) s op hb] at hrun
  simp only [supplied_argc, hargc, ne_eq, not_true_eq_false, if_false] at hrun
  obtain ⟨_, c1, c2, c3⟩ := compile_code_operands_target op o s.code_count i ⟨L, k⟩ ht harg
    _ _ _ hrun (List.mem_range.mpr hi) (opcode_table_one_code_ptr op hop)
  have hv : sym_get_value (code_opened label op s).sym_codespace L =
      if label = some L then s.code_count else sym_get_value s.sym_codespace L :=
    sym_get_value_bind label s.code_count { s with code_count := s.code_count + 1 } L
  obtain ⟨hs1inv, _⟩ := compile_code_code_inv _ _ _ _ _ hinstr hsinv
  obtain ⟨hs2inv, _, g2, new2, g3, g4⟩ := compile_text_code_inv h post s1 s2 hpost hs1inv
  obtain ⟨hl1, hcount1, _⟩ := compile_code_operands_code_side _ _ _ _ _ _ hrun
  have hcount1b : s1.code_count = s.code_count + 1 := by
    rw [hcount1]; cases label <;> rfl
  have hcodes2 : s2.codes s.code_count = s1.codes s.code_count := g2 _ (by omega)
  have hopened : (code_opened label op s).cresolv_list = s.cresolv_list := by
    cases label <;> rfl
  obtain ⟨_, _, _, _, k5, _, k7, _, k9⟩ := compile_cleanup_code_spec s2
  have hsplit : (pre.filter fun st => decide (stmt_label st = some L)).length +
      ((if label = some L then 1 else 0) +
        (post.filter fun st => decide (stmt_label st = some L)).length) = 1 := by
    have e0 : stmt_label (stmt.code label mnem (some o)) = label := rfl
    rw [List.filter_append, List.length_append, List.filter_cons, e0] at honce
    by_cases hl : label = some L
    · simp only [hl, decide_True, if_true, List.length_cons] at honce ⊢
      omega
    · simp only [hl, decide_False, Bool.false_eq_true, if_false] at honce ⊢
      omega
  by_cases hpostdef : ∃ st ∈ post, stmt_label st = some L
  · -- the label is bound after the instruction: resolved by the cleanup
    obtain ⟨st, hst, hstl⟩ := hpostdef
    have hpos : 0 < (post.filter fun st => decide (stmt_label st = some L)).length :=
      List.length_pos_of_mem (List.mem_filter.mpr ⟨hst, by simp [hstl]⟩)
    have hlab : label ≠ some L := by
      intro hl
      simp only [hl, if_true] at hsplit
      omega
    have hpre0 : ∀ st ∈ pre, stmt_label st ≠ some L := by
      apply filter_label_none
      omega
    have hl0 : sym_get_value s.sym_codespace L = 0 := by
      rw [compile_text_lookup h L pre _ s hpre hpre0]
      rfl
    have hv0 : sym_get_value (code_opened label op s).sym_codespace L = 0 := by
      rw [hv]; simp [hlab, hl0]
    have hmem : (⟨s.code_count, L⟩ : cresolv_list_s) ∈ s2.cresolv_list := by
      rw [g3, c3 hv0]; simp
    refine ⟨k9 hs2inv.2.2 _ hmem ha, ?_⟩
    intro e he heq
    rw [k5] at he
    obtain ⟨hm, hu⟩ := List.mem_filter.mp (List.mem_reverse.mp he)
    have : e = ⟨s.code_count, L⟩ := List.inj_on_of_nodup_map hs2inv.2.2 hm hmem heq
    subst this
    simp only [decide_eq_true_eq] at hu
    exact ha hu
  · -- the label is bound before, or by the instruction itself: resolved at once
    have hpost0 : ∀ st ∈ post, stmt_label st ≠ some L := by
      intro st hst hl
      exact hpostdef ⟨st, hst, hl⟩
    have hva : sym_get_value (code_opened label op s).sym_codespace L =
        sym_get_value s2.sym_codespace L := by
      rw [compile_text_lookup h L post s1 s2 hpost hpost0, hl1]
    have hvne : sym_get_value (code_opened label op s).sym_codespace L ≠ 0 := by
      rw [hva]; exact ha
    have hnone : ∀ e ∈ s2.cresolv_list, e.cp ≠ s.code_count := by
      intro e he
      rw [g3, c2 hvne, hopened] at he
      rcases List.mem_append.mp he with he | he
      · have := g4 e he; omega
      · have := hsinv.2.1 e he; omega
    refine ⟨?_, ?_⟩
    · rw [k7 _ (fun e he _ => hnone e he), hcodes2, c1, hva]
    · intro e he
      rw [k5] at he
      exact hnone e (List.mem_filter.mp (List.mem_reverse.mp he)).1

set_option maxRecDepth 100000 in
/-- A forward jump as an instance of C3: in `start: %jmp later` followed by `later: %end`
the jump is compiled at address 1 while `later` is still unbound; `later` is then bound
to address 2, and after cleanup the `cptr` of the jump is 2 and nothing is left
unresolved for it. -/
theorem code_pointer_resolved_forward_jump :
    ∃ s1 s2,
      compile_code (some "start") "%jmp" (some ⟨1, fun _ => .symb ⟨"later", 0⟩⟩)
        (compile_init sample_host static_state) = some s1 ∧
      compile_text sample_host [.code (some "later") "%end" none] s1 = some s2 ∧
      s1.cresolv_list = [⟨1, "later"⟩] ∧
      sym_get_value s2.sym_codespace "later" = 2 ∧
      ((compile_cleanup s2).codes 1).cptr = 2 ∧
      (((compile_cleanup s2).codes 1).cptr = sym_get_value s2.sym_codespace "later" ∧
        ∀ e ∈ (compile_cleanup s2).cresolv_list, e.cp ≠ 1) :=
  ⟨_, _, rfl, rfl, by decide, by decide, by decide,
    code_pointer_resolved sample_host [] [.code (some "later") "%end" none] (some "start")
      "%jmp" ⟨1, fun _ => .symb ⟨"later", 0⟩⟩
      ⟨some "%jmp", of_JMP, 1, [OA_CODE_PTR, OA_NONE, OA_NONE]⟩ 0 "later" 0 _ _ _
      rfl rfl rfl (by decide) rfl rfl (by decide) rfl rfl (by decide) (by decide)⟩

/-! ## Unresolved references after `compile_cleanup` -/

set_option maxRecDepth 100000 in
/-- C4 (scenario S5 evaluated): assembling `start: %jmp later` and `%end` with no `later:`
label ends with the diagnostic `unresolved code label: later`, the jump still on the
unresolved list with `cptr` 0, and `compile_errors` equal to 0. -/
theorem unresolved_code_label_not_counted :
    ∃ s, assemble sample_host S5_text = some s ∧
      s.errout = ["unresolved code label: later"] ∧
      s.cresolv_list = [⟨1, "later"⟩] ∧
      (s.codes 1).cptr = 0 ∧
      s.compile_errors = 0 :=
  ⟨_, rfl, by decide, by decide, by decide, by decide⟩

/-- C5: in every state the assembler reaches from `compile_init` by statements of the text
(and earlier cleanups), `compile_cleanup` leaves on the unresolved-port list exactly the entries whose
source label is undefined in the functor symbol table, as a multiset; for each entry
left the label is still undefined, the functor port it names still holds the null link,
and the ipoint of that port lies on the out chain of no functor. -/
theorem cleanup_keeps_unresolved_ports (h : vpi_host) (calls : List assembler_call)
    (s : vvp_state)
    (hs : assembler_calls h calls (compile_init h static_state) = some s) :
    ((compile_cleanup s).resolv_list).Perm
      (s.resolv_list.filter fun e => decide (sym_get_value s.sym_functors e.source = 0)) ∧
    ∀ e ∈ (compile_cleanup s).resolv_list,
      sym_get_value (compile_cleanup s).sym_functors e.source = 0 ∧
      chain_link (compile_cleanup s) e.port = 0 ∧
      chain_link (compile_cleanup s) e.port = chain_link s e.port ∧
      ∀ n l, chain_from (compile_cleanup s) ((compile_cleanup s).functors n).out l →
        e.port ∉ l := by
  have hinv := chains_inv_assembler_calls h calls _ s hs (chains_inv_compile_init h)
  obtain ⟨a1, a2, a3, _, _, _, a7⟩ := compile_cleanup_port_spec s hinv
  refine ⟨?_, ?_⟩
  · rw [a2]
    exact List.reverse_perm _
  · intro e he
    have hmem : e.port ∈ (compile_cleanup s).resolv_list.map fun e => e.port :=
      List.mem_map.mpr ⟨e, he, rfl⟩
    have he2 := he
    rw [a2] at he2
    obtain ⟨hm, hu⟩ := List.mem_filter.mp (List.mem_reverse.mp he2)
    simp only [decide_eq_true_eq] at hu
    refine ⟨by rw [a3]; exact hu, a1.2.pending_null _ hmem, ?_,
      chains_ok_off a1.2 _ (Or.inl hmem)⟩
    apply a7
    intro e3 he3 hdef heq
    have : e3 = e := List.inj_on_of_nodup_map hinv.2.pending_nodup he3 hm heq
    subst this
    exact hdef hu

set_option maxRecDepth 100000 in
/-- An instance of C5: of the two inputs of `f1`, the one on `f2` (declared later) is
linked by the cleanup and the one on `f3` (never declared) is the only entry left. -/
theorem cleanup_keeps_unresolved_ports_example :
    ∃ s, assembler_calls sample_host (half_resolved_text.map .statement)
        (compile_init sample_host static_state) = some s ∧
      s.resolv_list = [⟨5, "f3", 0⟩, ⟨4, "f2", 0⟩] ∧
      (compile_cleanup s).resolv_list = [⟨5, "f3", 0⟩] ∧
      (((compile_cleanup s).resolv_list).Perm
        (s.resolv_list.filter fun e => decide (sym_get_value s.sym_functors e.source = 0)) ∧
      ∀ e ∈ (compile_cleanup s).resolv_list,
        sym_get_value (compile_cleanup s).sym_functors e.source = 0 ∧
        chain_link (compile_cleanup s) e.port = 0 ∧
        chain_link (compile_cleanup s) e.port = chain_link s e.port ∧
        ∀ n l, chain_from (compile_cleanup s) ((compile_cleanup s).functors n).out l →
          e.port ∉ l) :=
  ⟨_, rfl, by decide, by decide,
    cleanup_keeps_unresolved_ports sample_host (half_resolved_text.map .statement) _ rfl⟩

theorem cleanup_ports_resolv : ∀ (tmp_list : List resolv_list_s) (s : vvp_state),
    (cleanup_ports tmp_list s).sym_functors = s.sym_functors ∧
    (cleanup_ports tmp_list s).resolv_list =
      (tmp_list.filter fun e => decide (sym_get_value s.sym_functors e.source = 0)).reverse ++
        s.resolv_list
  | [], s => ⟨rfl, by simp [cleanup_ports]⟩
  | res :: tmp_list, s => by
    by_cases hdef : sym_get_value s.sym_functors res.source = 0
    · have e1 : cleanup_ports (res :: tmp_list) s =
          cleanup_ports tmp_list { s with resolv_list := res :: s.resolv_list } := by
        simp [cleanup_ports, hdef]
      obtain ⟨a1, a2⟩ := cleanup_ports_resolv tmp_list
        { s with resolv_list := res :: s.resolv_list }
      rw [e1]
      refine ⟨a1, ?_⟩
      rw [a2]
      simp [hdef]
    · have e1 : cleanup_ports (res :: tmp_list) s =
          cleanup_ports tmp_list
            (splice res.port (ipoint_index (sym_get_value s.sym_functors res.source) res.idx) s) := by
        simp only [cleanup_ports, hdef, ne_eq, not_false_eq_true, if_true]
        rfl
      obtain ⟨a1, a2⟩ := cleanup_ports_resolv tmp_list
        (splice res.port (ipoint_index (sym_get_value s.sym_functors res.source) res.idx) s)
      rw [e1]
      refine ⟨a1, ?_⟩
      rw [a2]
      simp [hdef]
      rfl

set_option maxRecDepth 100000 in
/-- C6 fails as stated: assembling `f1 .functor AND, 0, f2[0];` alone leaves the input
of `f1` on the unresolved-port list after the cleanup, the label `f2` undefined, nothing
reported and `compile_errors` equal to 0. -/
theorem unresolved_port_not_counted :
    ∃ s, assemble sample_host [.functor "f1" "AND" 0 [⟨"f2", 0⟩]] = some s ∧
      s.resolv_list = [⟨4, "f2", 0⟩] ∧
      sym_get_value s.sym_functors "f2" = 0 ∧
      s.errout = [] ∧
      ¬ (s.compile_errors > 0) :=
  ⟨_, rfl, by decide, by decide, by decide, by decide⟩

/-- C6 as amended: `compile_cleanup` keeps every entry whose functor source label is
still undefined on the unresolved-port list, writes to the error stream nothing but the
reports of unresolved code labels, and leaves `compile_errors` unchanged. -/
theorem cleanup_retains_unresolved_ports (s : vvp_state) :
    (∀ e ∈ s.resolv_list, sym_get_value s.sym_functors e.source = 0 →
      e ∈ (compile_cleanup s).resolv_list) ∧
    (compile_cleanup s).errout = s.errout ++
      (s.cresolv_list.filter fun e => decide (sym_get_value s.sym_codespace e.lab = 0)).map
        (fun e => "unresolved code label: " ++ e.lab) ∧
    (compile_cleanup s).compile_errors = s.compile_errors := by
  obtain ⟨_, _, _, k4, _, k6, _⟩ := compile_cleanup_code_spec s
  refine ⟨?_, k6, k4⟩
  intro e he hu
  obtain ⟨_, a2⟩ := cleanup_ports_resolv s.resolv_list { s with resolv_list := [] }
  obtain ⟨⟨_, _, b3, _⟩, _⟩ := cleanup_codes_spec
    (cleanup_ports s.resolv_list { s with resolv_list := [] }).cresolv_list
    { cleanup_ports s.resolv_list { s with resolv_list := [] } with cresolv_list := [] }
  have e0 : compile_cleanup s = cleanup_codes
    (cleanup_ports s.resolv_list { s with resolv_list := [] }).cresolv_list
    { cleanup_ports s.resolv_list { s with resolv_list := [] } with cresolv_list := [] } := rfl
  rw [e0, b3]
  show e ∈ (cleanup_ports _ _).resolv_list
  rw [a2]
  simp only [List.append_nil, List.mem_reverse, List.mem_filter, decide_eq_true_eq]
  exact ⟨he, hu⟩

/-! ## `compile_code`: operand count and operand types -/

/-- The messages one slot of the operand loop can add to the error stream. -/
theorem compile_code_operand_errout (op : opcode_table_s) (opa : Option comp_operands_s)
    (ptr idx : Nat) (s r : vvp_state) (h : compile_code_operand op opa ptr idx s = some r) :
    r.errout = s.errout ∨ r.errout = s.errout ++ ["operand format"] ∨
      r.errout = s.errout ++ ["functor undefined"] := by
  unfold compile_code_operand at h
  cases ht2 : argt_at op idx <;> simp only [ht2] at h
  case OA_NONE => simp only [Option.some.injEq] at h; subst h; exact Or.inl rfl
  all_goals
    cases opa with
    | none => simp only at h; cases h
    | some o =>
      simp only at h
      cases harg : o.argv idx <;> simp only [harg] at h
      all_goals (try split at h)
      all_goals (try split at h)
      all_goals first
        | (simp only [Option.some.injEq] at h; subst h
           first
             | exact Or.inl rfl
             | exact Or.inr (Or.inl rfl)
             | exact Or.inr (Or.inr rfl))
        | cases h

theorem compile_code_operands_errout (op : opcode_table_s) (opa : Option comp_operands_s)
    (ptr : Nat) : ∀ (idxs : List Nat) (s r : vvp_state),
    compile_code_operands op opa ptr idxs s = some r →
    ∃ msgs, r.errout = s.errout ++ msgs ∧
      ∀ m ∈ msgs, m = "operand format" ∨ m = "functor undefined"
  | [], s, r, h => by
    simp only [compile_code_operands, Option.some.injEq] at h
    subst h
    exact ⟨[], by simp, by simp⟩
  | idx :: rest, s, r, h => by
    simp only [compile_code_operands] at h
    split at h
    · cases h
    · rename_i s1 h1
      obtain ⟨msgs, b1, b2⟩ := compile_code_operands_errout op opa ptr rest s1 r h
      rcases compile_code_operand_errout op opa ptr idx s s1 h1 with a | a | a
      · exact ⟨msgs, by rw [b1, a], b2⟩
      · refine ⟨"operand format" :: msgs, by rw [b1, a]; simp, ?_⟩
        intro m hm
        rcases List.mem_cons.mp hm with hm | hm
        · exact Or.inl hm
        · exact b2 m hm
      · refine ⟨"functor undefined" :: msgs, by rw [b1, a]; simp, ?_⟩
        intro m hm
        rcases List.mem_cons.mp hm with hm | hm
        · exact Or.inr hm
        · exact b2 m hm

/-- C7: for a mnemonic found in the opcode table, `compile_code` reports `operand count`
if and only if the number of operands supplied (0 when no operand list is given) differs
from the `argc` of the row; and when they differ it returns with exactly that one
report, having stored the opcode and nothing else in the instruction record (no operand
field is written), changed no other record and queued no unresolved code label. -/
theorem operand_count_checked (label : Option String) (mnem : String)
    (opa : Option comp_operands_s) (s : vvp_state) (op : opcode_table_s)
    (hb : bsearch mnem opcode_table s.opcode_count opcode_compare = some (some op)) :
    (∀ r, compile_code label mnem opa s = some r →
      ("operand count" ∈ r.errout.drop s.errout.length ↔ op.argc ≠ supplied_argc opa)) ∧
    (op.argc ≠ supplied_argc opa →
      ∃ r, compile_code label mnem opa s = some r ∧
        r.errout = s.errout ++ ["operand count"] ∧
        r.codes s.code_count = { s.codes s.code_count with opcode := some op.opcode } ∧
        (∀ n, n ≠ s.code_count → r.codes n = s.codes n) ∧
        r.code_count = s.code_count + 1 ∧
        r.cresolv_list = s.cresolv_list) := by
  rw [compile_code_found label mnem opa s op hb]
  have hopen_err : (code_opened label op s).errout = s.errout := by cases label <;> rfl
  by_cases hc : op.argc = supplied_argc opa
  · simp only [hc, ne_eq, not_true_eq_false, if_false, iff_false, false_implies, and_true]
    intro r hr
    obtain ⟨msgs, b1, b2⟩ := compile_code_operands_errout _ _ _ _ _ _ hr
    rw [b1, hopen_err, List.drop_left]
    intro hmem
    rcases b2 _ hmem with h | h <;> exact absurd h (by decide)
  · simp only [hc, ne_eq, not_false_eq_true, if_true, Option.some.injEq, iff_true,
      forall_eq', true_implies, exists_eq_left']
    refine ⟨?_, ?_, ?_, ?_, ?_, ?_⟩
    · show "operand count" ∈ List.drop s.errout.length
        ((code_opened label op s).errout ++ ["operand count"])
      rw [hopen_err, List.drop_left]
      simp
    · show (code_opened label op s).errout ++ ["operand count"] = _
      rw [hopen_err]
    · cases label <;> simp [yyerror, code_opened, code_update, bind_code_label]
    · intro n hn
      cases label <;> simp [yyerror, code_opened, code_update, bind_code_label, hn]
    · cases label <;> rfl
    · cases label <;> rfl

set_option maxRecDepth 100000 in
/-- An instance of C7: `%jmp` given without operands right after `compile_init` is found
in the table, wants one operand and gets none; the only report is `operand count`. -/
theorem operand_count_checked_jmp :
    (bsearch "%jmp" opcode_table (compile_init sample_host static_state).opcode_count
        opcode_compare = some (some ⟨some "%jmp", of_JMP, 1, [OA_CODE_PTR, OA_NONE, OA_NONE]⟩)) ∧
    ∃ r, compile_code none "%jmp" none (compile_init sample_host static_state) = some r ∧
      r.errout = ["operand count"] ∧ (r.codes 1).cptr = 0 ∧
      r.cresolv_list = [] :=
  ⟨by decide,
    match (operand_count_checked none "%jmp" none (compile_init sample_host static_state)
      ⟨some "%jmp", of_JMP, 1, [OA_CODE_PTR, OA_NONE, OA_NONE]⟩ (by decide)).2 (by decide) with
    | ⟨r, h1, h2, h4, _, _, h7⟩ =>
      ⟨r, h1, h2, congrArg vvp_code_s.cptr h4, h7⟩⟩

/-! ## `compile_code`: instruction emission -/

/-- One slot of the operand loop on an operand that fits: no report, the field of the
slot type receives the operand, and the fields of the other slot types stay. -/
theorem compile_code_operand_fits (op : opcode_table_s) (o : comp_operands_s)
    (ptr idx : Nat) (s : vvp_state)
    (hfit : operand_fits s.sym_functors (argt_at op idx) (o.argv idx)) :
    ∃ r, compile_code_operand op (some o) ptr idx s = some r ∧
      r.errout = s.errout ∧ r.compile_errors = s.compile_errors ∧
      r.sym_codespace = s.sym_codespace ∧ r.sym_functors = s.sym_functors ∧
      slot_field (argt_at op idx) (r.codes ptr) =
        operand_value s.sym_codespace s.sym_functors (argt_at op idx) (o.argv idx) ∧
      ∀ t, t ≠ argt_at op idx → slot_field t (r.codes ptr) = slot_field t (s.codes ptr) := by
  unfold compile_code_operand
  cases ht : argt_at op idx <;> cases ha : o.argv idx <;>
    simp only [ht, ha, operand_fits] at hfit ⊢
  case OA_NONE.numb => exact ⟨s, rfl, rfl, rfl, rfl, rfl, rfl, fun _ _ => rfl⟩
  case OA_NONE.symb => exact ⟨s, rfl, rfl, rfl, rfl, rfl, rfl, fun _ _ => rfl⟩
  case OA_CODE_PTR.symb sy =>
    simp only [hfit, if_true]
    split
    all_goals
      refine ⟨_, rfl, rfl, rfl, rfl, rfl, by simp [code_update, slot_field, operand_value], ?_⟩
      intro t hne
      cases t <;> first | exact absurd rfl hne | simp [code_update, slot_field]
  case OA_FUNC_PTR.symb sy =>
    simp only [hfit, if_false]
    refine ⟨_, rfl, rfl, rfl, rfl, rfl, by simp [code_update, slot_field, operand_value], ?_⟩
    intro t hne
    cases t <;> first | exact absurd rfl hne | simp [code_update, slot_field]
  all_goals
    refine ⟨_, rfl, rfl, rfl, rfl, rfl, by simp [code_update, slot_field, operand_value], ?_⟩
    intro t hne
    cases t <;> first | exact absurd rfl hne | simp [code_update, slot_field]

/-- A run of the operand loop over slots of pairwise different types, all operands
fitting: it returns without a report, and every slot's field holds the slot's operand. -/
theorem compile_code_operands_fit (op : opcode_table_s) (o : comp_operands_s) (ptr : Nat) :
    ∀ (idxs : List Nat) (s : vvp_state),
    idxs.Pairwise (fun i j => argt_at op i ≠ argt_at op j) →
    (∀ i ∈ idxs, operand_fits s.sym_functors (argt_at op i) (o.argv i)) →
    ∃ r, compile_code_operands op (some o) ptr idxs s = some r ∧
      r.errout = s.errout ∧ r.compile_errors = s.compile_errors ∧
      r.sym_codespace = s.sym_codespace ∧ r.sym_functors = s.sym_functors ∧
      (∀ i ∈ idxs, slot_field (argt_at op i) (r.codes ptr) =
        operand_value s.sym_codespace s.sym_functors (argt_at op i) (o.argv i)) ∧
      ∀ t, (∀ i ∈ idxs, argt_at op i ≠ t) →
        slot_field t (r.codes ptr) = slot_field t (s.codes ptr)
  | [], s, _, _ =>
    ⟨s, rfl, rfl, rfl, rfl, rfl, fun _ h => absurd h (List.not_mem_nil _), fun _ _ => rfl⟩
  | j :: rest, s, hpw, hfits => by
    obtain ⟨s1, a0, a1, a2, a3, a4, a5, a6⟩ := compile_code_operand_fits op o ptr j s
      (hfits j (List.mem_cons_self _ _))
    obtain ⟨hj, hrest⟩ := List.pairwise_cons.mp hpw
    obtain ⟨r, b0, b1, b2, b3, b4, b5, b6⟩ := compile_code_operands_fit op o ptr rest s1 hrest
      (fun i hi => by rw [a4]; exact hfits i (List.mem_cons_of_mem _ hi))
    refine ⟨r, by simp only [compile_code_operands, a0]; exact b0, b1.trans a1, b2.trans a2,
      b3.trans a3, b4.trans a4, ?_, ?_⟩
    · intro i hi
      rcases List.mem_cons.mp hi with hi | hi
      · subst hi
        rw [b6 _ (fun i2 hi2 => (hj i2 hi2).symm), a5]
      · rw [b5 i hi, a3, a4]
    · intro t ht
      rw [b6 t (fun i hi => ht i (List.mem_cons_of_mem _ hi)),
        a6 t (fun e => ht j (List.mem_cons_self _ _) e.symm)]

theorem opcode_table_slots_distinct :
    ∀ op ∈ opcode_table,
      (List.range op.argc).Pairwise (fun i j => argt_at op i ≠ argt_at op j) := by decide

set_option maxRecDepth 100000 in
/-- C9 fails as stated, at two inputs with a valid mnemonic and operands of the right
count and types. `%jmp later[1]`: `compile_code` emits nothing, it stops at the assertion
that a code-pointer operand has bit index 0. `%set nofunc, 5` with `nofunc` undefined:
`compile_code` reports `functor undefined` and leaves `iptr` unwritten. -/
theorem code_operand_preconditions :
    (bsearch "%jmp" opcode_table 24 opcode_compare =
        some (some ⟨some "%jmp", of_JMP, 1, [OA_CODE_PTR, OA_NONE, OA_NONE]⟩) ∧
      compile_code none "%jmp" (some ⟨1, fun _ => .symb ⟨"later", 1⟩⟩)
        (compile_init sample_host static_state) = none) ∧
    (bsearch "%set" opcode_table 24 opcode_compare =
        some (some ⟨some "%set", of_SET, 2, [OA_FUNC_PTR, OA_BIT1, OA_NONE]⟩) ∧
      ∃ r, compile_code none "%set"
          (some ⟨2, fun i => if i = 0 then .symb ⟨"nofunc", 0⟩ else .numb 5⟩)
          (compile_init sample_host static_state) = some r ∧
        r.errout = ["functor undefined"] ∧
        (r.codes 1).iptr = 0 ∧ (r.codes 1).bit_idx1 = 5) :=
  ⟨⟨by decide, rfl⟩, by decide, _, rfl, by decide, by decide, by decide⟩

/-- C9 as amended: for a mnemonic of the table (the table counted by `compile_init`),
operands of the right count, each accepted by its slot (a number in a bit or number
slot, a symbol with bit index 0 in a code-pointer slot, a symbol naming a defined
functor in a functor slot), `compile_code` returns without a report, has allocated
exactly one instruction record and changed no other, has stored the handler of the row
as its opcode, and every slot's field holds its operand: `bit_idx1`, `bit_idx2` and
`number` the numbers, `cptr` the address bound to the label (0 while it is unbound),
`iptr` the functor base bound to the label moved on by the operand's bit index. -/
theorem instruction_emitted (label : Option String) (mnem : String) (o : comp_operands_s)
    (s : vvp_state) (op : opcode_table_s) (hcount : s.opcode_count = 24)
    (hop : op ∈ opcode_table) (hmn : op.mnemonic = some mnem) (hargc : o.argc = op.argc)
    (hfits : ∀ i, i < op.argc → operand_fits s.sym_functors (argt_at op i) (o.argv i)) :
    ∃ r, compile_code label mnem (some o) s = some r ∧
      r.code_count = s.code_count + 1 ∧
      (∀ n, n ≠ s.code_count → r.codes n = s.codes n) ∧
      (r.codes s.code_count).opcode = some op.opcode ∧
      r.errout = s.errout ∧ r.compile_errors = s.compile_errors ∧
      ∀ i, i < op.argc → slot_field (argt_at op i) (r.codes s.code_count) =
        operand_value r.sym_codespace s.sym_functors (argt_at op i) (o.argv i) := by
  have hb : bsearch mnem opcode_table s.opcode_count opcode_compare = some (some op) := by
    rw [hcount]; exact (bsearch_opcode_iff mnem op).mpr ⟨hop, hmn⟩
  have hsf : (code_opened label op s).sym_functors = s.sym_functors := by cases label <;> rfl
  obtain ⟨r, b0, b1, b2, b3, _, b5, _⟩ := compile_code_operands_fit op o s.code_count
    (List.range op.argc) (code_opened label op s) (opcode_table_slots_distinct op hop)
    (fun i hi => by rw [hsf]; exact hfits i (List.mem_range.mp hi))
  obtain ⟨_, c2, _, _, _, _, c7, c8, _⟩ := compile_code_operands_code_side _ _ _ _ _ _ b0
  refine ⟨r, ?_, ?_, ?_, ?_, ?_, ?_, ?_⟩
  · rw [compile_code_found label mnem (some o) s op hb]
    simp only [supplied_argc, hargc, ne_eq, not_true_eq_false, if_false]
    exact b0
  · rw [c2]; cases label <;> rfl
  · intro n hn
    rw [c7 n hn]
    cases label <;> simp [code_opened, code_update, bind_code_label, hn]
  · rw [c8]
    cases label <;> simp [code_opened, code_update, bind_code_label]
  · rw [b1]; cases label <;> rfl
  · rw [b2]; cases label <;> rfl
  · intro i hi
    rw [b5 i (List.mem_range.mpr hi), b3, hsf]

set_option maxRecDepth 100000 in
/-- An instance of C9: `%set v[1], 5` after `v .var "v", 3, 0;` stores the ipoint of bit
1 of `v` in `iptr` and 5 in `bit_idx1`. -/
theorem instruction_emitted_set :
    compile_text sample_host [.var "v" "v" 3 0 false]
        (compile_init sample_host static_state) = some var_v_state ∧
    ∃ r, compile_code none "%set"
        (some ⟨2, fun i => if i = 0 then .symb ⟨"v", 1⟩ else .numb 5⟩) var_v_state = some r ∧
      (r.codes 1).opcode = some of_SET ∧ (r.codes 1).iptr = 8 ∧ (r.codes 1).bit_idx1 = 5 ∧
      r.code_count = 2 ∧ r.errout = [] :=
  ⟨rfl,
    match instruction_emitted none "%set"
      ⟨2, fun i => if i = 0 then .symb ⟨"v", 1⟩ else .numb 5⟩ var_v_state
      ⟨some "%set", of_SET, 2, [OA_FUNC_PTR, OA_BIT1, OA_NONE]⟩ (by decide) (by decide) rfl
      rfl (by decide) with
    | ⟨r, h1, h2, _, h4, h5, _, h7⟩ => ⟨r, h1, h4, h7 0 (by decide), h7 1 (by decide), h2, h5⟩⟩

/-! ## `compile_variable` -/

theorem vector_wid_comm (msb lsb : Int) : vector_wid msb lsb = vector_wid lsb msb := by
  unfold vector_wid
  by_cases h1 : msb > lsb
  · have h2 : ¬ lsb > msb := by omega
    simp only [h1, h2, if_true, if_false]
  · by_cases h2 : lsb > msb
    · simp only [h1, h2, if_true, if_false]
    · have : msb = lsb := by omega
      subst this
      rfl

theorem vector_wid_exact (msb lsb : Int) (h : (msb - lsb).natAbs + 1 < 2 ^ 32) :
    vector_wid msb lsb = (msb - lsb).natAbs + 1 := by
  unfold vector_wid
  by_cases h1 : msb > lsb
  · simp only [h1, if_true]
    omega
  · simp only [h1, if_false]
    omega

/-- The initialising loop: the first `n` functors of the vector get the `var` table and
the initial values; no other functor changes. -/
theorem var_functors_spec (fdx : Nat) : ∀ (n : Nat) (s : vvp_state),
    (∀ idx, idx < n →
      ((var_functors fdx n s).functors (fdx / 4 + idx)).table = some ft_var ∧
      ((var_functors fdx n s).functors (fdx / 4 + idx)).mode = 0 ∧
      ((var_functors fdx n s).functors (fdx / 4 + idx)).ival = 0x22 ∧
      ((var_functors fdx n s).functors (fdx / 4 + idx)).oval = 2) ∧
    (∀ m, (m < fdx / 4 ∨ fdx / 4 + n ≤ m) → (var_functors fdx n s).functors m = s.functors m)
  | 0, s => ⟨fun _ h => absurd h (Nat.not_lt_zero _), fun _ _ => rfl⟩
  | n + 1, s => by
    obtain ⟨a1, a2⟩ := var_functors_spec fdx n s
    have e : ipoint_index fdx n / 4 = fdx / 4 + n := by unfold ipoint_index; omega
    simp only [var_functors, functor_update, e]
    refine ⟨?_, ?_⟩
    · intro idx hidx
      by_cases hi : idx = n
      · subst hi
        simp
      · have hne : ¬ fdx / 4 + idx = fdx / 4 + n := by omega
        simp only [hne, if_false]
        exact a1 idx (by omega)
    · intro m hm
      have hne : ¬ m = fdx / 4 + n := by omega
      simp only [hne, if_false]
      exact a2 m (by omega)

/-! ## `compile_net` -/

/-- One pass through the connecting loop with an undefined source: one entry goes on
the front of the unresolved list and no functor changes. -/
theorem net_input_undefined (fdx idx : Nat) (a : symb_s) (s : vvp_state)
    (hdef : sym_get_value s.sym_functors a.text = 0) :
    (net_input fdx idx a s).resolv_list =
      ⟨ipoint_make (ipoint_index fdx idx) 0, a.text, a.idx⟩ :: s.resolv_list ∧
    (net_input fdx idx a s).functors = s.functors := by
  unfold net_input
  simp [hdef, postpone_functor_input]

theorem net_input_eq_splice (fdx idx : Nat) (a : symb_s) (s : vvp_state)
    (hf4 : fdx % 4 = 0) (hdef : sym_get_value s.sym_functors a.text ≠ 0) :
    net_input fdx idx a s =
      splice (fdx + 4 * idx) (ipoint_index (sym_get_value s.sym_functors a.text) a.idx) s := by
  have hq : ipoint_index fdx idx = fdx + 4 * idx := by unfold ipoint_index; omega
  have h2 : (fdx + 4 * idx) % 4 = 0 := by omega
  unfold net_input splice functor_update ipoint_port
  simp only [hdef, ne_eq, not_false_eq_true, if_true, hq, h2]

theorem compile_functor_eq (label type : String) (init : Nat) (argv : List symb_s)
    (s : vvp_state) (hargc : argv.length ≤ 4) :
    compile_functor label type init argv s = some
      (if type = "OR" then functor_update (functor_built label init argv s)
          (4 * s.functor_count) fun obj => { obj with table := some ft_OR }
       else if type = "AND" then functor_update (functor_built label init argv s)
          (4 * s.functor_count) fun obj => { obj with table := some ft_AND }
       else if type = "BUF" then functor_update (functor_built label init argv s)
          (4 * s.functor_count) fun obj => { obj with table := some ft_BUF }
       else if type = "NOR" then functor_update (functor_built label init argv s)
          (4 * s.functor_count) fun obj => { obj with table := some ft_NOR }
       else if type = "NOT" then functor_update (functor_built label init argv s)
          (4 * s.functor_count) fun obj => { obj with table := some ft_NOT }
       else if type = "XOR" then functor_update (functor_built label init argv s)
          (4 * s.functor_count) fun obj => { obj with table := some ft_XOR }
       else yyerror "invalid functor type." (functor_built label init argv s)) := by
  simp only [compile_functor, functor_allocate, hargc, if_true, functor_built]
  split_ifs <;> rfl

theorem functor_built_spec (label : String) (init : Nat) (argv : List symb_s)
    (s : vvp_state) :
    (functor_built label init argv s).errout = s.errout ∧
    (functor_built label init argv s).compile_errors = s.compile_errors ∧
    (functor_built label init argv s).sym_functors =
      sym_set_value s.sym_functors label (4 * s.functor_count) ∧
    (functor_built label init argv s).functor_count = s.functor_count + 1 ∧
    (functor_index (functor_built label init argv s) (4 * s.functor_count)).ival =
      init % 256 ∧
    (functor_index (functor_built label init argv s) (4 * s.functor_count)).oval = 2 ∧
    (functor_index (functor_built label init argv s) (4 * s.functor_count)).mode = 0 := by
  obtain ⟨a1, a2, _, _, _, _, _, a8, a9⟩ := functor_inputs_frame (4 * s.functor_count) argv 0
    { s with functor_count := s.functor_count + 1,
             sym_functors := sym_set_value s.sym_functors label (4 * s.functor_count) }
  refine ⟨a9, a8, a2, a1, ?_, ?_, ?_⟩ <;>
    simp [functor_built, functor_allocate, functor_index, functor_update]

/-- C12 fails as stated: `compile_functor` knows no table under the names `NAND` and
`XNOR`. Given either, it reports `invalid functor type.` and the new functor (functor 1,
ipoint 4, the first after `compile_init`) is left without a table. -/
theorem compile_functor_rejects_nand_xnor :
    (∃ r, compile_functor "g" "NAND" 0 [] (compile_init sample_host static_state) = some r ∧
      r.errout = ["invalid functor type."] ∧ (functor_index r 4).table = none) ∧
    (∃ r, compile_functor "g" "XNOR" 0 [] (compile_init sample_host static_state) = some r ∧
      r.errout = ["invalid functor type."] ∧ (functor_index r 4).table = none) :=
  ⟨⟨_, rfl, by decide, by decide⟩, ⟨_, rfl, by decide, by decide⟩⟩

/-- C12 as amended: given at most four inputs (which it asserts), `compile_functor`
returns with a mode-0 functor; for each of the six names `OR`, `AND`, `BUF`, `NOR`,
`NOT`, `XOR` it stores the table of that name and reports nothing; for every other type
name, `NAND` and `XNOR` among them, it reports `invalid functor type.`. -/
theorem compile_functor_tables (label type : String) (init : Nat) (argv : List symb_s)
    (s : vvp_state) (hargc : argv.length ≤ 4) :
    ∃ r, compile_functor label type init argv s = some r ∧
      (functor_index r (4 * s.functor_count)).mode = 0 ∧
      (∀ t, (type, t) ∈ [("OR", ft_OR), ("AND", ft_AND), ("BUF", ft_BUF), ("NOR", ft_NOR),
          ("NOT", ft_NOT), ("XOR", ft_XOR)] →
        (functor_index r (4 * s.functor_count)).table = some t ∧ r.errout = s.errout ∧
          r.compile_errors = s.compile_errors) ∧
      (type ∉ ["OR", "AND", "BUF", "NOR", "NOT", "XOR"] →
        r.errout = s.errout ++ ["invalid functor type."]) ∧
      (type = "NAND" ∨ type = "XNOR" → r.errout = s.errout ++ ["invalid functor type."]) := by
  obtain ⟨a1, a2, _, _, _, _, a7⟩ := functor_built_spec label init argv s
  have hbad : type ∉ ["OR", "AND", "BUF", "NOR", "NOT", "XOR"] →
      compile_functor label type init argv s =
        some (yyerror "invalid functor type." (functor_built label init argv s)) := by
    intro hn
    simp only [List.mem_cons, List.mem_singleton, List.not_mem_nil, or_false, not_or] at hn
    obtain ⟨h1, h2, h3, h4, h5, h6⟩ := hn
    rw [compile_functor_eq label type init argv s hargc]
    simp only [h1, h2, h3, h4, h5, h6, if_false]
  refine ⟨_, compile_functor_eq label type init argv s hargc, ?_, ?_, ?_, ?_⟩
  · split_ifs <;> simpa [functor_index, functor_update, yyerror] using a7
  · intro t ht
    simp only [List.mem_cons, Prod.mk.injEq, List.mem_singleton, List.not_mem_nil,
      or_false] at ht
    rcases ht with ⟨h1, h2⟩ | ⟨h1, h2⟩ | ⟨h1, h2⟩ | ⟨h1, h2⟩ | ⟨h1, h2⟩ | ⟨h1, h2⟩ <;>
      subst h1 <;> subst h2 <;>
      exact ⟨by simp [functor_index, functor_update],
        by simpa [functor_update] using a1, by simpa [functor_update] using a2⟩
  · intro hn
    have e := hbad hn
    rw [compile_functor_eq label type init argv s hargc] at e
    rw [Option.some.inj e]
    simp [yyerror, a1]
  · intro hn
    have hn2 : type ∉ ["OR", "AND", "BUF", "NOR", "NOT", "XOR"] := by
      rcases hn with h | h <;> subst h <;> decide
    have e := hbad hn2
    rw [compile_functor_eq label type init argv s hargc] at e
    rw [Option.some.inj e]
    simp [yyerror, a1]

/-- C12 as amended, at `g .functor XOR, 0;` after `compile_init`. -/
theorem compile_functor_tables_xor :
    ([] : List symb_s).length ≤ 4 ∧
    ∃ r, compile_functor "g" "XOR" 0 [] (compile_init sample_host static_state) = some r ∧
      (functor_index r 4).table = some ft_XOR ∧ r.errout = [] :=
  ⟨by decide,
    match compile_functor_tables "g" "XOR" 0 [] (compile_init sample_host static_state)
      (by decide) with
    | ⟨r, h1, _, h3, _⟩ => ⟨r, h1, (h3 ft_XOR (by decide)).1, (h3 ft_XOR (by decide)).2.1⟩⟩

/-- C13: for every init byte and every list of at most four inputs, whatever the type
name and whichever inputs are linked at once or deferred, `compile_functor` returns and
the functor it created has mode 0, `ival` equal to `init` and `oval` equal to 2. -/
theorem compile_functor_initial_values (label type : String) (init : Nat)
    (argv : List symb_s) (s : vvp_state) (hinit : init < 256) (hargc : argv.length ≤ 4) :
    ∃ r, compile_functor label type init argv s = some r ∧
      (functor_index r (4 * s.functor_count)).mode = 0 ∧
      (functor_index r (4 * s.functor_count)).ival = init ∧
      (functor_index r (4 * s.functor_count)).oval = 2 := by
  obtain ⟨_, _, _, _, a5, a6, a7⟩ := functor_built_spec label init argv s
  rw [Nat.mod_eq_of_lt hinit] at a5
  refine ⟨_, compile_functor_eq label type init argv s hargc, ?_, ?_, ?_⟩
  · split_ifs <;> simpa [functor_index, functor_update, yyerror] using a7
  · split_ifs <;> simpa [functor_index, functor_update, yyerror] using a5
  · split_ifs <;> simpa [functor_index, functor_update, yyerror] using a6

/-- C13 at `f1 .functor AND, 170, f2[0], f2[0];` after `compile_init`, both inputs
deferred. -/
theorem compile_functor_initial_values_example :
    (170 < 256 ∧ [(⟨"f2", 0⟩ : symb_s), ⟨"f2", 0⟩].length ≤ 4) ∧
    ∃ r, compile_functor "f1" "AND" 170 [⟨"f2", 0⟩, ⟨"f2", 0⟩]
        (compile_init sample_host static_state) = some r ∧
      (functor_index r 4).mode = 0 ∧ (functor_index r 4).ival = 170 ∧
      (functor_index r 4).oval = 2 :=
  ⟨⟨by decide, by decide⟩,
    compile_functor_initial_values "f1" "AND" 170 [⟨"f2", 0⟩, ⟨"f2", 0⟩]
      (compile_init sample_host static_state) (by decide) (by decide)⟩

/-! ## Event functors -/

/-- The loop of `compile_event_or` writes `out` of the sources and nothing else of a
functor. -/
theorem event_or_inputs_fields (fdx : Nat) : ∀ (argv : List symb_s) (s r : vvp_state),
    event_or_inputs fdx argv s = some r → ∀ n,
      (r.functors n).ival = (s.functors n).ival ∧
      (r.functors n).oval = (s.functors n).oval ∧
      (r.functors n).mode = (s.functors n).mode ∧
      (r.functors n).event = (s.functors n).event ∧
      (r.functors n).table = (s.functors n).table ∧
      (r.functors n).port = (s.functors n).port
  | [], s, r, hr, n => by
    simp only [event_or_inputs, Option.some.injEq] at hr
    subst hr
    exact ⟨rfl, rfl, rfl, rfl, rfl, rfl⟩
  | a :: rest, s, r, hr, n => by
    simp only [event_or_inputs] at hr
    by_cases hdef : sym_get_value s.sym_functors a.text = 0
    · simp [hdef] at hr
    · by_cases hout : (functor_index s
          (ipoint_index (sym_get_value s.sym_functors a.text) a.idx)).out = 0
      · simp only [hdef, hout, ne_eq, not_false_eq_true, if_true] at hr
        obtain ⟨a1, a2, a3, a4, a5, a6⟩ := event_or_inputs_fields fdx rest _ r hr n
        refine ⟨a1.trans ?_, a2.trans ?_, a3.trans ?_, a4.trans ?_, a5.trans ?_, a6.trans ?_⟩ <;>
          (simp only [functor_update]; split_ifs <;> rfl)
      · simp [hdef, hout] at hr

/-- C14: `compile_event`, given at most four inputs (which it asserts), returns with a
mode-1 functor whose edge table is the posedge, negedge or anyedge table for the type
strings `posedge`, `negedge`, `edge`; `compile_named_event` creates a mode-2 functor, and
so does `compile_event_or` whenever it returns (it asserts that every source is a defined
functor that drives nothing yet). In all three the new functor has `ival` 0xaa, `oval` 2
and an event record with no waiting thread whose saved `ival` is the functor's. -/
theorem event_functors (label type name : String) (argv srcs : List symb_s)
    (s ror : vvp_state) (hargc : argv.length ≤ 4)
    (hor : compile_event_or label srcs s = some ror) :
    (∃ r, compile_event label type argv s = some r ∧
      (functor_index r (4 * s.functor_count)).mode = 1 ∧
      (functor_index r (4 * s.functor_count)).ival = 0xaa ∧
      (functor_index r (4 * s.functor_count)).oval = 2 ∧
      ∃ ev, (functor_index r (4 * s.functor_count)).event = some ev ∧ ev.threads = [] ∧
        ev.ival = (functor_index r (4 * s.functor_count)).ival ∧
        (type = "posedge" → ev.vvp_edge_tab = some vvp_edge_posedge) ∧
        (type = "negedge" → ev.vvp_edge_tab = some vvp_edge_negedge) ∧
        (type = "edge" → ev.vvp_edge_tab = some vvp_edge_anyedge)) ∧
    ((functor_index (compile_named_event label name s) (4 * s.functor_count)).mode = 2 ∧
      (functor_index (compile_named_event label name s) (4 * s.functor_count)).ival = 0xaa ∧
      (functor_index (compile_named_event label name s) (4 * s.functor_count)).oval = 2 ∧
      ∃ ev, (functor_index (compile_named_event label name s)
          (4 * s.functor_count)).event = some ev ∧ ev.threads = [] ∧
        ev.ival = (functor_index (compile_named_event label name s)
          (4 * s.functor_count)).ival) ∧
    ((functor_index ror (4 * s.functor_count)).mode = 2 ∧
      (functor_index ror (4 * s.functor_count)).ival = 0xaa ∧
      (functor_index ror (4 * s.functor_count)).oval = 2 ∧
      ∃ ev, (functor_index ror (4 * s.functor_count)).event = some ev ∧ ev.threads = [] ∧
        ev.ival = (functor_index ror (4 * s.functor_count)).ival) := by
  have he : compile_event label type argv s = some
      (functor_update (functor_inputs (4 * s.functor_count) 0 argv
        { s with functor_count := s.functor_count + 1,
                 sym_functors := sym_set_value s.sym_functors label (4 * s.functor_count) })
        (4 * s.functor_count) fun obj =>
          { obj with ival := 0xaa, oval := 2, mode := 1, out := 0,
                     event := some ⟨[], 0xaa,
                       if type = "posedge" then some vvp_edge_posedge
                       else if type = "negedge" then some vvp_edge_negedge
                       else if type = "edge" then some vvp_edge_anyedge
                       else none⟩ }) := by
    simp only [compile_event, functor_allocate, hargc, if_true]
  refine ⟨⟨_, he, ?_⟩, ?_, ?_⟩
  · refine ⟨by simp [functor_index, functor_update], by simp [functor_index, functor_update],
      by simp [functor_index, functor_update], ⟨[], 0xaa,
        if type = "posedge" then some vvp_edge_posedge
        else if type = "negedge" then some vvp_edge_negedge
        else if type = "edge" then some vvp_edge_anyedge
        else none⟩, by simp [functor_index, functor_update], rfl,
      by simp [functor_index, functor_update], ?_, ?_, ?_⟩
    · intro ht; subst ht; rfl
    · intro ht; subst ht; rfl
    · intro ht; subst ht; rfl
  · exact ⟨by simp [compile_named_event, functor_allocate, functor_index, functor_update],
      by simp [compile_named_event, functor_allocate, functor_index, functor_update],
      by simp [compile_named_event, functor_allocate, functor_index, functor_update],
      ⟨[], 0xaa, none⟩,
      by simp [compile_named_event, functor_allocate, functor_index, functor_update], rfl,
      by simp [compile_named_event, functor_allocate, functor_index, functor_update]⟩
  · simp only [compile_event_or, functor_allocate] at hor
    obtain ⟨a1, a2, a3, a4, _⟩ := event_or_inputs_fields _ srcs _ ror hor
      (4 * s.functor_count / 4)
    simp only [functor_index, a1, a2, a3, a4]
    exact ⟨by simp [functor_update], by simp [functor_update], by simp [functor_update],
      ⟨[], 0xaa, none⟩, by simp [functor_update], rfl, by simp [functor_update]⟩

/-- C14 at `e .event posedge;` and `e .event/or e1[0];` after `e1 .event "e1";`. -/
theorem event_functors_example :
    ([] : List symb_s).length ≤ 4 ∧
    (∃ r, compile_event "e" "posedge" [] named_e1_state = some r ∧
      (functor_index r 8).mode = 1 ∧
      (functor_index r 8).event = some ⟨[], 0xaa, some vvp_edge_posedge⟩) ∧
    (∃ r, compile_event_or "e" [⟨"e1", 0⟩] named_e1_state = some r ∧
      (functor_index r 8).mode = 2 ∧ (functor_index r 8).ival = 0xaa) :=
  ⟨by decide, ⟨_, rfl, by decide, by decide⟩,
    ⟨_, rfl, (event_functors "e" "posedge" "e" [] [⟨"e1", 0⟩] named_e1_state _ (by decide)
        rfl).2.2.1,
      (event_functors "e" "posedge" "e" [] [⟨"e1", 0⟩] named_e1_state _ (by decide)
        rfl).2.2.2.1⟩⟩

/-! ## Redefinition of a functor label -/

theorem compile_event_eq (label type : String) (argv : List symb_s) (s : vvp_state)
    (hargc : argv.length ≤ 4) :
    compile_event label type argv s = some
      (functor_update (functor_inputs (4 * s.functor_count) 0 argv
        { s with functor_count := s.functor_count + 1,
                 sym_functors := sym_set_value s.sym_functors label (4 * s.functor_count) })
        (4 * s.functor_count) fun obj =>
          { obj with ival := 0xaa, oval := 2, mode := 1, out := 0,
                     event := some ⟨[], 0xaa,
                       if type = "posedge" then some vvp_edge_posedge
                       else if type = "negedge" then some vvp_edge_negedge
                       else if type = "edge" then some vvp_edge_anyedge
                       else none⟩ }) := by
  simp only [compile_event, functor_allocate, hargc, if_true]

theorem compile_net_eq (h : vpi_host) (label name : String) (msb lsb : Int) (sg : Bool)
    (srcs : List symb_s) (s : vvp_state) (hsrcs : srcs.length = vector_wid msb lsb) :
    compile_net h label name msb lsb sg srcs s = some
      (compile_vpi_symbol label (h.vpip_make_net name msb lsb sg (4 * s.functor_count))
        (net_inputs (4 * s.functor_count) 0 srcs
          (var_functors (4 * s.functor_count) (vector_wid msb lsb)
            { s with functor_count := s.functor_count + vector_wid msb lsb,
                     sym_functors :=
                       sym_set_value s.sym_functors label (4 * s.functor_count) }))) := by
  simp only [compile_net, functor_allocate, hsrcs, if_true]

/-- C16: `compile_vpi_call` allocates exactly one instruction record, at the old end of
the code space, stores `of_VPI_CALL` and the handle built in it and leaves every other
record alone; a label, if given, is bound to the record's address (and without a label
the code-label table is unchanged); `compile_errors` goes up by exactly 1 if the handle
built is null and is unchanged otherwise, so it changes if and only if the system task
is unknown. -/
theorem compile_vpi_call_spec (h : vpi_host) (label : Option String) (name : String)
    (argv : List Nat) (s : vvp_state) :
    (compile_vpi_call h label name argv s).code_count = s.code_count + 1 ∧
    (codespace_index (compile_vpi_call h label name argv s) s.code_count).opcode =
      some of_VPI_CALL ∧
    (codespace_index (compile_vpi_call h label name argv s) s.code_count).handle =
      h.vpip_build_vpi_call name argv ∧
    (∀ n, n ≠ s.code_count →
      codespace_index (compile_vpi_call h label name argv s) n = codespace_index s n) ∧
    (∀ l, label = some l →
      sym_get_value (compile_vpi_call h label name argv s).sym_codespace l = s.code_count) ∧
    (label = none → (compile_vpi_call h label name argv s).sym_codespace = s.sym_codespace) ∧
    (h.vpip_build_vpi_call name argv = 0 →
      (compile_vpi_call h label name argv s).compile_errors = s.compile_errors + 1) ∧
    (h.vpip_build_vpi_call name argv ≠ 0 →
      (compile_vpi_call h label name argv s).compile_errors = s.compile_errors) ∧
    ((compile_vpi_call h label name argv s).compile_errors ≠ s.compile_errors ↔
      h.vpip_build_vpi_call name argv = 0) ∧
    (compile_vpi_call h label name argv s).errout = s.errout := by
  by_cases hnd : h.vpip_build_vpi_call name argv = 0 <;> cases label <;>
    simp [compile_vpi_call, codespace_allocate, bind_code_label, code_update, codespace_index,
      hnd, sym_set_value, sym_get_value] <;>
    (intro n hn; simp [hn])

theorem functor_inputs_scheduled (fdx : Nat) : ∀ (argv : List symb_s) (idx : Nat)
    (s : vvp_state), (functor_inputs fdx idx argv s).scheduled = s.scheduled
  | [], _, _ => rfl
  | a :: rest, idx, s => by
    simp only [functor_inputs]
    rw [functor_inputs_scheduled fdx rest (idx + 1)]
    unfold functor_input
    by_cases hdef : sym_get_value s.sym_functors a.text = 0 <;>
      simp [hdef, functor_update, postpone_functor_input]

theorem event_or_inputs_scheduled (fdx : Nat) : ∀ (argv : List symb_s) (s r : vvp_state),
    event_or_inputs fdx argv s = some r → r.scheduled = s.scheduled
  | [], s, r, hr => by
    simp only [event_or_inputs, Option.some.injEq] at hr
    rw [← hr]
  | a :: rest, s, r, hr => by
    simp only [event_or_inputs] at hr
    by_cases hdef : sym_get_value s.sym_functors a.text = 0
    · simp [hdef] at hr
    · by_cases hout : (functor_index s
          (ipoint_index (sym_get_value s.sym_functors a.text) a.idx)).out = 0
      · simp only [hdef, hout, ne_eq, not_false_eq_true, if_true] at hr
        exact (event_or_inputs_scheduled fdx rest _ r hr).trans rfl
      · simp [hdef, hout] at hr

theorem var_functors_scheduled (fdx : Nat) : ∀ (n : Nat) (s : vvp_state),
    (var_functors fdx n s).scheduled = s.scheduled
  | 0, _ => rfl
  | n + 1, s => by
    simp only [var_functors, functor_update]
    exact var_functors_scheduled fdx n s

theorem net_inputs_scheduled (fdx : Nat) : ∀ (argv : List symb_s) (idx : Nat)
    (s : vvp_state), (net_inputs fdx idx argv s).scheduled = s.scheduled
  | [], _, _ => rfl
  | a :: rest, idx, s => by
    simp only [net_inputs]
    rw [net_inputs_scheduled fdx rest (idx + 1)]
    unfold net_input
    by_cases hdef : sym_get_value s.sym_functors a.text = 0 <;>
      simp [hdef, functor_update, postpone_functor_input]

theorem compile_code_operand_scheduled (op : opcode_table_s) (opa : Option comp_operands_s)
    (ptr idx : Nat) (s r : vvp_state) (hr : compile_code_operand op opa ptr idx s = some r) :
    r.scheduled = s.scheduled := by
  unfold compile_code_operand at hr
  cases ht : argt_at op idx <;> simp only [ht] at hr
  · cases hr; rfl
  all_goals
    cases opa with
    | none => cases hr
    | some o =>
      cases harg : o.argv idx <;> simp only [harg] at hr
      all_goals first
        | (cases hr; rfl)
        | (split at hr
           · first
             | (cases hr; rfl)
             | (split at hr <;> cases hr <;> rfl)
           · first
             | (cases hr; rfl)
             | cases hr)

theorem compile_code_operands_scheduled (op : opcode_table_s) (opa : Option comp_operands_s)
    (ptr : Nat) : ∀ (idxs : List Nat) (s r : vvp_state),
    compile_code_operands op opa ptr idxs s = some r → r.scheduled = s.scheduled
  | [], s, r, hr => by
    simp only [compile_code_operands, Option.some.injEq] at hr
    rw [← hr]
  | idx :: rest, s, r, hr => by
    simp only [compile_code_operands] at hr
    cases h1 : compile_code_operand op opa ptr idx s with
    | none => simp [h1] at hr
    | some s1 =>
      simp only [h1] at hr
      rw [compile_code_operands_scheduled op opa ptr rest s1 r hr]
      exact compile_code_operand_scheduled op opa ptr idx s s1 h1

theorem cleanup_ports_scheduled : ∀ (l : List resolv_list_s) (s : vvp_state),
    (cleanup_ports l s).scheduled = s.scheduled
  | [], _ => rfl
  | res :: rest, s => by
    simp only [cleanup_ports]
    by_cases hdef : sym_get_value s.sym_functors res.source = 0
    · simp only [hdef, ne_eq, not_true_eq_false, if_false]
      rw [cleanup_ports_scheduled rest]
    · simp only [hdef, ne_eq, not_false_eq_true, if_true]
      rw [cleanup_ports_scheduled rest]
      rfl

theorem cleanup_codes_scheduled : ∀ (l : List cresolv_list_s) (s : vvp_state),
    (cleanup_codes l s).scheduled = s.scheduled
  | [], _ => rfl
  | res :: rest, s => by
    simp only [cleanup_codes]
    by_cases hdef : sym_get_value s.sym_codespace res.lab = 0
    · simp only [hdef, ne_eq, not_true_eq_false, if_false]
      rw [cleanup_codes_scheduled rest]
    · simp only [hdef, ne_eq, not_false_eq_true, if_true]
      rw [cleanup_codes_scheduled rest]
      rfl

theorem compile_cleanup_scheduled (s : vvp_state) :
    (compile_cleanup s).scheduled = s.scheduled := by
  unfold compile_cleanup
  rw [cleanup_codes_scheduled, cleanup_ports_scheduled]

theorem compile_stmt_scheduled (h : vpi_host) (st : stmt) (s r : vvp_state)
    (hst : stmt_is_thread st = false) (hr : compile_stmt h st s = some r) :
    r.scheduled = s.scheduled := by
  cases st with
  | load_vpi_module name =>
    simp only [compile_stmt, Option.some.injEq] at hr
    rw [← hr]; rfl
  | functor label type init argv =>
    simp only [compile_stmt] at hr
    by_cases hargc : argv.length ≤ 4
    · rw [compile_functor_eq label type init argv s hargc] at hr
      have e : (functor_built label init argv s).scheduled = s.scheduled := by
        simp only [functor_built, functor_allocate, functor_update]
        exact functor_inputs_scheduled _ argv 0 _
      rw [← Option.some.inj hr, ← e]
      split_ifs <;> rfl
    · simp [compile_functor, functor_allocate, hargc] at hr
  | event label type argv =>
    simp only [compile_stmt] at hr
    by_cases hargc : argv.length ≤ 4
    · rw [compile_event_eq label type argv s hargc] at hr
      rw [← Option.some.inj hr]
      simp only [functor_update]
      exact functor_inputs_scheduled _ argv 0 _
    · simp [compile_event, functor_allocate, hargc] at hr
  | named_event label name =>
    simp only [compile_stmt, Option.some.injEq] at hr
    rw [← hr]; rfl
  | event_or label argv =>
    simp only [compile_stmt, compile_event_or, functor_allocate] at hr
    exact (event_or_inputs_scheduled _ argv _ r hr).trans rfl
  | code label mnem opa =>
    simp only [compile_stmt, compile_code, codespace_allocate] at hr
    have hb : ∀ t : vvp_state, (bind_code_label label s.code_count t).scheduled =
        t.scheduled := by
      intro t; cases label <;> rfl
    split at hr
    · cases hr
    · simp only [Option.some.injEq] at hr
      rw [← hr]
      exact hb _
    · split at hr
      · simp only [Option.some.injEq] at hr
        rw [← hr]
        exact hb _
      · exact (compile_code_operands_scheduled _ opa _ _ _ r hr).trans (hb _)
  | codelabel label =>
    simp only [compile_stmt, Option.some.injEq] at hr
    rw [← hr]; rfl
  | disable label symb =>
    simp only [compile_stmt, compile_disable, codespace_allocate] at hr
    split at hr
    · simp only [Option.some.injEq] at hr
      rw [← hr]
      cases label <;> rfl
    · cases hr
  | fork label dest scope =>
    simp only [compile_stmt, compile_fork, codespace_allocate] at hr
    split at hr
    · split at hr
      · simp only [Option.some.injEq] at hr
        rw [← hr]
        cases label <;> rfl
      · cases hr
    · cases hr
  | vpi_call label name argv =>
    simp only [compile_stmt, Option.some.injEq] at hr
    rw [← hr]
    simp only [compile_vpi_call, codespace_allocate]
    cases label <;> split <;> rfl
  | thread start_sym => simp [stmt_is_thread] at hst
  | var label name msb lsb sg =>
    simp only [compile_stmt, Option.some.injEq] at hr
    rw [← hr]
    simp only [compile_variable, functor_allocate, compile_vpi_symbol]
    exact var_functors_scheduled _ _ _
  | net label name msb lsb sg argv =>
    simp only [compile_stmt] at hr
    by_cases hargc : argv.length = vector_wid msb lsb
    · rw [compile_net_eq h label name msb lsb sg argv s hargc] at hr
      rw [← Option.some.inj hr]
      simp only [compile_vpi_symbol]
      rw [net_inputs_scheduled, var_functors_scheduled]
    · simp [compile_net, functor_allocate, hargc] at hr

/-- Only a `.thread` statement hands a thread to the scheduler. -/
theorem assembler_calls_scheduled (h : vpi_host) : ∀ (calls : List assembler_call)
    (s r : vvp_state), (∀ c ∈ calls, call_is_thread c = false) →
    assembler_calls h calls s = some r → r.scheduled = s.scheduled
  | [], s, r, _, hr => by
    simp only [assembler_calls, Option.some.injEq] at hr
    rw [← hr]
  | .statement st :: rest, s, r, hc, hr => by
    simp only [assembler_calls] at hr
    cases h1 : compile_stmt h st s with
    | none => simp [h1] at hr
    | some s1 =>
      simp only [h1] at hr
      rw [assembler_calls_scheduled h rest s1 r
        (fun c hcm => hc c (List.mem_cons_of_mem _ hcm)) hr]
      exact compile_stmt_scheduled h st s s1 (hc _ (List.mem_cons_self _ _)) h1
  | .cleanup :: rest, s, r, hc, hr => by
    simp only [assembler_calls] at hr
    rw [assembler_calls_scheduled h rest _ r
      (fun c hcm => hc c (List.mem_cons_of_mem _ hcm)) hr]
    exact compile_cleanup_scheduled s

theorem sym_get_value_unbound : ∀ (t : symbol_table_t) (key : String),
    key ∉ t.map Prod.fst → sym_get_value t key = 0
  | [], _, _ => rfl
  | (k, v) :: t, key, hk => by
    simp only [List.map_cons, List.mem_cons, not_or] at hk
    simp only [sym_get_value, hk.1, if_false]
    exact sym_get_value_unbound t key hk.2

/-- C17: if the label is bound to a non-zero code address `pc`, `compile_thread` hands
the scheduler exactly one new thread, with program counter `pc`, the current scope and
delay 0, and reports nothing. If the label is not bound at that moment, its lookup gives
the null address, `unresolved address` is reported and no thread is scheduled; nor is
one scheduled later, whatever statements other than `.thread` and whatever cleanups
follow, a definition of the label included. -/
theorem compile_thread_spec (h : vpi_host) (start_sym : String) (s : vvp_state) :
    (sym_get_value s.sym_codespace start_sym ≠ 0 →
      (compile_thread h start_sym s).scheduled = s.scheduled ++
        [⟨sym_get_value s.sym_codespace start_sym, h.vpip_peek_current_scope, 0⟩] ∧
      (compile_thread h start_sym s).errout = s.errout) ∧
    (start_sym ∉ s.sym_codespace.map Prod.fst →
      sym_get_value s.sym_codespace start_sym = 0) ∧
    (sym_get_value s.sym_codespace start_sym = 0 →
      (compile_thread h start_sym s).errout = s.errout ++ ["unresolved address"] ∧
      (compile_thread h start_sym s).scheduled = s.scheduled ∧
      ∀ calls r, (∀ c ∈ calls, call_is_thread c = false) →
        assembler_calls h calls (compile_thread h start_sym s) = some r →
        r.scheduled = s.scheduled) := by
  refine ⟨?_, sym_get_value_unbound _ _, ?_⟩
  · intro hpc
    simp [compile_thread, hpc]
  · intro hpc
    have e : (compile_thread h start_sym s).scheduled = s.scheduled := by
      simp [compile_thread, hpc, yyerror]
    refine ⟨by simp [compile_thread, hpc, yyerror], e, ?_⟩
    intro calls r hc hr
    rw [assembler_calls_scheduled h calls _ r hc hr, e]

/-- C17 at `.thread main;` followed by `main: %end`, after `compile_init`: the label
is bound by the second statement only, and no thread is ever scheduled. -/
theorem compile_thread_spec_late :
    ∃ r, assemble sample_host late_thread_text = some r ∧
      sym_get_value r.sym_codespace "main" = 1 ∧ r.scheduled = [] ∧
      r.errout = ["unresolved address"] :=
  ⟨_, rfl,  by decide,
    ((compile_thread_spec sample_host "main" (compile_init sample_host static_state)).2.2
      (by decide)).2.2
      [.statement (.code (some "main") "%end" none), .cleanup] _
      (by decide) rfl,
    by decide⟩

/-! ## `compile_fork` and the assertions of the entry points -/

/-- C18 on the code: scenario S6 does not assemble. Its first statement,
`start: %fork child, scopeA`, reaches `assert(code->fork->cptr)` with `child` not yet
bound and aborts, so the text as a whole aborts; `compile_fork` keeps no unresolved entry
for its destination. In the same state `start: %jmp child` returns, with the forward
reference queued on `cresolv_list` for `compile_cleanup`. With the child thread placed in
front of the forks the instructions of S6 assemble, and both forks carry the address
bound to `child`. -/
theorem S6_fork_forward_reference_aborts :
    compile_fork (some "start") ⟨"child", 0⟩ ⟨"scopeA", 0⟩ S6_state = none ∧
    compile_text sample_host S6_text S6_state = none ∧
    (∃ r, compile_code (some "start") "%jmp" (some ⟨1, fun _ => .symb ⟨"child", 0⟩⟩)
        S6_state = some r ∧ r.cresolv_list = [⟨1, "child"⟩] ∧ r.errout = []) ∧
    ∃ r, compile_text sample_host S6_child_first_text S6_state = some r ∧
      sym_get_value r.sym_codespace "child" = 1 ∧
      (codespace_index (compile_cleanup r) 3).fork = some ⟨1, 1⟩ ∧
      (codespace_index (compile_cleanup r) 4).fork = some ⟨1, 1⟩ :=
  ⟨rfl, rfl, ⟨_, rfl, by decide, by decide⟩, _, rfl, by decide, by decide, by decide⟩

/-- An instruction statement that returns has allocated exactly one record, at the old
end of the code space, and has left every other record alone. -/
theorem instruction_allocates (h : vpi_host) (st : stmt) (s r : vvp_state)
    (hst : stmt_is_instruction st = true) (hr : compile_stmt h st s = some r) :
    r.code_count = s.code_count + 1 ∧ ∀ n, n ≠ s.code_count → r.codes n = s.codes n := by
  have hb : ∀ (label : Option String) (t : vvp_state),
      (bind_code_label label s.code_count t).code_count = t.code_count ∧
      (bind_code_label label s.code_count t).codes = t.codes := by
    intro label t; cases label <;> exact ⟨rfl, rfl⟩
  cases st with
  | code label mnem opa =>
    simp only [compile_stmt, compile_code, codespace_allocate] at hr
    split at hr
    · cases hr
    · simp only [Option.some.injEq] at hr
      rw [← hr]
      exact ⟨(hb label _).1, fun n _ => by
        show (bind_code_label label s.code_count _).codes n = _
        rw [(hb label _).2]⟩
    · split at hr
      · simp only [Option.some.injEq] at hr
        rw [← hr]
        refine ⟨(hb label _).1, fun n hn => ?_⟩
        simp only [yyerror, code_update, hn, if_false]
        rw [(hb label _).2]
      · obtain ⟨_, a2, _, _, _, _, a7, _⟩ := compile_code_operands_code_side _ opa _ _ _ r hr
        refine ⟨a2.trans (hb label _).1, fun n hn => ?_⟩
        rw [a7 n hn]
        simp only [code_update, hn, if_false]
        rw [(hb label _).2]
  | disable label symb =>
    simp only [compile_stmt, compile_disable, codespace_allocate] at hr
    split at hr
    · simp only [Option.some.injEq] at hr
      rw [← hr]
      refine ⟨(hb label _).1, fun n hn => ?_⟩
      simp only [code_update, hn, if_false]
      rw [(hb label _).2]
    · cases hr
  | fork label dest scope =>
    simp only [compile_stmt, compile_fork, codespace_allocate] at hr
    split at hr
    · split at hr
      · simp only [Option.some.injEq] at hr
        rw [← hr]
        refine ⟨(hb label _).1, fun n hn => ?_⟩
        simp only [code_update, hn, if_false]
        rw [(hb label _).2]
      · cases hr
    · cases hr
  | vpi_call label name argv =>
    simp only [compile_stmt, Option.some.injEq] at hr
    rw [← hr]
    simp only [compile_vpi_call, codespace_allocate]
    split
    · refine ⟨(hb label _).1, fun n hn => ?_⟩
      simp only [code_update, hn, if_false]
      rw [(hb label _).2]
    · refine ⟨(hb label _).1, fun n hn => ?_⟩
      simp only [code_update, hn, if_false]
      rw [(hb label _).2]
  | load_vpi_module _ => simp [stmt_is_instruction] at hst
  | functor _ _ _ _ => simp [stmt_is_instruction] at hst
  | event _ _ _ => simp [stmt_is_instruction] at hst
  | named_event _ _ => simp [stmt_is_instruction] at hst
  | event_or _ _ => simp [stmt_is_instruction] at hst
  | codelabel _ => simp [stmt_is_instruction] at hst
  | thread _ => simp [stmt_is_instruction] at hst
  | var _ _ _ _ _ => simp [stmt_is_instruction] at hst
  | net _ _ _ _ _ _ => simp [stmt_is_instruction] at hst

/-- C20: when `compile_code`, `compile_disable`, `compile_fork` or `compile_vpi_call`
is given the label `l` and returns `r`, it has allocated exactly one record, at the old
end `s.code_count` of the code space, and the code-label table of `r` maps `l` to that
address. `compile_codelabel` allocates nothing, writes no record and binds `l` to
`codespace_next`, the address of the next record to be allocated; so when an unlabeled
instruction statement follows the hanging label and returns `r2`, the one record it has
allocated is at the address that `l` names. -/
theorem label_binding (h : vpi_host) (st st2 : stmt) (l : String) (s r r2 : vvp_state)
    (hst : stmt_is_instruction st = true) (hl : stmt_label st = some l)
    (hr : compile_stmt h st s = some r)
    (hst2 : stmt_is_instruction st2 = true) (hl2 : stmt_label st2 = none)
    (hr2 : compile_stmt h st2 (compile_codelabel l s) = some r2) :
    (sym_get_value r.sym_codespace l = s.code_count ∧ r.code_count = s.code_count + 1 ∧
      ∀ n, n ≠ s.code_count → codespace_index r n = codespace_index s n) ∧
    ((compile_codelabel l s).code_count = s.code_count ∧
      (compile_codelabel l s).codes = s.codes ∧
      sym_get_value (compile_codelabel l s).sym_codespace l = codespace_next s ∧
      codespace_next s = (codespace_allocate s).1) ∧
    (sym_get_value r2.sym_codespace l = s.code_count ∧ r2.code_count = s.code_count + 1 ∧
      ∀ n, n ≠ s.code_count → codespace_index r2 n = codespace_index s n) := by
  have hcl : sym_get_value (compile_codelabel l s).sym_codespace l = s.code_count := by
    simp [compile_codelabel, codespace_next, sym_set_value, sym_get_value]
  refine ⟨?_, ⟨rfl, rfl, hcl, rfl⟩, ?_⟩
  · obtain ⟨a1, a2⟩ := instruction_allocates h st s r hst hr
    refine ⟨?_, a1, a2⟩
    rw [compile_stmt_sym_codespace h st s r hr, sym_get_value_bind, hl]
    simp
  · obtain ⟨a1, a2⟩ := instruction_allocates h st2 _ r2 hst2 hr2
    refine ⟨?_, a1, a2⟩
    rw [compile_stmt_sym_codespace h st2 _ r2 hr2, sym_get_value_bind, hl2]
    simpa using hcl

/-- C20 at `L: %vpi_call "$display"` and at the hanging label `L:` followed by `%end`,
after `compile_init`: in both `L` names address 1, the record just allocated. -/
theorem label_binding_example :
    ∃ r r2,
      compile_stmt sample_host (.vpi_call (some "L") "$display" [])
        (compile_init sample_host static_state) = some r ∧
      compile_stmt sample_host (.code none "%end" none)
        (compile_codelabel "L" (compile_init sample_host static_state)) = some r2 ∧
      sym_get_value r.sym_codespace "L" = 1 ∧ r.code_count = 2 ∧
      sym_get_value r2.sym_codespace "L" = 1 ∧ r2.code_count = 2 ∧
      (codespace_index r2 1).opcode = some of_END :=
  ⟨_, _, rfl, rfl,
    (label_binding sample_host (.vpi_call (some "L") "$display" []) (.code none "%end" none)
      "L" (compile_init sample_host static_state) _ _ rfl rfl rfl rfl rfl rfl).1.1,
    (label_binding sample_host (.vpi_call (some "L") "$display" []) (.code none "%end" none)
      "L" (compile_init sample_host static_state) _ _ rfl rfl rfl rfl rfl rfl).1.2.1,
    (label_binding sample_host (.vpi_call (some "L") "$display" []) (.code none "%end" none)
      "L" (compile_init sample_host static_state) _ _ rfl rfl rfl rfl rfl rfl).2.2.1,
    (label_binding sample_host (.vpi_call (some "L") "$display" []) (.code none "%end" none)
      "L" (compile_init sample_host static_state) _ _ rfl rfl rfl rfl rfl rfl).2.2.2.1,
    by decide⟩

/-! ## The VPI symbol table -/

/-- C21: `compile_vpi_lookup` of a label right after `compile_vpi_symbol` of that label
returns the handle just registered, whatever was registered for the label before;
registering one label leaves the lookup of every other label as it was; a label that
has no binding in the table looks up as the null sentinel; and after `compile_init` the
label `$time` is registered to the handle of `vpip_sim_time` and no other label is
registered. -/
theorem vpi_symbol_round_trip (h : vpi_host) (l : String) (hnd : Nat) (s : vvp_state) :
    compile_vpi_lookup (compile_vpi_symbol l hnd s) l = hnd ∧
    (∀ old, compile_vpi_lookup (compile_vpi_symbol l hnd (compile_vpi_symbol l old s)) l =
      hnd) ∧
    (∀ l2, l2 ≠ l →
      compile_vpi_lookup (compile_vpi_symbol l hnd s) l2 = compile_vpi_lookup s l2) ∧
    (l ∉ s.sym_vpi.map Prod.fst → compile_vpi_lookup s l = 0) ∧
    compile_vpi_lookup (compile_init h s) "$time" = h.vpip_sim_time ∧
    (l ≠ "$time" → compile_vpi_lookup (compile_init h s) l = 0) := by
  refine ⟨?_, ?_, ?_, ?_, ?_, ?_⟩
  · simp [compile_vpi_lookup, compile_vpi_symbol, sym_set_value, sym_get_value]
  · intro old
    simp [compile_vpi_lookup, compile_vpi_symbol, sym_set_value, sym_get_value]
  · intro l2 hne
    simp [compile_vpi_lookup, compile_vpi_symbol, sym_set_value, sym_get_value, hne]
  · exact sym_get_value_unbound _ _
  · simp [compile_vpi_lookup, compile_init, compile_vpi_symbol, sym_set_value, sym_get_value,
      functor_init, codespace_init, new_symbol_table]
  · intro hne
    simp [compile_vpi_lookup, compile_init, compile_vpi_symbol, sym_set_value, sym_get_value,
      functor_init, codespace_init, new_symbol_table, hne]

/-! ## The four inputs of a functor -/

theorem functor_inputs_append (fdx : Nat) : ∀ (l1 l2 : List symb_s) (i : Nat)
    (s : vvp_state), functor_inputs fdx i (l1 ++ l2) s =
      functor_inputs fdx (i + l1.length) l2 (functor_inputs fdx i l1 s)
  | [], l2, i, s => by simp [functor_inputs]
  | a :: l1, l2, i, s => by
    have e : i + 1 + l1.length = i + (l1.length + 1) := by omega
    have h := functor_inputs_append fdx l1 l2 (i + 1) (functor_input fdx i a s)
    rw [e] at h
    simpa only [List.cons_append, functor_inputs, List.length_cons] using h

theorem functor_wired_succ (label : String) (argv : List symb_s) (s : vvp_state)
    (idx : Nat) (hidx : idx < argv.length) :
    functor_wired label argv s (idx + 1) =
      functor_input (4 * s.functor_count) idx argv[idx] (functor_wired label argv s idx) := by
  unfold functor_wired
  simp only [functor_allocate]
  rw [List.take_succ, functor_inputs_append]
  have e : argv[idx]? = some argv[idx] := List.getElem?_eq_getElem hidx
  have e2 : (argv.take idx).length = idx := by
    rw [List.length_take]; omega
  rw [e, e2]
  simp [functor_inputs]

/-- One pass through the input loop with a defined source: the ipoint made for input
`idx` is the new head of the source's out chain, and `port[idx]` of the new functor
holds the head it replaced. -/
theorem functor_input_defined (fdx idx : Nat) (a : symb_s) (s : vvp_state)
    (hdef : sym_get_value s.sym_functors a.text ≠ 0) :
    (functor_index (functor_input fdx idx a s)
      (ipoint_index (sym_get_value s.sym_functors a.text) a.idx)).out = ipoint_make fdx idx ∧
    (functor_index (functor_input fdx idx a s) fdx).port idx =
      (functor_index s (ipoint_index (sym_get_value s.sym_functors a.text) a.idx)).out ∧
    (functor_input fdx idx a s).resolv_list = s.resolv_list := by
  unfold functor_input
  simp only [hdef, ne_eq, not_false_eq_true, if_true]
  refine ⟨?_, ?_, ?_⟩
  · simp [functor_index, functor_update]
  · simp only [functor_index, functor_update]
    by_cases hal : fdx / 4 = ipoint_index (sym_get_value s.sym_functors a.text) a.idx / 4
    · simp [hal]
    · simp [hal]
  · simp [functor_update]

/-- One pass through the input loop with an undefined source: one entry goes on the
front of the unresolved list and no functor changes. -/
theorem functor_input_undefined (fdx idx : Nat) (a : symb_s) (s : vvp_state)
    (hdef : sym_get_value s.sym_functors a.text = 0) :
    (functor_input fdx idx a s).resolv_list =
      ⟨ipoint_make fdx idx, a.text, a.idx⟩ :: s.resolv_list ∧
    (functor_input fdx idx a s).functors = s.functors := by
  unfold functor_input
  simp [hdef, postpone_functor_input]

/-- C22: `compile_functor` and `compile_event` pass their assertion `argc <= 4` exactly
when at most four sources are supplied. Under it both run the same input loop and leave
the links of that loop (`compile_event` then clears the `out` of the new functor), and
for every source `i` the ipoint made for it addresses the new functor, has port index
`i`, and differs from the ipoint of every other source. The pass for source `i` wires it
to that port: if the source label is defined, the ipoint becomes the head of the
source's out chain and `port[i]` of the new functor holds the head it replaced; otherwise
one entry with that ipoint is deferred. The bound is structural: a fifth source would
get the ipoint of the first. -/
theorem four_input_bound (label type : String) (init : Nat) (argv : List symb_s)
    (s : vvp_state) :
    (compile_functor label type init argv s ≠ none ↔ argv.length ≤ 4) ∧
    (compile_event label type argv s ≠ none ↔ argv.length ≤ 4) ∧
    ipoint_make (4 * s.functor_count) 4 = ipoint_make (4 * s.functor_count) 0 ∧
    (argv.length ≤ 4 →
      (∃ r, compile_functor label type init argv s = some r ∧
        (∀ n, (r.functors n).port =
          ((functor_wired label argv s argv.length).functors n).port) ∧
        (∀ n, (r.functors n).out =
          ((functor_wired label argv s argv.length).functors n).out) ∧
        r.resolv_list = (functor_wired label argv s argv.length).resolv_list) ∧
      (∃ r, compile_event label type argv s = some r ∧
        (∀ n, (r.functors n).port =
          ((functor_wired label argv s argv.length).functors n).port) ∧
        (∀ n, n ≠ s.functor_count → (r.functors n).out =
          ((functor_wired label argv s argv.length).functors n).out) ∧
        r.resolv_list = (functor_wired label argv s argv.length).resolv_list) ∧
      ∀ (i : Nat) (hi : i < argv.length),
        ipoint_port (ipoint_make (4 * s.functor_count) i) = i ∧
        ipoint_make (4 * s.functor_count) i / 4 = s.functor_count ∧
        (∀ j, j < argv.length →
          ipoint_make (4 * s.functor_count) j = ipoint_make (4 * s.functor_count) i → j = i) ∧
        (sym_get_value (sym_set_value s.sym_functors label (4 * s.functor_count))
            argv[i].text ≠ 0 →
          (functor_index (functor_wired label argv s (i + 1))
            (ipoint_index (sym_get_value (sym_set_value s.sym_functors label
              (4 * s.functor_count)) argv[i].text) argv[i].idx)).out =
            ipoint_make (4 * s.functor_count) i ∧
          (functor_index (functor_wired label argv s (i + 1))
            (ipoint_make (4 * s.functor_count) i)).port
              (ipoint_port (ipoint_make (4 * s.functor_count) i)) =
            (functor_index (functor_wired label argv s i)
              (ipoint_index (sym_get_value (sym_set_value s.sym_functors label
                (4 * s.functor_count)) argv[i].text) argv[i].idx)).out ∧
          (functor_wired label argv s (i + 1)).resolv_list =
            (functor_wired label argv s i).resolv_list) ∧
        (sym_get_value (sym_set_value s.sym_functors label (4 * s.functor_count))
            argv[i].text = 0 →
          (functor_wired label argv s (i + 1)).resolv_list =
            ⟨ipoint_make (4 * s.functor_count) i, argv[i].text, argv[i].idx⟩ ::
              (functor_wired label argv s i).resolv_list ∧
          (functor_wired label argv s (i + 1)).functors =
            (functor_wired label argv s i).functors)) := by
  have hfin : functor_wired label argv s argv.length =
      functor_inputs (4 * s.functor_count) 0 argv
        { s with functor_count := s.functor_count + 1,
                 sym_functors := sym_set_value s.sym_functors label (4 * s.functor_count) } := by
    simp [functor_wired, functor_allocate]
  have hsym : ∀ k, (functor_wired label argv s k).sym_functors =
      sym_set_value s.sym_functors label (4 * s.functor_count) := by
    intro k
    obtain ⟨_, a2, _⟩ := functor_inputs_frame (4 * s.functor_count) (argv.take k) 0
      { s with functor_count := s.functor_count + 1,
               sym_functors := sym_set_value s.sym_functors label (4 * s.functor_count) }
    simpa [functor_wired, functor_allocate] using a2
  refine ⟨?_, ?_, ?_, ?_⟩
  · by_cases hargc : argv.length ≤ 4
    · simp [compile_functor_eq label type init argv s hargc, hargc]
    · simp [compile_functor, functor_allocate, hargc]
  · by_cases hargc : argv.length ≤ 4
    · simp [compile_event_eq label type argv s hargc, hargc]
    · simp [compile_event, functor_allocate, hargc]
  · unfold ipoint_make; omega
  · intro hargc
    refine ⟨?_, ?_, ?_⟩
    · have he := compile_functor_eq label type init argv s hargc
      obtain ⟨_, a2, a3, a4, _⟩ := compile_functor_links label type init argv s _ he
      rw [hfin]
      exact ⟨_, he, a2, a3, a4⟩
    · have he := compile_event_eq label type argv s hargc
      obtain ⟨_, a2, a3, a4, _⟩ := compile_event_links label type argv s _ he
      rw [hfin]
      refine ⟨_, he, a2, ?_, a4⟩
      intro n hn
      rw [a3 n]
      simp only [hn, if_false]
    · intro i hi
      have hi4 : i < 4 := by omega
      have hport : ipoint_port (ipoint_make (4 * s.functor_count) i) = i := by
        unfold ipoint_port ipoint_make; omega
      have hfun : ipoint_make (4 * s.functor_count) i / 4 = s.functor_count := by
        unfold ipoint_make; omega
      have hstep := functor_wired_succ label argv s i hi
      refine ⟨hport, hfun, ?_, ?_, ?_⟩
      · intro j hj hji
        unfold ipoint_make at hji
        omega
      · intro hdef
        rw [← hsym i] at hdef ⊢
        obtain ⟨a1, a2, a3⟩ := functor_input_defined (4 * s.functor_count) i argv[i]
          (functor_wired label argv s i) hdef
        rw [hstep, hport]
        refine ⟨a1, ?_, a3⟩
        have e4 : 4 * s.functor_count / 4 = s.functor_count := by omega
        simp only [functor_index, hfun] at a2 ⊢
        rw [e4] at a2
        exact a2
      · intro hdef
        rw [← hsym i] at hdef
        rw [hstep]
        exact functor_input_undefined (4 * s.functor_count) i argv[i]
          (functor_wired label argv s i) hdef

/-- C22 at scenario S4, `f1 .functor AND, 0, f2[0], f2[0];` after `compile_init`: the two
sources get the ipoints 4 and 5 of functor 1, ports 0 and 1. -/
theorem four_input_bound_S4 :
    [(⟨"f2", 0⟩ : symb_s), ⟨"f2", 0⟩].length ≤ 4 ∧
    ipoint_port (ipoint_make 4 1) = 1 ∧
    (functor_wired "f1" [⟨"f2", 0⟩, ⟨"f2", 0⟩] (compile_init sample_host static_state)
      2).resolv_list = [⟨5, "f2", 0⟩, ⟨4, "f2", 0⟩] :=
  ⟨by decide,
    (((four_input_bound "f1" "AND" 0 [⟨"f2", 0⟩, ⟨"f2", 0⟩]
      (compile_init sample_host static_state)).2.2.2 (by decide)).2.2 1 (by decide)).1,
    by decide⟩

/-! ## The opcode table and the instruction table of the specification -/

/-- C23 fails as stated: the specification shows `%inv dst, n`, a bit index and a count,
but the row of `%inv` in `opcode_table` declares two bit indices, `OA_BIT1` and
`OA_BIT2`; the count is not an `OA_NUMBER` slot. -/
theorem inv_count_is_bit_slot :
    ("%inv", [operand_role.bit, operand_role.count]) ∈ spec_instructions ∧
    (⟨some "%inv", of_INV, 2, [OA_BIT1, OA_BIT2, OA_NONE]⟩ : opcode_table_s) ∈ opcode_table ∧
    role_matches operand_role.count OA_BIT2 = false ∧
    slots_match [operand_role.bit, operand_role.count] [OA_BIT1, OA_BIT2, OA_NONE] = false :=
  ⟨by decide, by decide, rfl, rfl⟩

set_option maxRecDepth 100000 in
/-- C23 as amended: every mnemonic of `opcode_table` is a row of the instruction table
of the specification, and for every row of the specification that `opcode_table`
implements the operand count of the entry is the number of operands shown and, except
for `%inv`, every slot's declared type matches the role of its operand, the slots after
the last operand being `OA_NONE`. The entry of `%inv` declares its count as a second
bit index: its slots are `OA_BIT1`, `OA_BIT2`. -/
theorem opcode_table_matches_spec (row : String × List operand_role) (op : opcode_table_s)
    (hrow : row ∈ spec_instructions) (hop : op ∈ opcode_table)
    (hm : op.mnemonic = some row.1) :
    op.argc = row.2.length ∧
    (row.1 ≠ "%inv" → slots_match row.2 op.argt = true) ∧
    (row.1 = "%inv" → op.argt = [OA_BIT1, OA_BIT2, OA_NONE]) ∧
    ∀ op2 ∈ opcode_table, ∀ m, op2.mnemonic = some m →
      ∃ row2 ∈ spec_instructions, row2.1 = m := by
  have h1 : ∀ row ∈ spec_instructions, ∀ op ∈ opcode_table, op.mnemonic = some row.1 →
      op.argc = row.2.length ∧
      (row.1 ≠ "%inv" → slots_match row.2 op.argt = true) ∧
      (row.1 = "%inv" → op.argt = [OA_BIT1, OA_BIT2, OA_NONE]) := by decide
  have h2 : ∀ op2 ∈ opcode_table, ∀ m ∈ op2.mnemonic,
      ∃ row2 ∈ spec_instructions, row2.1 = m := by decide
  obtain ⟨a1, a2, a3⟩ := h1 row hrow op hop hm
  exact ⟨a1, a2, a3, fun op2 h2op m hm2 => h2 op2 h2op m (by simp [hm2])⟩

/-- C23 as amended, at the row of `%mov`. -/
theorem opcode_table_matches_spec_mov :
    (("%mov", [operand_role.bit, operand_role.bit, operand_role.count]) ∈ spec_instructions ∧
      (⟨some "%mov", of_MOV, 3, [OA_BIT1, OA_BIT2, OA_NUMBER]⟩ : opcode_table_s) ∈
        opcode_table) ∧
    slots_match [operand_role.bit, operand_role.bit, operand_role.count]
      [OA_BIT1, OA_BIT2, OA_NUMBER] = true :=
  ⟨⟨by decide, by decide⟩,
    (opcode_table_matches_spec ("%mov", [operand_role.bit, operand_role.bit, operand_role.count])
      ⟨some "%mov", of_MOV, 3, [OA_BIT1, OA_BIT2, OA_NUMBER]⟩ (by decide) (by decide) rfl).2.1
      (by decide)⟩

/-! ## Links of the netlist -/

theorem link_pool_init_ok : link_pool_ok link_pool_init := by
  intro p
  refine ⟨by simp [link_pool_init], by simp [link_pool_init], ?_⟩
  intro q hq
  simp only [link_pool_init, List.mem_singleton] at hq ⊢
  rw [hq]

theorem link_pool_disjoint {st : link_pool} (hok : link_pool_ok st) {a b : Nat}
    (hab : b ∉ st.ring a) : ∀ x, x ∈ st.ring a → x ∉ st.ring b := by
  intro x hxa hxb
  have e1 := (hok a).2.2 x hxa
  have e2 := (hok b).2.2 x hxb
  have : st.ring b = st.ring a := e2.symm.trans e1
  exact hab (this ▸ (hok b).1)

theorem connect_ok (a b : Nat) (st : link_pool) (hok : link_pool_ok st) :
    link_pool_ok (connect a b st) := by
  unfold connect
  by_cases hab : b ∈ st.ring a
  · simpa [hab] using hok
  · simp only [hab, if_false]
    intro p
    by_cases hp : p ∈ st.ring a ∨ p ∈ st.ring b
    · simp only [hp, if_true]
      refine ⟨by simpa using hp, ?_, ?_⟩
      · rw [List.nodup_append]
        exact ⟨(hok a).2.1, (hok b).2.1, fun x hx hxb => link_pool_disjoint hok hab x hx hxb⟩
      · intro q hq
        have hq2 : q ∈ st.ring a ∨ q ∈ st.ring b := by simpa using hq
        simp only [hq2, if_true]
    · simp only [hp, if_false]
      refine ⟨(hok p).1, (hok p).2.1, ?_⟩
      intro q hq
      have e := (hok p).2.2 q hq
      have hq2 : ¬ (q ∈ st.ring a ∨ q ∈ st.ring b) := by
        intro hc
        apply hp
        rcases hc with hc | hc
        · left
          have := (hok a).2.2 q hc
          rw [← this, e]
          exact (hok p).1
        · right
          have := (hok b).2.2 q hc
          rw [← this, e]
          exact (hok p).1
      simp only [hq2, if_false]
      exact e

theorem unlink_ok (p : Nat) (st : link_pool) (hok : link_pool_ok st) :
    link_pool_ok (unlink p st) := by
  intro x
  simp only [unlink]
  by_cases hx : x = p
  · subst hx
    simp
  · simp only [hx, if_false]
    refine ⟨(List.mem_erase_of_ne hx).2 (hok x).1, (hok x).2.1.erase p, ?_⟩
    intro q hq
    have hqx : q ∈ st.ring x := List.mem_of_mem_erase hq
    have hqp : q ≠ p := by
      intro e
      subst e
      exact (List.Nodup.not_mem_erase (hok x).2.1) hq
    simp only [hqp, if_false]
    rw [(hok x).2.2 q hqx]

/-- C25: in a pool where every link belongs to exactly one ring, for two links `a` and
`b`: after `connect(a, b)` the link `a` is linked to `b` (and `b` to `a`) and the ring of
`a` holds exactly the links of the two former rings; after `a.unlink()` the link `a` is
linked to `b` no more, nor `b` to `a`, the ring of `a` is `a` alone, and any two other
links of the former ring are still linked to each other; both operations keep every link
in exactly one ring. Scenario S1, with the pins of the wires `w1`, `w2` as links 1 and 2:
`connect` gives `is_linked` true and `count_signals` 2, and unlinking pin 1 then gives
`is_linked` false. -/
theorem connect_unlink (st : link_pool) (a b : Nat) (hok : link_pool_ok st) (hab : a ≠ b) :
    (link_pool_ok (connect a b st) ∧
      is_linked (connect a b st) a b = true ∧ is_linked (connect a b st) b a = true ∧
      ∀ x, x ∈ (connect a b st).ring a ↔ x ∈ st.ring a ∨ x ∈ st.ring b) ∧
    (link_pool_ok (unlink a st) ∧
      is_linked (unlink a st) a b = false ∧ is_linked (unlink a st) b a = false ∧
      (unlink a st).ring a = [a] ∧
      ∀ x y, x ∈ st.ring a → y ∈ st.ring a → x ≠ a → y ≠ a → x ≠ y →
        is_linked (unlink a st) x y = true) ∧
    is_linked (unlink a (connect a b st)) a b = false ∧
    (is_linked (connect 1 2 link_pool_init) 1 2 = true ∧
      count_signals (connect 1 2 link_pool_init) 1 = 2 ∧
      is_linked (unlink 1 (connect 1 2 link_pool_init)) 1 2 = false) := by
  have hmem : ∀ x, x ∈ (connect a b st).ring a ↔ x ∈ st.ring a ∨ x ∈ st.ring b := by
    intro x
    unfold connect
    by_cases hl : b ∈ st.ring a
    · simp only [hl, if_true]
      constructor
      · exact Or.inl
      · rintro (h | h)
        · exact h
        · rw [← (hok a).2.2 b hl]
          exact h
    · simp [hl, (hok a).1]
  have hringb : (connect a b st).ring b = (connect a b st).ring a := by
    apply ((connect_ok a b st hok) a).2.2 b
    exact (hmem b).2 (Or.inr (hok b).1)
  have hun : (unlink a st).ring a = [a] := by simp [unlink]
  have hunl : ∀ t : link_pool, is_linked (unlink a t) a b = false := by
    intro t
    simp [is_linked, unlink]
  refine ⟨⟨connect_ok a b st hok, ?_, ?_, hmem⟩, ⟨unlink_ok a st hok, hunl st, ?_, hun, ?_⟩,
    hunl _, by decide, by decide, by decide⟩
  · simp only [is_linked, decide_eq_true_eq]
    exact (List.mem_erase_of_ne (Ne.symm hab)).2 ((hmem b).2 (Or.inr (hok b).1))
  · simp only [is_linked, decide_eq_true_eq]
    rw [hringb]
    exact (List.mem_erase_of_ne hab).2 ((hmem a).2 (Or.inl (hok a).1))
  · simp only [is_linked, unlink, (Ne.symm hab), if_false, decide_eq_false_iff_not]
    intro h
    exact (List.Nodup.not_mem_erase (hok b).2.1) (List.mem_of_mem_erase h)
  · intro x y hx hy hxa hya hxy
    simp only [is_linked, unlink, hxa, if_false, decide_eq_true_eq]
    rw [(hok a).2.2 x hx]
    exact (List.mem_erase_of_ne (Ne.symm hxy)).2 ((List.mem_erase_of_ne hya).2 hy)

/-- C25 at scenario S1: the pool of two fresh one-pin wires, links 1 and 2. -/
theorem connect_unlink_S1 :
    (link_pool_ok link_pool_init ∧ (1 : Nat) ≠ 2) ∧
    is_linked (connect 1 2 link_pool_init) 1 2 = true ∧
    (connect 1 2 link_pool_init).ring 1 = [1, 2] ∧
    is_linked (unlink 1 (connect 1 2 link_pool_init)) 1 2 = false :=
  ⟨⟨link_pool_init_ok, by decide⟩,
    (connect_unlink link_pool_init 1 2 link_pool_init_ok (by decide)).1.2.1,
    by decide,
    (connect_unlink link_pool_init 1 2 link_pool_init_ok (by decide)).2.2.1⟩

/-! ## The fan-out chain of an event functor -/

/-- C27 on the code: after `compile_init`, `e .event posedge, e[0];` declares input 0
of the event `e` (functor 1, ipoint 4) with a source that addresses `e` itself. The
source is defined, so the loop of `compile_event` links the input at once (nothing is
deferred) and `e.out` is the ipoint 4; the store `obj->out = 0` that follows the loop
then empties the chain, and it is still empty after `compile_cleanup`: the resolved
input lies on no chain. The same declaration through `compile_functor`, whose loop is
the same, leaves the input on the chain of its source. -/
theorem event_self_source_off_chain :
    (functor_index (functor_wired "e" [⟨"e", 0⟩] (compile_init sample_host static_state) 1)
      4).out = 4 ∧
    (∃ r, assemble sample_host self_event_text = some r ∧
      source_ipoint r ⟨"e", 0⟩ = 4 ∧ r.resolv_list = [] ∧
      (functor_index r 4).out = 0 ∧ out_chain r 8 (functor_index r 4).out = [] ∧
      ∀ n, n < 8 → 4 ∉ out_chain r 8 (r.functors n).out) ∧
    (∃ r, assemble sample_host self_functor_text = some r ∧
      source_ipoint r ⟨"g", 0⟩ = 4 ∧ r.resolv_list = [] ∧
      out_chain r 8 (functor_index r 4).out = [4]) :=
  ⟨by decide, ⟨_, rfl, by decide, by decide, by decide, by decide, by decide⟩,
    ⟨_, rfl, by decide, by decide, by decide⟩⟩

/-! ## A second `compile_cleanup` -/

theorem cleanup_ports_all_undefined : ∀ (l : List resolv_list_s) (s : vvp_state),
    (∀ e ∈ l, sym_get_value s.sym_functors e.source = 0) →
    cleanup_ports l s = { s with resolv_list := l.reverse ++ s.resolv_list }
  | [], s, _ => by simp [cleanup_ports]
  | res :: rest, s, h => by
    have h0 : sym_get_value s.sym_functors res.source = 0 := h res (List.mem_cons_self _ _)
    simp only [cleanup_ports, h0, ne_eq, not_true_eq_false, if_false]
    rw [cleanup_ports_all_undefined rest { s with resolv_list := res :: s.resolv_list }
      (fun e he => h e (List.mem_cons_of_mem _ he))]
    simp

theorem cleanup_codes_all_undefined : ∀ (l : List cresolv_list_s) (s : vvp_state),
    (∀ e ∈ l, sym_get_value s.sym_codespace e.lab = 0) →
    cleanup_codes l s =
      { s with errout := s.errout ++ l.map (fun e => "unresolved code label: " ++ e.lab),
               cresolv_list := l.reverse ++ s.cresolv_list }
  | [], s, _ => by simp [cleanup_codes]
  | res :: rest, s, h => by
    have h0 : sym_get_value s.sym_codespace res.lab = 0 := h res (List.mem_cons_self _ _)
    simp only [cleanup_codes, h0, ne_eq, not_true_eq_false, if_false]
    rw [cleanup_codes_all_undefined rest
      { s with errout := s.errout ++ ["unresolved code label: " ++ res.lab],
               cresolv_list := res :: s.cresolv_list }
      (fun e he => h e (List.mem_cons_of_mem _ he))]
    simp

/-- A pass of `compile_cleanup` over a state whose unresolved entries all name undefined
labels only reverses the two lists and repeats the report of each unresolved code
label. -/
theorem compile_cleanup_residual (s : vvp_state)
    (hp : ∀ e ∈ s.resolv_list, sym_get_value s.sym_functors e.source = 0)
    (hc : ∀ e ∈ s.cresolv_list, sym_get_value s.sym_codespace e.lab = 0) :
    compile_cleanup s =
      { s with resolv_list := s.resolv_list.reverse,
               cresolv_list := s.cresolv_list.reverse,
               errout := s.errout ++
                 s.cresolv_list.map (fun e => "unresolved code label: " ++ e.lab) } := by
  unfold compile_cleanup
  simp only
  rw [cleanup_ports_all_undefined s.resolv_list { s with resolv_list := [] } hp]
  simp only [List.append_nil]
  rw [cleanup_codes_all_undefined s.cresolv_list
    { s with resolv_list := s.resolv_list.reverse, cresolv_list := [] } hc]
  simp

/-- After a pass of `compile_cleanup` every entry left on the two lists names an
undefined label. -/
theorem compile_cleanup_leaves_undefined (s : vvp_state) :
    (∀ e ∈ (compile_cleanup s).resolv_list,
      sym_get_value (compile_cleanup s).sym_functors e.source = 0) ∧
    (∀ e ∈ (compile_cleanup s).cresolv_list,
      sym_get_value (compile_cleanup s).sym_codespace e.lab = 0) := by
  obtain ⟨a1, _, _, _, a5, _⟩ := compile_cleanup_code_spec s
  obtain ⟨b1, b2⟩ := cleanup_ports_resolv s.resolv_list { s with resolv_list := [] }
  obtain ⟨⟨_, _, c3, c4⟩, _⟩ := cleanup_codes_spec
    (cleanup_ports s.resolv_list { s with resolv_list := [] }).cresolv_list
    { cleanup_ports s.resolv_list { s with resolv_list := [] } with cresolv_list := [] }
  constructor
  · intro e he
    have hs : (compile_cleanup s).sym_functors = s.sym_functors := c4.trans b1
    have hl : (compile_cleanup s).resolv_list =
        (s.resolv_list.filter fun e =>
          decide (sym_get_value s.sym_functors e.source = 0)).reverse := by
      have := c3.trans b2
      simpa using this
    rw [hs]
    rw [hl, List.mem_reverse, List.mem_filter] at he
    simpa using he.2
  · intro e he
    rw [a1]
    rw [a5, List.mem_reverse, List.mem_filter] at he
    simpa using he.2

theorem compile_cleanup_residual_twice (t : vvp_state)
    (hp : ∀ e ∈ t.resolv_list, sym_get_value t.sym_functors e.source = 0)
    (hc : ∀ e ∈ t.cresolv_list, sym_get_value t.sym_codespace e.lab = 0) :
    compile_cleanup (compile_cleanup t) =
      { t with
        errout := t.errout ++
          t.cresolv_list.map (fun e => "unresolved code label: " ++ e.lab) ++
          t.cresolv_list.reverse.map (fun e => "unresolved code label: " ++ e.lab) } := by
  rw [compile_cleanup_residual t hp hc]
  rw [compile_cleanup_residual
    { t with resolv_list := t.resolv_list.reverse,
             cresolv_list := t.cresolv_list.reverse,
             errout := t.errout ++
               t.cresolv_list.map (fun e => "unresolved code label: " ++ e.lab) }
    (fun e he => hp e (List.mem_reverse.mp he))
    (fun e he => hc e (List.mem_reverse.mp he))]
  simp

/-- C28: a second `compile_cleanup`, with no declaration in between, changes no
functor and no instruction (so no `port[]`, `out` or `cptr`), no symbol table and no
count; it leaves the same unresolved port entries and the same unresolved code entries,
each list in reversed order, and prints the report of every unresolved code label once
more. A third pass reverses the lists again, so that three passes end in the state
reached by one, apart from the reports repeated on the error stream. -/
theorem cleanup_fixed_point (s : vvp_state) :
    compile_cleanup (compile_cleanup s) =
      { compile_cleanup s with
        resolv_list := (compile_cleanup s).resolv_list.reverse,
        cresolv_list := (compile_cleanup s).cresolv_list.reverse,
        errout := (compile_cleanup s).errout ++
          (compile_cleanup s).cresolv_list.map (fun e => "unresolved code label: " ++ e.lab) } ∧
    (∀ n, (compile_cleanup (compile_cleanup s)).functors n = (compile_cleanup s).functors n) ∧
    (∀ n, (compile_cleanup (compile_cleanup s)).codes n = (compile_cleanup s).codes n) ∧
    (∀ e, e ∈ (compile_cleanup (compile_cleanup s)).resolv_list ↔
      e ∈ (compile_cleanup s).resolv_list) ∧
    (∀ e, e ∈ (compile_cleanup (compile_cleanup s)).cresolv_list ↔
      e ∈ (compile_cleanup s).cresolv_list) ∧
    compile_cleanup (compile_cleanup (compile_cleanup s)) =
      { compile_cleanup s with
        errout := (compile_cleanup s).errout ++
          (compile_cleanup s).cresolv_list.map (fun e => "unresolved code label: " ++ e.lab) ++
          (compile_cleanup s).cresolv_list.reverse.map
            (fun e => "unresolved code label: " ++ e.lab) } := by
  obtain ⟨hp, hc⟩ := compile_cleanup_leaves_undefined s
  have h2 := compile_cleanup_residual (compile_cleanup s) hp hc
  have h3 := compile_cleanup_residual_twice (compile_cleanup s) hp hc
  refine ⟨h2, ?_, ?_, ?_, ?_, h3⟩
  · intro n; rw [h2]
  · intro n; rw [h2]
  · intro e; rw [h2]; exact List.mem_reverse
  · intro e; rw [h2]; exact List.mem_reverse

/-! ## `compile_event_or` -/

theorem event_or_inputs_frame (fdx : Nat) : ∀ (argv : List symb_s) (t r : vvp_state),
    event_or_inputs fdx argv t = some r →
    r.sym_functors = t.sym_functors ∧ r.functor_count = t.functor_count ∧
    r.resolv_list = t.resolv_list
  | [], t, r, hr => by
    simp only [event_or_inputs, Option.some.injEq] at hr
    subst hr
    exact ⟨rfl, rfl, rfl⟩
  | a :: rest, t, r, hr => by
    simp only [event_or_inputs] at hr
    by_cases hdef : sym_get_value t.sym_functors a.text = 0
    · simp [hdef] at hr
    · by_cases hout : (functor_index t
          (ipoint_index (sym_get_value t.sym_functors a.text) a.idx)).out = 0
      · simp only [hdef, hout, ne_eq, not_false_eq_true, if_true] at hr
        obtain ⟨a1, a2, a3⟩ := event_or_inputs_frame fdx rest _ r hr
        exact ⟨a1.trans rfl, a2.trans rfl, a3.trans rfl⟩
      · simp [hdef, hout] at hr

/-- The loop of `compile_event_or` passes its assertions exactly when every source is
defined and drives nothing and no two sources address one functor. -/
theorem event_or_inputs_some_iff (fdx : Nat) (hf0 : fdx ≠ 0) :
    ∀ (argv : List symb_s) (t : vvp_state),
      event_or_inputs fdx argv t ≠ none ↔
        (∀ a ∈ argv, sym_get_value t.sym_functors a.text ≠ 0 ∧
          (functor_index t (source_ipoint t a)).out = 0) ∧
        (argv.map fun a => source_ipoint t a / 4).Nodup
  | [], t => by simp [event_or_inputs]
  | b :: rest, t => by
    simp only [event_or_inputs]
    by_cases hdef : sym_get_value t.sym_functors b.text = 0
    · simp only [hdef, ne_eq, not_true_eq_false, if_false, not_true, false_iff]
      intro h
      exact (h.1 b (List.mem_cons_self _ _)).1 hdef
    · by_cases hout : (functor_index t (source_ipoint t b)).out = 0
      · have hout2 : (functor_index t
            (ipoint_index (sym_get_value t.sym_functors b.text) b.idx)).out = 0 := hout
        simp only [hdef, hout2, ne_eq, not_false_eq_true, if_true]
        have ih := event_or_inputs_some_iff fdx hf0 rest
          (functor_update t (ipoint_index (sym_get_value t.sym_functors b.text) b.idx)
            fun fport => { fport with out := fdx })
        have hsrc : ∀ a, source_ipoint (functor_update t
            (ipoint_index (sym_get_value t.sym_functors b.text) b.idx)
            fun fport => { fport with out := fdx }) a = source_ipoint t a := fun _ => rfl
        have hout3 : ∀ a, (functor_index (functor_update t
            (ipoint_index (sym_get_value t.sym_functors b.text) b.idx)
            fun fport => { fport with out := fdx }) (source_ipoint t a)).out =
            if source_ipoint t a / 4 = source_ipoint t b / 4 then fdx
            else (functor_index t (source_ipoint t a)).out := by
          intro a
          simp only [functor_index, functor_update, source_ipoint]
          split <;> rfl
        simp only [ne_eq] at ih
        rw [ih]
        simp only [hsrc, hout3, List.map_cons, List.nodup_cons, List.mem_cons, forall_eq_or_imp,
          List.mem_map, not_exists, not_and]
        constructor
        · rintro ⟨h1, h2⟩
          refine ⟨⟨⟨hdef, hout⟩, fun a ha => ?_⟩, fun a ha => ?_, h2⟩
          · have := h1 a ha
            by_cases he : source_ipoint t a / 4 = source_ipoint t b / 4
            · simp only [he, if_true] at this
              exact absurd this.2 hf0
            · simp only [he, if_false] at this
              exact this
          · have := h1 a ha
            intro he
            simp only [he, if_true] at this
            exact absurd this.2 hf0
        · rintro ⟨⟨_, h1⟩, h2, h3⟩
          refine ⟨fun a ha => ?_, h3⟩
          have hne : ¬ source_ipoint t a / 4 = source_ipoint t b / 4 := h2 a ha
          simp only [hne, if_false]
          exact h1 a ha
      · have hout2 : ¬ (functor_index t
            (ipoint_index (sym_get_value t.sym_functors b.text) b.idx)).out = 0 := hout
        simp only [hdef, hout2, ne_eq, not_false_eq_true, if_true, if_false, not_true,
          false_iff]
        intro h
        exact hout (h.1 b (List.mem_cons_self _ _)).2

/-- What the loop of `compile_event_or` leaves when it returns: `out` of every functor
that a source addresses is the new functor, and nothing else of any functor has
changed. -/
theorem event_or_inputs_result (fdx : Nat) : ∀ (argv : List symb_s) (t r : vvp_state),
    event_or_inputs fdx argv t = some r →
    (∀ a ∈ argv, (functor_index r (source_ipoint t a)).out = fdx) ∧
    (∀ n, n ∉ (argv.map fun a => source_ipoint t a / 4) → r.functors n = t.functors n)
  | [], t, r, hr => by
    simp only [event_or_inputs, Option.some.injEq] at hr
    subst hr
    exact ⟨fun a ha => absurd ha (List.not_mem_nil _), fun _ _ => rfl⟩
  | b :: rest, t, r, hr => by
    simp only [event_or_inputs] at hr
    by_cases hdef : sym_get_value t.sym_functors b.text = 0
    · simp [hdef] at hr
    · by_cases hout : (functor_index t
          (ipoint_index (sym_get_value t.sym_functors b.text) b.idx)).out = 0
      · simp only [hdef, hout, ne_eq, not_false_eq_true, if_true] at hr
        obtain ⟨a1, a2⟩ := event_or_inputs_result fdx rest _ r hr
        have hsrc : ∀ a, source_ipoint (functor_update t
            (ipoint_index (sym_get_value t.sym_functors b.text) b.idx)
            fun fport => { fport with out := fdx }) a = source_ipoint t a := fun _ => rfl
        simp only [hsrc] at a1 a2
        constructor
        · intro a ha
          rcases List.mem_cons.mp ha with e | hmem
          · subst e
            by_cases hin : source_ipoint t a / 4 ∈ rest.map fun a => source_ipoint t a / 4
            · obtain ⟨c, hc, hce⟩ := List.mem_map.mp hin
              have := a1 c hc
              simp only [functor_index] at this ⊢
              rw [← hce]
              exact this
            · have := a2 _ hin
              simp only [functor_index]
              rw [this]
              simp [functor_update, source_ipoint]
          · exact a1 a hmem
        · intro n hn
          simp only [List.map_cons, List.mem_cons, not_or] at hn
          rw [a2 n hn.2]
          have hne : ¬ n = ipoint_index (sym_get_value t.sym_functors b.text) b.idx / 4 := hn.1
          simp only [functor_update, hne, if_false]
      · simp [hdef, hout] at hr

/-- C29: after `compile_init` (so that the new functor has a non-null ipoint),
`compile_event_or` returns exactly when every listed source is defined, the functor it
addresses has `out` null when the loop starts, and no two sources address one functor:
an undefined source, a source that drives something already and a source listed twice
each fail an assertion. When it returns, `out` of every functor that a source addresses
is the ipoint of the new functor, no other member of those functors has changed, every
functor that is neither a source nor the new one is as before the call, and the new
functor has mode 2. -/
theorem compile_event_or_spec (label : String) (argv : List symb_s) (s : vvp_state)
    (hpos : 1 ≤ s.functor_count) :
    (compile_event_or label argv s ≠ none ↔
      (∀ a ∈ argv, sym_get_value (event_or_opened label s).sym_functors a.text ≠ 0 ∧
        (functor_index (event_or_opened label s)
          (source_ipoint (event_or_opened label s) a)).out = 0) ∧
      (argv.map fun a => source_ipoint (event_or_opened label s) a / 4).Nodup) ∧
    ((∃ a ∈ argv, sym_get_value (event_or_opened label s).sym_functors a.text = 0) →
      compile_event_or label argv s = none) ∧
    ((∃ a ∈ argv, (functor_index (event_or_opened label s)
        (source_ipoint (event_or_opened label s) a)).out ≠ 0) →
      compile_event_or label argv s = none) ∧
    (¬ (argv.map fun a => source_ipoint (event_or_opened label s) a / 4).Nodup →
      compile_event_or label argv s = none) ∧
    ∀ r, compile_event_or label argv s = some r →
      (∀ a ∈ argv, (functor_index r (source_ipoint (event_or_opened label s) a)).out =
        4 * s.functor_count) ∧
      (∀ n, r.functors n =
        { (event_or_opened label s).functors n with out := (r.functors n).out }) ∧
      (∀ n, n ∉ (argv.map fun a => source_ipoint (event_or_opened label s) a / 4) →
        r.functors n = (event_or_opened label s).functors n) ∧
      (∀ n, n ∉ (argv.map fun a => source_ipoint (event_or_opened label s) a / 4) →
        n ≠ s.functor_count → r.functors n = s.functors n) ∧
      (functor_index r (4 * s.functor_count)).mode = 2 := by
  have hco : compile_event_or label argv s =
      event_or_inputs (4 * s.functor_count) argv (event_or_opened label s) := rfl
  have hiff := event_or_inputs_some_iff (4 * s.functor_count) (by omega) argv
    (event_or_opened label s)
  rw [← hco] at hiff
  have hnone : ∀ {P : Prop}, (P → ¬ ((∀ a ∈ argv,
      sym_get_value (event_or_opened label s).sym_functors a.text ≠ 0 ∧
        (functor_index (event_or_opened label s)
          (source_ipoint (event_or_opened label s) a)).out = 0) ∧
      (argv.map fun a => source_ipoint (event_or_opened label s) a / 4).Nodup)) →
      P → compile_event_or label argv s = none := by
    intro P hP hp
    by_contra hne
    exact hP hp (hiff.1 hne)
  refine ⟨hiff, ?_, ?_, ?_, ?_⟩
  · exact hnone fun ⟨a, ha, hz⟩ h => (h.1 a ha).1 hz
  · exact hnone fun ⟨a, ha, hz⟩ h => hz (h.1 a ha).2
  · exact hnone fun hn h => hn h.2
  · intro r hr
    rw [hco] at hr
    obtain ⟨a1, a2⟩ := event_or_inputs_result _ argv _ r hr
    have a3 := event_or_inputs_fields _ argv _ r hr
    refine ⟨a1, ?_, a2, ?_, ?_⟩
    · intro n
      obtain ⟨b1, b2, b3, b4, b5, b6⟩ := a3 n
      cases hrn : r.functors n
      cases htn : (event_or_opened label s).functors n
      simp only [hrn, htn] at b1 b2 b3 b4 b5 b6
      simp [b1, b2, b3, b4, b5, b6]
    · intro n hn hne
      rw [a2 n hn]
      have hne2 : ¬ n = 4 * s.functor_count / 4 := by omega
      simp only [event_or_opened, functor_allocate, functor_update, hne2, if_false]
    · obtain ⟨_, _, b3, _⟩ := a3 (4 * s.functor_count / 4)
      simp only [functor_index, b3]
      simp [event_or_opened, functor_allocate, functor_update]

/-- C29 at `e .event/or e1[0], e2[0];` after the named events `e1` and `e2` (functors 1
and 2): both get `out` 12, the ipoint of the new functor 3; and listing `e1` twice
aborts. -/
theorem compile_event_or_spec_example :
    1 ≤ named_e2_state.functor_count ∧
    (∃ r, compile_event_or "e" [⟨"e1", 0⟩, ⟨"e2", 0⟩] named_e2_state = some r ∧
      (r.functors 1).out = 12 ∧ (r.functors 2).out = 12) ∧
    compile_event_or "e" [⟨"e1", 0⟩, ⟨"e1", 0⟩] named_e2_state = none :=
  ⟨by decide, ⟨_, rfl,
    ((compile_event_or_spec "e" [⟨"e1", 0⟩, ⟨"e2", 0⟩] named_e2_state (by decide)).2.2.2.2 _
      rfl).1 ⟨"e1", 0⟩ (by decide),
    ((compile_event_or_spec "e" [⟨"e1", 0⟩, ⟨"e2", 0⟩] named_e2_state (by decide)).2.2.2.2 _
      rfl).1 ⟨"e2", 0⟩ (by decide)⟩,
    (compile_event_or_spec "e" [⟨"e1", 0⟩, ⟨"e1", 0⟩] named_e2_state (by decide)).2.2.2.1
      (by decide)⟩

/-! ## `compile_code` on a bad mnemonic or a wrong operand count -/

/-- C30 fails as stated: after `compile_init`, `L: %bogus` (a mnemonic that is not in
the table) and `M: %jmp` (no operand where one is required) are both reported, and both
leave one more instruction record allocated and the label bound to it. -/
theorem bad_instruction_allocates :
    (compile_init sample_host static_state).code_count = 1 ∧
    sym_get_value (compile_init sample_host static_state).sym_codespace "L" = 0 ∧
    (∃ r, compile_code (some "L") "%bogus" none (compile_init sample_host static_state) =
        some r ∧ r.errout = ["Invalid opcode"] ∧ r.code_count = 2 ∧
      sym_get_value r.sym_codespace "L" = 1) ∧
    (∃ r, compile_code (some "M") "%jmp" none (compile_init sample_host static_state) =
        some r ∧ r.errout = ["operand count"] ∧ r.code_count = 2 ∧
      sym_get_value r.sym_codespace "M" = 1 ∧
      (codespace_index r 1).opcode = some of_JMP) :=
  ⟨rfl, rfl, ⟨_, rfl, by decide, by decide, by decide⟩,
    ⟨_, rfl, by decide, by decide, by decide, by decide⟩⟩

theorem bsearch_not_found (mnem : String)
    (hno : ∀ op ∈ opcode_table, op.mnemonic ≠ some mnem) :
    bsearch mnem opcode_table 24 opcode_compare = some none := by
  have h1 := (bsearch_sorted_table opcode_table 24 (by decide) (by decide)
    opcode_table_sorted mnem).1
  cases hb : bsearch mnem opcode_table 24 opcode_compare with
  | none => exact absurd hb h1
  | some x =>
    cases x with
    | none => rfl
    | some op =>
      obtain ⟨h2, h3⟩ := (bsearch_opcode_iff mnem op).1 hb
      exact absurd h3 (hno op h2)

/-- C30 as amended: once `compile_init` has counted the table, `compile_code` given a
mnemonic that is not in the opcode table, or a wrong operand count for the row found,
reports the error and returns without looking at an operand; by then it has allocated
one instruction record, so the code space has grown by one, and has bound the label, if
any, to that record. With a bad mnemonic no record is written; with a wrong operand
count the opcode of the row is stored in the new record and no other record is written.
Nothing is queued for a later resolution. -/
theorem bad_instruction_spec (label : Option String) (mnem : String)
    (opa : Option comp_operands_s) (s : vvp_state) (h24 : s.opcode_count = 24) :
    ((∀ op ∈ opcode_table, op.mnemonic ≠ some mnem) →
      compile_code label mnem opa s = some (yyerror "Invalid opcode"
        (bind_code_label label s.code_count { s with code_count := s.code_count + 1 }))) ∧
    (∀ op ∈ opcode_table, op.mnemonic = some mnem → op.argc ≠ supplied_argc opa →
      compile_code label mnem opa s =
        some (yyerror "operand count" (code_opened label op s))) ∧
    (((∀ op ∈ opcode_table, op.mnemonic ≠ some mnem) ∨
        ∃ op ∈ opcode_table, op.mnemonic = some mnem ∧ op.argc ≠ supplied_argc opa) →
      ∃ r msg, compile_code label mnem opa s = some r ∧ r.errout = s.errout ++ [msg] ∧
        r.code_count = s.code_count + 1 ∧
        (∀ l, label = some l → sym_get_value r.sym_codespace l = s.code_count) ∧
        (label = none → r.sym_codespace = s.sym_codespace) ∧
        (∀ n, n ≠ s.code_count → r.codes n = s.codes n) ∧
        r.cresolv_list = s.cresolv_list) := by
  have hbad : (∀ op ∈ opcode_table, op.mnemonic ≠ some mnem) →
      compile_code label mnem opa s = some (yyerror "Invalid opcode"
        (bind_code_label label s.code_count { s with code_count := s.code_count + 1 })) := by
    intro hno
    have hb := bsearch_not_found mnem hno
    have hoc : (bind_code_label label s.code_count
        { s with code_count := s.code_count + 1 }).opcode_count = 24 := by
      cases label <;> exact h24
    simp only [compile_code, codespace_allocate, hoc, hb]
  have hcount : ∀ op ∈ opcode_table, op.mnemonic = some mnem → op.argc ≠ supplied_argc opa →
      compile_code label mnem opa s =
        some (yyerror "operand count" (code_opened label op s)) := by
    intro op hop hm hc
    have hb : bsearch mnem opcode_table s.opcode_count opcode_compare = some (some op) := by
      rw [h24]
      exact (bsearch_opcode_iff mnem op).2 ⟨hop, hm⟩
    rw [compile_code_found label mnem opa s op hb]
    simp only [hc, ne_eq, not_false_eq_true, if_true]
  have hbind : ∀ t : vvp_state,
      (∀ l, label = some l →
        sym_get_value (bind_code_label label s.code_count t).sym_codespace l = s.code_count) ∧
      (label = none → (bind_code_label label s.code_count t).sym_codespace = t.sym_codespace) ∧
      (bind_code_label label s.code_count t).code_count = t.code_count ∧
      (bind_code_label label s.code_count t).codes = t.codes ∧
      (bind_code_label label s.code_count t).cresolv_list = t.cresolv_list ∧
      (bind_code_label label s.code_count t).errout = t.errout := by
    intro t
    cases label with
    | none => exact ⟨fun l hl => Option.noConfusion hl, fun _ => rfl, rfl, rfl, rfl, rfl⟩
    | some l0 =>
      refine ⟨fun l hl => ?_, fun hl => Option.noConfusion hl, rfl, rfl, rfl, rfl⟩
      cases hl
      simp [bind_code_label, sym_set_value, sym_get_value]
  refine ⟨hbad, hcount, ?_⟩
  obtain ⟨b1, b2, b3, b4, b5, b6⟩ := hbind { s with code_count := s.code_count + 1 }
  rintro (hno | ⟨op, hop, hm, hc⟩)
  · refine ⟨_, "Invalid opcode", hbad hno, ?_, b3, b1, b2, ?_, b5⟩
    · simp only [yyerror, b6]
    · intro n _
      simp only [yyerror, b4]
  · refine ⟨_, "operand count", hcount op hop hm hc, ?_, b3, b1, b2, ?_, b5⟩
    · simp only [yyerror, code_opened, code_update, b6]
    · intro n hn
      simp only [yyerror, code_opened, code_update, hn, if_false, b4]

/-- C30 as amended, at `L: %bogus` after `compile_init`. -/
theorem bad_instruction_spec_bogus :
    (compile_init sample_host static_state).opcode_count = 24 ∧
    ∃ r msg, compile_code (some "L") "%bogus" none (compile_init sample_host static_state) =
        some r ∧ r.errout = (compile_init sample_host static_state).errout ++ [msg] ∧
      r.code_count = (compile_init sample_host static_state).code_count + 1 :=
  ⟨by decide,
    match (bad_instruction_spec (some "L") "%bogus" none
      (compile_init sample_host static_state) (by decide)).2.2 (Or.inl (by decide)) with
    | ⟨r, msg, h1, h2, h3, _⟩ => ⟨r, msg, h1, h2, h3⟩⟩

/-! ## The zero sentinel of the symbol tables -/

/-- C31: a label bound to 0 and a label that is not bound both look up as 0, and the
assembler acts on the looked-up 0 alone. In a state where `l` looks up as 0 in the
code-label and functor tables: a jump `%jmp l` (on a statement not itself labelled `l`)
stores the null `cptr` and goes on the unresolved list, and `compile_cleanup` keeps the
entry, reports `unresolved code label: l` and leaves `cptr` null; `compile_thread` on `l`
reports `unresolved address` and schedules nothing; a functor input naming `l` changes no
functor and is deferred, and a deferred entry naming `l` stays on the list through
`compile_cleanup` with the link of its port still null and the port on no out chain. -/
theorem zero_is_the_miss_sentinel (h : vpi_host) (l : String) (label : Option String)
    (s : vvp_state) (hinv : code_inv s) (hch : chains_inv s) (hlab : label ≠ some l)
    (hc : sym_get_value s.sym_codespace l = 0) (hf : sym_get_value s.sym_functors l = 0) :
    (∀ t, sym_get_value (sym_set_value t l 0) l = 0) ∧
    sym_get_value new_symbol_table l = 0 ∧
    (∀ o : comp_operands_s, o.argc = 1 → o.argv 0 = .symb ⟨l, 0⟩ →
      ∃ r, compile_code label "%jmp" (some o) s = some r ∧
        r.errout = s.errout ∧
        r.cresolv_list = ⟨s.code_count, l⟩ :: s.cresolv_list ∧
        (r.codes s.code_count).cptr = 0 ∧
        ⟨s.code_count, l⟩ ∈ (compile_cleanup r).cresolv_list ∧
        "unresolved code label: " ++ l ∈ (compile_cleanup r).errout ∧
        ((compile_cleanup r).codes s.code_count).cptr = 0) ∧
    ((compile_thread h l s).errout = s.errout ++ ["unresolved address"] ∧
      (compile_thread h l s).scheduled = s.scheduled) ∧
    (∀ fdx k idx, (functor_input fdx k ⟨l, idx⟩ s).resolv_list =
        ⟨ipoint_make fdx k, l, idx⟩ :: s.resolv_list ∧
      (functor_input fdx k ⟨l, idx⟩ s).functors = s.functors) ∧
    ∀ e ∈ s.resolv_list, e.source = l →
      e ∈ (compile_cleanup s).resolv_list ∧
      sym_get_value (compile_cleanup s).sym_functors l = 0 ∧
      chain_link (compile_cleanup s) e.port = 0 ∧
      ∀ n c, chain_from (compile_cleanup s) ((compile_cleanup s).functors n).out c →
        e.port ∉ c := by
  refine ⟨fun t => by simp [sym_set_value, sym_get_value], rfl, ?_, ?_, ?_, ?_⟩
  · intro o hargc ha
    have hb : bsearch "%jmp" opcode_table s.opcode_count opcode_compare =
        some (some ⟨some "%jmp", of_JMP, 1, [OA_CODE_PTR, OA_NONE, OA_NONE]⟩) := by
      rw [hinv.1]
      exact (bsearch_opcode_iff _ _).mpr ⟨by decide, rfl⟩
    have hf0 := compile_code_found label "%jmp" (some o) s _ hb
    have hl0 : sym_get_value (code_opened label
        ⟨some "%jmp", of_JMP, 1, [OA_CODE_PTR, OA_NONE, OA_NONE]⟩ s).sym_codespace l = 0 := by
      have := sym_get_value_bind label s.code_count
        { s with code_count := s.code_count + 1 } l
      simp only [hlab, if_false] at this
      exact this.trans hc
    have hr : compile_code label "%jmp" (some o) s = some
        { code_update (code_opened label
            ⟨some "%jmp", of_JMP, 1, [OA_CODE_PTR, OA_NONE, OA_NONE]⟩ s) s.code_count
            (fun code => { code with cptr := 0 }) with
          cresolv_list := ⟨s.code_count, l⟩ :: (code_opened label
            ⟨some "%jmp", of_JMP, 1, [OA_CODE_PTR, OA_NONE, OA_NONE]⟩ s).cresolv_list } := by
      rw [hf0]
      simp only [supplied_argc, hargc, ne_eq, not_true_eq_false, if_false]
      show compile_code_operands _ (some o) s.code_count [0] _ = _
      simp only [compile_code_operands, compile_code_operand, argt_at, List.getD_cons_zero,
        ha, hl0, if_true]
      rfl
    have hopen : (code_opened label
          ⟨some "%jmp", of_JMP, 1, [OA_CODE_PTR, OA_NONE, OA_NONE]⟩ s).cresolv_list =
          s.cresolv_list ∧
        (code_opened label
          ⟨some "%jmp", of_JMP, 1, [OA_CODE_PTR, OA_NONE, OA_NONE]⟩ s).errout = s.errout := by
      cases label <;> simp [code_opened, bind_code_label, code_update]
    obtain ⟨_, _, _, _, a5, a6, a7, _⟩ := compile_cleanup_code_spec
      { code_update (code_opened label
          ⟨some "%jmp", of_JMP, 1, [OA_CODE_PTR, OA_NONE, OA_NONE]⟩ s) s.code_count
          (fun code => { code with cptr := 0 }) with
        cresolv_list := ⟨s.code_count, l⟩ :: (code_opened label
          ⟨some "%jmp", of_JMP, 1, [OA_CODE_PTR, OA_NONE, OA_NONE]⟩ s).cresolv_list }
    have hl1 : sym_get_value ({ code_update (code_opened label
          ⟨some "%jmp", of_JMP, 1, [OA_CODE_PTR, OA_NONE, OA_NONE]⟩ s) s.code_count
          (fun code => { code with cptr := 0 }) with
        cresolv_list := ⟨s.code_count, l⟩ :: (code_opened label
          ⟨some "%jmp", of_JMP, 1, [OA_CODE_PTR, OA_NONE, OA_NONE]⟩ s).cresolv_list } :
        vvp_state).sym_codespace l = 0 := hl0
    refine ⟨_, hr, hopen.2, by rw [hopen.1], by simp [code_update], ?_, ?_, ?_⟩
    · rw [a5, List.mem_reverse, List.mem_filter]
      exact ⟨List.mem_cons_self _ _, by simpa using hl1⟩
    · rw [a6]
      refine List.mem_append_right _ (List.mem_map.mpr ⟨⟨s.code_count, l⟩, ?_, rfl⟩)
      rw [List.mem_filter]
      exact ⟨List.mem_cons_self _ _, by simpa using hl1⟩
    · rw [a7 s.code_count]
      · simp [code_update]
      · intro e he hne
        rcases List.mem_cons.mp he with he | he
        · subst he
          exact absurd hl1 hne
        · rw [hopen.1] at he
          exact Nat.ne_of_lt (hinv.2.1 e he)
  · simp [compile_thread, hc, yyerror]
  · intro fdx k idx
    exact functor_input_undefined fdx k ⟨l, idx⟩ s hf
  · intro e he hsrc
    obtain ⟨a1, a2, a3, _⟩ := compile_cleanup_port_spec s hch
    have hm : e ∈ (compile_cleanup s).resolv_list := by
      rw [a2, List.mem_reverse, List.mem_filter]
      exact ⟨he, by simpa [hsrc] using hf⟩
    have hmem : e.port ∈ (compile_cleanup s).resolv_list.map fun e => e.port :=
      List.mem_map.mpr ⟨e, hm, rfl⟩
    exact ⟨hm, by rw [a3]; exact hf, a1.2.pending_null _ hmem,
      chains_ok_off a1.2 _ (Or.inl hmem)⟩

theorem zero_bound_state_inv : code_inv zero_bound_state ∧ chains_inv zero_bound_state :=
  ⟨code_inv_compile_init sample_host static_state rfl,
    Nat.le_refl _,
    chains_ok_same_links (chains_inv_compile_init sample_host).2 (fun _ => rfl) (fun _ => rfl)⟩

set_option maxRecDepth 100000 in
theorem zero_bound_wired_inv : code_inv zero_bound_wired ∧ chains_inv zero_bound_wired := by
  have hr : compile_functor "g" "OR" 0 [⟨"z", 0⟩] zero_bound_state = some zero_bound_wired := rfl
  refine ⟨?_, chains_inv_compile_functor _ _ _ _ _ _ hr zero_bound_state_inv.2⟩
  exact (compile_stmt_code_inv sample_host (.functor "g" "OR" 0 [⟨"z", 0⟩]) _ _ hr
    zero_bound_state_inv.1).1

set_option maxRecDepth 100000 in
/-- C31 in a state where `z` is bound to 0 in both tables and the input `z[0]` of a
functor has been deferred: `%jmp z`, `.thread z` and the deferred input. -/
theorem zero_is_the_miss_sentinel_example :
    (sym_get_value zero_bound_wired.sym_codespace "z" = 0 ∧
      sym_get_value zero_bound_wired.sym_functors "z" = 0 ∧
      "z" ∈ zero_bound_wired.sym_codespace.map Prod.fst ∧
      "z" ∈ zero_bound_wired.sym_functors.map Prod.fst ∧
      zero_bound_wired.resolv_list = [⟨4, "z", 0⟩]) ∧
    (∃ r, compile_code none "%jmp" (some ⟨1, fun _ => .symb ⟨"z", 0⟩⟩) zero_bound_wired =
        some r ∧ r.cresolv_list = [⟨1, "z"⟩] ∧
      "unresolved code label: z" ∈ (compile_cleanup r).errout) ∧
    (compile_thread sample_host "z" zero_bound_wired).errout = ["unresolved address"] ∧
    (compile_cleanup zero_bound_wired).resolv_list = [⟨4, "z", 0⟩] ∧
    chain_link (compile_cleanup zero_bound_wired) 4 = 0 :=
  ⟨⟨by decide, by decide, by decide, by decide, by decide⟩,
    match (zero_is_the_miss_sentinel sample_host "z" none zero_bound_wired
      zero_bound_wired_inv.1 zero_bound_wired_inv.2 (by decide) (by decide)
      (by decide)).2.2.1 ⟨1, fun _ => .symb ⟨"z", 0⟩⟩ rfl rfl with
    | ⟨r, h1, _, h3, _, _, h6, _⟩ => ⟨r, h1, h3, h6⟩,
    by decide, by decide, by decide⟩

/-! ## Immediate and deferred linking -/

theorem linked_to_cons (q t : Nat) (L : List (Nat × Nat)) (n : Nat) :
    linked_to ((q, t) :: L) n = if n = t / 4 then q :: linked_to L n else linked_to L n := by
  unfold linked_to
  by_cases h : n = t / 4
  · subst h
    simp
  · have : ¬ t / 4 = n := fun e => h e.symm
    simp [h, this]

/-- The chain of a functor after one more link, given what the links still to make
add to it. -/
theorem chain_from_link_step (r : vvp_state) (p q t n : Nat) (L : List (Nat × Nat))
    (l : List Nat)
    (h : chain_from r p ((linked_to L n).reverse ++ (if n = t / 4 then q :: l else l))) :
    chain_from r p ((linked_to ((q, t) :: L) n).reverse ++ l) := by
  rw [linked_to_cons]
  by_cases hn : n = t / 4
  · simp only [hn, if_true] at h ⊢
    simpa using h
  · simp only [hn, if_false] at h ⊢
    exact h

/-- The chains after the input loop of `compile_functor` and `compile_event`: the
destinations of the links made to a functor are in front of its old chain, the last one
made first. -/
theorem functor_inputs_chain (fdx : Nat) (hf4 : fdx % 4 = 0) (hf0 : fdx ≠ 0) :
    ∀ (argv : List symb_s) (idx : Nat) (s : vvp_state), idx + argv.length ≤ 4 →
      chains_ok s (fdx + idx) (s.resolv_list.map fun e => e.port) →
      ∀ n l, chain_from s (s.functors n).out l →
        chain_from (functor_inputs fdx idx argv s)
          ((functor_inputs fdx idx argv s).functors n).out
          ((linked_to (input_links s.sym_functors (fun k => ipoint_make fdx k) idx argv)
            n).reverse ++ l)
  | [], idx, s, _, _, n, l, hl => by
    simpa [functor_inputs, input_links, linked_to] using hl
  | a :: rest, idx, s, hlen, hok, n, l, hl => by
    simp only [List.length_cons] at hlen
    have hok1 := functor_input_ok fdx idx a s hf4 hf0 (by omega) hok
    have hsym := (functor_input_frame fdx idx a s).2.1
    have hq : ipoint_make fdx idx = fdx + idx := by unfold ipoint_make; omega
    simp only [functor_inputs, input_links]
    by_cases hdef : sym_get_value s.sym_functors a.text = 0
    · simp only [hdef, ne_eq, not_true_eq_false, if_false]
      obtain ⟨_, b2⟩ := functor_input_undefined fdx idx a s hdef
      have h1 : chain_from (functor_input fdx idx a s)
          ((functor_input fdx idx a s).functors n).out l := by
        rw [b2]
        exact chain_from_same_links s _ (fun m => by rw [b2]) l _ hl
      have := functor_inputs_chain fdx hf4 hf0 rest (idx + 1) _ (by omega) hok1 n l h1
      rw [hsym] at this
      exact this
    · simp only [hdef, ne_eq, not_false_eq_true, if_true]
      have h1 : chain_from (functor_input fdx idx a s)
          ((functor_input fdx idx a s).functors n).out
          (if n = ipoint_index (sym_get_value s.sym_functors a.text) a.idx / 4
            then (fdx + idx) :: l else l) := by
        rw [functor_input_eq_splice fdx idx a s hf4 (by omega) hdef]
        exact chain_from_splice _ _ s (by omega) n l hl
          (chains_ok_off hok _ (Or.inr (Nat.le_refl _)) n l hl)
      have := functor_inputs_chain fdx hf4 hf0 rest (idx + 1) _ (by omega) hok1 n _ h1
      rw [hsym] at this
      rw [hq]
      exact chain_from_link_step _ _ _ _ _ _ _ this

/-- The chains after the connecting loop of `compile_net`. -/
theorem net_inputs_chain (fdx : Nat) (hf4 : fdx % 4 = 0) (hf0 : fdx ≠ 0) :
    ∀ (argv : List symb_s) (idx : Nat) (s : vvp_state),
      chains_ok s (fdx + 4 * idx) (s.resolv_list.map fun e => e.port) →
      ∀ n l, chain_from s (s.functors n).out l →
        chain_from (net_inputs fdx idx argv s)
          ((net_inputs fdx idx argv s).functors n).out
          ((linked_to (input_links s.sym_functors (fun k => ipoint_index fdx k) idx argv)
            n).reverse ++ l)
  | [], idx, s, _, n, l, hl => by
    simpa [net_inputs, input_links, linked_to] using hl
  | a :: rest, idx, s, hok, n, l, hl => by
    have hok1 := net_input_ok fdx idx a s hf4 hf0 hok
    have hsym := (net_input_frame fdx idx a s).2.1
    have hq : ipoint_index fdx idx = fdx + 4 * idx := by unfold ipoint_index; omega
    simp only [net_inputs, input_links]
    by_cases hdef : sym_get_value s.sym_functors a.text = 0
    · simp only [hdef, ne_eq, not_true_eq_false, if_false]
      obtain ⟨_, b2⟩ := net_input_undefined fdx idx a s hdef
      have h1 : chain_from (net_input fdx idx a s)
          ((net_input fdx idx a s).functors n).out l := by
        rw [b2]
        exact chain_from_same_links s _ (fun m => by rw [b2]) l _ hl
      have := net_inputs_chain fdx hf4 hf0 rest (idx + 1) _ hok1 n l h1
      rw [hsym] at this
      exact this
    · simp only [hdef, ne_eq, not_false_eq_true, if_true]
      have h1 : chain_from (net_input fdx idx a s)
          ((net_input fdx idx a s).functors n).out
          (if n = ipoint_index (sym_get_value s.sym_functors a.text) a.idx / 4
            then (fdx + 4 * idx) :: l else l) := by
        rw [net_input_eq_splice fdx idx a s hf4 hdef]
        exact chain_from_splice _ _ s (by omega) n l hl
          (chains_ok_off hok _ (Or.inr (Nat.le_refl _)) n l hl)
      have := net_inputs_chain fdx hf4 hf0 rest (idx + 1) _ hok1 n _ h1
      rw [hsym] at this
      rw [hq]
      exact chain_from_link_step _ _ _ _ _ _ _ this

/-- The chains after the first loop of `compile_cleanup`. -/
theorem cleanup_ports_chain (B : Nat) : ∀ (tmp_list : List resolv_list_s) (s : vvp_state),
    chains_ok s B (tmp_list.map (fun e => e.port) ++ s.resolv_list.map fun e => e.port) →
    ∀ n l, chain_from s (s.functors n).out l →
      chain_from (cleanup_ports tmp_list s) ((cleanup_ports tmp_list s).functors n).out
        ((linked_to (deferred_links s.sym_functors tmp_list) n).reverse ++ l)
  | [], s, _, n, l, hl => by
    simpa [cleanup_ports, deferred_links, linked_to] using hl
  | res :: tmp_list, s, hok, n, l, hl => by
    simp only [deferred_links]
    by_cases hdef : sym_get_value s.sym_functors res.source = 0
    · have e1 : cleanup_ports (res :: tmp_list) s =
          cleanup_ports tmp_list { s with resolv_list := res :: s.resolv_list } := by
        simp [cleanup_ports, hdef]
      have hok1 : chains_ok { s with resolv_list := res :: s.resolv_list } B
          (tmp_list.map (fun e : resolv_list_s => e.port) ++
            (res :: s.resolv_list).map fun e => e.port) := by
        have hp : (List.map (fun e : resolv_list_s => e.port) (res :: tmp_list) ++
            s.resolv_list.map fun e => e.port).Perm
            (tmp_list.map (fun e : resolv_list_s => e.port) ++
              (res.port :: s.resolv_list.map fun e => e.port)) := by
          simp only [List.map_cons, List.cons_append]
          exact List.perm_middle.symm
        exact chains_ok_same_links (chains_ok_perm hp hok) (fun _ => rfl) (fun _ => rfl)
      rw [e1]
      simp only [hdef, ne_eq, not_true_eq_false, if_false]
      exact cleanup_ports_chain B tmp_list _ hok1 n l
        (chain_from_same_links s { s with resolv_list := res :: s.resolv_list }
          (fun _ => rfl) l _ hl)
    · have e1 : cleanup_ports (res :: tmp_list) s =
          cleanup_ports tmp_list
            (splice res.port (ipoint_index (sym_get_value s.sym_functors res.source) res.idx) s) := by
        simp only [cleanup_ports, hdef, ne_eq, not_false_eq_true, if_true]
        rfl
      have hmem : res.port ∈ List.map (fun e => e.port) (res :: tmp_list) ++
          s.resolv_list.map fun e => e.port := by simp
      have hq0 : res.port ≠ 0 := (hok.pending_lt _ hmem).2
      have hoff := chains_ok_off hok res.port (Or.inl hmem)
      have hnd := hok.pending_nodup
      have h1 := chain_from_splice res.port
        (ipoint_index (sym_get_value s.sym_functors res.source) res.idx) s hq0 n l hl
        (hoff n l hl)
      simp only [List.map_cons, List.cons_append] at hok hnd
      have hok1 := chains_ok_splice res.port
        (ipoint_index (sym_get_value s.sym_functors res.source) res.idx) B
        (chains_ok_tail hok) hq0 hoff (List.nodup_cons.mp hnd).1 (Nat.le_refl _)
        (hok.pending_lt _ (List.mem_cons_self _ _)).1
      rw [e1]
      simp only [hdef, ne_eq, not_false_eq_true, if_true]
      exact chain_from_link_step _ _ _ _ _ _ _
        (cleanup_ports_chain B tmp_list _ hok1 n _ h1)

theorem compile_functor_chain (label type : String) (init : Nat) (argv : List symb_s)
    (s r : vvp_state) (hinv : chains_inv s)
    (hr : compile_functor label type init argv s = some r) (n : Nat) (l : List Nat)
    (hl : chain_from s (s.functors n).out l) :
    chain_from r (r.functors n).out
      ((linked_to (input_links (sym_set_value s.sym_functors label (4 * s.functor_count))
        (fun k => ipoint_make (4 * s.functor_count) k) 0 argv) n).reverse ++ l) := by
  obtain ⟨hlen, hp, ho, _⟩ := compile_functor_links label type init argv s r hr
  obtain ⟨hpos, hok⟩ := hinv
  have h := functor_inputs_chain (4 * s.functor_count) (by omega) (by omega) argv 0
    { s with functor_count := s.functor_count + 1,
             sym_functors := sym_set_value s.sym_functors label (4 * s.functor_count) }
    (by omega) (chains_ok_same_links hok (fun _ => rfl) (fun _ => rfl)) n l
    (chain_from_same_links s
      { s with functor_count := s.functor_count + 1,
               sym_functors := sym_set_value s.sym_functors label (4 * s.functor_count) }
      (fun _ => rfl) l _ hl)
  rw [ho n]
  exact chain_from_same_links _ r hp _ _ h

theorem compile_event_chain (label type : String) (argv : List symb_s)
    (s r : vvp_state) (hinv : chains_inv s)
    (hr : compile_event label type argv s = some r) (n : Nat) (l : List Nat)
    (hn : n ≠ s.functor_count) (hl : chain_from s (s.functors n).out l) :
    chain_from r (r.functors n).out
      ((linked_to (input_links (sym_set_value s.sym_functors label (4 * s.functor_count))
        (fun k => ipoint_make (4 * s.functor_count) k) 0 argv) n).reverse ++ l) := by
  obtain ⟨hlen, hp, ho, _⟩ := compile_event_links label type argv s r hr
  obtain ⟨hpos, hok⟩ := hinv
  have h := functor_inputs_chain (4 * s.functor_count) (by omega) (by omega) argv 0
    { s with functor_count := s.functor_count + 1,
             sym_functors := sym_set_value s.sym_functors label (4 * s.functor_count) }
    (by omega) (chains_ok_same_links hok (fun _ => rfl) (fun _ => rfl)) n l
    (chain_from_same_links s
      { s with functor_count := s.functor_count + 1,
               sym_functors := sym_set_value s.sym_functors label (4 * s.functor_count) }
      (fun _ => rfl) l _ hl)
  rw [ho n]
  simp only [hn, if_false]
  exact chain_from_same_links _ r hp _ _ h

theorem compile_net_chain (h : vpi_host) (label name : String) (msb lsb : Int) (sg : Bool)
    (argv : List symb_s) (s r : vvp_state) (hinv : chains_inv s)
    (hr : compile_net h label name msb lsb sg argv s = some r) (n : Nat) (l : List Nat)
    (hl : chain_from s (s.functors n).out l) :
    chain_from r (r.functors n).out
      ((linked_to (input_links (sym_set_value s.sym_functors label (4 * s.functor_count))
        (fun k => ipoint_index (4 * s.functor_count) k) 0 argv) n).reverse ++ l) := by
  obtain ⟨hpos, hok⟩ := hinv
  obtain ⟨a1, a2, a3, _, a5, _⟩ := var_functors_frame (4 * s.functor_count)
    (vector_wid msb lsb)
    { s with functor_count := s.functor_count + vector_wid msb lsb,
             sym_functors := sym_set_value s.sym_functors label (4 * s.functor_count) }
  have hlen : argv.length = vector_wid msb lsb := by
    by_contra hne
    simp [compile_net, functor_allocate, hne] at hr
  rw [compile_net_eq h label name msb lsb sg argv s hlen] at hr
  have hre := Option.some.inj hr
  have h1 : chains_ok (var_functors (4 * s.functor_count) (vector_wid msb lsb)
      { s with functor_count := s.functor_count + vector_wid msb lsb,
               sym_functors := sym_set_value s.sym_functors label (4 * s.functor_count) })
      (4 * s.functor_count + 4 * 0)
      ((var_functors (4 * s.functor_count) (vector_wid msb lsb)
      { s with functor_count := s.functor_count + vector_wid msb lsb,
               sym_functors := sym_set_value s.sym_functors label (4 * s.functor_count) }).resolv_list.map
        fun e => e.port) := by
    rw [a3]
    exact chains_ok_same_links hok a1 a2
  have h2 := net_inputs_chain (4 * s.functor_count) (by omega) (by omega) argv 0 _ h1 n l
    (by rw [a2]; exact chain_from_same_links s _ a1 l _ hl)
  rw [a5] at h2
  rw [← hre]
  refine chain_from_same_links _ _ ?_ _ _ h2
  intro m
  rfl

theorem compile_cleanup_chain (s : vvp_state) (hinv : chains_inv s) (n : Nat) (l : List Nat)
    (hl : chain_from s (s.functors n).out l) :
    chain_from (compile_cleanup s) ((compile_cleanup s).functors n).out
      ((linked_to (deferred_links s.sym_functors s.resolv_list) n).reverse ++ l) := by
  obtain ⟨hpos, hok⟩ := hinv
  have hok0 : chains_ok { s with resolv_list := [] } (4 * s.functor_count)
      (s.resolv_list.map (fun e => e.port) ++
        ([] : List resolv_list_s).map fun e => e.port) := by
    simp only [List.map_nil, List.append_nil]
    exact chains_ok_same_links hok (fun _ => rfl) (fun _ => rfl)
  have h1 := cleanup_ports_chain (4 * s.functor_count) s.resolv_list
    { s with resolv_list := [] } hok0 n l
    (chain_from_same_links s { s with resolv_list := [] } (fun _ => rfl) l _ hl)
  obtain ⟨⟨b1, _⟩, _⟩ := cleanup_codes_spec
    (cleanup_ports s.resolv_list { s with resolv_list := [] }).cresolv_list
    { cleanup_ports s.resolv_list { s with resolv_list := [] } with cresolv_list := [] }
  have e : compile_cleanup s = cleanup_codes
    (cleanup_ports s.resolv_list { s with resolv_list := [] }).cresolv_list
    { cleanup_ports s.resolv_list { s with resolv_list := [] } with cresolv_list := [] } := rfl
  rw [e, b1]
  exact chain_from_same_links _ _ (fun m => by rw [b1]) _ _ h1

theorem deferred_links_append (t : symbol_table_t) : ∀ (L1 L2 : List resolv_list_s),
    deferred_links t (L1 ++ L2) = deferred_links t L1 ++ deferred_links t L2
  | [], _ => rfl
  | e :: L1, L2 => by
    have IH := deferred_links_append t L1 L2
    by_cases h : sym_get_value t e.source = 0
    · simpa only [List.cons_append, deferred_links, h, ne_eq, not_true_eq_false, if_false]
        using IH
    · simp only [List.cons_append, deferred_links, h, ne_eq, not_false_eq_true, if_true]
      exact congrArg _ IH

theorem deferred_links_reverse (t : symbol_table_t) : ∀ (L : List resolv_list_s),
    deferred_links t L.reverse = (deferred_links t L).reverse
  | [] => rfl
  | e :: L => by
    rw [List.reverse_cons, deferred_links_append, deferred_links_reverse t L]
    simp only [deferred_links]
    split <;> simp

theorem linked_to_reverse (L : List (Nat × Nat)) (n : Nat) :
    linked_to L.reverse n = (linked_to L n).reverse := by
  simp [linked_to, List.filter_reverse]

/-- The links of a loop all of whose inputs name one defined label with base `b`: the
functor `b / 4 + i` gets the inputs that name bit `i`. -/
theorem input_links_on (t : symbol_table_t) (dst : Nat → Nat) (b i : Nat) (hb : b ≠ 0) :
    ∀ (argv : List symb_s) (k : Nat), (∀ a ∈ argv, sym_get_value t a.text = b) →
      linked_to (input_links t dst k argv) (b / 4 + i) = (inputs_on i k argv).map dst
  | [], _, _ => rfl
  | a :: rest, k, h => by
    have ha := h a (List.mem_cons_self _ _)
    have IH := input_links_on t dst b i hb rest (k + 1)
      (fun x hx => h x (List.mem_cons_of_mem _ hx))
    have e : ipoint_index b a.idx / 4 = b / 4 + a.idx := by unfold ipoint_index; omega
    simp only [input_links, inputs_on, ha, hb, ne_eq, not_false_eq_true, if_true]
    rw [linked_to_cons, e, IH]
    by_cases hi : a.idx = i
    · simp [hi]
    · have : ¬ b / 4 + i = b / 4 + a.idx := by omega
      simp [hi, this]

/-- The input loop over sources that are all undefined changes no functor and defers
one entry per input; resolved later against a table `t`, the entries give the links
the loop makes itself when it runs under `t`. -/
theorem functor_inputs_deferred (fdx : Nat) : ∀ (argv : List symb_s) (k : Nat)
    (s : vvp_state), (∀ a ∈ argv, sym_get_value s.sym_functors a.text = 0) →
    (functor_inputs fdx k argv s).functors = s.functors ∧
    ∃ E, (functor_inputs fdx k argv s).resolv_list = E.reverse ++ s.resolv_list ∧
      ∀ t, deferred_links t E = input_links t (fun j => ipoint_make fdx j) k argv
  | [], _, s, _ => ⟨rfl, [], rfl, fun _ => rfl⟩
  | a :: rest, k, s, h => by
    have ha := h a (List.mem_cons_self _ _)
    obtain ⟨b1, b2⟩ := functor_input_undefined fdx k a s ha
    have hsym := (functor_input_frame fdx k a s).2.1
    obtain ⟨c1, E, c2, c3⟩ := functor_inputs_deferred fdx rest (k + 1)
      (functor_input fdx k a s)
      (fun x hx => by rw [hsym]; exact h x (List.mem_cons_of_mem _ hx))
    simp only [functor_inputs]
    refine ⟨c1.trans b2, ⟨ipoint_make fdx k, a.text, a.idx⟩ :: E, ?_, ?_⟩
    · rw [c2, b1]
      simp
    · intro t
      simp only [deferred_links, input_links, c3 t]

theorem compile_variable_links (h : vpi_host) (label name : String) (msb lsb : Int)
    (sg : Bool) (s : vvp_state) :
    (∀ m, ((compile_variable h label name msb lsb sg s).functors m).port =
      (s.functors m).port) ∧
    (∀ m, ((compile_variable h label name msb lsb sg s).functors m).out =
      (s.functors m).out) ∧
    (compile_variable h label name msb lsb sg s).resolv_list = s.resolv_list ∧
    (compile_variable h label name msb lsb sg s).functor_count =
      s.functor_count + vector_wid msb lsb ∧
    (compile_variable h label name msb lsb sg s).sym_functors =
      sym_set_value s.sym_functors label (4 * s.functor_count) := by
  obtain ⟨a1, a2, a3, a4, a5, _⟩ := var_functors_frame (4 * s.functor_count)
    (vector_wid msb lsb)
    { s with functor_count := s.functor_count + vector_wid msb lsb,
             sym_functors := sym_set_value s.sym_functors label (4 * s.functor_count) }
  exact ⟨a1, a2, a3, a4, a5⟩

/-- The two orders of declaring a vector `S` and a functor `F` all of whose inputs name
bits of `S`. `S` first: the inputs are linked by `compile_functor`. `F` first: they are
deferred and linked by `compile_cleanup`. Either way the chain of bit `i` of `S` holds
exactly the inputs of `F` that name `S[i]`: the last such input first when linked at
once, the first such input first when linked by the cleanup. -/
theorem two_orders_chain (h : vpi_host) (S F tF name : String) (iF : Nat) (msb lsb : Int)
    (sg : Bool) (argv : List symb_s) (s rA sB : vvp_state)
    (hinv : chains_inv s) (hres : s.resolv_list = [])
    (hfresh : ∀ m, s.functor_count ≤ m → (s.functors m).out = 0)
    (hSF : S ≠ F) (hS : sym_get_value s.sym_functors S = 0)
    (hargv : ∀ a ∈ argv, a.text = S)
    (hA : compile_functor F tF iF argv (compile_variable h S name msb lsb sg s) = some rA)
    (hB : compile_functor F tF iF argv s = some sB) (i : Nat) :
    (sym_get_value rA.sym_functors S = 4 * s.functor_count ∧
      sym_get_value rA.sym_functors F = 4 * (s.functor_count + vector_wid msb lsb) ∧
      chain_from rA (rA.functors (s.functor_count + i)).out
        ((inputs_on i 0 argv).reverse.map
          fun k => ipoint_make (4 * (s.functor_count + vector_wid msb lsb)) k)) ∧
    (sym_get_value (compile_cleanup (compile_variable h S name msb lsb sg sB)).sym_functors S =
        4 * (s.functor_count + 1) ∧
      sym_get_value (compile_cleanup (compile_variable h S name msb lsb sg sB)).sym_functors F =
        4 * s.functor_count ∧
      chain_from (compile_cleanup (compile_variable h S name msb lsb sg sB))
        ((compile_cleanup (compile_variable h S name msb lsb sg sB)).functors
          (s.functor_count + 1 + i)).out
        ((inputs_on i 0 argv).map fun k => ipoint_make (4 * s.functor_count) k)) := by
  have hpos : 1 ≤ s.functor_count := hinv.1
  have hFS : ¬ F = S := fun e => hSF e.symm
  constructor
  · -- `S` first
    obtain ⟨v1, v2, v3, v4, v5⟩ := compile_variable_links h S name msb lsb sg s
    have hinvA := chains_inv_compile_variable h S name msb lsb sg s hinv
    obtain ⟨_, _, _, _, _, a6, _⟩ := compile_functor_links F tF iF argv _ rA hA
    have hold : chain_from (compile_variable h S name msb lsb sg s)
        (((compile_variable h S name msb lsb sg s).functors (s.functor_count + i)).out) [] := by
      rw [v2, hfresh _ (Nat.le_add_right _ _)]
      rfl
    have hc := compile_functor_chain F tF iF argv _ rA hinvA hA (s.functor_count + i) [] hold
    rw [v4, v5] at hc a6
    have hlook : ∀ a ∈ argv, sym_get_value (sym_set_value (sym_set_value s.sym_functors S
        (4 * s.functor_count)) F (4 * (s.functor_count + vector_wid msb lsb))) a.text =
        4 * s.functor_count := by
      intro a ha
      rw [hargv a ha]
      simp [sym_set_value, sym_get_value, hSF]
    have hl := input_links_on _
      (fun k => ipoint_make (4 * (s.functor_count + vector_wid msb lsb)) k)
      (4 * s.functor_count) i (by omega) argv 0 hlook
    have e4 : 4 * s.functor_count / 4 = s.functor_count := by omega
    rw [e4] at hl
    rw [hl] at hc
    refine ⟨?_, ?_, ?_⟩
    · rw [a6]
      simp [sym_set_value, sym_get_value, hSF]
    · rw [a6]
      simp [sym_set_value, sym_get_value]
    · simpa [List.map_reverse] using hc
  · -- `F` first
    obtain ⟨_, b2, b3, b4, b5, b6, _⟩ := compile_functor_links F tF iF argv s sB hB
    have hinvB := chains_inv_compile_functor F tF iF argv s sB hB hinv
    have hund : ∀ a ∈ argv, sym_get_value
        (sym_set_value s.sym_functors F (4 * s.functor_count)) a.text = 0 := by
      intro a ha
      rw [hargv a ha]
      simp [sym_set_value, sym_get_value, hSF, hS]
    obtain ⟨d1, E, d2, d3⟩ := functor_inputs_deferred (4 * s.functor_count) argv 0
      { s with functor_count := s.functor_count + 1,
               sym_functors := sym_set_value s.sym_functors F (4 * s.functor_count) } hund
    obtain ⟨v1, v2, v3, v4, v5⟩ := compile_variable_links h S name msb lsb sg sB
    have hinvB2 := chains_inv_compile_variable h S name msb lsb sg sB hinvB
    obtain ⟨_, _, c3, _⟩ := compile_cleanup_port_spec _ hinvB2
    have hold : chain_from (compile_variable h S name msb lsb sg sB)
        (((compile_variable h S name msb lsb sg sB).functors (s.functor_count + 1 + i)).out)
        [] := by
      rw [v2, b3, d1]
      exact hfresh _ (by omega)
    have hc := compile_cleanup_chain _ hinvB2 (s.functor_count + 1 + i) [] hold
    rw [v3, v5, b4, b5, b6, d2] at hc
    simp only [hres, List.append_nil] at hc
    rw [deferred_links_reverse, linked_to_reverse, List.reverse_reverse, d3] at hc
    have hlook : ∀ a ∈ argv, sym_get_value (sym_set_value (sym_set_value s.sym_functors F
        (4 * s.functor_count)) S (4 * (s.functor_count + 1))) a.text =
        4 * (s.functor_count + 1) := by
      intro a ha
      rw [hargv a ha]
      simp [sym_set_value, sym_get_value]
    have hl := input_links_on _ (fun k => ipoint_make (4 * s.functor_count) k)
      (4 * (s.functor_count + 1)) i (by omega) argv 0 hlook
    have e4 : 4 * (s.functor_count + 1) / 4 = s.functor_count + 1 := by omega
    rw [e4] at hl
    rw [hl] at hc
    refine ⟨?_, ?_, ?_⟩
    · rw [c3, v5, b6, b5]
      simp [sym_set_value, sym_get_value]
    · rw [c3, v5, b6, b5]
      simp [sym_set_value, sym_get_value, hFS]
    · simpa using hc

/-- C32: the three linking sites (the input loop of `compile_functor` and
`compile_event`, the connecting loop of `compile_net`, the first loop of
`compile_cleanup`) make a link by the same two writes: the destination ipoint becomes
the head of the out chain of the source functor, and its port holds the head that chain
had before. So after `compile_functor`, `compile_event` (for every functor but the new
one, whose `out` it clears), `compile_net` and `compile_cleanup` alike, the chain of a
functor is its old chain with, in front of it, the destinations of the links made to
it, the last one made first. And the two orders agree: when a vector `S` is declared
before a functor `F` whose inputs all name bits of `S`, and when `F` is declared before
`S` and `compile_cleanup` follows, the chain of `S[i]` holds exactly the ipoints `(F, k)`
of the inputs `k` that name `S[i]`; only their order differs (last input first when
linked at once, first input first when linked by the cleanup), and a single input is
the head either way. -/
theorem immediate_and_deferred_linking_agree (h : vpi_host) (s : vvp_state)
    (hinv : chains_inv s) :
    (∀ (fdx k : Nat) (a : symb_s), fdx % 4 = 0 → k < 4 →
      sym_get_value s.sym_functors a.text ≠ 0 →
      functor_input fdx k a s = splice (ipoint_make fdx k) (source_ipoint s a) s) ∧
    (∀ (fdx k : Nat) (a : symb_s), fdx % 4 = 0 →
      sym_get_value s.sym_functors a.text ≠ 0 →
      net_input fdx k a s = splice (ipoint_index fdx k) (source_ipoint s a) s) ∧
    (∀ (q : Nat) (a : symb_s) (rest : List resolv_list_s),
      sym_get_value s.sym_functors a.text ≠ 0 →
      cleanup_ports (⟨q, a.text, a.idx⟩ :: rest) s =
        cleanup_ports rest (splice q (source_ipoint s a) s)) ∧
    (∀ q t, ((splice q t s).functors (t / 4)).out = q ∧
      chain_link (splice q t s) q = (s.functors (t / 4)).out) ∧
    (∀ n l, chain_from s (s.functors n).out l →
      (∀ label type init argv r, compile_functor label type init argv s = some r →
        chain_from r (r.functors n).out
          ((linked_to (input_links (sym_set_value s.sym_functors label (4 * s.functor_count))
            (fun k => ipoint_make (4 * s.functor_count) k) 0 argv) n).reverse ++ l)) ∧
      (∀ label type argv r, compile_event label type argv s = some r →
        n ≠ s.functor_count →
        chain_from r (r.functors n).out
          ((linked_to (input_links (sym_set_value s.sym_functors label (4 * s.functor_count))
            (fun k => ipoint_make (4 * s.functor_count) k) 0 argv) n).reverse ++ l)) ∧
      (∀ label name msb lsb sg argv r, compile_net h label name msb lsb sg argv s = some r →
        chain_from r (r.functors n).out
          ((linked_to (input_links (sym_set_value s.sym_functors label (4 * s.functor_count))
            (fun k => ipoint_index (4 * s.functor_count) k) 0 argv) n).reverse ++ l)) ∧
      chain_from (compile_cleanup s) ((compile_cleanup s).functors n).out
        ((linked_to (deferred_links s.sym_functors s.resolv_list) n).reverse ++ l)) ∧
    ∀ (S F tF name : String) (iF : Nat) (msb lsb : Int) (sg : Bool) (argv : List symb_s)
      (rA sB : vvp_state), s.resolv_list = [] →
      (∀ m, s.functor_count ≤ m → (s.functors m).out = 0) →
      S ≠ F → sym_get_value s.sym_functors S = 0 → (∀ a ∈ argv, a.text = S) →
      compile_functor F tF iF argv (compile_variable h S name msb lsb sg s) = some rA →
      compile_functor F tF iF argv s = some sB →
      ∀ i,
        (sym_get_value rA.sym_functors S = 4 * s.functor_count ∧
          sym_get_value rA.sym_functors F = 4 * (s.functor_count + vector_wid msb lsb) ∧
          chain_from rA (rA.functors (s.functor_count + i)).out
            ((inputs_on i 0 argv).reverse.map
              fun k => ipoint_make (4 * (s.functor_count + vector_wid msb lsb)) k)) ∧
        (sym_get_value
            (compile_cleanup (compile_variable h S name msb lsb sg sB)).sym_functors S =
            4 * (s.functor_count + 1) ∧
          sym_get_value
            (compile_cleanup (compile_variable h S name msb lsb sg sB)).sym_functors F =
            4 * s.functor_count ∧
          chain_from (compile_cleanup (compile_variable h S name msb lsb sg sB))
            ((compile_cleanup (compile_variable h S name msb lsb sg sB)).functors
              (s.functor_count + 1 + i)).out
            ((inputs_on i 0 argv).map fun k => ipoint_make (4 * s.functor_count) k)) := by
  refine ⟨?_, ?_, ?_, ?_, ?_, ?_⟩
  · intro fdx k a hf4 hk hdef
    rw [functor_input_eq_splice fdx k a s hf4 hk hdef]
    have : ipoint_make fdx k = fdx + k := by unfold ipoint_make; omega
    rw [this]
    rfl
  · intro fdx k a hf4 hdef
    rw [net_input_eq_splice fdx k a s hf4 hdef]
    have : ipoint_index fdx k = fdx + 4 * k := by unfold ipoint_index; omega
    rw [this]
    rfl
  · intro q a rest hdef
    simp only [cleanup_ports, hdef, ne_eq, not_false_eq_true, if_true]
    rfl
  · intro q t
    exact ⟨by rw [out_splice]; simp, by rw [chain_link_splice]; simp⟩
  · intro n l hl
    exact ⟨fun label type init argv r hr =>
        compile_functor_chain label type init argv s r hinv hr n l hl,
      fun label type argv r hr hn => compile_event_chain label type argv s r hinv hr n l hn hl,
      fun label name msb lsb sg argv r hr =>
        compile_net_chain h label name msb lsb sg argv s r hinv hr n l hl,
      compile_cleanup_chain s hinv n l hl⟩
  · intro S F tF name iF msb lsb sg argv rA sB hres hfresh hSF hS hargv hA hB i
    exact two_orders_chain h S F tF name iF msb lsb sg argv s rA sB hinv hres hfresh hSF hS
      hargv hA hB i

set_option maxRecDepth 100000 in
/-- C32 after `compile_init`, for `s .var "s", 0, 0;` and `f .functor AND, 0, s[0], s[0];`
in the two orders: `s` first, the chain of `s[0]` is `(f,1), (f,0)` with `f` at functor 2;
`f` first and `compile_cleanup`, it is `(f,0), (f,1)` with `f` at functor 1. -/
theorem immediate_and_deferred_linking_agree_example :
    (∃ rA, compile_functor "f" "AND" 0 [⟨"s", 0⟩, ⟨"s", 0⟩]
        (compile_variable sample_host "s" "s" 0 0 false
          (compile_init sample_host static_state)) = some rA ∧
      sym_get_value rA.sym_functors "s" = 4 ∧ sym_get_value rA.sym_functors "f" = 8 ∧
      chain_from rA (rA.functors 1).out [9, 8]) ∧
    (∃ sB, compile_functor "f" "AND" 0 [⟨"s", 0⟩, ⟨"s", 0⟩]
        (compile_init sample_host static_state) = some sB ∧
      sym_get_value
        (compile_cleanup (compile_variable sample_host "s" "s" 0 0 false sB)).sym_functors
        "s" = 8 ∧
      sym_get_value
        (compile_cleanup (compile_variable sample_host "s" "s" 0 0 false sB)).sym_functors
        "f" = 4 ∧
      chain_from (compile_cleanup (compile_variable sample_host "s" "s" 0 0 false sB))
        ((compile_cleanup (compile_variable sample_host "s" "s" 0 0 false sB)).functors 2).out
        [4, 5]) :=
  have key := (immediate_and_deferred_linking_agree sample_host
    (compile_init sample_host static_state) (chains_inv_compile_init sample_host)).2.2.2.2.2
    "s" "f" "AND" "s" 0 0 0 false [⟨"s", 0⟩, ⟨"s", 0⟩] _ _ rfl (fun _ _ => rfl)
    (by decide) (by decide) (by decide) rfl rfl 0
  ⟨⟨_, rfl, key.1⟩, ⟨_, rfl, key.2⟩⟩

/-! ## Functor operands of instructions have no forward references -/

/-- One slot of the operand loop that is not a code pointer and, when it is a functor
pointer, names an undefined functor: it returns, and `iptr`, both unresolved lists and
the functor table stay. -/
theorem compile_code_operand_unlinked (op : opcode_table_s) (o : comp_operands_s)
    (ptr idx : Nat) (s : vvp_state) (hnc : argt_at op idx ≠ OA_CODE_PTR)
    (hf : argt_at op idx = OA_FUNC_PTR →
      ∃ sy, o.argv idx = .symb sy ∧ sym_get_value s.sym_functors sy.text = 0) :
    ∃ r, compile_code_operand op (some o) ptr idx s = some r ∧
      (r.codes ptr).iptr = (s.codes ptr).iptr ∧ r.resolv_list = s.resolv_list ∧
      r.cresolv_list = s.cresolv_list ∧ r.sym_functors = s.sym_functors ∧
      (∃ msgs, r.errout = s.errout ++ msgs) ∧
      (argt_at op idx = OA_FUNC_PTR → r.errout = s.errout ++ ["functor undefined"]) := by
  unfold compile_code_operand
  cases ht : argt_at op idx
  case OA_CODE_PTR => exact absurd ht hnc
  case OA_FUNC_PTR =>
    obtain ⟨sy, ha, hu⟩ := hf ht
    simp only [ha, hu, if_true]
    exact ⟨_, rfl, rfl, rfl, rfl, rfl, ⟨_, rfl⟩, fun _ => rfl⟩
  case OA_NONE => exact ⟨s, rfl, rfl, rfl, rfl, rfl, ⟨[], by simp⟩, fun h => by cases h⟩
  all_goals
    cases ha : o.argv idx
    all_goals
      simp only [ha]
      first
        | exact ⟨_, rfl, by simp [code_update], rfl, rfl, rfl, ⟨[], by simp [code_update]⟩,
            fun h => by cases h⟩
        | exact ⟨_, rfl, rfl, rfl, rfl, rfl, ⟨_, rfl⟩, fun h => by cases h⟩

theorem compile_code_operands_unlinked (op : opcode_table_s) (o : comp_operands_s)
    (ptr j : Nat) (sy : symb_s) (ha : o.argv j = .symb sy) :
    ∀ (idxs : List Nat) (s : vvp_state),
    sym_get_value s.sym_functors sy.text = 0 →
    (∀ i ∈ idxs, argt_at op i ≠ OA_CODE_PTR) →
    (∀ i ∈ idxs, argt_at op i = OA_FUNC_PTR → i = j) →
    ∃ r, compile_code_operands op (some o) ptr idxs s = some r ∧
      (r.codes ptr).iptr = (s.codes ptr).iptr ∧ r.resolv_list = s.resolv_list ∧
      r.cresolv_list = s.cresolv_list ∧ r.sym_functors = s.sym_functors ∧
      (∃ msgs, r.errout = s.errout ++ msgs) ∧
      (j ∈ idxs → argt_at op j = OA_FUNC_PTR →
        ∃ pre post, r.errout = s.errout ++ pre ++ "functor undefined" :: post)
  | [], s, _, _, _ =>
    ⟨s, rfl, rfl, rfl, rfl, rfl, ⟨[], by simp⟩, fun h => absurd h (List.not_mem_nil _)⟩
  | i :: rest, s, hu, hnc, hone => by
    obtain ⟨s1, a0, a1, a2, a3, a4, ⟨m1, a5⟩, a6⟩ := compile_code_operand_unlinked op o ptr i s
      (hnc i (List.mem_cons_self _ _))
      (fun ht => ⟨sy, by rw [hone i (List.mem_cons_self _ _) ht]; exact ha, hu⟩)
    obtain ⟨r, b0, b1, b2, b3, b4, ⟨m2, b5⟩, b6⟩ := compile_code_operands_unlinked op o ptr j sy
      ha rest s1 (by rw [a4]; exact hu) (fun k hk => hnc k (List.mem_cons_of_mem _ hk))
      (fun k hk => hone k (List.mem_cons_of_mem _ hk))
    refine ⟨r, by simp only [compile_code_operands, a0]; exact b0, b1.trans a1, b2.trans a2,
      b3.trans a3, b4.trans a4, ⟨m1 ++ m2, by rw [b5, a5, List.append_assoc]⟩, ?_⟩
    intro hj ht
    by_cases hij : i = j
    · subst hij
      refine ⟨[], m2, ?_⟩
      rw [b5, a6 ht]
      simp
    · rcases List.mem_cons.mp hj with hj | hj
      · exact absurd hj.symm hij
      · obtain ⟨pre, post, hp⟩ := b6 hj ht
        refine ⟨m1 ++ pre, post, ?_⟩
        rw [hp, a5]
        simp

theorem code_inv_compile_cleanup (s : vvp_state) (hinv : code_inv s) :
    code_inv (compile_cleanup s) := by
  obtain ⟨_, a2, a3, _, a5, _⟩ := compile_cleanup_code_spec s
  obtain ⟨i1, i2, i3⟩ := hinv
  refine ⟨a3.trans i1, ?_, ?_⟩
  · intro e he
    rw [a5] at he
    rw [a2]
    exact i2 e (List.mem_of_mem_filter (List.mem_reverse.mp he))
  · rw [a5, List.map_reverse, List.nodup_reverse]
    exact List.Nodup.sublist (List.Sublist.map _ (List.filter_sublist _)) i3

/-- Every sequence of calls leaves the records already allocated alone, but for `cptr`
fields that `compile_cleanup` resolves. -/
theorem assembler_calls_codes (h : vpi_host) :
    ∀ (calls : List assembler_call) (s r : vvp_state),
    assembler_calls h calls s = some r → code_inv s →
    s.code_count ≤ r.code_count ∧
    ∀ n, n < s.code_count → r.codes n = { s.codes n with cptr := (r.codes n).cptr }
  | [], s, r, hr, _ => by
    simp only [assembler_calls, Option.some.injEq] at hr
    subst hr
    exact ⟨Nat.le_refl _, fun _ _ => rfl⟩
  | .statement st :: rest, s, r, hr, hinv => by
    simp only [assembler_calls] at hr
    split at hr
    · cases hr
    · rename_i s1 h1
      obtain ⟨i1, g1, g2, _⟩ := compile_stmt_code_inv h st s s1 h1 hinv
      obtain ⟨b1, b2⟩ := assembler_calls_codes h rest s1 r hr i1
      refine ⟨Nat.le_trans g1 b1, fun n hn => ?_⟩
      rw [b2 n (by omega), g2 n hn]
  | .cleanup :: rest, s, r, hr, hinv => by
    simp only [assembler_calls] at hr
    obtain ⟨_, a2, _, _, _, _, _, a8, _⟩ := compile_cleanup_code_spec s
    obtain ⟨b1, b2⟩ := assembler_calls_codes h rest _ r hr (code_inv_compile_cleanup s hinv)
    refine ⟨by rw [← a2]; exact b1, fun n hn => ?_⟩
    rw [b2 n (by rw [a2]; exact hn), a8 n]

theorem opcode_table_func_ptr_rows :
    ∀ op ∈ opcode_table, op.argc ≤ 3 ∧
      ((∃ j, j < 3 ∧ argt_at op j = OA_FUNC_PTR) ↔
        op.mnemonic ∈ [some "%assign", some "%load", some "%set", some "%wait"]) ∧
      ∀ j < op.argc, argt_at op j = OA_FUNC_PTR →
        (∀ i < op.argc, argt_at op i ≠ OA_CODE_PTR) ∧
        ∀ i < op.argc, argt_at op i = OA_FUNC_PTR → i = j := by
  decide

/-- C33: the functor-pointer slots are those of `%assign`, `%load`, `%set` and `%wait`.
When `compile_code` is handed one of these with the right number of operands and the
functor operand names a label that is not (yet) in the functor symbol table, it returns
with the report `functor undefined`, leaves `iptr` of the new instruction unwritten and
pushes nothing on either unresolved list; and whatever calls follow (statements that
declare the functor, `compile_cleanup`), `iptr` of the instruction is never written. -/
theorem functor_operand_no_forward_reference (h : vpi_host) (label : Option String)
    (mnem : String) (o : comp_operands_s) (s : vvp_state) (op : opcode_table_s)
    (j : Nat) (sy : symb_s) (hinv : code_inv s)
    (hop : op ∈ opcode_table) (hm : op.mnemonic = some mnem)
    (hj : j < op.argc) (ht : argt_at op j = OA_FUNC_PTR)
    (hargc : o.argc = op.argc) (ha : o.argv j = .symb sy)
    (hu : sym_get_value s.sym_functors sy.text = 0) :
    mnem ∈ ["%assign", "%load", "%set", "%wait"] ∧
    ∃ r, compile_code label mnem (some o) s = some r ∧
      (∃ pre post, r.errout = s.errout ++ pre ++ "functor undefined" :: post) ∧
      (r.codes s.code_count).iptr = (s.codes s.code_count).iptr ∧
      r.resolv_list = s.resolv_list ∧ r.cresolv_list = s.cresolv_list ∧
      ∀ calls t, assembler_calls h calls r = some t →
        (t.codes s.code_count).iptr = (s.codes s.code_count).iptr := by
  obtain ⟨hle, t1, t2⟩ := opcode_table_func_ptr_rows op hop
  obtain ⟨t3, t4⟩ := t2 j hj ht
  have hmn : mnem ∈ ["%assign", "%load", "%set", "%wait"] := by
    have := t1.mp ⟨j, by omega, ht⟩
    rw [hm] at this
    simpa using this
  have hb : bsearch mnem opcode_table s.opcode_count opcode_compare = some (some op) := by
    rw [hinv.1]
    exact (bsearch_opcode_iff mnem op).mpr ⟨hop, hm⟩
  have hf := compile_code_found label mnem (some o) s op hb
  simp only [supplied_argc, hargc, ne_eq, not_true_eq_false, if_false] at hf
  have hopen : (code_opened label op s).sym_functors = s.sym_functors ∧
      ((code_opened label op s).codes s.code_count).iptr = (s.codes s.code_count).iptr ∧
      (code_opened label op s).resolv_list = s.resolv_list ∧
      (code_opened label op s).cresolv_list = s.cresolv_list ∧
      (code_opened label op s).errout = s.errout := by
    cases label <;> simp [code_opened, bind_code_label, code_update]
  obtain ⟨o1, o2, o3, o4, o5⟩ := hopen
  obtain ⟨r, a0, a1, a2, a3, _, _, a6⟩ := compile_code_operands_unlinked op o s.code_count j sy
    ha (List.range op.argc) (code_opened label op s) (by rw [o1]; exact hu)
    (fun i hi => t3 i (List.mem_range.mp hi))
    (fun i hi => t4 i (List.mem_range.mp hi))
  have hr : compile_code label mnem (some o) s = some r := hf.trans a0
  obtain ⟨pre, post, hp⟩ := a6 (List.mem_range.mpr hj) ht
  obtain ⟨i1, g1, g2, _⟩ := compile_code_code_inv label mnem (some o) s r hr hinv
  have hcount : r.code_count = s.code_count + 1 :=
    (instruction_allocates h (.code label mnem (some o)) s r rfl hr).1
  refine ⟨hmn, r, hr, ⟨pre, post, by rw [hp, o5]⟩, a1.trans o2, a2.trans o3, a3.trans o4, ?_⟩
  intro calls t hcalls
  obtain ⟨_, c2⟩ := assembler_calls_codes h calls r t hcalls i1
  rw [c2 s.code_count (by omega)]
  exact a1.trans o2

set_option maxRecDepth 100000 in
/-- C33 at `%set late, 5` after `compile_init`, followed by `late .functor OR, 0;` and
`compile_cleanup`. -/
theorem functor_operand_no_forward_reference_set :
    (compile_code none "%set" (some ⟨2, fun i => if i = 0 then .symb ⟨"late", 0⟩
        else .numb 5⟩) (compile_init sample_host static_state)).map (fun r => r.errout) =
      some ["functor undefined"] ∧
    ((compile_code none "%set" (some ⟨2, fun i => if i = 0 then .symb ⟨"late", 0⟩
        else .numb 5⟩) (compile_init sample_host static_state)).bind
      (assembler_calls sample_host [.statement (.functor "late" "OR" 0 []), .cleanup])).map
      (fun t => (sym_get_value t.sym_functors "late", (t.codes 1).iptr)) = some (4, 0) ∧
    ∃ r, compile_code none "%set" (some ⟨2, fun i => if i = 0 then .symb ⟨"late", 0⟩
          else .numb 5⟩) (compile_init sample_host static_state) = some r ∧
      r.resolv_list = [] ∧ r.cresolv_list = [] ∧ (r.codes 1).iptr = 0 ∧
      ∀ t, assembler_calls sample_host [.statement (.functor "late" "OR" 0 []), .cleanup] r =
        some t → (t.codes 1).iptr = 0 :=
  ⟨by decide, by decide,
    match functor_operand_no_forward_reference sample_host none "%set"
      ⟨2, fun i => if i = 0 then .symb ⟨"late", 0⟩ else .numb 5⟩
      (compile_init sample_host static_state)
      ⟨some "%set", of_SET, 2, [OA_FUNC_PTR, OA_BIT1, OA_NONE]⟩ 0 ⟨"late", 0⟩
      (code_inv_compile_init sample_host static_state rfl) (by decide) rfl (by decide) rfl rfl
      rfl (by decide) with
    | ⟨_, r, h1, _, h3, h4, h5, h6⟩ =>
      ⟨r, h1, h4, h5, h3, fun t ht =>
        h6 [.statement (.functor "late" "OR" 0 []), .cleanup] t ht⟩⟩

/-! ## The width arithmetic of `compile_variable` and `compile_net` -/

/-- C34: for all 32-bit signed `msb` and `lsb`, the width that `compile_variable` and
`compile_net` compute in an `unsigned` (it is the number of functors each allocates,
`compile_net` whenever it returns) is symmetric in `msb` and `lsb`; outside the extreme
pair of `INT_MAX` and `INT_MIN` it equals the exact integer `|msb - lsb| + 1` and is at
least 1; for that pair, in either order, the exact value is `2^32` and the width is
0. -/
theorem width_arithmetic (h : vpi_host) (label name : String) (sg : Bool)
    (argv : List symb_s) (s : vvp_state) (msb lsb : Int)
    (hm1 : -(2 : Int) ^ 31 ≤ msb) (hm2 : msb < 2 ^ 31)
    (hl1 : -(2 : Int) ^ 31 ≤ lsb) (hl2 : lsb < 2 ^ 31) :
    (compile_variable h label name msb lsb sg s).functor_count =
      s.functor_count + vector_wid msb lsb ∧
    (∀ r, compile_net h label name msb lsb sg argv s = some r →
      r.functor_count = s.functor_count + vector_wid msb lsb) ∧
    vector_wid msb lsb = vector_wid lsb msb ∧
    (¬ ((msb = 2 ^ 31 - 1 ∧ lsb = -2 ^ 31) ∨ (lsb = 2 ^ 31 - 1 ∧ msb = -2 ^ 31)) →
      vector_wid msb lsb = (msb - lsb).natAbs + 1 ∧ 1 ≤ vector_wid msb lsb) ∧
    ((msb = 2 ^ 31 - 1 ∧ lsb = -2 ^ 31) ∨ (lsb = 2 ^ 31 - 1 ∧ msb = -2 ^ 31) →
      (msb - lsb).natAbs + 1 = 2 ^ 32 ∧ vector_wid msb lsb = 0) := by
  obtain ⟨_, _, _, a4, _⟩ := var_functors_frame (4 * s.functor_count) (vector_wid msb lsb)
    { s with functor_count := s.functor_count + vector_wid msb lsb,
             sym_functors := sym_set_value s.sym_functors label (4 * s.functor_count) }
  refine ⟨a4, ?_, vector_wid_comm msb lsb, ?_, ?_⟩
  · intro r hr
    by_cases hargc : argv.length = vector_wid msb lsb
    · rw [compile_net_eq h label name msb lsb sg argv s hargc] at hr
      rw [← Option.some.inj hr]
      obtain ⟨b1, _⟩ := net_inputs_frame (4 * s.functor_count) argv 0
        (var_functors (4 * s.functor_count) (vector_wid msb lsb)
          { s with functor_count := s.functor_count + vector_wid msb lsb,
                   sym_functors := sym_set_value s.sym_functors label (4 * s.functor_count) })
      show (net_inputs _ _ _ _).functor_count = _
      rw [b1]
      exact a4
    · simp [compile_net, functor_allocate, hargc] at hr
  · intro hne
    have e : vector_wid msb lsb = (msb - lsb).natAbs + 1 := by
      apply vector_wid_exact
      norm_num at hm1 hm2 hl1 hl2 hne ⊢
      omega
    exact ⟨e, by omega⟩
  · intro hex
    norm_num at hm1 hm2 hl1 hl2 hex ⊢
    rcases hex with ⟨e1, e2⟩ | ⟨e1, e2⟩ <;> subst e1 <;> subst e2 <;>
      exact ⟨by decide, by decide⟩

/-- C34 at `[7:0]` and at the extreme pair. -/
theorem width_arithmetic_example :
    (-(2 : Int) ^ 31 ≤ 7 ∧ (7 : Int) < 2 ^ 31 ∧ -(2 : Int) ^ 31 ≤ 0 ∧ (0 : Int) < 2 ^ 31) ∧
    vector_wid 7 0 = 8 ∧ vector_wid 0 7 = 8 ∧
    vector_wid 2147483647 (-2147483648) = 0 :=
  ⟨⟨by decide, by decide, by decide, by decide⟩,
    ((width_arithmetic sample_host "v" "v" false [] static_state 7 0 (by decide) (by decide)
      (by decide) (by decide)).2.2.2.1 (by decide)).1,
    by decide, by decide⟩

/-! ## `compile_code` and the operand list -/

/-- One slot of the operand loop reads of the operand list `argv[idx]` alone. -/
theorem compile_code_operand_reads (op : opcode_table_s) (o1 o2 : comp_operands_s)
    (ptr idx : Nat) (s : vvp_state) (h : o1.argv idx = o2.argv idx) :
    compile_code_operand op (some o1) ptr idx s = compile_code_operand op (some o2) ptr idx s := by
  unfold compile_code_operand
  cases argt_at op idx <;> simp only [h]

theorem compile_code_operands_reads (op : opcode_table_s) (o1 o2 : comp_operands_s)
    (ptr : Nat) : ∀ (idxs : List Nat) (s : vvp_state),
    (∀ i ∈ idxs, o1.argv i = o2.argv i) →
    compile_code_operands op (some o1) ptr idxs s = compile_code_operands op (some o2) ptr idxs s
  | [], _, _ => rfl
  | j :: rest, s, h => by
    simp only [compile_code_operands]
    rw [compile_code_operand_reads op o1 o2 ptr j s (h j (List.mem_cons_self _ _))]
    cases compile_code_operand op (some o2) ptr j s with
    | none => rfl
    | some s1 =>
      exact compile_code_operands_reads op o1 o2 ptr rest s1
        (fun i hi => h i (List.mem_cons_of_mem _ hi))

/-- C35: once `compile_init` has counted the table, `compile_code` with a null operand
list returns and never reads the list: the supplied count is 0, so the call ends with
`Invalid opcode` when the mnemonic is unknown, with the instruction as stored before the
operand loop when the mnemonic takes no operand (the loop runs zero times), and with
`operand count`, before the loop, when it takes some. With a list, the call reads of it
`argc` and `argv[idx]` for `idx` below that `argc` only: two lists that agree on these
give the same result. -/
theorem compile_code_operand_list (label : Option String) (mnem : String) (s : vvp_state)
    (hc : s.opcode_count = 24) :
    (∃ r, compile_code label mnem none s = some r) ∧
    (bsearch mnem opcode_table 24 opcode_compare = some none →
      compile_code label mnem none s = some (yyerror "Invalid opcode"
        (bind_code_label label s.code_count { s with code_count := s.code_count + 1 }))) ∧
    (∀ op, bsearch mnem opcode_table 24 opcode_compare = some (some op) →
      (op.argc = 0 →
        compile_code_operands op none s.code_count (List.range op.argc)
            (code_opened label op s) = some (code_opened label op s) ∧
          compile_code label mnem none s = some (code_opened label op s)) ∧
      (op.argc ≠ 0 → compile_code label mnem none s =
        some (yyerror "operand count" (code_opened label op s)))) ∧
    ∀ o1 o2 : comp_operands_s, o1.argc = o2.argc →
      (∀ i, i < o1.argc → o1.argv i = o2.argv i) →
      compile_code label mnem (some o1) s = compile_code label mnem (some o2) s := by
  have hb0 : (bind_code_label label s.code_count
      { s with code_count := s.code_count + 1 }).opcode_count = 24 := by
    cases label <;> exact hc
  have hinv : bsearch mnem opcode_table 24 opcode_compare = some none →
      ∀ opa, compile_code label mnem opa s = some (yyerror "Invalid opcode"
        (bind_code_label label s.code_count { s with code_count := s.code_count + 1 })) := by
    intro hb opa
    unfold compile_code codespace_allocate
    simp only [hb0, hb]
  have hfound : ∀ op, bsearch mnem opcode_table 24 opcode_compare = some (some op) →
      (op.argc = 0 →
        compile_code_operands op none s.code_count (List.range op.argc)
            (code_opened label op s) = some (code_opened label op s) ∧
          compile_code label mnem none s = some (code_opened label op s)) ∧
      (op.argc ≠ 0 → compile_code label mnem none s =
        some (yyerror "operand count" (code_opened label op s))) := by
    intro op hb
    have hf := compile_code_found label mnem none s op (by rw [hc]; exact hb)
    constructor
    · intro h0
      have hl : compile_code_operands op none s.code_count (List.range op.argc)
          (code_opened label op s) = some (code_opened label op s) := by
        rw [h0]
        rfl
      refine ⟨hl, ?_⟩
      rw [hf, hl]
      simp [supplied_argc, h0]
    · intro h0
      rw [hf]
      simp [supplied_argc, h0]
  refine ⟨?_, fun hb => hinv hb none, hfound, ?_⟩
  · cases hb : bsearch mnem opcode_table 24 opcode_compare with
    | none =>
      exact absurd hb (bsearch_sorted_table opcode_table 24 (by decide) (by decide)
        opcode_table_sorted mnem).1
    | some x =>
      cases x with
      | none => exact ⟨_, hinv hb none⟩
      | some op =>
        by_cases h0 : op.argc = 0
        · exact ⟨_, ((hfound op hb).1 h0).2⟩
        · exact ⟨_, (hfound op hb).2 h0⟩
  · intro o1 o2 hargc hargv
    cases hb : bsearch mnem opcode_table 24 opcode_compare with
    | none =>
      exact absurd hb (bsearch_sorted_table opcode_table 24 (by decide) (by decide)
        opcode_table_sorted mnem).1
    | some x =>
      cases x with
      | none => rw [hinv hb, hinv hb]
      | some op =>
        rw [compile_code_found label mnem (some o1) s op (by rw [hc]; exact hb),
          compile_code_found label mnem (some o2) s op (by rw [hc]; exact hb)]
        simp only [supplied_argc, hargc]
        by_cases hne : op.argc = o2.argc
        · simp only [hne, ne_eq, not_true_eq_false, if_false]
          exact compile_code_operands_reads op o1 o2 s.code_count _ _
            (fun i hi => hargv i (by rw [hargc]; exact List.mem_range.mp hi))
        · simp only [hne, ne_eq, not_false_eq_true, if_true]

set_option maxRecDepth 100000 in
/-- C35 after `compile_init`: `%end` and `%jmp` without an operand list. -/
theorem compile_code_operand_list_example :
    (compile_init sample_host static_state).opcode_count = 24 ∧
    (compile_code none "%end" none (compile_init sample_host static_state)).map
      (fun r => (r.errout, r.code_count)) = some ([], 2) ∧
    (compile_code none "%jmp" none (compile_init sample_host static_state)).map
      (fun r => (r.errout, r.code_count)) = some (["operand count"], 2) :=
  ⟨by decide,
    by
      rw [(((compile_code_operand_list none "%end" (compile_init sample_host static_state)
        (by decide)).2.2.1 ⟨some "%end", of_END, 0, [OA_NONE, OA_NONE, OA_NONE]⟩
        (by decide)).1 (by decide)).2]
      decide,
    by
      rw [((compile_code_operand_list none "%jmp" (compile_init sample_host static_state)
        (by decide)).2.2.1 ⟨some "%jmp", of_JMP, 1, [OA_CODE_PTR, OA_NONE, OA_NONE]⟩
        (by decide)).2 (by decide)]
      decide⟩

/-! ## The fields the input loop leaves alone -/

/-- The input loop of `compile_functor` and `compile_event` writes `port[]` of the new
functor and `out` of the sources, and nothing else of a functor. -/
theorem functor_input_fields (fdx idx : Nat) (a : symb_s) (s : vvp_state) (n : Nat) :
    ((functor_input fdx idx a s).functors n).table = (s.functors n).table ∧
    ((functor_input fdx idx a s).functors n).ival = (s.functors n).ival ∧
    ((functor_input fdx idx a s).functors n).oval = (s.functors n).oval ∧
    ((functor_input fdx idx a s).functors n).mode = (s.functors n).mode ∧
    ((functor_input fdx idx a s).functors n).event = (s.functors n).event := by
  unfold functor_input
  by_cases hdef : sym_get_value s.sym_functors a.text = 0
  · simp [hdef, postpone_functor_input]
  · simp only [hdef, ne_eq, not_false_eq_true, if_true, functor_update, functor_index]
    generalize ipoint_index (sym_get_value s.sym_functors a.text) a.idx / 4 = m
    by_cases h1 : n = m
    · subst h1
      by_cases h2 : n = fdx / 4 <;> simp [h2]
    · by_cases h2 : n = fdx / 4
      · subst h2
        simp [h1]
      · simp [h1, h2]

theorem functor_inputs_fields (fdx : Nat) : ∀ (argv : List symb_s) (i : Nat) (s : vvp_state)
    (n : Nat),
    ((functor_inputs fdx i argv s).functors n).table = (s.functors n).table ∧
    ((functor_inputs fdx i argv s).functors n).ival = (s.functors n).ival ∧
    ((functor_inputs fdx i argv s).functors n).oval = (s.functors n).oval ∧
    ((functor_inputs fdx i argv s).functors n).mode = (s.functors n).mode ∧
    ((functor_inputs fdx i argv s).functors n).event = (s.functors n).event
  | [], _, s, n => by simp [functor_inputs]
  | a :: rest, i, s, n => by
    simp only [functor_inputs]
    obtain ⟨a1, a2, a3, a4, a5⟩ :=
      functor_inputs_fields fdx rest (i + 1) (functor_input fdx i a s) n
    obtain ⟨b1, b2, b3, b4, b5⟩ := functor_input_fields fdx i a s n
    exact ⟨a1.trans b1, a2.trans b2, a3.trans b3, a4.trans b4, a5.trans b5⟩

/-! ## The opcode table is well formed -/

theorem opcode_table_shape :
    ∀ op ∈ opcode_table,
      op.argt.length = 3 ∧ op.argc ≤ 3 ∧
      (∀ i < op.argc, argt_at op i ≠ OA_NONE) ∧
      (∀ i < 3, op.argc ≤ i → argt_at op i = OA_NONE) ∧
      op.argt.count OA_BIT1 ≤ 1 ∧ op.argt.count OA_BIT2 ≤ 1 ∧
      op.argt.count OA_NUMBER + op.argt.count OA_CODE_PTR + op.argt.count OA_FUNC_PTR ≤ 1 ∧
      (List.range op.argc).Pairwise
        (fun i j => slot_storage (argt_at op i) ≠ slot_storage (argt_at op j)) := by
  decide

/-- C38: every row of `opcode_table`, the sentinel included, has three slots of which
those below `argc` have a type other than `OA_NONE` and those from `argc` on are
`OA_NONE`; it has at most one `OA_BIT1`, at most one `OA_BIT2` and at most one among
`OA_NUMBER`, `OA_CODE_PTR` and `OA_FUNC_PTR`, so that no two of its operands are written
to the same storage. So the operand loop of `compile_code`, run over a row on operands
that fit their slots, returns with every slot's field holding that slot's operand: none
has been overwritten by a later one. -/
theorem opcode_table_well_formed (op : opcode_table_s) (hop : op ∈ opcode_table) :
    op.argt.length = 3 ∧ op.argc ≤ 3 ∧
    (∀ i, i < op.argc → argt_at op i ≠ OA_NONE) ∧
    (∀ i, op.argc ≤ i → i < 3 → argt_at op i = OA_NONE) ∧
    op.argt.count OA_BIT1 ≤ 1 ∧ op.argt.count OA_BIT2 ≤ 1 ∧
    op.argt.count OA_NUMBER + op.argt.count OA_CODE_PTR + op.argt.count OA_FUNC_PTR ≤ 1 ∧
    (∀ i j, i < j → j < op.argc →
      slot_storage (argt_at op i) ≠ slot_storage (argt_at op j)) ∧
    ∀ (o : comp_operands_s) (ptr : Nat) (s : vvp_state),
      (∀ i, i < op.argc → operand_fits s.sym_functors (argt_at op i) (o.argv i)) →
      ∃ r, compile_code_operands op (some o) ptr (List.range op.argc) s = some r ∧
        ∀ i, i < op.argc → slot_field (argt_at op i) (r.codes ptr) =
          operand_value s.sym_codespace s.sym_functors (argt_at op i) (o.argv i) := by
  obtain ⟨h1, h2, h3, h4, h5, h6, h7, h8⟩ := opcode_table_shape op hop
  refine ⟨h1, h2, h3, fun i hi hi3 => h4 i hi3 hi, h5, h6, h7, ?_, ?_⟩
  · intro i j hij hj
    have := List.pairwise_iff_get.mp h8 ⟨i, by simp; omega⟩ ⟨j, by simpa using hj⟩
      (by simpa using hij)
    simpa using this
  · intro o ptr s hfit
    obtain ⟨r, hr, _, _, _, _, hv, _⟩ := compile_code_operands_fit op o ptr
      (List.range op.argc) s (opcode_table_slots_distinct op hop)
      (fun i hi => hfit i (List.mem_range.mp hi))
    exact ⟨r, hr, fun i hi => hv i (List.mem_range.mpr hi)⟩

set_option maxRecDepth 100000 in
/-- C38 at the row of `%assign`: the operands of `%assign v[1], 2, 3` after
`v .var "v", 3, 0;` end up in `iptr`, `bit_idx1` and `bit_idx2`. -/
theorem opcode_table_well_formed_assign :
    (⟨some "%assign", of_ASSIGN, 3, [OA_FUNC_PTR, OA_BIT1, OA_BIT2]⟩ : opcode_table_s) ∈
      opcode_table ∧
    ∃ r, compile_code_operands ⟨some "%assign", of_ASSIGN, 3, [OA_FUNC_PTR, OA_BIT1, OA_BIT2]⟩
        (some ⟨3, fun i => if i = 0 then .symb ⟨"v", 1⟩ else .numb (i + 1)⟩) 1
        (List.range 3) var_v_state = some r ∧
      (r.codes 1).iptr = 8 ∧ (r.codes 1).bit_idx1 = 2 ∧ (r.codes 1).bit_idx2 = 3 :=
  ⟨by decide,
    match (opcode_table_well_formed ⟨some "%assign", of_ASSIGN, 3, [OA_FUNC_PTR, OA_BIT1, OA_BIT2]⟩
      (by decide)).2.2.2.2.2.2.2.2
      ⟨3, fun i => if i = 0 then .symb ⟨"v", 1⟩ else .numb (i + 1)⟩ 1 var_v_state
      (by decide) with
    | ⟨r, h1, h2⟩ =>
      ⟨r, h1, (h2 0 (by decide) : (r.codes 1).iptr = _).trans (by decide),
        (h2 1 (by decide) : (r.codes 1).bit_idx1 = _).trans (by decide),
        (h2 2 (by decide) : (r.codes 1).bit_idx2 = _).trans (by decide)⟩⟩

/-! ## `compile_code`: the format of the operands -/

/-- The width expression evaluated in `int`: it is defined exactly when `|msb - lsb| + 1`
is representable in an `int`, and then it is that number, which is also the value kept in
the `unsigned`. -/
theorem wid_in_int_spec (msb lsb : Int) :
    ((msb - lsb).natAbs + 1 < 2 ^ 31 →
      wid_in_int msb lsb = some (((msb - lsb).natAbs + 1 : Nat) : Int) ∧
      vector_wid msb lsb = (msb - lsb).natAbs + 1) ∧
    (¬ (msb - lsb).natAbs + 1 < 2 ^ 31 → wid_in_int msb lsb = none) := by
  constructor
  · intro h
    refine ⟨?_, vector_wid_exact msb lsb (by omega)⟩
    unfold wid_in_int
    by_cases h1 : msb > lsb
    · have c1 : -(2 : Int) ^ 31 ≤ msb - lsb ∧ msb - lsb < 2 ^ 31 := by
        norm_num at h ⊢
        omega
      have c2 : msb - lsb + 1 < 2 ^ 31 := by
        norm_num at h ⊢
        omega
      simp only [h1, if_true, c1, c2, and_self, Option.some.injEq]
      omega
    · have c1 : -(2 : Int) ^ 31 ≤ lsb - msb ∧ lsb - msb < 2 ^ 31 := by
        norm_num at h ⊢
        omega
      have c2 : lsb - msb + 1 < 2 ^ 31 := by
        norm_num at h ⊢
        omega
      simp only [h1, if_false, c1, c2, and_self, if_true, Option.some.injEq]
      omega
  · intro h
    unfold wid_in_int
    by_cases h1 : msb > lsb
    · simp only [h1, if_true]
      split_ifs with c1 c2
      · exfalso
        norm_num at h c2
        omega
      · rfl
      · rfl
    · simp only [h1, if_false]
      split_ifs with c1 c2
      · exfalso
        norm_num at h c2
        omega
      · rfl
      · rfl

/-- C10 fails as stated: for `msb = INT_MAX`, `lsb = INT_MIN` the claimed width
`|msb - lsb| + 1` is `2^32`, which the `int` arithmetic of the width cannot produce: the
subtraction overflows and the call has no defined behaviour. The same holds for every
index pair whose width does not fit an `int`, `[2^30 : -2^30]` for one. -/
theorem compile_variable_width_overflows :
    ((2147483647 : Int) - (-2147483648)).natAbs + 1 = 4294967296 ∧
    wid_in_int 2147483647 (-2147483648) = none ∧
    compile_variable_defined sample_host "v" "v" 2147483647 (-2147483648) false
      (compile_init sample_host static_state) = none ∧
    wid_in_int 1073741824 (-1073741824) = none ∧
    compile_variable_defined sample_host "v" "v" 1073741824 (-1073741824) false
      (compile_init sample_host static_state) = none :=
  ⟨by decide, by decide, rfl, by decide, rfl⟩

/-- C10 as amended: for `msb` and `lsb` whose width `|msb - lsb| + 1` fits an `int`, the
type the width is computed in, `compile_variable` is defined and allocates one contiguous
vector of exactly `|msb - lsb| + 1` functors, the same count whichever of `msb`, `lsb` is
larger; it binds the label to the base of the vector in the functor symbol table, sets
every functor of the vector to table `ft_var`, mode 0, `ival` 0x22 and `oval` 2, changes
no other functor, and publishes under the same label the VPI handle made for that
base. -/
theorem compile_variable_spec (h : vpi_host) (label name : String) (msb lsb : Int)
    (sg : Bool) (s : vvp_state) (hfit : (msb - lsb).natAbs + 1 < 2 ^ 31) :
    wid_in_int msb lsb = some (((msb - lsb).natAbs + 1 : Nat) : Int) ∧
    compile_variable_defined h label name msb lsb sg s =
      some (compile_variable h label name msb lsb sg s) ∧
    (compile_variable h label name msb lsb sg s).functor_count =
      s.functor_count + ((msb - lsb).natAbs + 1) ∧
    (compile_variable h label name lsb msb sg s).functor_count =
      s.functor_count + ((msb - lsb).natAbs + 1) ∧
    sym_get_value (compile_variable h label name msb lsb sg s).sym_functors label =
      4 * s.functor_count ∧
    (∀ idx, idx < (msb - lsb).natAbs + 1 →
      (functor_index (compile_variable h label name msb lsb sg s)
        (ipoint_index (4 * s.functor_count) idx)).table = some ft_var ∧
      (functor_index (compile_variable h label name msb lsb sg s)
        (ipoint_index (4 * s.functor_count) idx)).mode = 0 ∧
      (functor_index (compile_variable h label name msb lsb sg s)
        (ipoint_index (4 * s.functor_count) idx)).ival = 0x22 ∧
      (functor_index (compile_variable h label name msb lsb sg s)
        (ipoint_index (4 * s.functor_count) idx)).oval = 2) ∧
    (∀ n, (n < s.functor_count ∨ s.functor_count + ((msb - lsb).natAbs + 1) ≤ n) →
      (compile_variable h label name msb lsb sg s).functors n = s.functors n) ∧
    compile_vpi_lookup (compile_variable h label name msb lsb sg s) label =
      h.vpip_make_reg name msb lsb sg (4 * s.functor_count) := by
  obtain ⟨w1, w2⟩ := (wid_in_int_spec msb lsb).1 hfit
  obtain ⟨_, _, _, a4, a5, _⟩ := var_functors_frame (4 * s.functor_count) (vector_wid msb lsb)
    { s with functor_count := s.functor_count + vector_wid msb lsb,
             sym_functors := sym_set_value s.sym_functors label (4 * s.functor_count) }
  obtain ⟨_, _, _, c4, _⟩ := var_functors_frame (4 * s.functor_count) (vector_wid lsb msb)
    { s with functor_count := s.functor_count + vector_wid lsb msb,
             sym_functors := sym_set_value s.sym_functors label (4 * s.functor_count) }
  obtain ⟨b1, b2⟩ := var_functors_spec (4 * s.functor_count) (vector_wid msb lsb)
    { s with functor_count := s.functor_count + vector_wid msb lsb,
             sym_functors := sym_set_value s.sym_functors label (4 * s.functor_count) }
  have e4 : 4 * s.functor_count / 4 = s.functor_count := by omega
  rw [e4] at b1 b2
  have hA : (compile_variable h label name msb lsb sg s).functor_count =
      s.functor_count + vector_wid msb lsb := a4
  have hC : (compile_variable h label name lsb msb sg s).functor_count =
      s.functor_count + vector_wid lsb msb := c4
  have hB1 : ∀ idx, idx < vector_wid msb lsb →
      ((compile_variable h label name msb lsb sg s).functors (s.functor_count + idx)).table =
        some ft_var ∧
      ((compile_variable h label name msb lsb sg s).functors (s.functor_count + idx)).mode =
        0 ∧
      ((compile_variable h label name msb lsb sg s).functors (s.functor_count + idx)).ival =
        0x22 ∧
      ((compile_variable h label name msb lsb sg s).functors (s.functor_count + idx)).oval =
        2 := b1
  have hB2 : ∀ n, (n < s.functor_count ∨ s.functor_count + vector_wid msb lsb ≤ n) →
      (compile_variable h label name msb lsb sg s).functors n = s.functors n := b2
  rw [← vector_wid_comm msb lsb] at hC
  rw [w2] at hA hC hB1 hB2
  refine ⟨w1, ?_, hA, hC, ?_, ?_, hB2, ?_⟩
  · simp only [compile_variable_defined, w1]
  · show sym_get_value (var_functors _ _ _).sym_functors label = _
    rw [a5]
    simp [sym_set_value, sym_get_value]
  · intro idx hidx
    have e : ipoint_index (4 * s.functor_count) idx / 4 = s.functor_count + idx := by
      unfold ipoint_index; omega
    simp only [functor_index, e]
    exact hB1 idx hidx
  · simp [compile_vpi_lookup, compile_variable, functor_allocate, compile_vpi_symbol,
      sym_set_value, sym_get_value]

set_option maxRecDepth 100000 in
/-- C10 as amended at `v .var "v", 3, 0;` after `compile_init`: four functors, at the
functors 1 to 4. -/
theorem compile_variable_spec_example :
    ((3 : Int) - 0).natAbs + 1 < 2 ^ 31 ∧
    (compile_variable sample_host "v" "v" 3 0 false
      (compile_init sample_host static_state)).functor_count = 5 ∧
    sym_get_value (compile_variable sample_host "v" "v" 3 0 false
      (compile_init sample_host static_state)).sym_functors "v" = 4 ∧
    (functor_index (compile_variable sample_host "v" "v" 3 0 false
      (compile_init sample_host static_state)) 16).table = some ft_var :=
  ⟨by decide,
    (compile_variable_spec sample_host "v" "v" 3 0 false
      (compile_init sample_host static_state) (by decide)).2.2.1,
    by decide,
    ((compile_variable_spec sample_host "v" "v" 3 0 false
      (compile_init sample_host static_state) (by decide)).2.2.2.2.2.1 3 (by decide)).1⟩

/-! ## Pin identity -/

/-- C24: `is_equal` compares the owning node and the pin index, and `operator ==` is
`is_equal`. On the pins of a netlist, where every link points back to its owner and
carries its own pin index, that identifies the link: two pins compare equal exactly when
they have the same owning node, the same pin index and the same vector-instance index,
which is exactly when they are the same pin. The relation is reflexive, symmetric and
transitive; it does not depend on the direction or on the ring neighbours of either
link; and `operator !=` is the negation of `operator ==`. -/
theorem pin_identity (pins : Nat → Nat → Link) (hp : pins_of_nodes pins)
    (a b a2 b2 a3 b3 : Nat) (d : DIR) (n p : Nat) :
    ((pins a b).is_equal (pins a2 b2) = true ↔
      (pins a b).node_ = (pins a2 b2).node_ ∧ (pins a b).pin_ = (pins a2 b2).pin_ ∧
        (pins a b).inst_ = (pins a2 b2).inst_) ∧
    ((pins a b).is_equal (pins a2 b2) = true ↔ a = a2 ∧ b = b2) ∧
    link_operator_eq (pins a b) (pins a2 b2) = (pins a b).is_equal (pins a2 b2) ∧
    link_operator_ne (pins a b) (pins a2 b2) = !link_operator_eq (pins a b) (pins a2 b2) ∧
    (pins a b).is_equal (pins a b) = true ∧
    ((pins a b).is_equal (pins a2 b2) = true → (pins a2 b2).is_equal (pins a b) = true) ∧
    ((pins a b).is_equal (pins a2 b2) = true → (pins a2 b2).is_equal (pins a3 b3) = true →
      (pins a b).is_equal (pins a3 b3) = true) ∧
    ((pins a b).set_dir d).is_equal (pins a2 b2) = (pins a b).is_equal (pins a2 b2) ∧
    (pins a b).is_equal ((pins a2 b2).set_dir d) = (pins a b).is_equal (pins a2 b2) ∧
    Link.is_equal { pins a b with dir_ := d, next_ := n, prev_ := p } (pins a2 b2) =
      (pins a b).is_equal (pins a2 b2) ∧
    (pins a b).is_equal { pins a2 b2 with dir_ := d, next_ := n, prev_ := p } =
      (pins a b).is_equal (pins a2 b2) := by
  have hiff : ∀ x y : Link, x.is_equal y = true ↔ x.node_ = y.node_ ∧ x.pin_ = y.pin_ := by
    intro x y
    simp [Link.is_equal]
  have hsame : ∀ x y x2 y2, (pins x y).is_equal (pins x2 y2) = true ↔ x = x2 ∧ y = y2 := by
    intro x y x2 y2
    rw [hiff, (hp x y).1, (hp x y).2, (hp x2 y2).1, (hp x2 y2).2]
  refine ⟨?_, hsame a b a2 b2, rfl, rfl, (hsame a b a b).2 ⟨rfl, rfl⟩, ?_, ?_, rfl, rfl, rfl,
    rfl⟩
  · constructor
    · intro h
      obtain ⟨e1, e2⟩ := (hsame a b a2 b2).1 h
      subst e1
      subst e2
      exact ⟨rfl, rfl, rfl⟩
    · intro h
      exact (hiff _ _).2 ⟨h.1, h.2.1⟩
  · intro h
    obtain ⟨e1, e2⟩ := (hsame a b a2 b2).1 h
    exact (hsame a2 b2 a b).2 ⟨e1.symm, e2.symm⟩
  · intro h1 h2
    obtain ⟨e1, e2⟩ := (hsame a b a2 b2).1 h1
    obtain ⟨f1, f2⟩ := (hsame a2 b2 a3 b3).1 h2
    exact (hsame a b a3 b3).2 ⟨e1.trans f1, e2.trans f2⟩

/-- C24 on the pins of a vector: pin 0 of object 1 equals itself and differs from pin 1
of object 1 and from pin 0 of object 2. -/
theorem pin_identity_vector :
    pins_of_nodes vector_pins ∧
    (vector_pins 1 0).is_equal (vector_pins 1 0) = true ∧
    (vector_pins 1 0).is_equal (vector_pins 1 1) = false ∧
    link_operator_ne (vector_pins 1 0) (vector_pins 2 0) = true ∧
    ((vector_pins 1 0).is_equal (vector_pins 1 1) = true ↔
      (vector_pins 1 0).node_ = (vector_pins 1 1).node_ ∧
      (vector_pins 1 0).pin_ = (vector_pins 1 1).pin_ ∧
      (vector_pins 1 0).inst_ = (vector_pins 1 1).inst_) :=
  ⟨fun _ _ => ⟨rfl, rfl⟩, by decide, by decide, by decide,
    (pin_identity vector_pins (fun _ _ => ⟨rfl, rfl⟩) 1 0 1 1 1 0 .INPUT 0 0).1⟩

/-! ## The pins of a signal -/

theorem chain_from_suffix (s : vvp_state) : ∀ (pre : List Nat) (p q : Nat) (post : List Nat),
    chain_from s p (pre ++ q :: post) → chain_from s (chain_link s q) post
  | [], p, q, post, h => by
    obtain ⟨_, h2, h3⟩ := h
    rw [h2]
    exact h3
  | _ :: pre, p, q, post, h => by
    obtain ⟨_, _, h3⟩ := h
    exact chain_from_suffix s pre _ q post h3

/-- A chain lists no ipoint twice: it ends, so it cannot come back to an ipoint. -/
theorem chain_from_nodup (s : vvp_state) : ∀ (l : List Nat) (p : Nat),
    chain_from s p l → l.Nodup
  | [], _, _ => List.nodup_nil
  | q :: rest, p, h => by
    obtain ⟨h1, h2, h3⟩ := h
    refine List.nodup_cons.mpr ⟨?_, chain_from_nodup s rest _ h3⟩
    intro hmem
    obtain ⟨pre, post, e⟩ := List.append_of_mem hmem
    have h4 : chain_from s (chain_link s p) (pre ++ q :: post) := by rw [← e]; exact h3
    have h5 := chain_from_suffix s pre _ q post h4
    rw [h2] at h5
    have := chain_from_unique s _ _ _ h3 h5
    rw [e] at this
    have hl := congrArg List.length this
    simp at hl
    omega

/-- The entries the input loop of `compile_functor` and `compile_event` leaves on the
unresolved list: those of the inputs whose source is undefined, the last input first, in
front of the entries that were there. -/
theorem functor_inputs_resolv (fdx : Nat) : ∀ (argv : List symb_s) (k : Nat) (s : vvp_state),
    (functor_inputs fdx k argv s).resolv_list =
      (input_deferred s.sym_functors (fun j => ipoint_make fdx j) k argv).reverse ++
        s.resolv_list
  | [], _, s => by simp [functor_inputs, input_deferred]
  | a :: rest, k, s => by
    have hsym := (functor_input_frame fdx k a s).2.1
    have IH := functor_inputs_resolv fdx rest (k + 1) (functor_input fdx k a s)
    rw [hsym] at IH
    simp only [functor_inputs, input_deferred]
    rw [IH]
    by_cases hdef : sym_get_value s.sym_functors a.text = 0
    · rw [(functor_input_undefined fdx k a s hdef).1]
      simp [hdef]
    · rw [(functor_input_defined fdx k a s hdef).2.2]
      simp [hdef]

/-- Every input with a defined source is among the links of the loop, at the functor
its source addresses. -/
theorem input_links_mem (t : symbol_table_t) (dst : Nat → Nat) :
    ∀ (argv : List symb_s) (k i : Nat) (hi : i < argv.length),
      sym_get_value t argv[i].text ≠ 0 →
      dst (k + i) ∈ linked_to (input_links t dst k argv)
        (ipoint_index (sym_get_value t argv[i].text) argv[i].idx / 4)
  | [], _, i, hi, _ => absurd hi (Nat.not_lt_zero _)
  | a :: rest, k, 0, _, hdef => by
    simp only [List.getElem_cons_zero] at hdef ⊢
    simp only [input_links, hdef, ne_eq, not_false_eq_true, if_true, Nat.add_zero]
    rw [linked_to_cons]
    simp
  | a :: rest, k, i + 1, hi, hdef => by
    simp only [List.getElem_cons_succ] at hdef ⊢
    have IH := input_links_mem t dst rest (k + 1) i
      (by simpa using hi) hdef
    have e : k + 1 + i = k + (i + 1) := by omega
    rw [e] at IH
    simp only [input_links]
    split
    · rw [linked_to_cons]
      split
      · exact List.mem_cons_of_mem _ IH
      · exact IH
    · exact IH

/-- Every input with an undefined source is among the entries the loop defers. -/
theorem input_deferred_mem (t : symbol_table_t) (dst : Nat → Nat) :
    ∀ (argv : List symb_s) (k i : Nat) (hi : i < argv.length),
      sym_get_value t argv[i].text = 0 →
      ⟨dst (k + i), argv[i].text, argv[i].idx⟩ ∈ input_deferred t dst k argv
  | [], _, i, hi, _ => absurd hi (Nat.not_lt_zero _)
  | a :: rest, k, 0, _, hdef => by
    simp only [List.getElem_cons_zero] at hdef ⊢
    simp [input_deferred, hdef]
  | a :: rest, k, i + 1, hi, hdef => by
    simp only [List.getElem_cons_succ] at hdef ⊢
    have IH := input_deferred_mem t dst rest (k + 1) i (by simpa using hi) hdef
    have e : k + 1 + i = k + (i + 1) := by omega
    rw [e] at IH
    simp only [input_deferred]
    split
    · exact IH
    · exact List.mem_cons_of_mem _ IH

/-- What the exact chains and the exact unresolved list say input by input: an input
with a defined source lies exactly once on the chain of the functor its source
addresses; an input with an undefined source has its entry on the unresolved list, a
null link and lies on no chain. -/
theorem inputs_wired (s r : vvp_state) (t : symbol_table_t) (dst : Nat → Nat)
    (argv : List symb_s) (ok : Nat → Prop) (hinv : chains_inv s) (hinvr : chains_inv r)
    (hres : r.resolv_list = (input_deferred t dst 0 argv).reverse ++ s.resolv_list)
    (hch : ∀ n, ok n → ∀ l, chain_from s (s.functors n).out l →
      chain_from r (r.functors n).out ((linked_to (input_links t dst 0 argv) n).reverse ++ l))
    (i : Nat) (hi : i < argv.length) :
    (sym_get_value t argv[i].text ≠ 0 →
      ok (ipoint_index (sym_get_value t argv[i].text) argv[i].idx / 4) →
      on_chain_once r (ipoint_index (sym_get_value t argv[i].text) argv[i].idx / 4)
        (dst i)) ∧
    (sym_get_value t argv[i].text = 0 →
      ⟨dst i, argv[i].text, argv[i].idx⟩ ∈ r.resolv_list ∧
      chain_link r (dst i) = 0 ∧
      ∀ n c, chain_from r (r.functors n).out c → dst i ∉ c) := by
  constructor
  · intro hdef hok
    obtain ⟨l, hl, _⟩ := hinv.2.chains
      (ipoint_index (sym_get_value t argv[i].text) argv[i].idx / 4)
    have hc := hch _ hok l hl
    have hm := input_links_mem t dst argv 0 i hi hdef
    rw [Nat.zero_add] at hm
    refine ⟨_, hc, ?_⟩
    exact List.count_eq_one_of_mem (chain_from_nodup r _ _ hc)
      (List.mem_append_left _ (List.mem_reverse.mpr hm))
  · intro hund
    have hm := input_deferred_mem t dst argv 0 i hi hund
    rw [Nat.zero_add] at hm
    have hmem : (⟨dst i, argv[i].text, argv[i].idx⟩ : resolv_list_s) ∈ r.resolv_list := by
      rw [hres]
      exact List.mem_append_left _ (List.mem_reverse.mpr hm)
    have hp : dst i ∈ r.resolv_list.map fun e => e.port :=
      List.mem_map.mpr ⟨_, hmem, rfl⟩
    exact ⟨hmem, hinvr.2.pending_null _ hp, chains_ok_off hinvr.2 _ (Or.inl hp)⟩

/-- C37: from a state with well-formed chains and given at most four inputs,
`compile_functor` with a type string that it rejects returns with the report
`invalid functor type.` and nothing undone. One functor is allocated and the label is
bound to it. Every input whose source is defined has been spliced into the chain of its
source: the chain of every functor is its old chain with the ipoints of the inputs
linked to it in front, the last input first, and each such ipoint lies on its chain
exactly once. Every other input has been deferred: its entry is on the unresolved list
(the entries of the call in front of the old ones, the last input first), its link is
null and it lies on no chain. `ival`, `oval` and `mode` are stored; the truth table of
the functor is what it was before the call. -/
theorem compile_functor_invalid_type (label type : String) (init : Nat)
    (argv : List symb_s) (s : vvp_state) (hinv : chains_inv s) (hargc : argv.length ≤ 4)
    (htype : type ∉ ["OR", "AND", "BUF", "NOR", "NOT", "XOR"]) :
    ∃ r, compile_functor label type init argv s = some r ∧
      r.errout = s.errout ++ ["invalid functor type."] ∧
      r.functor_count = s.functor_count + 1 ∧
      sym_get_value r.sym_functors label = 4 * s.functor_count ∧
      (functor_index r (4 * s.functor_count)).ival = init % 256 ∧
      (functor_index r (4 * s.functor_count)).oval = 2 ∧
      (functor_index r (4 * s.functor_count)).mode = 0 ∧
      (functor_index r (4 * s.functor_count)).table =
        (functor_index s (4 * s.functor_count)).table ∧
      r.resolv_list =
        (input_deferred (sym_set_value s.sym_functors label (4 * s.functor_count))
          (fun k => ipoint_make (4 * s.functor_count) k) 0 argv).reverse ++ s.resolv_list ∧
      (∀ n l, chain_from s (s.functors n).out l →
        chain_from r (r.functors n).out
          ((linked_to (input_links (sym_set_value s.sym_functors label (4 * s.functor_count))
            (fun k => ipoint_make (4 * s.functor_count) k) 0 argv) n).reverse ++ l)) ∧
      ∀ (i : Nat) (hi : i < argv.length),
        (sym_get_value (sym_set_value s.sym_functors label (4 * s.functor_count))
            argv[i].text ≠ 0 →
          on_chain_once r
            (ipoint_index (sym_get_value (sym_set_value s.sym_functors label
              (4 * s.functor_count)) argv[i].text) argv[i].idx / 4)
            (ipoint_make (4 * s.functor_count) i)) ∧
        (sym_get_value (sym_set_value s.sym_functors label (4 * s.functor_count))
            argv[i].text = 0 →
          ⟨ipoint_make (4 * s.functor_count) i, argv[i].text, argv[i].idx⟩ ∈ r.resolv_list ∧
          chain_link r (ipoint_make (4 * s.functor_count) i) = 0 ∧
          ∀ n c, chain_from r (r.functors n).out c →
            ipoint_make (4 * s.functor_count) i ∉ c) := by
  have he := compile_functor_eq label type init argv s hargc
  obtain ⟨_, _, _, a4, a5, a6, _⟩ := compile_functor_links label type init argv s _ he
  obtain ⟨c1, _, _, _, c5, c6, c7⟩ := functor_built_spec label init argv s
  obtain ⟨d1, _⟩ := functor_inputs_fields (4 * s.functor_count) argv 0
    { s with functor_count := s.functor_count + 1,
             sym_functors := sym_set_value s.sym_functors label (4 * s.functor_count) }
    (4 * s.functor_count / 4)
  simp only [List.mem_cons, List.mem_singleton, List.not_mem_nil, or_false, not_or] at htype
  obtain ⟨h1, h2, h3, h4, h5, h6⟩ := htype
  have hr : compile_functor label type init argv s =
      some (yyerror "invalid functor type." (functor_built label init argv s)) := by
    rw [he]
    simp only [h1, h2, h3, h4, h5, h6, if_false]
  rw [he] at hr
  have hre := Option.some.inj hr
  rw [hre] at a4 a5 a6
  have hres := a4.trans (functor_inputs_resolv (4 * s.functor_count) argv 0
    { s with functor_count := s.functor_count + 1,
             sym_functors := sym_set_value s.sym_functors label (4 * s.functor_count) })
  have hinvr := chains_inv_compile_functor label type init argv s _ (he.trans hr) hinv
  have hch := fun n l hl =>
    compile_functor_chain label type init argv s _ hinv (he.trans hr) n l hl
  refine ⟨_, he.trans hr, ?_, a5, ?_, c5, c6, c7, ?_, hres, hch, ?_⟩
  · simp [yyerror, c1]
  · rw [a6]
    simp [sym_set_value, sym_get_value]
  · show (functor_index (functor_built label init argv s) (4 * s.functor_count)).table = _
    simp only [functor_built, functor_allocate, functor_index, functor_update, if_true]
    exact d1
  · intro i hi
    obtain ⟨w1, w2⟩ := inputs_wired s _ _ _ argv (fun _ => True) hinv hinvr hres
      (fun n _ l hl => hch n l hl) i hi
    exact ⟨fun hdef => w1 hdef trivial, w2⟩

set_option maxRecDepth 100000 in
/-- C37 at `g .functor NAND, 3, v[1], late[0];` after `v .var "v", 3, 0;`: the input
on `v[1]` is the head of the chain of functor 2, the input on `late` is deferred. -/
theorem compile_functor_invalid_type_example :
    ([(⟨"v", 1⟩ : symb_s), ⟨"late", 0⟩].length ≤ 4 ∧
      "NAND" ∉ ["OR", "AND", "BUF", "NOR", "NOT", "XOR"]) ∧
    (compile_functor "g" "NAND" 3 [⟨"v", 1⟩, ⟨"late", 0⟩] var_v_state).map
      (fun r => (r.errout, (r.functors 2).out, (r.functors 5).port 0)) =
      some (["invalid functor type."], 20, 0) ∧
    (compile_functor "g" "NAND" 3 [⟨"v", 1⟩, ⟨"late", 0⟩] var_v_state).map
      (fun r => (r.resolv_list, (r.functors 5).ival, (r.functors 5).table.isSome)) =
      some ([⟨21, "late", 0⟩], 3, false) ∧
    ∃ r, compile_functor "g" "NAND" 3 [⟨"v", 1⟩, ⟨"late", 0⟩] var_v_state = some r ∧
      r.functor_count = 6 ∧ sym_get_value r.sym_functors "g" = 20 ∧
      r.resolv_list = [⟨21, "late", 0⟩] ∧
      chain_from r (r.functors 2).out [20] ∧ on_chain_once r 2 20 :=
  ⟨⟨by decide, by decide⟩, by decide, by decide,
    match compile_functor_invalid_type "g" "NAND" 3 [⟨"v", 1⟩, ⟨"late", 0⟩] var_v_state
      (chains_inv_compile_variable sample_host "v" "v" 3 0 false _
        (chains_inv_compile_init sample_host)) (by decide) (by decide) with
    | ⟨r, h1, _, h3, h4, _, _, _, _, h9, h10, h11⟩ =>
      ⟨r, h1, h3, h4, h9, h10 2 [] rfl, by
        have h := (h11 0 (by decide)).1 (by decide)
        have e1 : ipoint_index (sym_get_value (sym_set_value var_v_state.sym_functors "g"
            (4 * var_v_state.functor_count)) "v") 1 / 4 = 2 := by decide
        have e2 : ipoint_make (4 * var_v_state.functor_count) 0 = 20 := by decide
        simp only [List.getElem_cons_zero] at h
        rw [e1, e2] at h
        exact h⟩⟩

/-- C36: from a state with well-formed chains and given at most four inputs,
`compile_event` with an edge-type string other than `posedge`, `negedge` and `edge`
returns, reports nothing and leaves `compile_errors` unchanged. It has allocated one
functor, bound the label to it and stored mode 1, `ival` 0xaa, `oval` 2 and an event
record whose edge table is null. It has linked the inputs: the chain of every functor
but the new one is its old chain with the ipoints of the inputs linked to it in front,
the last input first, so every input whose source is defined and addresses another
functor lies on the chain of its source exactly once; every input whose source is
undefined has its entry on the unresolved list, a null link and lies on no chain. The
`out` of the new functor itself is null, cleared after the loop. -/
theorem compile_event_unknown_edge (label type : String) (argv : List symb_s)
    (s : vvp_state) (hinv : chains_inv s) (hargc : argv.length ≤ 4)
    (htype : type ∉ ["posedge", "negedge", "edge"]) :
    ∃ r, compile_event label type argv s = some r ∧
      r.errout = s.errout ∧ r.compile_errors = s.compile_errors ∧
      r.functor_count = s.functor_count + 1 ∧
      sym_get_value r.sym_functors label = 4 * s.functor_count ∧
      (functor_index r (4 * s.functor_count)).mode = 1 ∧
      (functor_index r (4 * s.functor_count)).ival = 0xaa ∧
      (functor_index r (4 * s.functor_count)).oval = 2 ∧
      (functor_index r (4 * s.functor_count)).event = some ⟨[], 0xaa, none⟩ ∧
      (functor_index r (4 * s.functor_count)).out = 0 ∧
      r.resolv_list =
        (input_deferred (sym_set_value s.sym_functors label (4 * s.functor_count))
          (fun k => ipoint_make (4 * s.functor_count) k) 0 argv).reverse ++ s.resolv_list ∧
      (∀ n l, n ≠ s.functor_count → chain_from s (s.functors n).out l →
        chain_from r (r.functors n).out
          ((linked_to (input_links (sym_set_value s.sym_functors label (4 * s.functor_count))
            (fun k => ipoint_make (4 * s.functor_count) k) 0 argv) n).reverse ++ l)) ∧
      ∀ (i : Nat) (hi : i < argv.length),
        (sym_get_value (sym_set_value s.sym_functors label (4 * s.functor_count))
            argv[i].text ≠ 0 →
          ipoint_index (sym_get_value (sym_set_value s.sym_functors label
            (4 * s.functor_count)) argv[i].text) argv[i].idx / 4 ≠ s.functor_count →
          on_chain_once r
            (ipoint_index (sym_get_value (sym_set_value s.sym_functors label
              (4 * s.functor_count)) argv[i].text) argv[i].idx / 4)
            (ipoint_make (4 * s.functor_count) i)) ∧
        (sym_get_value (sym_set_value s.sym_functors label (4 * s.functor_count))
            argv[i].text = 0 →
          ⟨ipoint_make (4 * s.functor_count) i, argv[i].text, argv[i].idx⟩ ∈ r.resolv_list ∧
          chain_link r (ipoint_make (4 * s.functor_count) i) = 0 ∧
          ∀ n c, chain_from r (r.functors n).out c →
            ipoint_make (4 * s.functor_count) i ∉ c) := by
  have he := compile_event_eq label type argv s hargc
  obtain ⟨_, _, _, a4, a5, a6, _⟩ := compile_event_links label type argv s _ he
  obtain ⟨_, _, _, _, _, _, _, b8, b9⟩ := functor_inputs_frame (4 * s.functor_count) argv 0
    { s with functor_count := s.functor_count + 1,
             sym_functors := sym_set_value s.sym_functors label (4 * s.functor_count) }
  simp only [List.mem_cons, List.mem_singleton, List.not_mem_nil, or_false, not_or] at htype
  obtain ⟨h1, h2, h3⟩ := htype
  have hres := a4.trans (functor_inputs_resolv (4 * s.functor_count) argv 0
    { s with functor_count := s.functor_count + 1,
             sym_functors := sym_set_value s.sym_functors label (4 * s.functor_count) })
  have hinvr := chains_inv_compile_event label type argv s _ he hinv
  have hch := fun n l (hn : n ≠ s.functor_count) hl =>
    compile_event_chain label type argv s _ hinv he n l hn hl
  refine ⟨_, he, ?_, ?_, a5, ?_, ?_, ?_, ?_, ?_, ?_, hres, hch, ?_⟩
  · simpa [functor_update] using b9
  · simpa [functor_update] using b8
  · rw [a6]
    simp [sym_set_value, sym_get_value]
  · simp [functor_index, functor_update]
  · simp [functor_index, functor_update]
  · simp [functor_index, functor_update]
  · simp [functor_index, functor_update, h1, h2, h3]
  · simp [functor_index, functor_update]
  · intro i hi
    exact inputs_wired s _ _ _ argv (fun n => n ≠ s.functor_count) hinv hinvr hres
      (fun n hn l hl => hch n l hn hl) i hi

set_option maxRecDepth 100000 in
/-- C36 at `e .event rising, v[1], late[0];` after `v .var "v", 3, 0;`: no report, the
input on `v[1]` is the head of the chain of functor 2, the input on `late` is
deferred, and the edge table is null. -/
theorem compile_event_unknown_edge_example :
    ([(⟨"v", 1⟩ : symb_s), ⟨"late", 0⟩].length ≤ 4 ∧
      "rising" ∉ ["posedge", "negedge", "edge"]) ∧
    (compile_event "e" "rising" [⟨"v", 1⟩, ⟨"late", 0⟩] var_v_state).map
      (fun r => (r.errout, r.compile_errors, (r.functors 2).out)) = some ([], 0, 20) ∧
    (compile_event "e" "rising" [⟨"v", 1⟩, ⟨"late", 0⟩] var_v_state).map
      (fun r => ((r.functors 5).port 0, r.resolv_list, (r.functors 5).mode)) =
      some (0, [⟨21, "late", 0⟩], 1) ∧
    ∃ r, compile_event "e" "rising" [⟨"v", 1⟩, ⟨"late", 0⟩] var_v_state = some r ∧
      r.functor_count = 6 ∧ sym_get_value r.sym_functors "e" = 20 ∧
      (functor_index r 20).event = some ⟨[], 0xaa, none⟩ ∧
      r.resolv_list = [⟨21, "late", 0⟩] ∧
      chain_from r (r.functors 2).out [20] :=
  ⟨⟨by decide, by decide⟩, by decide, by decide,
    match compile_event_unknown_edge "e" "rising" [⟨"v", 1⟩, ⟨"late", 0⟩] var_v_state
      (chains_inv_compile_variable sample_host "v" "v" 3 0 false _
        (chains_inv_compile_init sample_host)) (by decide) (by decide) with
    | ⟨r, h1, _, _, h4, h5, _, _, _, h9, _, h11, h12, _⟩ =>
      ⟨r, h1, h4, h5, h9, h11, h12 2 [] (by decide) rfl⟩⟩

end Vvp
